import Mathlib

/-!
Loris Resampler, PartialList and copy-on-write pointer: a shallow embedding.

Times, amplitudes, frequencies and phases are rationals.  The members
`resample( Partial & )` and `quantize( Partial & )` are given twice: with exact
arithmetic (`resample`, `quantize`) and with the arithmetic of the `double`
operations as a parameter (`resampleA`, `quantizeA`), which is instantiated
with exact arithmetic and with the round-to-nearest arithmetic of IEEE 754
binary64.  The C++ conversions `int(x)` and `long(x)` are truncation toward
zero, taken in the range where the conversion is defined.  Loops carry a fuel argument: a run that exhausts it
reports `Status.outOfFuel`, and every statement about a run that returns also
states that some amount of fuel lets it return.  The copy-on-write pointers
live in an explicit memory of counters, objects and pointer variables; list
iterators are positions.
-/

namespace Loris

/-! ## Failures and runs -/

/-- The exceptions the code can raise; `unboundPtr` is the
`std::runtime_error("unbound Ptr")` of the copy-on-write pointer. -/
inductive Failure where
  | invalidArgument
  | assertionFailure
  | invalidPartial
  | unboundPtr
  deriving DecidableEq

/-- How a call ended; `undefined` is a call that reaches an operation without
defined behaviour, where the embedding stops following it. -/
inductive Status where
  | returned
  | threw (f : Failure)
  | outOfFuel
  | undefined
  deriving DecidableEq

/-! ## Data model -/

/-- Modelled from the spec: the Breakpoint record (Breakpoint.h is not among the
sources): frequency, amplitude, phase and bandwidth. -/
structure Breakpoint where
  frequency : ℚ
  amplitude : ℚ
  phase : ℚ
  bandwidth : ℚ
  deriving DecidableEq

/-- Modelled from the spec: `setAmplitude` of the Breakpoint record. -/
def Breakpoint.setAmplitude (bp : Breakpoint) (a : ℚ) : Breakpoint :=
  { bp with amplitude := a }

/-- Modelled from the spec: `setPhase` of the Breakpoint record. -/
def Breakpoint.setPhase (bp : Breakpoint) (ph : ℚ) : Breakpoint :=
  { bp with phase := ph }

/-- Modelled from the spec: the Partial type (Partial.h is not among the
sources): an integer label and an ordered mapping from time to Breakpoint, kept
as the list of its `(time, breakpoint)` pairs in traversal order. -/
structure Partial where
  label : Int
  bps : List (ℚ × Breakpoint)
  deriving DecidableEq

/-- Modelled from the spec: insert-or-replace into the time-ordered list of
breakpoints, the list form of `Partial::insert`. -/
def insertBp (t : ℚ) (bp : Breakpoint) : List (ℚ × Breakpoint) → List (ℚ × Breakpoint)
  | [] => [(t, bp)]
  | (u, b) :: rest =>
    if t < u then (t, bp) :: (u, b) :: rest
    else if t = u then (t, bp) :: rest
    else (u, b) :: insertBp t bp rest

namespace Partial

/-- Modelled from the spec: a default-constructed Partial, label 0 and no
breakpoints. -/
def empty : Partial := ⟨0, []⟩

/-- Modelled from the spec: `setLabel`. -/
def setLabel (p : Partial) (l : Int) : Partial := { p with label := l }

/-- Modelled from the spec: `numBreakpoints`. -/
def numBreakpoints (p : Partial) : Nat := p.bps.length

/-- The breakpoint times in traversal order. -/
def times (p : Partial) : List ℚ := p.bps.map Prod.fst

/-- The breakpoint amplitudes in traversal order. -/
def amplitudes (p : Partial) : List ℚ := p.bps.map (fun e => e.2.amplitude)

/-- Modelled from the spec: `startTime`, the time of the first breakpoint; a
Partial without breakpoints has none, and asking for it fails. -/
def startTime (p : Partial) : Option ℚ := p.bps.head?.map Prod.fst

/-- Modelled from the spec: `endTime`, the time of the last breakpoint; a
Partial without breakpoints has none, and asking for it fails. -/
def endTime (p : Partial) : Option ℚ := p.bps.getLast?.map Prod.fst

/-- Modelled from the spec: `insert(time, bp)`, insert-or-replace that keeps the
time order. -/
def insert (p : Partial) (t : ℚ) (bp : Breakpoint) : Partial :=
  { p with bps := insertBp t bp p.bps }

/-- Modelled from the spec: the update of the breakpoint stored at time `t`, as
done through the iterator that `insert` returns. -/
def modifyAt (p : Partial) (t : ℚ) (f : Breakpoint → Breakpoint) : Partial :=
  { p with bps := p.bps.map (fun e => if e.1 = t then (e.1, f e.2) else e) }

/-- Breakpoint times strictly increase: the invariant of the time-keyed map. -/
def WellFormed (p : Partial) : Prop := p.times.Chain' (· < ·)

instance (p : Partial) : Decidable p.WellFormed := by
  unfold WellFormed; infer_instance

end Partial

/-- Modelled from the spec: the collaborators of the resampler whose code is not
among the sources (Partial.h, phasefix.h).  `parametersAt p t fadeTime` is the
interpolated state of `p` at time `t`; `fixPhaseForward` rewrites phases in
place and `fixFrequency` rewrites frequencies and phases in place, so each is
given by the new values at every stored breakpoint; `phaseTravel` is the phase
accumulated between two breakpoints over a time span.  The two constants are
the default fade time of `parametersAt` and the default bound of
`fixFrequency`. -/
structure Collaborators where
  parametersAt : Partial → ℚ → ℚ → Breakpoint
  shortestSafeFadeTime : ℚ
  phaseFixedForward : Partial → ℚ × Breakpoint → ℚ
  frequencyFixed : Partial → ℚ → ℚ × Breakpoint → ℚ × ℚ
  defaultMaxFixPct : ℚ
  phaseTravel : Breakpoint → Breakpoint → ℚ → ℚ

namespace Collaborators

/-- The call `fixPhaseForward( p.begin(), --p.end() )`: every stored phase is
rewritten, nothing else changes. -/
def fixPhaseForward (env : Collaborators) (p : Partial) : Partial :=
  { p with bps := p.bps.map (fun e => (e.1, e.2.setPhase (env.phaseFixedForward p e))) }

/-- The call `fixFrequency( p, maxFixPct )`: every stored frequency and phase is
rewritten, times, amplitudes and bandwidths are kept. -/
def fixFrequency (env : Collaborators) (p : Partial) (maxFixPct : ℚ) : Partial :=
  { p with bps := p.bps.map (fun e =>
      (e.1, { e.2 with frequency := (env.frequencyFixed p maxFixPct e).1,
                       phase := (env.frequencyFixed p maxFixPct e).2 })) }

end Collaborators

/-- The C++ conversions `int( x )` and `long( x )` of a floating value:
truncation toward zero. -/
def truncToInt (x : ℚ) : Int := if 0 ≤ x then ⌊x⌋ else ⌈x⌉

/-- Modelled from the spec: the timing envelope (LinearEnvelope.h is not among
the sources): the ordered `(time, value)` control points. -/
structure LinearEnvelope where
  points : List (ℚ × ℚ)
  deriving DecidableEq

/-- Modelled from the spec: piecewise-linear interpolation over the control
points, clamped at both ends. -/
def valueAtPoints : List (ℚ × ℚ) → ℚ → ℚ
  | [], _ => 0
  | [(_, v)], _ => v
  | (t0, v0) :: (t1, v1) :: rest, x =>
    if x ≤ t0 then v0
    else if x < t1 then v0 + (v1 - v0) * (x - t0) / (t1 - t0)
    else valueAtPoints ((t1, v1) :: rest) x

namespace LinearEnvelope

/-- Modelled from the spec: the number of control points. -/
def size (e : LinearEnvelope) : Nat := e.points.length

/-- Modelled from the spec: `valueAt`. -/
def valueAt (e : LinearEnvelope) (x : ℚ) : ℚ := valueAtPoints e.points x

end LinearEnvelope

/-- The forward scan `while( it != newp.end() && 0 == it->amplitude() ) ++it`
followed by `newp.erase( newp.begin(), it )`. -/
def eraseLeadingNulls : List (ℚ × Breakpoint) → List (ℚ × Breakpoint)
  | [] => []
  | e :: rest => if e.2.amplitude = 0 then eraseLeadingNulls rest else e :: rest

/-- The backward scan `while( it != newp.begin() && 0 == (--it)->amplitude() )`
with the iterator as an index (`0` is `begin()`, the length is `end()`): the
index at which the scan stops. -/
def scanBack (bps : List (ℚ × Breakpoint)) : Nat → Nat
  | 0 => 0
  | it + 1 =>
    match bps[it]? with
    | some e => if e.2.amplitude = 0 then scanBack bps it else it
    | none => it

/-- The backward scan from `end()` followed by
`if ( it != newp.end() ) newp.erase( ++it, newp.end() )`. -/
def eraseTrailingNulls (bps : List (ℚ × Breakpoint)) : List (ℚ × Breakpoint) :=
  let it := scanBack bps bps.length
  if it ≠ bps.length then bps.take (it + 1) else bps

/-! ## Resampler -/

/-- The Resampler object: the sampling interval and the phase-correction flag. -/
structure Resampler where
  interval : ℚ
  phaseCorrect : Bool
  deriving DecidableEq

/-- The result of an in-place operation on a Partial: how the call ended and
the value the caller's Partial holds at that moment. -/
structure Run where
  status : Status
  state : Partial
  deriving DecidableEq

namespace Resampler

/-- The constructor `Resampler::Resampler( double sampleInterval )`. -/
def construct (sampleInterval : ℚ) : Except Failure Resampler :=
  if sampleInterval ≤ 0 then
    Except.error Failure.invalidArgument
  else
    Except.ok { interval := sampleInterval, phaseCorrect := true }

/-- The member `setPhaseCorrect`. -/
def setPhaseCorrect (r : Resampler) (correctPhase : Bool) : Resampler :=
  { r with phaseCorrect := correctPhase }

/-- The sampling loop shared by the two `resample` members, which differ only in
the line that computes `sampleTime` from `insertTime` (the argument
`sampleTimeAt`): `insertTime` runs from its start value in steps of the interval
while `insertTime <= lastInsertTime`; each round samples `p` at the sample time
and inserts the result into `newp` at `insertTime`.  `none` when the fuel runs
out before the loop condition fails. -/
def resampleLoop (env : Collaborators) (interval lastInsertTime : ℚ) (p : Partial)
    (sampleTimeAt : ℚ → ℚ) : Nat → ℚ → Partial → Option Partial
  | 0, insertTime, newp =>
    if insertTime ≤ lastInsertTime then none else some newp
  | fuel + 1, insertTime, newp =>
    if insertTime ≤ lastInsertTime then
      let sampleTime := sampleTimeAt insertTime
      let newbp := env.parametersAt p sampleTime env.shortestSafeFadeTime
      resampleLoop env interval lastInsertTime p sampleTimeAt fuel (insertTime + interval)
        (newp.insert insertTime newbp)
    else some newp

/-- The member `resample( Partial & p )` with times as exact rationals
(`resampleA` has the arithmetic as a parameter).  Under phase correction the
first statement evaluates `--p.end()`, which has no defined behaviour on a Partial
without breakpoints.  Without phase correction the start and end time of a
Partial without breakpoints do not exist: the call then ends in
`InvalidPartial`. -/
def resample (r : Resampler) (env : Collaborators) (fuel : Nat) (p : Partial) : Run :=
  if r.phaseCorrect = true ∧ p.bps = [] then ⟨Status.undefined, p⟩
  else
  let p1 := if r.phaseCorrect then env.fixPhaseForward p else p
  let newp := Partial.empty.setLabel p1.label
  match p1.startTime, p1.endTime with
  | some startTime, some endTime =>
    let firstInsertTime := r.interval * truncToInt (1 / 2 + startTime / r.interval)
    let lastInsertTime := endTime + (1 / 2) * r.interval
    match resampleLoop env r.interval lastInsertTime p1 (fun insertTime => insertTime)
        fuel firstInsertTime newp with
    | none => ⟨Status.outOfFuel, p1⟩
    | some newp1 =>
      let p2 := newp1
      ⟨Status.returned, if r.phaseCorrect then env.fixFrequency p2 env.defaultMaxFixPct else p2⟩
  | _, _ => ⟨Status.threw Failure.invalidPartial, p1⟩

/-- The member `resample( Partial & p, const LinearEnvelope & timingEnv )`.
`Assert( 0 != timingEnv.size() )` raises an assertion failure on an envelope
without control points; past it the envelope has a first and a last control
point, so the last branch of the match is never taken. -/
def resampleTiming (r : Resampler) (env : Collaborators) (fuel : Nat) (p : Partial)
    (timingEnv : LinearEnvelope) : Run :=
  if timingEnv.size = 0 then ⟨Status.threw Failure.assertionFailure, p⟩
  else
    let newp := Partial.empty.setLabel p.label
    match timingEnv.points.head?, timingEnv.points.getLast? with
    | some front, some back =>
      let firstInsertTime := r.interval * truncToInt (1 / 2 + front.1 / r.interval)
      let lastInsertTime := back.1 + (1 / 2) * r.interval
      match resampleLoop env r.interval lastInsertTime p
          (fun insertTime => timingEnv.valueAt insertTime) fuel firstInsertTime newp with
      | none => ⟨Status.outOfFuel, p⟩
      | some newp1 =>
        let newp2 : Partial := { newp1 with bps := eraseLeadingNulls newp1.bps }
        let newp3 : Partial := { newp2 with bps := eraseTrailingNulls newp2.bps }
        let newp4 :=
          if r.phaseCorrect ∧ 0 ≠ newp3.numBreakpoints then
            env.fixFrequency newp3 env.defaultMaxFixPct
          else newp3
        ⟨Status.returned, newp4⟩
    | _, _ => ⟨Status.threw Failure.assertionFailure, p⟩

/-- One round of the loop of `quantize( Partial & )` over the breakpoint
`entry` of `p`, with `newp` the Partial built so far. -/
def quantizeStep (r : Resampler) (env : Collaborators) (p : Partial) (newp : Partial)
    (entry : ℚ × Breakpoint) : Partial :=
  let bp := entry.2
  let bpt := entry.1
  let qstep := truncToInt (1 / 2 + bpt / r.interval)
  let endstep :=
    if newp.numBreakpoints ≠ 0 then
      match newp.endTime with
      | some endTime => truncToInt (1 / 2 + endTime / r.interval)
      | none => qstep - 1
    else qstep - 1
  if endstep ≠ qstep ∨ 0 = bp.amplitude then
    let qt := r.interval * qstep
    let a_long_time : ℚ := 1
    let newbp := env.parametersAt p qt a_long_time
    let newp1 := newp.insert qt newbp
    if 0 = bp.amplitude then
      let newp2 := newp1.modifyAt qt (fun b => b.setAmplitude 0)
      if qt < bpt then
        newp2.modifyAt qt (fun b => b.setPhase (bp.phase - env.phaseTravel b bp (bpt - qt)))
      else newp2
    else newp1
  else newp

/-- The member `quantize( Partial & p )` with times as exact rationals
(`quantizeA` has the arithmetic as a parameter); its loop visits every
breakpoint of `p` once, in order.  Under phase correction the first statement evaluates
`--p.end()`, which has no defined behaviour on a Partial without
breakpoints. -/
def quantize (r : Resampler) (env : Collaborators) (p : Partial) : Run :=
  if r.phaseCorrect = true ∧ p.bps = [] then ⟨Status.undefined, p⟩
  else
  let p1 := if r.phaseCorrect then env.fixPhaseForward p else p
  let newp := Partial.empty.setLabel p1.label
  let newp1 := p1.bps.foldl (quantizeStep r env p1) newp
  let newp2 := if r.phaseCorrect then env.fixFrequency newp1 5 else newp1
  ⟨Status.returned, newp2⟩

/-- The loop `while( iter != p.end() ) { ...; ++iter; }` of `quantize( Partial & )`
with the iterator as an index into the breakpoints of `p`: the Partial built and
the number of rounds run when the loop ends, `none` when the fuel runs out
before `iter` reaches `p.end()`. -/
def quantizeLoop (r : Resampler) (env : Collaborators) (p : Partial) :
    Nat → Nat → Partial → Nat → Option (Partial × Nat)
  | 0, iter, newp, rounds =>
    match p.bps[iter]? with
    | some _ => none
    | none => some (newp, rounds)
  | fuel + 1, iter, newp, rounds =>
    match p.bps[iter]? with
    | some entry =>
      quantizeLoop r env p fuel (iter + 1) (quantizeStep r env p newp entry) (rounds + 1)
    | none => some (newp, rounds)

end Resampler

/-! ## Specification-level descriptions of the sampling grid -/

/-- The first `n` grid instants from `t` in steps of `interval`. -/
def gridTimes (interval : ℚ) : Nat → ℚ → List ℚ
  | 0, _ => []
  | n + 1, t => t :: gridTimes interval n (t + interval)

/-- The samples `(t, sample t)` at the first `n` grid instants from `t`. -/
def gridSamples (sample : ℚ → Breakpoint) (interval : ℚ) : Nat → ℚ → List (ℚ × Breakpoint)
  | 0, _ => []
  | n + 1, t => (t, sample t) :: gridSamples sample interval n (t + interval)

/-- The number of grid instants `t, t + interval, ...` that are `≤ lastInsertTime`. -/
def stepCount (interval lastInsertTime t : ℚ) : Nat :=
  (⌊(lastInsertTime - t) / interval⌋ + 1).toNat

/-- The value `firstInsertTime` of the code. -/
def firstInsertTime (interval startTime : ℚ) : ℚ :=
  interval * truncToInt (1 / 2 + startTime / interval)

/-- The value `lastInsertTime` of the code. -/
def lastInsertTime (interval endTime : ℚ) : ℚ :=
  endTime + (1 / 2) * interval

/-- The Partial that `resample` samples: the caller's Partial after the optional
forward phase fix. -/
def phaseFixed (r : Resampler) (env : Collaborators) (p : Partial) : Partial :=
  if r.phaseCorrect then env.fixPhaseForward p else p

/-- The naive sampling of the warped `resample`: the breakpoints the sampling
loop builds before any pruning. -/
def naiveSamples (r : Resampler) (env : Collaborators) (p : Partial)
    (timingEnv : LinearEnvelope) (front back : ℚ) : List (ℚ × Breakpoint) :=
  gridSamples (fun u => env.parametersAt p (timingEnv.valueAt u) env.shortestSafeFadeTime)
    r.interval
    (stepCount r.interval (lastInsertTime r.interval back) (firstInsertTime r.interval front))
    (firstInsertTime r.interval front)

/-- A breakpoint entry with zero amplitude. -/
def isNull (e : ℚ × Breakpoint) : Bool := decide (e.2.amplitude = 0)

/-- Removal of the maximal leading run and the maximal trailing run of
zero-amplitude breakpoints, as the specification words it. -/
def pruneNullEnds (l : List (ℚ × Breakpoint)) : List (ℚ × Breakpoint) :=
  (l.dropWhile isNull).rdropWhile isNull

/-- The warped `resample` as the specification words it under phase correction,
with the phase steps of `resample( Partial & )` around the warped sampling: the
forward phase fix of the source first, then the sampling and the pruning, then
the frequency fix of the rebuilt Partial. -/
def resampleTimingPhaseSteps (r : Resampler) (env : Collaborators) (p : Partial)
    (timingEnv : LinearEnvelope) (front back : ℚ) : Partial :=
  let p1 := phaseFixed r env p
  let newp : Partial := ⟨p1.label, pruneNullEnds (naiveSamples r env p1 timingEnv front back)⟩
  if r.phaseCorrect then env.fixFrequency newp env.defaultMaxFixPct else newp

/-- The nearest grid step of a time as the specification words it:
`floor (t / interval + 1/2)`. -/
def nearestStep (interval t : ℚ) : Int := ⌊t / interval + 1 / 2⌋

/-- The grid step that `quantize` computes for a breakpoint time:
`long( 0.5 + ( bpt / interval_ ) )`. -/
def quantStep (interval bpt : ℚ) : Int := truncToInt (1 / 2 + bpt / interval)

/-- The value `endstep` of a round of `quantize`, with `newp` the Partial built
so far and `qstep` the grid step of the breakpoint of the round. -/
def endStep (interval : ℚ) (newp : Partial) (qstep : Int) : Int :=
  if newp.numBreakpoints ≠ 0 then
    match newp.endTime with
    | some endTime => truncToInt (1 / 2 + endTime / interval)
    | none => qstep - 1
  else qstep - 1

/-- The test `(endstep != qstep) || (0 == bp.amplitude())` of a round of
`quantize`: whether the round inserts a breakpoint. -/
def insertsAt (interval : ℚ) (newp : Partial) (entry : ℚ × Breakpoint) : Prop :=
  endStep interval newp (quantStep interval entry.1) ≠ quantStep interval entry.1 ∨
    0 = entry.2.amplitude

instance (interval : ℚ) (newp : Partial) (entry : ℚ × Breakpoint) :
    Decidable (insertsAt interval newp entry) := by
  unfold insertsAt; infer_instance

/-- The breakpoint that a round of `quantize` stores at the grid time `qt` when
the breakpoint `entry` of the round is null: the sample of `p` at `qt` with the
amplitude forced to 0 and, if `qt` is earlier than the time of `entry`, the
phase rolled back from `entry`. -/
def nullInsertion (env : Collaborators) (p : Partial) (qt : ℚ) (entry : ℚ × Breakpoint) :
    Breakpoint :=
  let b0 := (env.parametersAt p qt 1).setAmplitude 0
  if qt < entry.1 then
    b0.setPhase (entry.2.phase - env.phaseTravel b0 entry.2 (entry.1 - qt))
  else b0

/-! ## Concrete inputs -/

/-- A concrete set of collaborators for running the embedding on examples:
sampling takes the first stored breakpoint at or after the sample time (a null
breakpoint past the end), both phase fixes keep the stored values, and the phase
travel is the mean frequency times the time span. -/
def stepCollaborators : Collaborators where
  parametersAt p t _ :=
    match p.bps.find? (fun e => decide (t ≤ e.1)) with
    | some e => e.2
    | none => ⟨0, 0, 0, 0⟩
  shortestSafeFadeTime := 1 / 1000000000
  phaseFixedForward _ e := e.2.phase
  frequencyFixed _ _ e := (e.2.frequency, e.2.phase)
  defaultMaxFixPct := 1 / 5
  phaseTravel a b dt := (a.frequency + b.frequency) / 2 * dt

/-- The Partial of the concrete scenario: breakpoints at 0.003 and 0.027. -/
def scenarioPartial : Partial :=
  ⟨7, [(3 / 1000, ⟨440, 1, 0, 0⟩), (27 / 1000, ⟨440, 1 / 2, 0, 0⟩)]⟩

/-- The Resampler of the concrete scenario: interval 0.01, phase correction on. -/
def scenarioResampler : Resampler := ⟨1 / 100, true⟩

/-- A Partial that starts at a negative time: breakpoints at -0.026 and 0. -/
def negativeStartPartial : Partial :=
  ⟨7, [(-13 / 500, ⟨440, 1, 0, 0⟩), (0, ⟨440, 1 / 2, 0, 0⟩)]⟩

/-- A Partial that ends just above a grid instant: breakpoints at 0.003 and 0.022. -/
def earlyEndPartial : Partial :=
  ⟨7, [(3 / 1000, ⟨440, 1, 0, 0⟩), (11 / 500, ⟨440, 1 / 2, 0, 0⟩)]⟩

/-- A timing envelope with a negative control-point time and a negative value. -/
def negativeEnvelope : LinearEnvelope := ⟨[(-1 / 50, -1), (1 / 50, 1 / 100)]⟩

/-- A timing envelope that plays the scenario Partial at its own speed. -/
def identityEnvelope : LinearEnvelope := ⟨[(0, 0), (1 / 20, 1 / 20)]⟩

/-- A Partial with two breakpoints close to the same grid instant and a null
breakpoint between two others: breakpoints at 0.001, 0.002, 0.003 and 0.022. -/
def crowdedPartial : Partial :=
  ⟨7, [(1 / 1000, ⟨440, 1, 0, 0⟩), (2 / 1000, ⟨440, 0, 0, 0⟩), (3 / 1000, ⟨440, 1, 0, 0⟩),
    (11 / 500, ⟨440, 1, 0, 0⟩)]⟩

/-- Collaborators whose forward phase fix changes every phase (it adds 1);
everything else is as in `stepCollaborators`. -/
def shiftCollaborators : Collaborators :=
  { stepCollaborators with phaseFixedForward := fun _ e => e.2.phase + 1 }

/-- A timing envelope with the single control point `(0, 0.003)`. -/
def pointEnvelope : LinearEnvelope := ⟨[(0, 3 / 1000)]⟩

/-- A Partial with a null breakpoint at a negative time, followed by a
breakpoint that rounds to the same grid step: breakpoints at -0.026 (null),
-0.025 and 0. -/
def negativeNullPartial : Partial :=
  ⟨7, [(-26 / 1000, ⟨440, 0, 0, 0⟩), (-25 / 1000, ⟨440, 1, 0, 0⟩), (0, ⟨440, 1, 0, 0⟩)]⟩

/-- A dense Partial with two successive null breakpoints that round to the same
grid step: breakpoints at 0.001 and 0.002, both null, and one at 0.022. -/
def doubleNullPartial : Partial :=
  ⟨7, [(1 / 1000, ⟨440, 0, 0, 0⟩), (2 / 1000, ⟨441, 0, 0, 0⟩), (11 / 500, ⟨440, 1, 0, 0⟩)]⟩

/-! ## The copy-on-write pointer `Ptr<T>` -/

/-- The two data members of a `Ptr<T>`: the address of the shared reference
counter and the address of the managed object (`none` is the null pointer). -/
structure Ptr where
  refptr : Nat
  p : Option Nat
  deriving DecidableEq

/-- The memory the pointers live in: the allocated counters with their values,
the allocated objects with their values, the address the next `new` returns,
and the `Ptr` variables (a destroyed one leaves `none` at its index, so the
index of a variable never changes). -/
structure Store (T : Type) where
  counters : Nat → Option Nat
  objects : Nat → Option T
  next : Nat
  handles : List (Option Ptr)

namespace Store

variable {T : Type}

/-- The memory before anything is allocated. -/
def empty : Store T := ⟨fun _ => none, fun _ => none, 0, []⟩

/-- The fields of the live `Ptr` variable with index `i`. -/
def handle? (s : Store T) (i : Nat) : Option Ptr := s.handles[i]?.join

/-- The value `*refptr` of the counter at address `c`. -/
def readCount (s : Store T) (c : Nat) : Nat := (s.counters c).getD 0

/-- The number of live `Ptr` variables that satisfy `P`. -/
def countHandles (hs : List (Option Ptr)) (P : Ptr → Bool) : Nat :=
  hs.countP (fun o => match o with
    | some h => P h
    | none => false)

/-- The number of live `Ptr` variables whose `refptr` is the counter `c`. -/
def refs (s : Store T) (c : Nat) : Nat :=
  countHandles s.handles (fun h => decide (h.refptr = c))

/-- The number of live `Ptr` variables whose `p` is the object `a`. -/
def objRefs (s : Store T) (a : Nat) : Nat :=
  countHandles s.handles (fun h => decide (h.p = some a))

/-- The constructor `Ptr()`: a new counter with value 1, no object.  The new
variable gets the index `s.handles.length`. -/
def newUnbound (s : Store T) : Store T :=
  { s with
    counters := Function.update s.counters s.next (some 1)
    next := s.next + 1
    handles := s.handles ++ [some ⟨s.next, none⟩] }

/-- The constructor `Ptr(T* t)` called with a freshly allocated object of value
`v`, as in `mList( new list_of_Partials_type )`: the object is allocated first,
then a new counter with value 1.  The new variable gets the index
`s.handles.length`. -/
def newBound (s : Store T) (v : T) : Store T :=
  { counters := Function.update s.counters (s.next + 1) (some 1)
    objects := Function.update s.objects s.next (some v)
    next := s.next + 2
    handles := s.handles ++ [some ⟨s.next + 1, some s.next⟩] }

/-- The statement `++*refptr` on the counter at address `c`. -/
def incr (s : Store T) (c : Nat) : Store T :=
  { s with counters := Function.update s.counters c (some (s.readCount c + 1)) }

/-- The statement `if (--*refptr == 0) { delete refptr; delete p; }` on the
fields `h`.  The counter is at least 1 in every memory a program reaches, so
the decrement never goes below zero. -/
def release (s : Store T) (h : Ptr) : Store T :=
  let n := s.readCount h.refptr - 1
  if n = 0 then
    { s with
      counters := Function.update s.counters h.refptr none
      objects :=
        match h.p with
        | some a => Function.update s.objects a none
        | none => s.objects }
  else
    { s with counters := Function.update s.counters h.refptr (some n) }

/-- The copy constructor `Ptr(const Ptr& h)` with `h` the variable `i`.  The
new variable gets the index `s.handles.length`. -/
def copy (s : Store T) (i : Nat) : Store T :=
  match s.handle? i with
  | some h =>
    let s1 := s.incr h.refptr
    { s1 with handles := s1.handles ++ [some h] }
  | none => s

/-- The assignment `lhs = rhs` (`operator=`). -/
def assign (s : Store T) (lhs rhs : Nat) : Store T :=
  match s.handle? lhs, s.handle? rhs with
  | some hl, some hr =>
    let s1 := s.incr hr.refptr
    let s2 := s1.release hl
    { s2 with handles := s2.handles.set lhs (some hr) }
  | _, _ => s

/-- The destructor `~Ptr()` of the variable `i`. -/
def destroy (s : Store T) (i : Nat) : Store T :=
  match s.handle? i with
  | some h =>
    let s1 := s.release h
    { s1 with handles := s1.handles.set i none }
  | none => s

/-- The private member `make_unique` on the variable `i`; `clone` is the value
of the object that the function `clone(p)` allocates. -/
def makeUnique (clone : T → T) (s : Store T) (i : Nat) : Store T :=
  match s.handle? i with
  | some h =>
    if s.readCount h.refptr ≠ 1 then
      let s1 : Store T :=
        { s with counters := Function.update s.counters h.refptr (some (s.readCount h.refptr - 1)) }
      let refptr := s1.next
      let s2 : Store T :=
        { s1 with counters := Function.update s1.counters refptr (some 1), next := s1.next + 1 }
      match h.p with
      | some a =>
        { s2 with
          objects := Function.update s2.objects s2.next ((s2.objects a).map clone)
          next := s2.next + 1
          handles := s2.handles.set i (some ⟨refptr, some s2.next⟩) }
      | none => { s2 with handles := s2.handles.set i (some ⟨refptr, none⟩) }
    else s
  | none => s

/-- The non-const `operator*` and `operator->` (their bodies are the same) on
the variable `i`: the memory after `make_unique`, and the address of the object
or the failure `unbound Ptr`. -/
def deref (clone : T → T) (s : Store T) (i : Nat) : Store T × Except Failure Nat :=
  let s1 := s.makeUnique clone i
  match s1.handle? i with
  | some ⟨_, some a⟩ => (s1, Except.ok a)
  | _ => (s1, Except.error Failure.unboundPtr)

/-- The const `operator*` and `operator->` (their bodies are the same) on the
variable `i`: the address of the object or the failure `unbound Ptr`. -/
def derefConst (s : Store T) (i : Nat) : Except Failure Nat :=
  match s.handle? i with
  | some ⟨_, some a⟩ => Except.ok a
  | _ => Except.error Failure.unboundPtr

/-- The const `operator*` and `operator->` as an operation on the memory: a
const member writes to no counter, no object and no variable, so the memory
after the call is the memory before it. -/
def accessConst (s : Store T) (i : Nat) : Store T × Except Failure Nat :=
  (s, s.derefConst i)

/-- A write through the reference that a non-const dereference returned: the
object at address `a` gets the value `f v` in place of `v`. -/
def modify (s : Store T) (a : Nat) (f : T → T) : Store T :=
  { s with objects := Function.update s.objects a ((s.objects a).map f) }

/-- The value read through the variable `i` with a const dereference. -/
def read (s : Store T) (i : Nat) : Except Failure (Option T) :=
  (s.derefConst i).map s.objects

/-- A non-const dereference of the variable `i` followed by a write `f` to the
object it returns; the memory is that after the dereference when it fails. -/
def mutate (clone : T → T) (s : Store T) (i : Nat) (f : T → T) : Store T × Except Failure Unit :=
  match s.deref clone i with
  | (s1, Except.ok a) => (s1.modify a f, Except.ok ())
  | (s1, Except.error e) => (s1, Except.error e)

end Store

/-- The memories a program reaches from the empty one by constructing `Ptr`
variables (unbound, or bound to a new object), copy-constructing, assigning and
destroying them, dereferencing them (a const dereference leaves the memory as
it is), and writing to objects through the references obtained. -/
inductive Reachable {T : Type} (clone : T → T) : Store T → Prop
  | empty : Reachable clone Store.empty
  | newUnbound {s : Store T} : Reachable clone s → Reachable clone s.newUnbound
  | newBound {s : Store T} (v : T) : Reachable clone s → Reachable clone (s.newBound v)
  | copy {s : Store T} (i : Nat) : Reachable clone s → Reachable clone (s.copy i)
  | assign {s : Store T} (lhs rhs : Nat) :
      Reachable clone s → Reachable clone (s.assign lhs rhs)
  | destroy {s : Store T} (i : Nat) : Reachable clone s → Reachable clone (s.destroy i)
  | deref {s : Store T} (i : Nat) : Reachable clone s → Reachable clone (s.deref clone i).1
  | modify {s : Store T} (a : Nat) (f : T → T) :
      Reachable clone s → Reachable clone (s.modify a f)

/-- The reference-count invariant: a counter is allocated exactly when a live
variable refers to it and its value is the number of those variables; an object
is allocated exactly when a live variable refers to it; variables that share a
counter share the object, and variables that share an object share the counter;
every address in use lies below the allocation pointer. -/
structure RefCountInvariant {T : Type} (s : Store T) : Prop where
  counter_eq : ∀ c, s.counters c = if s.refs c = 0 then none else some (s.refs c)
  object_iff : ∀ a, s.objects a ≠ none ↔ s.objRefs a ≠ 0
  same_object : ∀ h h1, some h ∈ s.handles → some h1 ∈ s.handles →
    h.refptr = h1.refptr → h.p = h1.p
  same_counter : ∀ h h1 a, some h ∈ s.handles → some h1 ∈ s.handles →
    h.p = some a → h1.p = some a → h.refptr = h1.refptr
  fresh : ∀ h, some h ∈ s.handles → h.refptr < s.next ∧ ∀ a, h.p = some a → a < s.next

/-! ## PartialList -/

/-- The specialisation `clone< std::list< Partial > >`: the value of the new
list, a copy of `*tp`. -/
def cloneList (tp : List Partial) : List Partial := tp

/-- Modelled from the spec: the range form `splice( pos, other, first, last )`
of the underlying sequence, with positions as indices: the elements
`[first, last)` of `src` move, in order, to before position `pos` of `dst`.
The pair is the new `dst` and the new `src`. -/
def spliceRange (dst : List Partial) (pos : Nat) (src : List Partial) (first last : Nat) :
    List Partial × List Partial :=
  (dst.take pos ++ (src.take last).drop first ++ dst.drop pos,
    src.take first ++ src.drop last)

/-- Modelled from the spec: a splice whose source is the list itself: the
elements `[first, last)` move to before the element that was at `pos`. -/
def spliceWithin (xs : List Partial) (pos first last : Nat) : List Partial :=
  let moved := (xs.take last).drop first
  let rest := xs.take first ++ xs.drop last
  let pos1 := if pos ≤ first then pos else pos - (last - first)
  rest.take pos1 ++ moved ++ rest.drop pos1

/-- Modelled from the spec: `erase( remove_if( begin, end, pred ), end )` on
the underlying sequence: the elements that satisfy `pred` are removed, the
others keep their order. -/
def eraseIf (pred : Partial → Bool) (xs : List Partial) : List Partial :=
  xs.filter (fun p => !pred p)

namespace PartialList

/-- The memory that holds the `mList` members of the PartialList variables; a
PartialList is named by the index of its `mList`. -/
abbrev Memory := Store (List Partial)

/-- The constructor `PartialList( void )`; the new list is the variable
`w.handles.length`. -/
def construct (w : Memory) : Memory := w.newBound []

/-- The constructor `PartialList( InIt b, InIt e )` with `range` the Partials
of `[b, e)`; the new list is the variable `w.handles.length`. -/
def constructRange (w : Memory) (range : List Partial) : Memory := w.newBound range

/-- The copy constructor `PartialList( const PartialList & rhs )`; the new list
is the variable `w.handles.length`. -/
def constructCopy (w : Memory) (rhs : Nat) : Memory := w.copy rhs

/-- The assignment `operator=`. -/
def assign (w : Memory) (lhs rhs : Nat) : Memory := Store.assign w lhs rhs

/-- The destructor `~PartialList`, which destroys the member `mList`. -/
def destruct (w : Memory) (L : Nat) : Memory := w.destroy L

/-- The Partials of the list `L` in order, as read through its const members. -/
def contents (w : Memory) (L : Nat) : Except Failure (Option (List Partial)) := w.read L

/-- The const member `size`. -/
def size (w : Memory) (L : Nat) : Except Failure Nat :=
  (w.read L).map (fun o => (o.getD []).length)

/-- A non-const member that forwards to the underlying sequence,
`mList->member( ... )`, with `f` what the member does to the sequence. -/
def forward (w : Memory) (L : Nat) (f : List Partial → List Partial) :
    Memory × Except Failure Unit :=
  w.mutate cloneList L f

/-- The member `push_back`. -/
def push_back (w : Memory) (L : Nat) (val : Partial) : Memory × Except Failure Unit :=
  forward w L (fun xs => xs ++ [val])

/-- The members `splice( pos, other, first, last )` and, with
`last = first + 1`, `splice( pos, other, first )`:
`mList->splice( pos, *other.mList, first, last )`. -/
def splice (w : Memory) (L : Nat) (pos : Nat) (other : Nat) (first last : Nat) :
    Memory × Except Failure Unit :=
  match w.deref cloneList L with
  | (w1, Except.ok dst) =>
    match w1.deref cloneList other with
    | (w2, Except.ok src) =>
      if dst = src then
        (w2.modify dst (fun xs => spliceWithin xs pos first last), Except.ok ())
      else
        let ys := (w2.objects dst).getD []
        let xs := (w2.objects src).getD []
        ((w2.modify dst (fun _ => (spliceRange ys pos xs first last).1)).modify src
          (fun _ => (spliceRange ys pos xs first last).2), Except.ok ())
    | (w2, Except.error e) => (w2, Except.error e)
  | (w1, Except.error e) => (w1, Except.error e)

/-- The member `splice( pos, other, first )`. -/
def spliceOne (w : Memory) (L : Nat) (pos : Nat) (other : Nat) (first : Nat) :
    Memory × Except Failure Unit :=
  splice w L pos other first (first + 1)

/-- The member `push_front`. -/
def push_front (w : Memory) (L : Nat) (val : Partial) : Memory × Except Failure Unit :=
  forward w L (fun xs => val :: xs)

/-- The member `insert( where, val )`, with the position as an index. -/
def insert (w : Memory) (L : Nat) (pos : Nat) (val : Partial) : Memory × Except Failure Unit :=
  forward w L (fun xs => xs.take pos ++ val :: xs.drop pos)

/-- The member `erase( where )`, with the position as an index. -/
def erase (w : Memory) (L : Nat) (pos : Nat) : Memory × Except Failure Unit :=
  forward w L (fun xs => xs.eraseIdx pos)

/-- The member `erase( first, last )`, with the positions as indices. -/
def eraseRange (w : Memory) (L : Nat) (first last : Nat) : Memory × Except Failure Unit :=
  forward w L (fun xs => xs.take first ++ xs.drop last)

/-- The member `sort( c )`: the stable sort of the underlying sequence by the
comparison `c` ("comes before"). -/
def sort (w : Memory) (L : Nat) (c : Partial → Partial → Bool) : Memory × Except Failure Unit :=
  forward w L (fun xs => xs.insertionSort (fun a b => c b a = false))

/-- The non-const members `begin`, `end`, `front` and `back`: the non-const
dereference `mList->...` of the underlying sequence. -/
def access (w : Memory) (L : Nat) : Memory × Except Failure Nat :=
  w.deref cloneList L

/-- The const member `empty`. -/
def isEmpty (w : Memory) (L : Nat) : Except Failure Bool :=
  (w.read L).map (fun o => (o.getD []).isEmpty)

/-- The member `clear`: `mList = list_ptr_type( new list_of_Partials_type )`.
The temporary `Ptr` is the variable `w.handles.length`; it is bound to a new
empty sequence, assigned to `mList`, and destroyed at the end of the
statement. -/
def clear (w : Memory) (L : Nat) : Memory :=
  let tmp := w.handles.length
  let w1 := w.newBound []
  let w2 := Store.assign w1 L tmp
  w2.destroy tmp

/-- The member `extract( b, e )`: `PartialList ret;` is the new variable
`w.handles.length`, then `ret.mList->splice( ret.begin(), *mList, b, e )`, and
`ret` is returned; the returned list is that variable (its copy into the
caller followed by the destruction of the local leaves the same counts). -/
def extract (w : Memory) (L : Nat) (b e : Nat) : Memory × Except Failure Nat :=
  let w1 := construct w
  let ret := w.handles.length
  match splice w1 ret 0 L b e with
  | (w2, Except.ok _) => (w2, Except.ok ret)
  | (w2, Except.error err) => (w2, Except.error err)

end PartialList

/-- The memories a program reaches from the empty one through PartialLists
alone: by the three constructors, the assignment and the destructor, the
members that forward to the underlying sequence (`forward` with any `f`:
`push_back`, `push_front`, `insert`, `erase`, `sort`), the non-const access
(`begin`, `end`, `front`, `back`) and the writes to Partials through the
references so obtained, `clear`, `splice` and `extract`. -/
inductive ListReachable : PartialList.Memory → Prop
  | empty : ListReachable Store.empty
  | construct {w : PartialList.Memory} : ListReachable w → ListReachable (PartialList.construct w)
  | constructRange {w : PartialList.Memory} (range : List Partial) :
      ListReachable w → ListReachable (PartialList.constructRange w range)
  | constructCopy {w : PartialList.Memory} (rhs : Nat) :
      ListReachable w → ListReachable (PartialList.constructCopy w rhs)
  | assign {w : PartialList.Memory} (lhs rhs : Nat) :
      ListReachable w → ListReachable (PartialList.assign w lhs rhs)
  | destruct {w : PartialList.Memory} (L : Nat) :
      ListReachable w → ListReachable (PartialList.destruct w L)
  | forward {w : PartialList.Memory} (L : Nat) (f : List Partial → List Partial) :
      ListReachable w → ListReachable (PartialList.forward w L f).1
  | access {w : PartialList.Memory} (L : Nat) :
      ListReachable w → ListReachable (PartialList.access w L).1
  | write {w : PartialList.Memory} (a : Nat) (f : List Partial → List Partial) :
      ListReachable w → ListReachable (w.modify a f)
  | clear {w : PartialList.Memory} (L : Nat) :
      ListReachable w → ListReachable (PartialList.clear w L)
  | splice {w : PartialList.Memory} (L pos other first last : Nat) :
      ListReachable w → ListReachable (PartialList.splice w L pos other first last).1
  | extract {w : PartialList.Memory} (L b e : Nat) :
      ListReachable w → ListReachable (PartialList.extract w L b e).1

/-- Every live `Ptr` variable of the memory holds an object. -/
def AllBound (w : PartialList.Memory) : Prop :=
  ∀ i h, w.handle? i = some h → h.p ≠ none

/-! ## Resampling and quantizing a PartialList -/

/-- The predicate `is_empty_Partial`. -/
def is_empty_Partial (p : Partial) : Bool := decide (0 = p.numBreakpoints)

/-- A loop that applies the in-place operation `op` to the Partials of a
sequence in order: it stops at the first call that does not return, with the
Partials before it already replaced. -/
def forEachPartial (op : Partial → Run) : List Partial → Status × List Partial
  | [] => (Status.returned, [])
  | p :: rest =>
    match op p with
    | ⟨Status.returned, p1⟩ =>
      match forEachPartial op rest with
      | (st, rest1) => (st, p1 :: rest1)
    | ⟨st, p1⟩ => (st, p1 :: rest)

/-- The body shared by the three members that work on a PartialList: the loop
over the Partials of the underlying sequence, then
`plist.erase( std::remove_if( plist.begin(), plist.end(), is_empty_Partial ), plist.end() )`.
The first `plist.begin()` is the non-const dereference; the later ones find the
sequence already unshared. -/
def batch (op : Partial → Run) (w : PartialList.Memory) (plist : Nat) :
    PartialList.Memory × Status :=
  match w.deref cloneList plist with
  | (w1, Except.ok a) =>
    match forEachPartial op ((w1.objects a).getD []) with
    | (Status.returned, xs) => (w1.modify a (fun _ => eraseIf is_empty_Partial xs), Status.returned)
    | (st, xs) => (w1.modify a (fun _ => xs), st)
  | (w1, Except.error e) => (w1, Status.threw e)

namespace Resampler

/-- The member `resample( PartialList & plist )`. -/
def resampleList (r : Resampler) (env : Collaborators) (fuel : Nat) (w : PartialList.Memory)
    (plist : Nat) : PartialList.Memory × Status :=
  batch (fun p => r.resample env fuel p) w plist

/-- The member `resample( PartialList & plist, const LinearEnvelope & timingEnv )`. -/
def resampleTimingList (r : Resampler) (env : Collaborators) (fuel : Nat)
    (w : PartialList.Memory) (plist : Nat) (timingEnv : LinearEnvelope) :
    PartialList.Memory × Status :=
  batch (fun p => r.resampleTiming env fuel p timingEnv) w plist

/-- The member `quantize( PartialList & plist )`. -/
def quantizeList (r : Resampler) (env : Collaborators) (w : PartialList.Memory)
    (plist : Nat) : PartialList.Memory × Status :=
  batch (fun p => r.quantize env p) w plist

end Resampler

/-! ## Concrete memories -/

/-- A memory with one PartialList, variable 0, that holds two Partials. -/
def oneListMemory : PartialList.Memory :=
  PartialList.constructRange Store.empty [scenarioPartial, earlyEndPartial]

/-- A memory with an unbound `Ptr`, variable 0, a `Ptr` bound to a list of one
Partial, variable 1, and a copy of it, variable 2. -/
def sharedMemory : PartialList.Memory :=
  ((Store.empty.newUnbound).newBound [scenarioPartial]).copy 1

/-- A memory with an empty PartialList, variable 0, and a PartialList of two
Partials, variable 1. -/
def twoListsMemory : PartialList.Memory :=
  PartialList.constructRange (PartialList.construct Store.empty)
    [scenarioPartial, earlyEndPartial]

/-- A memory with an unbound `Ptr`, variable 0, and a copy of it, variable 1:
the two share a counter of value 2. -/
def sharedUnboundMemory : PartialList.Memory :=
  (Store.empty.newUnbound).copy 0

/-- A memory with a PartialList of two Partials, variable 0, and a copy of it,
variable 1, which shares its sequence. -/
def copiedListMemory : PartialList.Memory :=
  PartialList.constructCopy oneListMemory 0

/-- A Partial with a single breakpoint, at -0.026. -/
def singleNegativePartial : Partial :=
  ⟨7, [(-13 / 500, ⟨440, 1, 0, 0⟩)]⟩

/-- A memory with one PartialList, variable 0, that holds the scenario Partial
and the Partial with a single breakpoint at -0.026. -/
def negativeListMemory : PartialList.Memory :=
  PartialList.constructRange Store.empty [scenarioPartial, singleNegativePartial]

/-! ## The arithmetic of `double` -/

/-- The operations on `double` that `resample( Partial & )` and
`quantize( Partial & )` apply to times, as operations on the rationals that the
`double` values denote. -/
structure Arith where
  add : ℚ → ℚ → ℚ
  sub : ℚ → ℚ → ℚ
  mul : ℚ → ℚ → ℚ
  div : ℚ → ℚ → ℚ

/-- Arithmetic without rounding. -/
def exactArith : Arith where
  add a b := a + b
  sub a b := a - b
  mul a b := a * b
  div a b := a / b

/-- The integer nearest to `q`, the even one of the two when `q` lies halfway. -/
def roundHalfEven (q : ℚ) : Int :=
  if q - ⌊q⌋ < 1 / 2 then ⌊q⌋
  else if 1 / 2 < q - ⌊q⌋ then ⌊q⌋ + 1
  else if ⌊q⌋ % 2 = 0 then ⌊q⌋ else ⌊q⌋ + 1

/-- The binary64 value nearest to `x`, ties to even: a significand of 53 bits at
the exponent of `x`, and the fixed exponent -1074 in the subnormal range.  The
value is that of the IEEE 754 rounding for `|x| < 2 ^ 1024`; overflow to an
infinity is not followed. -/
def roundToDouble (x : ℚ) : ℚ :=
  if x = 0 then 0
  else
    let e := max (Int.log 2 |x| - 52) (-1074)
    roundHalfEven (x / (2 : ℚ) ^ e) * (2 : ℚ) ^ e

/-- The arithmetic of `double` in the default rounding mode: the exact result,
rounded to the nearest binary64 value.  The quotient is that of the code for a
divisor other than zero. -/
def doubleArith : Arith where
  add a b := roundToDouble (a + b)
  sub a b := roundToDouble (a - b)
  mul a b := roundToDouble (a * b)
  div a b := roundToDouble (a / b)

namespace Resampler

/-- The sampling loop of `resample( Partial & )` with the arithmetic as a
parameter: `insertTime += interval_` is the one operation on `double` in it. -/
def resampleLoopA (A : Arith) (env : Collaborators) (interval lastInsertTime : ℚ) (p : Partial)
    (sampleTimeAt : ℚ → ℚ) : Nat → ℚ → Partial → Option Partial
  | 0, insertTime, newp =>
    if insertTime ≤ lastInsertTime then none else some newp
  | fuel + 1, insertTime, newp =>
    if insertTime ≤ lastInsertTime then
      let sampleTime := sampleTimeAt insertTime
      let newbp := env.parametersAt p sampleTime env.shortestSafeFadeTime
      resampleLoopA A env interval lastInsertTime p sampleTimeAt fuel (A.add insertTime interval)
        (newp.insert insertTime newbp)
    else some newp

/-- The member `resample( Partial & p )` with the arithmetic as a parameter.
The `int` that `int( 0.5 + p.startTime() / interval_ )` yields converts to
`double` without rounding. -/
def resampleA (r : Resampler) (A : Arith) (env : Collaborators) (fuel : Nat) (p : Partial) :
    Run :=
  if r.phaseCorrect = true ∧ p.bps = [] then ⟨Status.undefined, p⟩
  else
  let p1 := if r.phaseCorrect then env.fixPhaseForward p else p
  let newp := Partial.empty.setLabel p1.label
  match p1.startTime, p1.endTime with
  | some startTime, some endTime =>
    let firstInsertTime :=
      A.mul r.interval (truncToInt (A.add (1 / 2) (A.div startTime r.interval)))
    let lastInsertTime := A.add endTime (A.mul (1 / 2) r.interval)
    match resampleLoopA A env r.interval lastInsertTime p1 (fun insertTime => insertTime)
        fuel firstInsertTime newp with
    | none => ⟨Status.outOfFuel, p1⟩
    | some newp1 =>
      let p2 := newp1
      ⟨Status.returned, if r.phaseCorrect then env.fixFrequency p2 env.defaultMaxFixPct else p2⟩
  | _, _ => ⟨Status.threw Failure.invalidPartial, p1⟩

/-- One round of the loop of `quantize( Partial & )` with the arithmetic as a
parameter. -/
def quantizeStepA (r : Resampler) (A : Arith) (env : Collaborators) (p : Partial)
    (newp : Partial) (entry : ℚ × Breakpoint) : Partial :=
  let bp := entry.2
  let bpt := entry.1
  let qstep := truncToInt (A.add (1 / 2) (A.div bpt r.interval))
  let endstep :=
    if newp.numBreakpoints ≠ 0 then
      match newp.endTime with
      | some endTime => truncToInt (A.add (1 / 2) (A.div endTime r.interval))
      | none => qstep - 1
    else qstep - 1
  if endstep ≠ qstep ∨ 0 = bp.amplitude then
    let qt := A.mul r.interval qstep
    let a_long_time : ℚ := 1
    let newbp := env.parametersAt p qt a_long_time
    let newp1 := newp.insert qt newbp
    if 0 = bp.amplitude then
      let newp2 := newp1.modifyAt qt (fun b => b.setAmplitude 0)
      if qt < bpt then
        newp2.modifyAt qt
          (fun b => b.setPhase (A.sub bp.phase (env.phaseTravel b bp (A.sub bpt qt))))
      else newp2
    else newp1
  else newp

/-- The member `quantize( Partial & p )` with the arithmetic as a parameter. -/
def quantizeA (r : Resampler) (A : Arith) (env : Collaborators) (p : Partial) : Run :=
  if r.phaseCorrect = true ∧ p.bps = [] then ⟨Status.undefined, p⟩
  else
  let p1 := if r.phaseCorrect then env.fixPhaseForward p else p
  let newp := Partial.empty.setLabel p1.label
  let newp1 := p1.bps.foldl (quantizeStepA r A env p1) newp
  let newp2 := if r.phaseCorrect then env.fixFrequency newp1 5 else newp1
  ⟨Status.returned, newp2⟩

/-- The member `resample( PartialList & plist )` with the arithmetic as a
parameter. -/
def resampleListA (r : Resampler) (A : Arith) (env : Collaborators) (fuel : Nat)
    (w : PartialList.Memory) (plist : Nat) : PartialList.Memory × Status :=
  batch (fun p => r.resampleA A env fuel p) w plist

end Resampler

/-! ## Concrete inputs in `double` -/

/-- The `double` nearest to 0.1, which is 3602879701896397 / 2 ^ 55. -/
def tenthDouble : ℚ := 3602879701896397 / 36028797018963968

/-- The `double` nearest to 0.15, which is 5404319552844595 / 2 ^ 55. -/
def fifteenHundredthsDouble : ℚ := 5404319552844595 / 36028797018963968

/-- A Resampler with the interval 0.1 as a `double`, phase correction on. -/
def doubleResampler : Resampler := ⟨tenthDouble, true⟩

/-- A Partial with a single breakpoint at 0.25. -/
def quarterPartial : Partial :=
  ⟨7, [(1 / 4, ⟨440, 1, 0, 0⟩)]⟩

/-- A Partial with breakpoints at 0 and at the `double` 0.15. -/
def lateEndPartial : Partial :=
  ⟨7, [(0, ⟨440, 1, 0, 0⟩), (fifteenHundredthsDouble, ⟨440, 1 / 2, 0, 0⟩)]⟩

/-- A memory with one PartialList, variable 0, that holds the Partial with the
single breakpoint at 0.25. -/
def quarterListMemory : PartialList.Memory :=
  PartialList.constructRange Store.empty [quarterPartial]

/-! ## Lemmas on the data model -/

theorem insertBp_append (t : ℚ) (bp : Breakpoint) :
    ∀ l : List (ℚ × Breakpoint), (∀ e ∈ l, e.1 < t) → insertBp t bp l = l ++ [(t, bp)]
  | [], _ => rfl
  | (u, b) :: rest, h => by
    have hu : u < t := h (u, b) (List.mem_cons_self _ _)
    have hrest : ∀ e ∈ rest, e.1 < t := fun e he => h e (List.mem_cons_of_mem _ he)
    simp [insertBp, not_lt.mpr hu.le, hu.ne', insertBp_append t bp rest hrest]

theorem length_insertBp_le (t : ℚ) (bp : Breakpoint) :
    ∀ l : List (ℚ × Breakpoint), (insertBp t bp l).length ≤ l.length + 1
  | [] => by simp [insertBp]
  | (u, b) :: rest => by
    have ih := length_insertBp_le t bp rest
    simp only [insertBp]
    split_ifs <;> simp; omega

theorem mem_insertBp (t : ℚ) (bp : Breakpoint) (e : ℚ × Breakpoint) :
    ∀ l : List (ℚ × Breakpoint), e ∈ insertBp t bp l → e = (t, bp) ∨ e ∈ l
  | [], h => by simpa [insertBp] using h
  | (u, b) :: rest, h => by
    simp only [insertBp] at h
    split_ifs at h with h1 h2
    · simpa using h
    · rcases List.mem_cons.mp h with h | h
      · exact Or.inl h
      · exact Or.inr (List.mem_cons_of_mem _ h)
    · rcases List.mem_cons.mp h with h | h
      · exact Or.inr (h ▸ List.mem_cons_self _ _)
      · rcases mem_insertBp t bp e rest h with h | h
        · exact Or.inl h
        · exact Or.inr (List.mem_cons_of_mem _ h)

theorem gridSamples_times (sample : ℚ → Breakpoint) (interval : ℚ) :
    ∀ (n : Nat) (t : ℚ),
      (gridSamples sample interval n t).map Prod.fst = gridTimes interval n t
  | 0, _ => rfl
  | n + 1, t => by simp [gridSamples, gridTimes, gridSamples_times sample interval n]

theorem length_gridTimes (interval : ℚ) :
    ∀ (n : Nat) (t : ℚ), (gridTimes interval n t).length = n
  | 0, _ => rfl
  | n + 1, t => by simp [gridTimes, length_gridTimes interval n]

theorem mem_gridTimes (interval : ℚ) :
    ∀ (n : Nat) (t x : ℚ),
      x ∈ gridTimes interval n t ↔ ∃ i : Nat, i < n ∧ x = t + i * interval
  | 0, t, x => by simp [gridTimes]
  | n + 1, t, x => by
    simp only [gridTimes, List.mem_cons, mem_gridTimes interval n]
    constructor
    · rintro (h | ⟨i, hi, h⟩)
      · exact ⟨0, by omega, by simp [h]⟩
      · exact ⟨i + 1, by omega, by rw [h]; push_cast; ring⟩
    · rintro ⟨i, hi, h⟩
      cases i with
      | zero => left; simpa using h
      | succ j => right; exact ⟨j, by omega, by rw [h]; push_cast; ring⟩

theorem gridTimes_succ_last (interval : ℚ) :
    ∀ (n : Nat) (t : ℚ),
      gridTimes interval (n + 1) t = gridTimes interval n t ++ [t + n * interval]
  | 0, t => by simp [gridTimes]
  | n + 1, t => by
    have ih := gridTimes_succ_last interval n (t + interval)
    rw [gridTimes, ih, gridTimes]
    simp only [List.cons_append, List.cons.injEq, true_and]
    congr 2
    push_cast; ring

/-! ## The sampling loop -/

theorem stepCount_of_gt {interval last t : ℚ} (hI : 0 < interval) (h : ¬ t ≤ last) :
    stepCount interval last t = 0 := by
  have h1 : (last - t) / interval < 0 := div_neg_of_neg_of_pos (by linarith) hI
  have h2 : ⌊(last - t) / interval⌋ < 0 := by
    rw [Int.floor_lt]; simpa using h1
  unfold stepCount; omega

theorem stepCount_of_le {interval last t : ℚ} (hI : 0 < interval) (h : t ≤ last) :
    stepCount interval last t = stepCount interval last (t + interval) + 1 := by
  have h1 : (0 : ℚ) ≤ (last - t) / interval := div_nonneg (by linarith) hI.le
  have h2 : 0 ≤ ⌊(last - t) / interval⌋ := Int.floor_nonneg.mpr h1
  have h3 : (last - (t + interval)) / interval = (last - t) / interval - 1 := by
    field_simp; ring
  have h4 : ⌊(last - (t + interval)) / interval⌋ = ⌊(last - t) / interval⌋ - 1 := by
    rw [h3, Int.floor_sub_one]
  unfold stepCount; rw [h4]; omega

theorem stepCount_pos_iff {interval last t : ℚ} (hI : 0 < interval) :
    0 < stepCount interval last t ↔ t ≤ last := by
  constructor
  · intro h
    by_contra hc
    rw [stepCount_of_gt hI hc] at h
    exact Nat.lt_irrefl 0 h
  · intro h
    rw [stepCount_of_le hI h]; omega

theorem resampleLoop_eq (env : Collaborators) {interval : ℚ} (hI : 0 < interval)
    (last : ℚ) (p : Partial) (sampleTimeAt : ℚ → ℚ) :
    ∀ (fuel : Nat) (t : ℚ) (newp : Partial), (∀ e ∈ newp.bps, e.1 < t) →
      Resampler.resampleLoop env interval last p sampleTimeAt fuel t newp =
        if stepCount interval last t ≤ fuel then
          some { newp with bps := (newp.bps ++
            gridSamples (fun u => env.parametersAt p (sampleTimeAt u)
              env.shortestSafeFadeTime) interval (stepCount interval last t) t) }
        else none
  | 0, t, newp, _ => by
    by_cases h : t ≤ last
    · have hpos := (stepCount_pos_iff hI).mpr h
      have hne : stepCount interval last t ≠ 0 := by omega
      simp [Resampler.resampleLoop, h, hne]
    · simp [Resampler.resampleLoop, h, stepCount_of_gt hI h, gridSamples]
  | fuel + 1, t, newp, hnew => by
    by_cases h : t ≤ last
    · have hins : ∀ e ∈ (newp.insert t (env.parametersAt p (sampleTimeAt t)
          env.shortestSafeFadeTime)).bps, e.1 < t + interval := by
        intro e he
        rcases mem_insertBp _ _ _ _ he with h1 | h1
        · rw [h1]; simpa using hI
        · have := hnew e h1; linarith
      rw [Resampler.resampleLoop, if_pos h,
        resampleLoop_eq env hI last p sampleTimeAt fuel (t + interval) _ hins, stepCount_of_le hI h]
      simp only [Nat.add_le_add_iff_right, Partial.insert, insertBp_append _ _ _ hnew,
        gridSamples, List.append_assoc, List.singleton_append]
    · simp [Resampler.resampleLoop, h, stepCount_of_gt hI h, gridSamples]

/-! ## The uniform-grid `resample` -/

theorem times_fixPhaseForward (env : Collaborators) (p : Partial) :
    (env.fixPhaseForward p).times = p.times := by
  simp [Collaborators.fixPhaseForward, Partial.times, List.map_map, Function.comp_def]

theorem times_fixFrequency (env : Collaborators) (p : Partial) (m : ℚ) :
    (env.fixFrequency p m).times = p.times := by
  simp [Collaborators.fixFrequency, Partial.times, List.map_map, Function.comp_def]

theorem amplitudes_fixFrequency (env : Collaborators) (p : Partial) (m : ℚ) :
    (env.fixFrequency p m).amplitudes = p.amplitudes := by
  simp [Collaborators.fixFrequency, Partial.amplitudes, List.map_map, Function.comp_def]

theorem startTime_eq_times (p : Partial) : p.startTime = p.times.head? := by
  simp [Partial.startTime, Partial.times, List.head?_map]

theorem endTime_eq_times (p : Partial) : p.endTime = p.times.getLast? := by
  simp [Partial.endTime, Partial.times, List.getLast?_map]

theorem times_phaseFixed (r : Resampler) (env : Collaborators) (p : Partial) :
    (phaseFixed r env p).times = p.times := by
  unfold phaseFixed; split_ifs
  · exact times_fixPhaseForward env p
  · rfl

theorem label_phaseFixed (r : Resampler) (env : Collaborators) (p : Partial) :
    (phaseFixed r env p).label = p.label := by
  unfold phaseFixed; split_ifs <;> rfl

theorem exists_start_end (p : Partial) (hp : p.bps ≠ []) :
    ∃ s e, p.startTime = some s ∧ p.endTime = some e := by
  obtain ⟨l, a, h⟩ : ∃ l a, p.bps = l ++ [a] :=
    ⟨_, _, (List.dropLast_append_getLast hp).symm⟩
  cases hb : p.bps with
  | nil => exact absurd hb hp
  | cons b rest =>
    refine ⟨b.1, a.1, by simp [Partial.startTime, hb], ?_⟩
    simp [Partial.endTime, h]

/-- What `resample( Partial & )` does on a Partial with a first and a last
breakpoint: with enough fuel it returns the Partial of the grid samples (after
the optional frequency fix), with less it runs out of fuel. -/
theorem resample_eq (r : Resampler) (env : Collaborators) (fuel : Nat) (p : Partial)
    (hI : 0 < r.interval) {s e : ℚ} (hs : p.startTime = some s) (he : p.endTime = some e) :
    r.resample env fuel p =
      if stepCount r.interval (lastInsertTime r.interval e) (firstInsertTime r.interval s)
          ≤ fuel then
        ⟨Status.returned,
          if r.phaseCorrect then
            env.fixFrequency ⟨p.label,
              gridSamples (fun u => env.parametersAt (phaseFixed r env p) u
                env.shortestSafeFadeTime) r.interval
                (stepCount r.interval (lastInsertTime r.interval e)
                  (firstInsertTime r.interval s))
                (firstInsertTime r.interval s)⟩ env.defaultMaxFixPct
          else
            ⟨p.label,
              gridSamples (fun u => env.parametersAt (phaseFixed r env p) u
                env.shortestSafeFadeTime) r.interval
                (stepCount r.interval (lastInsertTime r.interval e)
                  (firstInsertTime r.interval s))
                (firstInsertTime r.interval s)⟩⟩
      else ⟨Status.outOfFuel, phaseFixed r env p⟩ := by
  have hs1 : (phaseFixed r env p).startTime = some s := by
    rw [startTime_eq_times, times_phaseFixed, ← startTime_eq_times, hs]
  have he1 : (phaseFixed r env p).endTime = some e := by
    rw [endTime_eq_times, times_phaseFixed, ← endTime_eq_times, he]
  have hloop := resampleLoop_eq env hI (lastInsertTime r.interval e) (phaseFixed r env p)
    (fun insertTime => insertTime) fuel
    (firstInsertTime r.interval s) (Partial.empty.setLabel (phaseFixed r env p).label)
    (by simp [Partial.empty, Partial.setLabel])
  have hguard : ¬ (r.phaseCorrect = true ∧ p.bps = []) := by
    rintro ⟨_, hnil⟩
    rw [Partial.startTime, hnil] at hs
    simp at hs
  unfold Resampler.resample
  rw [if_neg hguard]
  simp only [phaseFixed, firstInsertTime, lastInsertTime] at hs1 he1 hloop ⊢
  simp only [hs1, he1, hloop]
  split_ifs <;> simp_all [Partial.empty, Partial.setLabel, Collaborators.fixPhaseForward]

/-- The times of the Partial that a returning `resample` leaves. -/
theorem resample_times (r : Resampler) (env : Collaborators) (fuel : Nat) (p : Partial)
    (hI : 0 < r.interval) {s e : ℚ} (hs : p.startTime = some s) (he : p.endTime = some e)
    (hret : (r.resample env fuel p).status = Status.returned) :
    (r.resample env fuel p).state.times =
      gridTimes r.interval
        (stepCount r.interval (lastInsertTime r.interval e) (firstInsertTime r.interval s))
        (firstInsertTime r.interval s) := by
  rw [resample_eq r env fuel p hI hs he] at hret ⊢
  split_ifs at hret ⊢ with h1 h2
  · rw [times_fixFrequency]; simp [Partial.times, gridSamples_times]
  · simp [Partial.times, gridSamples_times]

/-- With enough fuel `resample( Partial & )` returns. -/
theorem resample_returns (r : Resampler) (env : Collaborators) (p : Partial)
    (hI : 0 < r.interval) (hp : p.bps ≠ []) :
    ∃ fuel, (r.resample env fuel p).status = Status.returned := by
  obtain ⟨s, e, hs, he⟩ := exists_start_end p hp
  refine ⟨stepCount r.interval (lastInsertTime r.interval e) (firstInsertTime r.interval s), ?_⟩
  rw [resample_eq r env _ p hI hs he]
  simp

/-! ## Evaluating the grid on concrete inputs -/

theorem truncToInt_of_nonneg {x : ℚ} {k : ℤ} (h0 : 0 ≤ x) (h1 : (k : ℚ) ≤ x)
    (h2 : x < k + 1) : truncToInt x = k := by
  unfold truncToInt
  rw [if_pos h0, Int.floor_eq_iff]
  exact ⟨h1, h2⟩

theorem truncToInt_of_neg {x : ℚ} {k : ℤ} (h0 : x < 0) (h1 : (k : ℚ) - 1 < x)
    (h2 : x ≤ k) : truncToInt x = k := by
  unfold truncToInt
  rw [if_neg (not_le.mpr h0), Int.ceil_eq_iff]
  exact ⟨h1, h2⟩

theorem stepCount_eq_succ {interval last t : ℚ} (hI : 0 < interval) (n : Nat)
    (h1 : t + n * interval ≤ last) (h2 : last < t + (n + 1) * interval) :
    stepCount interval last t = n + 1 := by
  have hf : ⌊(last - t) / interval⌋ = (n : ℤ) := by
    rw [Int.floor_eq_iff]
    constructor
    · rw [le_div_iff₀ hI]; push_cast; linarith
    · rw [div_lt_iff₀ hI]; push_cast; linarith
  unfold stepCount; rw [hf]; omega

/-! ## Where the grid starts and ends -/

theorem firstInsertTime_eq_mul (interval s : ℚ) :
    ∃ m : ℤ, firstInsertTime interval s = m * interval :=
  ⟨truncToInt (1 / 2 + s / interval), by unfold firstInsertTime; ring⟩

/-- For a start time that is not negative the grid starts at the nearest
multiple of the interval. -/
theorem firstInsertTime_eq_round_of_nonneg {interval s : ℚ} (hI : 0 < interval)
    (hs : 0 ≤ s) : firstInsertTime interval s = interval * round (s / interval) := by
  have h0 : (0 : ℚ) ≤ 1 / 2 + s / interval := by
    have := div_nonneg hs hI.le
    linarith
  unfold firstInsertTime truncToInt
  rw [if_pos h0, round_eq, add_comm]

theorem getLast?_gridTimes (interval : ℚ) (n : Nat) (t : ℚ) :
    (gridTimes interval (n + 1) t).getLast? = some (t + n * interval) := by
  rw [gridTimes_succ_last]; simp

/-- The last instant of a non-empty grid that starts at a multiple of the
interval and runs up to `e + interval / 2` is `interval * ⌊e / interval + 1/2⌋`. -/
theorem gridTimes_last (interval s e tl : ℚ) (hI : 0 < interval)
    (h : (gridTimes interval
      (stepCount interval (lastInsertTime interval e) (firstInsertTime interval s))
      (firstInsertTime interval s)).getLast? = some tl) :
    tl = interval * ⌊e / interval + 1 / 2⌋ := by
  obtain ⟨m, hm⟩ := firstInsertTime_eq_mul interval s
  have hfl : ⌊(lastInsertTime interval e - firstInsertTime interval s) / interval⌋
      = ⌊e / interval + 1 / 2⌋ - m := by
    have : (lastInsertTime interval e - firstInsertTime interval s) / interval
        = e / interval + 1 / 2 - m := by
      rw [hm]; unfold lastInsertTime; field_simp; ring
    rw [this, Int.floor_sub_int]
  cases hn : stepCount interval (lastInsertTime interval e) (firstInsertTime interval s) with
  | zero => rw [hn] at h; simp [gridTimes] at h
  | succ k =>
    rw [hn, getLast?_gridTimes] at h
    have hk : (k : ℤ) = ⌊e / interval + 1 / 2⌋ - m := by
      unfold stepCount at hn; rw [hfl] at hn; omega
    have hk' : (k : ℚ) = (⌊e / interval + 1 / 2⌋ : ℚ) - m := by exact_mod_cast hk
    have htl : tl = firstInsertTime interval s + k * interval := (Option.some.inj h).symm
    rw [htl, hm, hk']; ring

theorem resample_endTime (r : Resampler) (env : Collaborators) (fuel : Nat) (p : Partial)
    (hI : 0 < r.interval) {s e tl : ℚ} (hs : p.startTime = some s) (he : p.endTime = some e)
    (hret : (r.resample env fuel p).status = Status.returned)
    (htl : (r.resample env fuel p).state.endTime = some tl) :
    tl = r.interval * ⌊e / r.interval + 1 / 2⌋ := by
  rw [endTime_eq_times, resample_times r env fuel p hI hs he hret] at htl
  exact gridTimes_last r.interval s e tl hI htl

theorem mul_floor_half_bounds {interval e : ℚ} (hI : 0 < interval) :
    e - interval / 2 < interval * ⌊e / interval + 1 / 2⌋ ∧
    interval * ⌊e / interval + 1 / 2⌋ ≤ e + interval / 2 := by
  have h1 := Int.floor_le (e / interval + 1 / 2)
  have h2 := Int.lt_floor_add_one (e / interval + 1 / 2)
  have h3 : interval * (e / interval) = e := by field_simp
  constructor
  · have := mul_lt_mul_of_pos_left h2 hI
    nlinarith
  · have := mul_le_mul_of_nonneg_left h1 hI.le
    nlinarith

/-! ## Claims on the uniform-grid `resample` -/

/-- C1: for a positive interval and a Partial with at least one breakpoint,
`resample( Partial & )` returns, every breakpoint time it leaves is an integer
multiple of the interval, and the times form a contiguous run: every multiple
strictly between two output times is an output time. -/
theorem resample_times_on_grid (r : Resampler) (env : Collaborators) (p : Partial)
    (hI : 0 < r.interval) (hp : p.bps ≠ []) :
    (∃ fuel, (r.resample env fuel p).status = Status.returned) ∧
    ∀ fuel, (r.resample env fuel p).status = Status.returned →
      (∀ t ∈ (r.resample env fuel p).state.times, ∃ k : ℤ, t = k * r.interval) ∧
      (∀ k1 k2 k : ℤ, (k1 : ℚ) * r.interval ∈ (r.resample env fuel p).state.times →
        (k2 : ℚ) * r.interval ∈ (r.resample env fuel p).state.times → k1 < k → k < k2 →
        (k : ℚ) * r.interval ∈ (r.resample env fuel p).state.times) := by
  refine ⟨resample_returns r env p hI hp, fun fuel hret => ?_⟩
  obtain ⟨s, e, hs, he⟩ := exists_start_end p hp
  obtain ⟨m, hm⟩ := firstInsertTime_eq_mul r.interval s
  rw [resample_times r env fuel p hI hs he hret]
  have hne : r.interval ≠ 0 := hI.ne'
  constructor
  · intro t ht
    obtain ⟨i, _, hi⟩ := (mem_gridTimes _ _ _ _).mp ht
    exact ⟨m + i, by rw [hi, hm]; push_cast; ring⟩
  · intro k1 k2 k h1 h2 hlo hhi
    obtain ⟨i1, _, hi1⟩ := (mem_gridTimes _ _ _ _).mp h1
    obtain ⟨i2, hlt2, hi2⟩ := (mem_gridTimes _ _ _ _).mp h2
    have e1 : (k1 : ℚ) = ((m + i1 : ℤ) : ℚ) := by
      apply mul_right_cancel₀ hne; rw [hi1, hm]; push_cast; ring
    have e2 : (k2 : ℚ) = ((m + i2 : ℤ) : ℚ) := by
      apply mul_right_cancel₀ hne; rw [hi2, hm]; push_cast; ring
    have e1' : k1 = m + i1 := by exact_mod_cast e1
    have e2' : k2 = m + i2 := by exact_mod_cast e2
    refine (mem_gridTimes _ _ _ _).mpr ⟨(k - m).toNat, by omega, ?_⟩
    have hj : (((k - m).toNat : ℤ) : ℚ) = ((k - m : ℤ) : ℚ) := by
      congr 1; omega
    have hj' : (((k - m).toNat : ℕ) : ℚ) = (k : ℚ) - m := by
      rw [← Int.cast_natCast, hj]; push_cast; ring
    rw [hm, hj']; ring

/-- C1, at the concrete scenario: interval 0.01, breakpoints at 0.003 and 0.027. -/
theorem resample_times_on_grid_witness :
    0 < scenarioResampler.interval ∧ scenarioPartial.bps ≠ [] ∧
    (∃ fuel, (scenarioResampler.resample stepCollaborators fuel scenarioPartial).status
      = Status.returned) ∧
    ∀ fuel, (scenarioResampler.resample stepCollaborators fuel scenarioPartial).status
        = Status.returned →
      (∀ t ∈ (scenarioResampler.resample stepCollaborators fuel scenarioPartial).state.times,
        ∃ k : ℤ, t = k * scenarioResampler.interval) ∧
      (∀ k1 k2 k : ℤ,
        (k1 : ℚ) * scenarioResampler.interval ∈
          (scenarioResampler.resample stepCollaborators fuel scenarioPartial).state.times →
        (k2 : ℚ) * scenarioResampler.interval ∈
          (scenarioResampler.resample stepCollaborators fuel scenarioPartial).state.times →
        k1 < k → k < k2 →
        (k : ℚ) * scenarioResampler.interval ∈
          (scenarioResampler.resample stepCollaborators fuel scenarioPartial).state.times) :=
  ⟨by norm_num [scenarioResampler], by simp [scenarioPartial],
    resample_times_on_grid scenarioResampler stepCollaborators scenarioPartial
      (by norm_num [scenarioResampler]) (by simp [scenarioPartial])⟩

/-- The run of `resample( Partial & )` once the first grid instant and the
number of grid instants are known. -/
theorem resample_times_of (r : Resampler) (env : Collaborators) (fuel : Nat) (p : Partial)
    (hI : 0 < r.interval) {s e first : ℚ} (n : Nat) (hs : p.startTime = some s)
    (he : p.endTime = some e) (hfirst : firstInsertTime r.interval s = first)
    (h1 : first + n * r.interval ≤ lastInsertTime r.interval e)
    (h2 : lastInsertTime r.interval e < first + (n + 1) * r.interval) (hfuel : n + 1 ≤ fuel) :
    (r.resample env fuel p).status = Status.returned ∧
    (r.resample env fuel p).state.times = gridTimes r.interval (n + 1) first := by
  have hn : stepCount r.interval (lastInsertTime r.interval e) (firstInsertTime r.interval s)
      = n + 1 := by
    rw [hfirst]; exact stepCount_eq_succ hI n h1 h2
  have hret : (r.resample env fuel p).status = Status.returned := by
    rw [resample_eq r env fuel p hI hs he, hn, if_pos hfuel]
  refine ⟨hret, ?_⟩
  rw [resample_times r env fuel p hI hs he hret, hn, hfirst]

/-- C2 (the code at an input that breaks the claim): with interval 0.01 and
breakpoints at -0.026 and 0, `resample( Partial & )` returns a Partial whose
first breakpoint is at -0.02, while the nearest multiple of the interval to the
start time, `interval * round (startTime / interval)`, is -0.03; the first
output time is 0.006 away from the start time, more than half the interval. -/
theorem resample_first_time_negative_start :
    (scenarioResampler.resample stepCollaborators 3 negativeStartPartial).status
      = Status.returned ∧
    (scenarioResampler.resample stepCollaborators 3 negativeStartPartial).state.startTime
      = some (-1 / 50) ∧
    negativeStartPartial.startTime = some (-13 / 500) ∧
    scenarioResampler.interval * round ((-13 / 500 : ℚ) / scenarioResampler.interval)
      = -3 / 100 ∧
    scenarioResampler.interval / 2 < |(-1 / 50 : ℚ) - (-13 / 500)| := by
  have hs : negativeStartPartial.startTime = some (-13 / 500) := by
    simp [negativeStartPartial, Partial.startTime]
  have he : negativeStartPartial.endTime = some 0 := by
    simp [negativeStartPartial, Partial.endTime]
  have hfirst : firstInsertTime scenarioResampler.interval (-13 / 500) = -1 / 50 := by
    have : truncToInt (1 / 2 + (-13 / 500 : ℚ) / (1 / 100)) = -2 :=
      truncToInt_of_neg (by norm_num) (by norm_num) (by norm_num)
    simp only [firstInsertTime, scenarioResampler, this]; norm_num
  obtain ⟨h1, h2⟩ := resample_times_of scenarioResampler stepCollaborators 3
    negativeStartPartial (by norm_num [scenarioResampler]) 2 hs he hfirst
    (by norm_num [lastInsertTime, scenarioResampler])
    (by norm_num [lastInsertTime, scenarioResampler]) (le_refl _)
  refine ⟨h1, ?_, hs, ?_, ?_⟩
  · rw [startTime_eq_times, h2]; simp [gridTimes]
  · have : round ((-13 / 500 : ℚ) / (1 / 100)) = -3 := by
      rw [round_eq, Int.floor_eq_iff]; norm_num
    simp only [scenarioResampler, this]; norm_num
  · rw [abs_of_pos (by norm_num)]; norm_num [scenarioResampler]

/-- C3 (counterexample): with interval 0.01 and breakpoints at 0.003 and 0.022,
`resample( Partial & )` returns a Partial whose last breakpoint is at 0.02,
before the end time 0.022 of the input. -/
theorem resample_last_time_below_endTime :
    (scenarioResampler.resample stepCollaborators 3 earlyEndPartial).status
      = Status.returned ∧
    (scenarioResampler.resample stepCollaborators 3 earlyEndPartial).state.endTime
      = some (1 / 50) ∧
    earlyEndPartial.endTime = some (11 / 500) ∧
    ¬ ((11 / 500 : ℚ) ≤ 1 / 50) := by
  have hs : earlyEndPartial.startTime = some (3 / 1000) := by
    simp [earlyEndPartial, Partial.startTime]
  have he : earlyEndPartial.endTime = some (11 / 500) := by
    simp [earlyEndPartial, Partial.endTime]
  have hfirst : firstInsertTime scenarioResampler.interval (3 / 1000) = 0 := by
    have : truncToInt (1 / 2 + (3 / 1000 : ℚ) / (1 / 100)) = 0 :=
      truncToInt_of_nonneg (by norm_num) (by norm_num) (by norm_num)
    simp only [firstInsertTime, scenarioResampler, this]; norm_num
  obtain ⟨h1, h2⟩ := resample_times_of scenarioResampler stepCollaborators 3
    earlyEndPartial (by norm_num [scenarioResampler]) 2 hs he hfirst
    (by norm_num [lastInsertTime, scenarioResampler])
    (by norm_num [lastInsertTime, scenarioResampler]) (le_refl _)
  refine ⟨h1, ?_, he, by norm_num⟩
  rw [endTime_eq_times, h2]
  simp [gridTimes, scenarioResampler]; norm_num

/-- C3 (amended): with times as exact rationals, for a positive interval and a
Partial with at least one breakpoint, `resample( Partial & )` returns, and the
last breakpoint time it leaves, when there is one, is greater than the end time
minus half the interval and at most the end time plus half the interval. -/
theorem resample_last_time_near_endTime (r : Resampler) (env : Collaborators) (p : Partial)
    (hI : 0 < r.interval) (hp : p.bps ≠ []) :
    (∃ fuel, (r.resample env fuel p).status = Status.returned) ∧
    ∀ fuel e tl, (r.resample env fuel p).status = Status.returned →
      p.endTime = some e → (r.resample env fuel p).state.endTime = some tl →
      e - r.interval / 2 < tl ∧ tl ≤ e + r.interval / 2 := by
  refine ⟨resample_returns r env p hI hp, fun fuel e tl hret he htl => ?_⟩
  obtain ⟨s, e', hs, he'⟩ := exists_start_end p hp
  rw [resample_endTime r env fuel p hI hs he hret htl]
  exact mul_floor_half_bounds hI

/-- C3 (amended), at interval 0.01 and breakpoints at 0.003 and 0.022. -/
theorem resample_last_time_near_endTime_witness :
    0 < scenarioResampler.interval ∧ earlyEndPartial.bps ≠ [] ∧
    (∃ fuel, (scenarioResampler.resample stepCollaborators fuel earlyEndPartial).status
      = Status.returned) ∧
    ∀ fuel e tl,
      (scenarioResampler.resample stepCollaborators fuel earlyEndPartial).status
        = Status.returned →
      earlyEndPartial.endTime = some e →
      (scenarioResampler.resample stepCollaborators fuel earlyEndPartial).state.endTime
        = some tl →
      e - scenarioResampler.interval / 2 < tl ∧ tl ≤ e + scenarioResampler.interval / 2 :=
  ⟨by norm_num [scenarioResampler], by simp [earlyEndPartial],
    resample_last_time_near_endTime scenarioResampler stepCollaborators earlyEndPartial
      (by norm_num [scenarioResampler]) (by simp [earlyEndPartial])⟩

/-- C4 (amended): with times as exact rationals, for a positive interval and a
Partial with at least one breakpoint, `resample( Partial & )` returns, and when
it leaves at least one breakpoint the last output time is the multiple of the
interval nearest to the end time: it is `interval * ⌊endTime / interval + 1/2⌋`
and differs from the end time by at most half the interval. -/
theorem resample_last_time_nearest (r : Resampler) (env : Collaborators) (p : Partial)
    (hI : 0 < r.interval) (hp : p.bps ≠ []) :
    (∃ fuel, (r.resample env fuel p).status = Status.returned) ∧
    ∀ fuel e tl, (r.resample env fuel p).status = Status.returned →
      p.endTime = some e → (r.resample env fuel p).state.endTime = some tl →
      tl = r.interval * ⌊e / r.interval + 1 / 2⌋ ∧ |tl - e| ≤ r.interval / 2 := by
  refine ⟨resample_returns r env p hI hp, fun fuel e tl hret he htl => ?_⟩
  obtain ⟨s, e', hs, he'⟩ := exists_start_end p hp
  have h := resample_endTime r env fuel p hI hs he hret htl
  refine ⟨h, ?_⟩
  have hb := mul_floor_half_bounds (e := e) hI
  rw [h, abs_le]
  constructor <;> linarith [hb.1, hb.2]

/-- C4 (amended), at the concrete scenario: interval 0.01, breakpoints at 0.003
and 0.027. -/
theorem resample_last_time_nearest_witness :
    0 < scenarioResampler.interval ∧ scenarioPartial.bps ≠ [] ∧
    (∃ fuel, (scenarioResampler.resample stepCollaborators fuel scenarioPartial).status
      = Status.returned) ∧
    ∀ fuel e tl,
      (scenarioResampler.resample stepCollaborators fuel scenarioPartial).status
        = Status.returned →
      scenarioPartial.endTime = some e →
      (scenarioResampler.resample stepCollaborators fuel scenarioPartial).state.endTime
        = some tl →
      tl = scenarioResampler.interval * ⌊e / scenarioResampler.interval + 1 / 2⌋ ∧
      |tl - e| ≤ scenarioResampler.interval / 2 :=
  ⟨by norm_num [scenarioResampler], by simp [scenarioPartial],
    resample_last_time_nearest scenarioResampler stepCollaborators scenarioPartial
      (by norm_num [scenarioResampler]) (by simp [scenarioPartial])⟩

/-- C5: constructing a Resampler with sample interval `x` fails with
InvalidArgument exactly when `x ≤ 0`, and succeeds exactly when `0 < x`, then
with the stored interval `x` and phase correction on; construction with
interval -1 fails, so whatever operation was to follow is not performed. -/
theorem construct_fails_iff_nonpos (x : ℚ) :
    (Resampler.construct x = Except.error Failure.invalidArgument ↔ x ≤ 0) ∧
    (Resampler.construct x = Except.ok ⟨x, true⟩ ↔ 0 < x) ∧
    (∀ r, Resampler.construct x = Except.ok r ↔ (0 < x ∧ r = ⟨x, true⟩)) ∧
    Resampler.construct (-1) = Except.error Failure.invalidArgument ∧
    ∀ operation : Resampler → Except Failure Run,
      (Resampler.construct (-1) >>= operation) = Except.error Failure.invalidArgument := by
  have hneg : Resampler.construct (-1) = Except.error Failure.invalidArgument := by
    unfold Resampler.construct; rw [if_pos (by norm_num)]
  refine ⟨?_, ?_, ?_, hneg, fun operation => by rw [hneg]; rfl⟩
  · unfold Resampler.construct; split_ifs with h <;> simp [h]
  · unfold Resampler.construct; split_ifs with h <;> simp [h, not_lt.mpr, lt_of_not_ge]
  · intro r
    unfold Resampler.construct
    split_ifs with h
    · simp [not_lt.mpr h]
    · simp only [Except.ok.injEq, lt_of_not_ge h, true_and]
      exact eq_comm

/-- C6: with interval 1/100 and a Partial whose breakpoints are at 3/1000 and
27/1000, whatever its label and breakpoint parameters, the collaborators and
the phase-correction flag, `resample( Partial & )` returns a Partial whose
breakpoint times are exactly 0, 1/100, 2/100 and 3/100. -/
theorem resample_scenario_times (env : Collaborators) (phaseCorrect : Bool) (label : Int)
    (bp1 bp2 : Breakpoint) :
    (∃ fuel, (Resampler.resample ⟨1 / 100, phaseCorrect⟩ env fuel
      ⟨label, [(3 / 1000, bp1), (27 / 1000, bp2)]⟩).status = Status.returned) ∧
    ∀ fuel, (Resampler.resample ⟨1 / 100, phaseCorrect⟩ env fuel
        ⟨label, [(3 / 1000, bp1), (27 / 1000, bp2)]⟩).status = Status.returned →
      (Resampler.resample ⟨1 / 100, phaseCorrect⟩ env fuel
        ⟨label, [(3 / 1000, bp1), (27 / 1000, bp2)]⟩).state.times
        = [0, 1 / 100, 2 / 100, 3 / 100] := by
  have hI : (0 : ℚ) < (⟨1 / 100, phaseCorrect⟩ : Resampler).interval := by norm_num
  have hs : (⟨label, [(3 / 1000, bp1), (27 / 1000, bp2)]⟩ : Partial).startTime
      = some (3 / 1000) := by simp [Partial.startTime]
  have he : (⟨label, [(3 / 1000, bp1), (27 / 1000, bp2)]⟩ : Partial).endTime
      = some (27 / 1000) := by simp [Partial.endTime]
  have hfirst : firstInsertTime (⟨1 / 100, phaseCorrect⟩ : Resampler).interval (3 / 1000)
      = 0 := by
    have : truncToInt (1 / 2 + (3 / 1000 : ℚ) / (1 / 100)) = 0 :=
      truncToInt_of_nonneg (by norm_num) (by norm_num) (by norm_num)
    simp only [firstInsertTime, this]; norm_num
  have hn : stepCount (1 / 100) (lastInsertTime (1 / 100) (27 / 1000))
      (firstInsertTime (1 / 100) (3 / 1000)) = 4 := by
    rw [hfirst]
    exact stepCount_eq_succ (by norm_num) 3 (by norm_num [lastInsertTime])
      (by norm_num [lastInsertTime])
  refine ⟨resample_returns _ env _ hI (by simp), fun fuel hret => ?_⟩
  rw [resample_times _ env fuel _ hI hs he hret, hn, hfirst]
  simp [gridTimes]; norm_num

/-! ## Pruning of null breakpoints in the warped `resample` -/

theorem eraseLeadingNulls_eq_dropWhile :
    ∀ l : List (ℚ × Breakpoint), eraseLeadingNulls l = l.dropWhile isNull
  | [] => rfl
  | e :: rest => by
    by_cases h : e.2.amplitude = 0
    · simp [eraseLeadingNulls, List.dropWhile, isNull, h, eraseLeadingNulls_eq_dropWhile rest]
    · simp [eraseLeadingNulls, List.dropWhile, isNull, h]

theorem scanBack_append (l r : List (ℚ × Breakpoint)) :
    ∀ n : Nat, n ≤ l.length → scanBack (l ++ r) n = scanBack l n
  | 0, _ => rfl
  | n + 1, h => by
    have hn : n < l.length := h
    simp only [scanBack, List.getElem?_append_left hn, scanBack_append l r n (by omega)]

theorem scanBack_concat (l : List (ℚ × Breakpoint)) (e : ℚ × Breakpoint) :
    scanBack (l ++ [e]) (l.length + 1) =
      if e.2.amplitude = 0 then scanBack l l.length else l.length := by
  simp only [scanBack, List.getElem?_concat_length, scanBack_append l [e] l.length (le_refl _)]

theorem scanBack_take (l : List (ℚ × Breakpoint)) :
    l ≠ [] → (∀ a, l.head? = some a → a.2.amplitude ≠ 0) →
      scanBack l l.length < l.length ∧
      l.take (scanBack l l.length + 1) = l.rdropWhile isNull := by
  induction l using List.reverseRecOn with
  | nil => intro h; exact absurd rfl h
  | append_singleton l e ih =>
    intro _ hhead
    rw [List.length_append, List.length_singleton, scanBack_concat]
    by_cases he : e.2.amplitude = 0
    · have hl : l ≠ [] := by
        rintro rfl
        exact hhead e (by simp) he
      have hhead' : ∀ a, l.head? = some a → a.2.amplitude ≠ 0 := by
        intro a ha
        apply hhead a
        cases l with
        | nil => exact absurd rfl hl
        | cons b t => simpa using ha
      obtain ⟨h1, h2⟩ := ih hl hhead'
      rw [if_pos he]
      refine ⟨by omega, ?_⟩
      rw [List.rdropWhile_concat_pos _ _ _ (by simp [isNull, he]), ← h2,
        List.take_append_of_le_length (by omega)]
    · rw [if_neg he]
      refine ⟨by omega, ?_⟩
      rw [List.rdropWhile_concat_neg _ _ _ (by simp [isNull, he])]
      have : (l ++ [e]).length = l.length + 1 := by simp
      rw [← this, List.take_length]

theorem head?_dropWhile_isNull (l : List (ℚ × Breakpoint)) (a : ℚ × Breakpoint)
    (h : (l.dropWhile isNull).head? = some a) : a.2.amplitude ≠ 0 := by
  have := List.head?_dropWhile_not isNull l
  rw [h] at this
  simpa [isNull] using this

/-- The two erasures of the code remove exactly the maximal leading and the
maximal trailing run of null breakpoints. -/
theorem eraseNulls_eq_pruneNullEnds (l : List (ℚ × Breakpoint)) :
    eraseTrailingNulls (eraseLeadingNulls l) = pruneNullEnds l := by
  rw [eraseLeadingNulls_eq_dropWhile]
  unfold pruneNullEnds eraseTrailingNulls
  by_cases hd : l.dropWhile isNull = []
  · simp [hd, scanBack]
  · obtain ⟨h1, h2⟩ := scanBack_take _ hd (head?_dropWhile_isNull l)
    simp only [ne_eq, h1.ne, not_false_eq_true, if_true, h2]

theorem exists_rdropWhile_append (l : List (ℚ × Breakpoint)) :
    ∃ t, l = l.rdropWhile isNull ++ t ∧ ∀ x ∈ t, x.2.amplitude = 0 := by
  induction l using List.reverseRecOn with
  | nil => exact ⟨[], by simp⟩
  | append_singleton l e ih =>
    by_cases he : e.2.amplitude = 0
    · obtain ⟨t, h1, h2⟩ := ih
      refine ⟨t ++ [e], ?_, ?_⟩
      · rw [List.rdropWhile_concat_pos _ _ _ (by simp [isNull, he]), ← List.append_assoc, ← h1]
      · intro x hx
        rcases List.mem_append.mp hx with hx | hx
        · exact h2 x hx
        · rw [List.mem_singleton.mp hx]; exact he
    · exact ⟨[], by rw [List.rdropWhile_concat_neg _ _ _ (by simp [isNull, he])]; simp, by simp⟩

/-- The pruned sequence sits inside the sequence it was pruned from, between a
run of null breakpoints and another run of null breakpoints. -/
theorem pruneNullEnds_decomposition (l : List (ℚ × Breakpoint)) :
    ∃ zs1 zs2, l = zs1 ++ pruneNullEnds l ++ zs2 ∧
      (∀ x ∈ zs1, x.2.amplitude = 0) ∧ (∀ x ∈ zs2, x.2.amplitude = 0) := by
  obtain ⟨t, h1, h2⟩ := exists_rdropWhile_append (l.dropWhile isNull)
  refine ⟨l.takeWhile isNull, t, ?_, ?_, h2⟩
  · unfold pruneNullEnds
    rw [List.append_assoc, ← h1, List.takeWhile_append_dropWhile]
  · intro x hx
    simpa [isNull] using List.mem_takeWhile_imp hx

/-- The pruned sequence is empty or starts and ends with a breakpoint of
non-zero amplitude. -/
theorem pruneNullEnds_ends (l : List (ℚ × Breakpoint)) :
    pruneNullEnds l = [] ∨
      ∃ a b, (pruneNullEnds l).head? = some a ∧ (pruneNullEnds l).getLast? = some b ∧
        a.2.amplitude ≠ 0 ∧ b.2.amplitude ≠ 0 := by
  by_cases hnil : pruneNullEnds l = []
  · exact Or.inl hnil
  · right
    obtain ⟨t, ht⟩ : pruneNullEnds l <+: l.dropWhile isNull := List.rdropWhile_prefix _ _
    cases hq : pruneNullEnds l with
    | nil => exact absurd hq hnil
    | cons a rest =>
      have hlast := List.rdropWhile_last_not isNull (l.dropWhile isNull) hnil
      refine ⟨a, (pruneNullEnds l).getLast hnil, rfl, ?_, ?_, ?_⟩
      · rw [← hq]; exact List.getLast?_eq_getLast _ hnil
      · apply head?_dropWhile_isNull l a
        rw [← ht, hq]; rfl
      · simpa [isNull, pruneNullEnds] using hlast

/-! ## The warped `resample` -/

theorem timeAmp_fixFrequency (env : Collaborators) (p : Partial) (m : ℚ) :
    (env.fixFrequency p m).bps.map (fun e => (e.1, e.2.amplitude))
      = p.bps.map (fun e => (e.1, e.2.amplitude)) := by
  simp [Collaborators.fixFrequency, List.map_map, Function.comp_def]

theorem exists_front_back (E : LinearEnvelope) (hE : E.points ≠ []) :
    ∃ front back, E.points.head? = some front ∧ E.points.getLast? = some back := by
  obtain ⟨l, a, h⟩ : ∃ l a, E.points = l ++ [a] :=
    ⟨_, _, (List.dropLast_append_getLast hE).symm⟩
  cases hb : E.points with
  | nil => exact absurd hb hE
  | cons b rest => exact ⟨b, a, rfl, by rw [← hb, h]; simp⟩

/-- What `resample( Partial &, const LinearEnvelope & )` does with a timing
envelope that has a first and a last control point: with enough fuel it
returns the pruned Partial (after the optional frequency fix), with less it
runs out of fuel. -/
theorem resampleTiming_eq (r : Resampler) (env : Collaborators) (fuel : Nat) (p : Partial)
    (E : LinearEnvelope) (hI : 0 < r.interval) {front back : ℚ × ℚ}
    (hf : E.points.head? = some front) (hb : E.points.getLast? = some back) :
    r.resampleTiming env fuel p E =
      if stepCount r.interval (lastInsertTime r.interval back.1)
          (firstInsertTime r.interval front.1) ≤ fuel then
        ⟨Status.returned,
          if r.phaseCorrect ∧ 0 ≠ (pruneNullEnds (naiveSamples r env p E front.1 back.1)).length
          then env.fixFrequency ⟨p.label, pruneNullEnds (naiveSamples r env p E front.1 back.1)⟩
            env.defaultMaxFixPct
          else ⟨p.label, pruneNullEnds (naiveSamples r env p E front.1 back.1)⟩⟩
      else ⟨Status.outOfFuel, p⟩ := by
  have hsize : ¬ E.size = 0 := by
    unfold LinearEnvelope.size
    intro h
    rw [List.length_eq_zero] at h
    rw [h] at hf
    simp at hf
  have hloop := resampleLoop_eq env hI (lastInsertTime r.interval back.1) p
    (fun insertTime => E.valueAt insertTime) fuel
    (firstInsertTime r.interval front.1) (Partial.empty.setLabel p.label)
    (by simp [Partial.empty, Partial.setLabel])
  unfold Resampler.resampleTiming
  simp only [firstInsertTime, lastInsertTime] at hloop
  simp only [hsize, if_false, hf, hb, hloop]
  by_cases hfu : stepCount r.interval (back.1 + 1 / 2 * r.interval)
      (r.interval * ↑(truncToInt (1 / 2 + front.1 / r.interval))) ≤ fuel
  · simp only [firstInsertTime, lastInsertTime, hfu, if_true, Partial.empty, Partial.setLabel,
      List.nil_append, eraseNulls_eq_pruneNullEnds, Partial.numBreakpoints, naiveSamples]
  · simp only [firstInsertTime, lastInsertTime, hfu, if_false]

/-- With enough fuel the warped `resample` returns. -/
theorem resampleTiming_returns (r : Resampler) (env : Collaborators) (p : Partial)
    (E : LinearEnvelope) (hI : 0 < r.interval) (hE : E.points ≠ []) :
    ∃ fuel, (r.resampleTiming env fuel p E).status = Status.returned := by
  obtain ⟨front, back, hf, hb⟩ := exists_front_back E hE
  refine ⟨stepCount r.interval (lastInsertTime r.interval back.1)
    (firstInsertTime r.interval front.1), ?_⟩
  rw [resampleTiming_eq r env _ p E hI hf hb]
  simp

/-- C7: for a timing envelope with at least one control point (and the positive
interval every Resampler has), the warped `resample` returns, and what it leaves
is empty or has a first and a last breakpoint of non-zero amplitude; it is the
naive sampling with its maximal leading and trailing runs of zero-amplitude
breakpoints removed (followed, under phase correction, by the frequency fix,
which keeps times and amplitudes), so the naive sampling is a run of nulls, then
the output's breakpoints with every interior null, then a run of nulls. -/
theorem resampleTiming_prunes_null_ends (r : Resampler) (env : Collaborators) (p : Partial)
    (E : LinearEnvelope) (hI : 0 < r.interval) (hE : E.points ≠ []) :
    (∃ fuel, (r.resampleTiming env fuel p E).status = Status.returned) ∧
    ∀ fuel, (r.resampleTiming env fuel p E).status = Status.returned →
      ∃ front back, E.points.head? = some front ∧ E.points.getLast? = some back ∧
        ((r.resampleTiming env fuel p E).state.bps = [] ∨
          ∃ a b, (r.resampleTiming env fuel p E).state.bps.head? = some a ∧
            (r.resampleTiming env fuel p E).state.bps.getLast? = some b ∧
            a.2.amplitude ≠ 0 ∧ b.2.amplitude ≠ 0) ∧
        (r.resampleTiming env fuel p E).state.bps.map (fun e => (e.1, e.2.amplitude))
          = (pruneNullEnds (naiveSamples r env p E front.1 back.1)).map
              (fun e => (e.1, e.2.amplitude)) ∧
        (r.phaseCorrect = false → (r.resampleTiming env fuel p E).state.bps
          = pruneNullEnds (naiveSamples r env p E front.1 back.1)) ∧
        (r.phaseCorrect = true → (r.resampleTiming env fuel p E).state
          = env.fixFrequency ⟨p.label, pruneNullEnds (naiveSamples r env p E front.1 back.1)⟩
              env.defaultMaxFixPct) ∧
        ∃ zs1 zs2, naiveSamples r env p E front.1 back.1
            = zs1 ++ pruneNullEnds (naiveSamples r env p E front.1 back.1) ++ zs2 ∧
          (∀ x ∈ zs1, x.2.amplitude = 0) ∧ (∀ x ∈ zs2, x.2.amplitude = 0) := by
  refine ⟨resampleTiming_returns r env p E hI hE, fun fuel hret => ?_⟩
  obtain ⟨front, back, hf, hb⟩ := exists_front_back E hE
  refine ⟨front, back, hf, hb, ?_⟩
  have heq := resampleTiming_eq r env fuel p E hI hf hb
  generalize naiveSamples r env p E front.1 back.1 = naive at heq ⊢
  have hfu : stepCount r.interval (lastInsertTime r.interval back.1)
      (firstInsertTime r.interval front.1) ≤ fuel := by
    by_contra hc
    rw [heq, if_neg hc] at hret
    simp at hret
  rw [if_pos hfu] at heq
  have hfix0 : ∀ l : Int, env.fixFrequency ⟨l, []⟩ env.defaultMaxFixPct = ⟨l, []⟩ := by
    intro l; simp [Collaborators.fixFrequency]
  have hta : (r.resampleTiming env fuel p E).state.bps.map (fun e => (e.1, e.2.amplitude))
      = (pruneNullEnds naive).map (fun e => (e.1, e.2.amplitude)) := by
    rw [heq]
    dsimp only
    split_ifs
    · rw [timeAmp_fixFrequency]
    · rfl
  refine ⟨?_, hta, ?_, ?_, pruneNullEnds_decomposition naive⟩
  · rcases pruneNullEnds_ends naive with h0 | ⟨a, b, ha, hb', hna, hnb⟩
    · left
      rw [h0] at hta
      simpa using hta
    · right
      have h1 := congrArg List.head? hta
      have h2 := congrArg List.getLast? hta
      rw [List.head?_map, List.head?_map, ha] at h1
      rw [List.getLast?_map, List.getLast?_map, hb'] at h2
      cases hh : (r.resampleTiming env fuel p E).state.bps.head? with
      | none => rw [hh] at h1; simp at h1
      | some a' =>
        cases hl : (r.resampleTiming env fuel p E).state.bps.getLast? with
        | none => rw [hl] at h2; simp at h2
        | some b' =>
          rw [hh] at h1; rw [hl] at h2
          simp only [Option.map_some', Option.some.injEq, Prod.mk.injEq] at h1 h2
          exact ⟨a', b', rfl, rfl, by rw [h1.2]; exact hna, by rw [h2.2]; exact hnb⟩
  · intro hpc
    rw [heq]; simp [hpc]
  · intro hpc
    rw [heq]
    dsimp only
    split_ifs with h
    · rfl
    · have hlen : (pruneNullEnds naive).length = 0 := by
        by_contra hc
        exact h ⟨hpc, fun h0 => hc h0.symm⟩
      rw [List.length_eq_zero.mp hlen, hfix0]

/-- C7, at the concrete scenario with a timing envelope of two control points. -/
theorem resampleTiming_prunes_null_ends_witness :
    0 < scenarioResampler.interval ∧ identityEnvelope.points ≠ [] ∧
    ((∃ fuel, (scenarioResampler.resampleTiming stepCollaborators fuel scenarioPartial identityEnvelope).status = Status.returned) ∧
    ∀ fuel, (scenarioResampler.resampleTiming stepCollaborators fuel scenarioPartial identityEnvelope).status = Status.returned →
      ∃ front back, identityEnvelope.points.head? = some front ∧ identityEnvelope.points.getLast? = some back ∧
        ((scenarioResampler.resampleTiming stepCollaborators fuel scenarioPartial identityEnvelope).state.bps = [] ∨
          ∃ a b, (scenarioResampler.resampleTiming stepCollaborators fuel scenarioPartial identityEnvelope).state.bps.head? = some a ∧
            (scenarioResampler.resampleTiming stepCollaborators fuel scenarioPartial identityEnvelope).state.bps.getLast? = some b ∧
            a.2.amplitude ≠ 0 ∧ b.2.amplitude ≠ 0) ∧
        (scenarioResampler.resampleTiming stepCollaborators fuel scenarioPartial identityEnvelope).state.bps.map (fun e => (e.1, e.2.amplitude))
          = (pruneNullEnds (naiveSamples scenarioResampler stepCollaborators scenarioPartial identityEnvelope front.1 back.1)).map
              (fun e => (e.1, e.2.amplitude)) ∧
        (scenarioResampler.phaseCorrect = false → (scenarioResampler.resampleTiming stepCollaborators fuel scenarioPartial identityEnvelope).state.bps
          = pruneNullEnds (naiveSamples scenarioResampler stepCollaborators scenarioPartial identityEnvelope front.1 back.1)) ∧
        (scenarioResampler.phaseCorrect = true → (scenarioResampler.resampleTiming stepCollaborators fuel scenarioPartial identityEnvelope).state
          = stepCollaborators.fixFrequency ⟨scenarioPartial.label, pruneNullEnds (naiveSamples scenarioResampler stepCollaborators scenarioPartial identityEnvelope front.1 back.1)⟩
              stepCollaborators.defaultMaxFixPct) ∧
        ∃ zs1 zs2, naiveSamples scenarioResampler stepCollaborators scenarioPartial identityEnvelope front.1 back.1
            = zs1 ++ pruneNullEnds (naiveSamples scenarioResampler stepCollaborators scenarioPartial identityEnvelope front.1 back.1) ++ zs2 ∧
          (∀ x ∈ zs1, x.2.amplitude = 0) ∧ (∀ x ∈ zs2, x.2.amplitude = 0)) :=
  ⟨by norm_num [scenarioResampler], by simp [identityEnvelope],
    resampleTiming_prunes_null_ends scenarioResampler stepCollaborators scenarioPartial
      identityEnvelope (by norm_num [scenarioResampler]) (by simp [identityEnvelope])⟩

/-- C8: called with a timing envelope without control points, the warped
`resample` fails with an assertion failure, whatever the fuel, and the caller's
Partial is what it was before the call: same label, same breakpoints. -/
theorem resampleTiming_empty_envelope (r : Resampler) (env : Collaborators) (fuel : Nat)
    (p : Partial) :
    (r.resampleTiming env fuel p ⟨[]⟩).status = Status.threw Failure.assertionFailure ∧
    (r.resampleTiming env fuel p ⟨[]⟩).state = p ∧
    (r.resampleTiming env fuel p ⟨[]⟩).state.label = p.label ∧
    (r.resampleTiming env fuel p ⟨[]⟩).state.bps = p.bps := by
  simp [Resampler.resampleTiming, LinearEnvelope.size]

/-- The warped `resample` never raises InvalidArgument. -/
theorem resampleTiming_status (r : Resampler) (env : Collaborators) (fuel : Nat)
    (p : Partial) (E : LinearEnvelope) :
    (r.resampleTiming env fuel p E).status ≠ Status.threw Failure.invalidArgument := by
  unfold Resampler.resampleTiming
  split_ifs
  · simp
  · split
    · dsimp only
      split <;> simp
    · simp

/-- C9 (the code at an input that breaks the claim): with a timing envelope
that has a negative control-point time and a negative value, the warped
`resample` returns normally instead of raising InvalidArgument. -/
theorem resampleTiming_negative_envelope_returns :
    (scenarioResampler.resampleTiming stepCollaborators 4 scenarioPartial
      negativeEnvelope).status = Status.returned ∧
    (scenarioResampler.resampleTiming stepCollaborators 4 scenarioPartial
      negativeEnvelope).status ≠ Status.threw Failure.invalidArgument := by
  have hf : negativeEnvelope.points.head? = some (-1 / 50, -1) := by simp [negativeEnvelope]
  have hb : negativeEnvelope.points.getLast? = some (1 / 50, 1 / 100) := by
    simp [negativeEnvelope]
  have hfirst : firstInsertTime scenarioResampler.interval (-1 / 50) = -1 / 100 := by
    have : truncToInt (1 / 2 + (-1 / 50 : ℚ) / (1 / 100)) = -1 :=
      truncToInt_of_neg (by norm_num) (by norm_num) (by norm_num)
    simp only [firstInsertTime, scenarioResampler, this]; norm_num
  have hn : stepCount scenarioResampler.interval
      (lastInsertTime scenarioResampler.interval (1 / 50))
      (firstInsertTime scenarioResampler.interval (-1 / 50)) = 4 := by
    rw [hfirst]
    exact stepCount_eq_succ (by norm_num [scenarioResampler]) 3
      (by norm_num [lastInsertTime, scenarioResampler])
      (by norm_num [lastInsertTime, scenarioResampler])
  have hret : (scenarioResampler.resampleTiming stepCollaborators 4 scenarioPartial
      negativeEnvelope).status = Status.returned := by
    rw [resampleTiming_eq scenarioResampler stepCollaborators 4 scenarioPartial negativeEnvelope
      (by norm_num [scenarioResampler]) hf hb, hn]
    simp
  exact ⟨hret, by rw [hret]; simp⟩

/-! ## `quantize` -/

/-- What `quantize( Partial & )` does where its behaviour is defined: it returns
the Partial that the rounds of its loop build, after the frequency fix under
phase correction. -/
theorem quantize_of_defined (r : Resampler) (env : Collaborators) (p : Partial)
    (h : ¬ (r.phaseCorrect = true ∧ p.bps = [])) :
    r.quantize env p = ⟨Status.returned,
      if r.phaseCorrect then
        env.fixFrequency ((phaseFixed r env p).bps.foldl
          (Resampler.quantizeStep r env (phaseFixed r env p))
          (Partial.empty.setLabel (phaseFixed r env p).label)) 5
      else (phaseFixed r env p).bps.foldl
        (Resampler.quantizeStep r env (phaseFixed r env p))
        (Partial.empty.setLabel (phaseFixed r env p).label)⟩ := by
  unfold Resampler.quantize phaseFixed
  rw [if_neg h]

theorem quantize_of_undefined (r : Resampler) (env : Collaborators) (p : Partial)
    (h : r.phaseCorrect = true ∧ p.bps = []) :
    r.quantize env p = ⟨Status.undefined, p⟩ := by
  unfold Resampler.quantize
  rw [if_pos h]

theorem defined_of_ne_nil (r : Resampler) {p : Partial} (hp : p.bps ≠ []) :
    ¬ (r.phaseCorrect = true ∧ p.bps = []) := fun h => hp h.2

theorem quantize_status_of_ne_nil (r : Resampler) (env : Collaborators) {p : Partial}
    (hp : p.bps ≠ []) : (r.quantize env p).status = Status.returned := by
  rw [quantize_of_defined r env p (defined_of_ne_nil r hp)]

theorem quantize_status_of_plain (r : Resampler) (env : Collaborators) (p : Partial)
    (hpc : r.phaseCorrect = false) : (r.quantize env p).status = Status.returned := by
  rw [quantize_of_defined r env p (fun h => by rw [hpc] at h; exact Bool.noConfusion h.1)]

theorem times_modifyAt (p : Partial) (t : ℚ) (f : Breakpoint → Breakpoint) :
    (p.modifyAt t f).times = p.times := by
  unfold Partial.modifyAt Partial.times
  rw [List.map_map]
  apply List.map_congr_left
  intro e _
  by_cases h : e.1 = t <;> simp [h]

theorem length_modifyAt (p : Partial) (t : ℚ) (f : Breakpoint → Breakpoint) :
    (p.modifyAt t f).bps.length = p.bps.length := by
  simp [Partial.modifyAt]

theorem mem_times_insert (p : Partial) (t : ℚ) (bp : Breakpoint) (u : ℚ)
    (h : u ∈ (p.insert t bp).times) : u = t ∨ u ∈ p.times := by
  unfold Partial.times at h ⊢
  obtain ⟨e, he, rfl⟩ := List.mem_map.mp h
  rcases mem_insertBp t bp e p.bps he with h1 | h1
  · left; rw [h1]
  · right; exact List.mem_map.mpr ⟨e, h1, rfl⟩

/-- The times and the length of the Partial built by `quantize`: a round adds
at most one breakpoint, at a multiple of the interval. -/
theorem quantizeStep_inv (r : Resampler) (env : Collaborators) (p newp : Partial)
    (entry : ℚ × Breakpoint) (n : Nat)
    (h1 : ∀ t ∈ newp.times, ∃ k : ℤ, t = k * r.interval) (h2 : newp.bps.length ≤ n) :
    (∀ t ∈ (Resampler.quantizeStep r env p newp entry).times, ∃ k : ℤ, t = k * r.interval) ∧
    (Resampler.quantizeStep r env p newp entry).bps.length ≤ n + 1 := by
  have hins : ∀ bp, ∀ t ∈ (newp.insert
      (r.interval * truncToInt (1 / 2 + entry.1 / r.interval)) bp).times,
      ∃ k : ℤ, t = k * r.interval := by
    intro bp t ht
    rcases mem_times_insert _ _ _ _ ht with h | h
    · exact ⟨truncToInt (1 / 2 + entry.1 / r.interval), by rw [h]; ring⟩
    · exact h1 t h
  have hlen : ∀ bp, (newp.insert
      (r.interval * truncToInt (1 / 2 + entry.1 / r.interval)) bp).bps.length ≤ n + 1 := by
    intro bp
    have := length_insertBp_le (r.interval * truncToInt (1 / 2 + entry.1 / r.interval)) bp
      newp.bps
    simp only [Partial.insert]; omega
  unfold Resampler.quantizeStep
  dsimp only
  split_ifs <;>
    first
    | exact ⟨h1, by omega⟩
    | exact ⟨hins _, hlen _⟩
    | (simp only [times_modifyAt, length_modifyAt]; exact ⟨hins _, hlen _⟩)

theorem quantize_foldl_inv (r : Resampler) (env : Collaborators) (p : Partial) :
    ∀ (l : List (ℚ × Breakpoint)) (newp : Partial) (n : Nat),
      (∀ t ∈ newp.times, ∃ k : ℤ, t = k * r.interval) → newp.bps.length ≤ n →
      (∀ t ∈ (l.foldl (Resampler.quantizeStep r env p) newp).times,
        ∃ k : ℤ, t = k * r.interval) ∧
      (l.foldl (Resampler.quantizeStep r env p) newp).bps.length ≤ n + l.length
  | [], newp, n, h1, h2 => ⟨h1, by simpa using h2⟩
  | entry :: rest, newp, n, h1, h2 => by
    obtain ⟨h3, h4⟩ := quantizeStep_inv r env p newp entry n h1 h2
    obtain ⟨h5, h6⟩ := quantize_foldl_inv r env p rest _ (n + 1) h3 h4
    refine ⟨h5, ?_⟩
    simp only [List.foldl_cons, List.length_cons]
    omega

/-- C10: for a positive interval and a Partial with at least one breakpoint,
`quantize( Partial & )` returns, every breakpoint time it leaves is an integer
multiple of the interval, and it leaves at most as many breakpoints as the
Partial had. -/
theorem quantize_times_on_grid_and_count (r : Resampler) (env : Collaborators) (p : Partial)
    (_hI : 0 < r.interval) (hp : p.bps ≠ []) :
    (r.quantize env p).status = Status.returned ∧
    (∀ t ∈ (r.quantize env p).state.times, ∃ k : ℤ, t = k * r.interval) ∧
    (r.quantize env p).state.numBreakpoints ≤ p.numBreakpoints := by
  have hlen : (phaseFixed r env p).bps.length = p.bps.length := by
    have := congrArg List.length (times_phaseFixed r env p)
    simpa [Partial.times] using this
  obtain ⟨h1, h2⟩ := quantize_foldl_inv r env (phaseFixed r env p) (phaseFixed r env p).bps
    (Partial.empty.setLabel (phaseFixed r env p).label) 0
    (by simp [Partial.empty, Partial.setLabel, Partial.times])
    (by simp [Partial.empty, Partial.setLabel])
  rw [hlen, Nat.zero_add] at h2
  rw [quantize_of_defined r env p (defined_of_ne_nil r hp)]
  unfold Partial.numBreakpoints
  dsimp only
  refine ⟨rfl, ?_, ?_⟩
  · split_ifs with hpc
    · rw [times_fixFrequency]; exact h1
    · exact h1
  · split_ifs with hpc
    · have hl : ∀ q : Partial, (env.fixFrequency q 5).bps.length = q.bps.length := by
        intro q; simp [Collaborators.fixFrequency]
      rw [hl]; exact h2
    · exact h2

/-- C10, at the concrete scenario: interval 0.01, breakpoints at 0.003 and 0.027. -/
theorem quantize_times_on_grid_and_count_witness :
    0 < scenarioResampler.interval ∧ scenarioPartial.bps ≠ [] ∧
    (scenarioResampler.quantize stepCollaborators scenarioPartial).status = Status.returned ∧
    (∀ t ∈ (scenarioResampler.quantize stepCollaborators scenarioPartial).state.times,
      ∃ k : ℤ, t = k * scenarioResampler.interval) ∧
    (scenarioResampler.quantize stepCollaborators scenarioPartial).state.numBreakpoints
      ≤ scenarioPartial.numBreakpoints :=
  ⟨by norm_num [scenarioResampler], by simp [scenarioPartial],
    quantize_times_on_grid_and_count scenarioResampler stepCollaborators scenarioPartial
      (by norm_num [scenarioResampler]) (by simp [scenarioPartial])⟩

/-! ## `quantize`: the output is ordered by time -/

theorem insertBp_pairwise (t : ℚ) (bp : Breakpoint) :
    ∀ l : List (ℚ × Breakpoint), (l.map Prod.fst).Pairwise (· < ·) →
      ((insertBp t bp l).map Prod.fst).Pairwise (· < ·)
  | [], _ => by simp [insertBp]
  | (u, b) :: rest, h => by
    rw [List.map_cons, List.pairwise_cons] at h
    obtain ⟨hu, hrest⟩ := h
    simp only [insertBp]
    split_ifs with h1 h2
    · simp only [List.map_cons, List.pairwise_cons, List.mem_cons, List.mem_map]
      refine ⟨?_, ?_, hrest⟩
      · rintro x (rfl | ⟨e, he, rfl⟩)
        · exact h1
        · exact lt_trans h1 (hu e.1 (List.mem_map.mpr ⟨e, he, rfl⟩))
      · rintro x ⟨e, he, rfl⟩
        exact hu e.1 (List.mem_map.mpr ⟨e, he, rfl⟩)
    · simp only [List.map_cons, List.pairwise_cons]
      exact ⟨fun x hx => h2 ▸ hu x hx, hrest⟩
    · have hut : u < t := lt_of_le_of_ne (not_lt.mp h1) (fun h => h2 h.symm)
      simp only [List.map_cons, List.pairwise_cons]
      refine ⟨?_, insertBp_pairwise t bp rest hrest⟩
      rintro x hx
      obtain ⟨e, he, rfl⟩ := List.mem_map.mp hx
      rcases mem_insertBp t bp e rest he with h3 | h3
      · rw [h3]; exact hut
      · exact hu e.1 (List.mem_map.mpr ⟨e, h3, rfl⟩)

theorem quantizeStep_pairwise (r : Resampler) (env : Collaborators) (p newp : Partial)
    (entry : ℚ × Breakpoint) (h : newp.times.Pairwise (· < ·)) :
    (Resampler.quantizeStep r env p newp entry).times.Pairwise (· < ·) := by
  have hins : ∀ t bp, (newp.insert t bp).times.Pairwise (· < ·) := fun t bp =>
    insertBp_pairwise t bp newp.bps h
  unfold Resampler.quantizeStep
  dsimp only
  split_ifs <;>
    first
    | exact h
    | exact hins _ _
    | (simp only [times_modifyAt]; exact hins _ _)

theorem quantize_foldl_pairwise (r : Resampler) (env : Collaborators) (p : Partial) :
    ∀ (l : List (ℚ × Breakpoint)) (newp : Partial), newp.times.Pairwise (· < ·) →
      (l.foldl (Resampler.quantizeStep r env p) newp).times.Pairwise (· < ·)
  | [], _, h => h
  | entry :: rest, newp, h =>
    quantize_foldl_pairwise r env p rest _ (quantizeStep_pairwise r env p newp entry h)

/-- The breakpoint times that `quantize( Partial & )` leaves strictly increase. -/
theorem quantize_times_pairwise (r : Resampler) (env : Collaborators) (p : Partial) :
    (r.quantize env p).state.times.Pairwise (· < ·) := by
  have h := quantize_foldl_pairwise r env (phaseFixed r env p) (phaseFixed r env p).bps
    (Partial.empty.setLabel (phaseFixed r env p).label)
    (by simp [Partial.empty, Partial.setLabel, Partial.times])
  by_cases hg : r.phaseCorrect = true ∧ p.bps = []
  · rw [quantize_of_undefined r env p hg]
    simp [Partial.times, hg.2]
  · rw [quantize_of_defined r env p hg]
    dsimp only
    split_ifs with hpc
    · rw [times_fixFrequency]; exact h
    · exact h

/-- C11: for a positive interval and a Partial with at least one breakpoint, the
breakpoint times that `quantize( Partial & )` leaves strictly increase, so two
distinct output breakpoints of non-zero amplitude never lie at the same multiple
of the interval. -/
theorem quantize_nonnull_distinct_steps (r : Resampler) (env : Collaborators) (p : Partial)
    (_hI : 0 < r.interval) (hp : p.bps ≠ []) :
    (r.quantize env p).status = Status.returned ∧
    (r.quantize env p).state.WellFormed ∧
    ∀ (i j : Nat) (a b : ℚ × Breakpoint),
      (r.quantize env p).state.bps[i]? = some a →
      (r.quantize env p).state.bps[j]? = some b → i ≠ j →
      a.2.amplitude ≠ 0 → b.2.amplitude ≠ 0 →
      ∀ k1 k2 : ℤ, a.1 = k1 * r.interval → b.1 = k2 * r.interval → k1 ≠ k2 := by
  have hpw := quantize_times_pairwise r env p
  refine ⟨quantize_status_of_ne_nil r env hp, List.chain'_iff_pairwise.mpr hpw, ?_⟩
  intro i j a b hia hjb hij _ _ k1 k2 h1 h2 hk
  have hab : a.1 = b.1 := by rw [h1, h2, hk]
  have hti : (r.quantize env p).state.times[i]? = some a.1 := by
    simp [Partial.times, hia]
  have htj : (r.quantize env p).state.times[j]? = some b.1 := by
    simp [Partial.times, hjb]
  obtain ⟨hi, hi'⟩ := List.getElem?_eq_some.mp hti
  obtain ⟨hj, hj'⟩ := List.getElem?_eq_some.mp htj
  rw [List.pairwise_iff_getElem] at hpw
  rcases Nat.lt_or_gt_of_ne hij with h | h
  · have := hpw i j hi hj h
    rw [hi', hj', hab] at this
    exact lt_irrefl _ this
  · have := hpw j i hj hi h
    rw [hi', hj', hab] at this
    exact lt_irrefl _ this

/-- C11, at a Partial with two breakpoints that round to the same grid step. -/
theorem quantize_nonnull_distinct_steps_witness :
    0 < scenarioResampler.interval ∧ crowdedPartial.bps ≠ [] ∧
    (scenarioResampler.quantize stepCollaborators crowdedPartial).status = Status.returned ∧
    (scenarioResampler.quantize stepCollaborators crowdedPartial).state.WellFormed ∧
    ∀ (i j : Nat) (a b : ℚ × Breakpoint),
      (scenarioResampler.quantize stepCollaborators crowdedPartial).state.bps[i]? = some a →
      (scenarioResampler.quantize stepCollaborators crowdedPartial).state.bps[j]? = some b →
      i ≠ j → a.2.amplitude ≠ 0 → b.2.amplitude ≠ 0 →
      ∀ k1 k2 : ℤ, a.1 = k1 * scenarioResampler.interval →
        b.1 = k2 * scenarioResampler.interval → k1 ≠ k2 :=
  ⟨by norm_num [scenarioResampler], by simp [crowdedPartial],
    quantize_nonnull_distinct_steps scenarioResampler stepCollaborators crowdedPartial
      (by norm_num [scenarioResampler]) (by simp [crowdedPartial])⟩

/-! ## The result of the uniform-grid `resample` -/

theorem mem_gridSamples (sample : ℚ → Breakpoint) (interval : ℚ) :
    ∀ (n : Nat) (t : ℚ) (x : ℚ × Breakpoint),
      x ∈ gridSamples sample interval n t ↔
        ∃ i : Nat, i < n ∧ x = (t + i * interval, sample (t + i * interval))
  | 0, t, x => by simp [gridSamples]
  | n + 1, t, x => by
    simp only [gridSamples, List.mem_cons, mem_gridSamples sample interval n]
    constructor
    · rintro (h | ⟨i, hi, h⟩)
      · exact ⟨0, by omega, by simp [h]⟩
      · refine ⟨i + 1, by omega, ?_⟩
        have e : t + interval + (i : ℚ) * interval = t + ((i + 1 : ℕ) : ℚ) * interval := by
          push_cast; ring
        rw [h, e]
    · rintro ⟨i, hi, h⟩
      cases i with
      | zero => left; simpa using h
      | succ j =>
        right
        refine ⟨j, by omega, ?_⟩
        have e : t + interval + (j : ℚ) * interval = t + ((j + 1 : ℕ) : ℚ) * interval := by
          push_cast; ring
        rw [h, e]

theorem lt_stepCount_iff {interval last t : ℚ} (hI : 0 < interval) (i : Nat) :
    i < stepCount interval last t ↔ t + i * interval ≤ last := by
  unfold stepCount
  rw [Int.lt_toNat, Int.lt_add_one_iff, Int.le_floor, le_div_iff₀ hI]
  constructor <;> intro h <;> push_cast at h ⊢ <;> linarith

namespace Store

variable {T : Type}

theorem handle?_eq_some {s : Store T} {i : Nat} {h : Ptr} :
    s.handle? i = some h ↔ s.handles[i]? = some (some h) := by
  unfold handle?
  cases hq : s.handles[i]? with
  | none => simp
  | some o => cases o <;> simp

theorem mem_of_handle? {s : Store T} {i : Nat} {h : Ptr} (hi : s.handle? i = some h) :
    some h ∈ s.handles :=
  List.mem_iff_getElem?.mpr ⟨i, handle?_eq_some.mp hi⟩

theorem countHandles_append_some (hs : List (Option Ptr)) (h : Ptr) (P : Ptr → Bool) :
    countHandles (hs ++ [some h]) P = countHandles hs P + (if P h then 1 else 0) := by
  unfold countHandles
  rw [List.countP_append]
  by_cases hP : P h <;> simp [List.countP_cons, hP]

theorem countHandles_set (P : Ptr → Bool) (h0 : Ptr) (o : Option Ptr) :
    ∀ (hs : List (Option Ptr)) (i : Nat), hs[i]? = some (some h0) →
      countHandles (hs.set i o) P + (if P h0 then 1 else 0) =
        countHandles hs P + (match o with
          | some h => if P h then 1 else 0
          | none => 0)
  | [], i, hi => by simp at hi
  | x :: rest, 0, hi => by
    simp only [List.getElem?_cons_zero, Option.some.injEq] at hi
    subst hi
    unfold countHandles
    cases o with
    | none => by_cases hP : P h0 <;> simp [List.countP_cons, hP]
    | some h => by_cases hP : P h0 <;> by_cases hQ : P h <;> simp [List.countP_cons, hP, hQ]
  | x :: rest, i + 1, hi => by
    simp only [List.getElem?_cons_succ] at hi
    have ih := countHandles_set P h0 o rest i hi
    unfold countHandles at ih ⊢
    simp only [List.set_cons_succ, List.countP_cons]
    omega

theorem countHandles_pos_iff (hs : List (Option Ptr)) (P : Ptr → Bool) :
    0 < countHandles hs P ↔ ∃ h, some h ∈ hs ∧ P h = true := by
  unfold countHandles
  rw [List.countP_pos_iff]
  constructor
  · rintro ⟨o, ho, hP⟩
    cases o with
    | none => simp at hP
    | some h => exact ⟨h, ho, hP⟩
  · rintro ⟨h, hh, hP⟩
    exact ⟨some h, hh, hP⟩

theorem countHandles_eq_zero_iff (hs : List (Option Ptr)) (P : Ptr → Bool) :
    countHandles hs P = 0 ↔ ∀ h, some h ∈ hs → P h = false := by
  have := countHandles_pos_iff hs P
  constructor
  · intro h0 h hh
    by_contra hc
    have : 0 < countHandles hs P := this.mpr ⟨h, hh, by simpa using hc⟩
    omega
  · intro hall
    by_contra hc
    obtain ⟨h, hh, hP⟩ := this.mp (Nat.pos_of_ne_zero hc)
    rw [hall h hh] at hP
    exact Bool.false_ne_true hP

theorem countHandles_congr (hs : List (Option Ptr)) (P Q : Ptr → Bool)
    (hPQ : ∀ h, some h ∈ hs → P h = Q h) : countHandles hs P = countHandles hs Q := by
  unfold countHandles
  apply List.countP_congr
  intro o ho
  cases o with
  | none => simp
  | some h => simp [hPQ h ho]

/-- Under the invariant the variables that refer to an object are those that
refer to its counter. -/
theorem objRefs_eq_refs {s : Store T} (inv : RefCountInvariant s) {h : Ptr} {a : Nat}
    (hh : some h ∈ s.handles) (ha : h.p = some a) : s.objRefs a = s.refs h.refptr := by
  unfold objRefs refs
  apply countHandles_congr
  intro h1 hh1
  by_cases hc : h1.refptr = h.refptr
  · have := inv.same_object h1 h hh1 hh hc
    simp [hc, this, ha]
  · have : h1.p ≠ some a := fun hp => hc (inv.same_counter h1 h a hh1 hh hp ha)
    simp [hc, this]

theorem refs_pos {s : Store T} {h : Ptr} (hh : some h ∈ s.handles) : 0 < s.refs h.refptr :=
  (countHandles_pos_iff _ _).mpr ⟨h, hh, by simp⟩

theorem objRefs_pos {s : Store T} {h : Ptr} {a : Nat} (hh : some h ∈ s.handles)
    (ha : h.p = some a) : 0 < s.objRefs a :=
  (countHandles_pos_iff _ _).mpr ⟨h, hh, by simp [ha]⟩

theorem refs_eq_zero_of_fresh {s : Store T} (inv : RefCountInvariant s) {c : Nat}
    (hc : s.next ≤ c) : s.refs c = 0 := by
  apply (countHandles_eq_zero_iff _ _).mpr
  intro h hh
  have := (inv.fresh h hh).1
  simp; omega

theorem objRefs_eq_zero_of_fresh {s : Store T} (inv : RefCountInvariant s) {a : Nat}
    (hc : s.next ≤ a) : s.objRefs a = 0 := by
  apply (countHandles_eq_zero_iff _ _).mpr
  intro h hh
  simp only [decide_eq_false_iff_not]
  intro hp
  have := (inv.fresh h hh).2 a hp
  omega

theorem readCount_eq_refs {s : Store T} (inv : RefCountInvariant s) (c : Nat) :
    s.readCount c = s.refs c := by
  unfold readCount
  rw [inv.counter_eq c]
  split_ifs with h <;> simp [h]

/-! ## The copy-on-write pointer: every operation keeps the invariant -/

theorem invariant_empty : RefCountInvariant (Store.empty : Store T) where
  counter_eq := by intro c; simp [Store.empty, refs, countHandles]
  object_iff := by intro a; simp [Store.empty, objRefs, countHandles]
  same_object := by intro h h1 hh; simp [Store.empty] at hh
  same_counter := by intro h h1 a hh; simp [Store.empty] at hh
  fresh := by intro h hh; simp [Store.empty] at hh

theorem mem_append_some {hs : List (Option Ptr)} {h h0 : Ptr}
    (hh : some h ∈ hs ++ [some h0]) : some h ∈ hs ∨ h = h0 := by
  rcases List.mem_append.mp hh with h1 | h1
  · exact Or.inl h1
  · right; simpa using h1

theorem invariant_newUnbound {s : Store T} (inv : RefCountInvariant s) :
    RefCountInvariant s.newUnbound := by
  have hrefs : ∀ c, s.newUnbound.refs c = s.refs c + (if s.next = c then 1 else 0) := by
    intro c
    simp only [refs, newUnbound, countHandles_append_some, decide_eq_true_eq]
  have hobj : ∀ a, s.newUnbound.objRefs a = s.objRefs a := by
    intro a
    simp [objRefs, newUnbound, countHandles_append_some]
  have hfresh := refs_eq_zero_of_fresh inv (le_refl s.next)
  constructor
  · intro c
    rw [hrefs]
    by_cases hc : s.next = c
    · subst hc
      simp [newUnbound, hfresh]
    · have hc1 : c ≠ s.next := fun h => hc h.symm
      simp only [newUnbound, Function.update_noteq hc1, hc, if_false, Nat.add_zero]
      exact inv.counter_eq c
  · intro a
    rw [hobj]
    exact inv.object_iff a
  · intro h h1 hh hh1 hc
    rcases mem_append_some hh with m | rfl <;> rcases mem_append_some hh1 with m1 | rfl
    · exact inv.same_object h h1 m m1 hc
    · have := (inv.fresh h m).1
      simp at hc; omega
    · have := (inv.fresh h1 m1).1
      simp at hc; omega
    · rfl
  · intro h h1 a hh hh1 ha ha1
    rcases mem_append_some hh with m | rfl <;> rcases mem_append_some hh1 with m1 | rfl
    · exact inv.same_counter h h1 a m m1 ha ha1
    · simp at ha1
    · simp at ha
    · rfl
  · intro h hh
    rcases mem_append_some hh with m | rfl
    · obtain ⟨h1, h2⟩ := inv.fresh h m
      exact ⟨by simp only [newUnbound]; omega,
        fun a ha => by have := h2 a ha; simp only [newUnbound]; omega⟩
    · exact ⟨by simp [newUnbound], fun a ha => by simp at ha⟩

theorem invariant_newBound {s : Store T} (v : T) (inv : RefCountInvariant s) :
    RefCountInvariant (s.newBound v) := by
  have hrefs : ∀ c, (s.newBound v).refs c = s.refs c + (if s.next + 1 = c then 1 else 0) := by
    intro c
    simp only [refs, newBound, countHandles_append_some, decide_eq_true_eq]
  have hobj : ∀ a, (s.newBound v).objRefs a = s.objRefs a + (if s.next = a then 1 else 0) := by
    intro a
    simp only [objRefs, newBound, countHandles_append_some, decide_eq_true_eq,
      Option.some.injEq]
  have hfresh := refs_eq_zero_of_fresh inv (Nat.le_succ s.next)
  have hofresh := objRefs_eq_zero_of_fresh inv (le_refl s.next)
  constructor
  · intro c
    rw [hrefs]
    by_cases hc : s.next + 1 = c
    · subst hc
      simp [newBound, hfresh]
    · have hc1 : c ≠ s.next + 1 := fun h => hc h.symm
      simp only [newBound, Function.update_noteq hc1, hc, if_false, Nat.add_zero]
      exact inv.counter_eq c
  · intro a
    rw [hobj]
    by_cases ha : s.next = a
    · subst ha
      simp [newBound]
    · have ha1 : a ≠ s.next := fun h => ha h.symm
      simp only [newBound, Function.update_noteq ha1, ha, if_false, Nat.add_zero]
      exact inv.object_iff a
  · intro h h1 hh hh1 hc
    rcases mem_append_some hh with m | rfl <;> rcases mem_append_some hh1 with m1 | rfl
    · exact inv.same_object h h1 m m1 hc
    · have := (inv.fresh h m).1
      simp at hc; omega
    · have := (inv.fresh h1 m1).1
      simp at hc; omega
    · rfl
  · intro h h1 a hh hh1 ha ha1
    rcases mem_append_some hh with m | rfl <;> rcases mem_append_some hh1 with m1 | rfl
    · exact inv.same_counter h h1 a m m1 ha ha1
    · have := (inv.fresh h m).2 a ha
      simp at ha1; omega
    · have := (inv.fresh h1 m1).2 a ha1
      simp at ha; omega
    · rfl
  · intro h hh
    rcases mem_append_some hh with m | rfl
    · obtain ⟨h1, h2⟩ := inv.fresh h m
      exact ⟨by simp only [newBound]; omega,
        fun a ha => by have := h2 a ha; simp only [newBound]; omega⟩
    · exact ⟨by simp [newBound], fun a ha => by simp at ha; simp only [newBound]; omega⟩

theorem invariant_modify {s : Store T} (a : Nat) (f : T → T) (inv : RefCountInvariant s) :
    RefCountInvariant (s.modify a f) where
  counter_eq := inv.counter_eq
  object_iff := by
    intro b
    have := inv.object_iff b
    by_cases hb : b = a
    · subst hb
      simp only [modify, Function.update_same, ne_eq, Option.map_eq_none']
      exact this
    · simp only [modify, Function.update_noteq hb]
      exact this
  same_object := inv.same_object
  same_counter := inv.same_counter
  fresh := inv.fresh

theorem invariant_copy {s : Store T} (i : Nat) (inv : RefCountInvariant s) :
    RefCountInvariant (s.copy i) := by
  unfold copy
  cases hi : s.handle? i with
  | none => exact inv
  | some h =>
    have hm := mem_of_handle? hi
    have hpos := refs_pos hm
    have hrefs : ∀ c, countHandles (s.handles ++ [some h]) (fun h1 => decide (h1.refptr = c))
        = s.refs c + (if h.refptr = c then 1 else 0) := by
      intro c
      simp only [refs, countHandles_append_some, decide_eq_true_eq]
    have hobj : ∀ a, countHandles (s.handles ++ [some h]) (fun h1 => decide (h1.p = some a))
        = s.objRefs a + (if h.p = some a then 1 else 0) := by
      intro a
      simp only [objRefs, countHandles_append_some, decide_eq_true_eq]
    constructor
    · intro c
      simp only [incr, refs, hrefs]
      by_cases hc : h.refptr = c
      · subst hc
        simp only [Function.update_same, if_true, readCount_eq_refs inv]
        rw [if_neg (by omega)]
        rfl
      · have hc1 : c ≠ h.refptr := fun e => hc e.symm
        simp only [Function.update_noteq hc1, hc, if_false, Nat.add_zero]
        exact inv.counter_eq c
    · intro a
      simp only [incr, objRefs, hobj]
      rw [inv.object_iff a]
      by_cases ha : h.p = some a
      · have := objRefs_pos hm ha
        simp only [ha, if_true]; omega
      · simp only [ha, if_false, Nat.add_zero]
        exact Iff.rfl
    · intro h1 h2 hh1 hh2 hc
      simp only [incr] at hh1 hh2
      have m1 : some h1 ∈ s.handles := by
        rcases mem_append_some hh1 with m | rfl
        · exact m
        · exact hm
      have m2 : some h2 ∈ s.handles := by
        rcases mem_append_some hh2 with m | rfl
        · exact m
        · exact hm
      exact inv.same_object h1 h2 m1 m2 hc
    · intro h1 h2 a hh1 hh2 ha1 ha2
      simp only [incr] at hh1 hh2
      have m1 : some h1 ∈ s.handles := by
        rcases mem_append_some hh1 with m | rfl
        · exact m
        · exact hm
      have m2 : some h2 ∈ s.handles := by
        rcases mem_append_some hh2 with m | rfl
        · exact m
        · exact hm
      exact inv.same_counter h1 h2 a m1 m2 ha1 ha2
    · intro h1 hh1
      simp only [incr] at hh1 ⊢
      have m1 : some h1 ∈ s.handles := by
        rcases mem_append_some hh1 with m | rfl
        · exact m
        · exact hm
      exact inv.fresh h1 m1

theorem release_counters (s : Store T) (h : Ptr) :
    (s.release h).counters = Function.update s.counters h.refptr
      (if s.readCount h.refptr - 1 = 0 then none else some (s.readCount h.refptr - 1)) := by
  unfold release
  dsimp only
  split_ifs <;> rfl

theorem release_objects (s : Store T) (h : Ptr) :
    (s.release h).objects =
      if s.readCount h.refptr - 1 = 0 then
        (match h.p with
          | some a => Function.update s.objects a none
          | none => s.objects)
      else s.objects := by
  unfold release
  dsimp only
  split_ifs <;> rfl

theorem release_handles (s : Store T) (h : Ptr) : (s.release h).handles = s.handles := by
  unfold release
  dsimp only
  split_ifs <;> rfl

theorem release_next (s : Store T) (h : Ptr) : (s.release h).next = s.next := by
  unfold release
  dsimp only
  split_ifs <;> rfl

theorem mem_set_some {hs : List (Option Ptr)} {i : Nat} {o : Option Ptr} {h : Ptr}
    (hh : some h ∈ hs.set i o) : some h ∈ hs ∨ o = some h := by
  rcases List.mem_or_eq_of_mem_set hh with m | m
  · exact Or.inl m
  · exact Or.inr m.symm

theorem invariant_of_raw (counters : Nat → Option Nat) (objects : Nat → Option T)
    (next : Nat) (handles : List (Option Ptr))
    (h1 : ∀ c, counters c =
      if countHandles handles (fun h => decide (h.refptr = c)) = 0 then none
      else some (countHandles handles (fun h => decide (h.refptr = c))))
    (h2 : ∀ a, objects a ≠ none ↔ countHandles handles (fun h => decide (h.p = some a)) ≠ 0)
    (h3 : ∀ h k, some h ∈ handles → some k ∈ handles → h.refptr = k.refptr → h.p = k.p)
    (h4 : ∀ h k a, some h ∈ handles → some k ∈ handles → h.p = some a → k.p = some a →
      h.refptr = k.refptr)
    (h5 : ∀ h, some h ∈ handles → h.refptr < next ∧ ∀ a, h.p = some a → a < next) :
    RefCountInvariant (⟨counters, objects, next, handles⟩ : Store T) :=
  ⟨h1, h2, h3, h4, h5⟩

theorem invariant_destroy_aux {s : Store T} {i : Nat} {h : Ptr}
    (inv : RefCountInvariant s) (hi : s.handle? i = some h) :
    RefCountInvariant
      (⟨(s.release h).counters, (s.release h).objects, (s.release h).next,
        (s.release h).handles.set i none⟩ : Store T) := by
  have hm := mem_of_handle? hi
  have hpos := refs_pos hm
  have hget := handle?_eq_some.mp hi
  have hrefs : ∀ c, countHandles (s.handles.set i none) (fun h1 => decide (h1.refptr = c))
        + (if h.refptr = c then 1 else 0) = s.refs c := by
    intro c
    have := countHandles_set (fun h1 => decide (h1.refptr = c)) h none s.handles i hget
    simpa [refs] using this
  have hobj : ∀ a, countHandles (s.handles.set i none) (fun h1 => decide (h1.p = some a))
        + (if h.p = some a then 1 else 0) = s.objRefs a := by
    intro a
    have := countHandles_set (fun h1 => decide (h1.p = some a)) h none s.handles i hget
    simpa [objRefs] using this
  have hsub : ∀ h1, some h1 ∈ s.handles.set i none → some h1 ∈ s.handles := by
    intro h1 hh1
    rcases mem_set_some hh1 with m | m
    · exact m
    · simp at m
  rw [release_handles, release_next]
  apply invariant_of_raw
  · intro c
    have hr := hrefs c
    have hc0 := inv.counter_eq c
    generalize countHandles (s.handles.set i none) (fun h1 => decide (h1.refptr = c)) = N
      at hr ⊢
    rw [release_counters, readCount_eq_refs inv]
    by_cases hc : h.refptr = c
    · subst hc
      simp only [if_true] at hr
      rw [Function.update_same]
      by_cases h1 : s.refs h.refptr - 1 = 0
      · rw [if_pos h1, if_pos (by omega)]
      · rw [if_neg h1, if_neg (by omega)]
        congr 1; omega
    · have hc1 : c ≠ h.refptr := fun e => hc e.symm
      simp only [hc, if_false, Nat.add_zero] at hr
      rw [Function.update_noteq hc1, hr]
      exact hc0
  · intro a
    have ho := hobj a
    have ha0 := inv.object_iff a
    generalize countHandles (s.handles.set i none) (fun h1 => decide (h1.p = some a)) = N
      at ho ⊢
    rw [release_objects, readCount_eq_refs inv]
    by_cases ha : h.p = some a
    · have hoa := objRefs_eq_refs inv hm ha
      simp only [ha, if_true] at ho ⊢
      by_cases h1 : s.refs h.refptr - 1 = 0
      · simp only [h1, if_true, Function.update_same, ne_eq, not_true_eq_false, false_iff,
          not_not]
        omega
      · simp only [h1, if_false]
        rw [ha0]
        omega
    · simp only [ha, if_false, Nat.add_zero] at ho
      rw [ho, ← ha0]
      by_cases h1 : s.refs h.refptr - 1 = 0
      · simp only [h1, if_true]
        cases hp : h.p with
        | none => exact Iff.rfl
        | some b =>
          have hb : a ≠ b := fun e => ha (by rw [hp, e])
          simp only [Function.update_noteq hb]
      · simp only [h1, if_false]
  · intro h1 h2 hh1 hh2 hc
    exact inv.same_object h1 h2 (hsub h1 hh1) (hsub h2 hh2) hc
  · intro h1 h2 a hh1 hh2 ha1 ha2
    exact inv.same_counter h1 h2 a (hsub h1 hh1) (hsub h2 hh2) ha1 ha2
  · intro h1 hh1
    exact inv.fresh h1 (hsub h1 hh1)

theorem invariant_destroy {s : Store T} (i : Nat) (inv : RefCountInvariant s) :
    RefCountInvariant (s.destroy i) := by
  unfold destroy
  cases hi : s.handle? i with
  | none => exact inv
  | some h => exact invariant_destroy_aux inv hi

theorem readCount_incr (s : Store T) (c c1 : Nat) :
    (s.incr c).readCount c1 = if c1 = c then s.readCount c + 1 else s.readCount c1 := by
  unfold incr readCount
  by_cases h : c1 = c
  · subst h; simp
  · simp [Function.update_noteq h, h]

theorem invariant_assign_aux {s : Store T} {lhs rhs : Nat} {hl hr : Ptr}
    (inv : RefCountInvariant s) (hil : s.handle? lhs = some hl)
    (hir : s.handle? rhs = some hr) :
    RefCountInvariant
      (⟨((s.incr hr.refptr).release hl).counters, ((s.incr hr.refptr).release hl).objects,
        ((s.incr hr.refptr).release hl).next,
        ((s.incr hr.refptr).release hl).handles.set lhs (some hr)⟩ : Store T) := by
  have hml := mem_of_handle? hil
  have hmr := mem_of_handle? hir
  have hposl := refs_pos hml
  have hposr := refs_pos hmr
  have hget := handle?_eq_some.mp hil
  have hhs : ((s.incr hr.refptr).release hl).handles = s.handles := by
    rw [release_handles]; rfl
  have hnx : ((s.incr hr.refptr).release hl).next = s.next := by
    rw [release_next]; rfl
  have hrefs : ∀ c, countHandles (s.handles.set lhs (some hr))
      (fun h1 => decide (h1.refptr = c))
        + (if hl.refptr = c then 1 else 0) = s.refs c + (if hr.refptr = c then 1 else 0) := by
    intro c
    have := countHandles_set (fun h1 => decide (h1.refptr = c)) hl (some hr) s.handles lhs hget
    simpa [refs] using this
  have hobj : ∀ a, countHandles (s.handles.set lhs (some hr))
      (fun h1 => decide (h1.p = some a))
        + (if hl.p = some a then 1 else 0) = s.objRefs a + (if hr.p = some a then 1 else 0) := by
    intro a
    have := countHandles_set (fun h1 => decide (h1.p = some a)) hl (some hr) s.handles lhs hget
    simpa [objRefs] using this
  have hsub : ∀ h1, some h1 ∈ s.handles.set lhs (some hr) → some h1 ∈ s.handles := by
    intro h1 hh1
    rcases mem_set_some hh1 with m | m
    · exact m
    · rw [Option.some.inj m] at hmr; exact hmr
  have hrc : (s.incr hr.refptr).readCount hl.refptr
      = if hl.refptr = hr.refptr then s.refs hr.refptr + 1 else s.refs hl.refptr := by
    rw [readCount_incr, readCount_eq_refs inv, readCount_eq_refs inv]
  rw [hhs, hnx]
  apply invariant_of_raw
  · intro c
    have hr1 := hrefs c
    have hc0 := inv.counter_eq c
    generalize countHandles (s.handles.set lhs (some hr)) (fun h1 => decide (h1.refptr = c)) = N
      at hr1 ⊢
    rw [release_counters, hrc]
    have hinc : (s.incr hr.refptr).counters
        = Function.update s.counters hr.refptr (some (s.refs hr.refptr + 1)) := by
      simp only [incr, readCount_eq_refs inv]
    rw [hinc]
    by_cases hcl : hl.refptr = c
    · subst hcl
      rw [Function.update_same]
      by_cases hcr : hr.refptr = hl.refptr
      · rw [hcr] at hr1 ⊢
        simp only [if_true] at hr1 ⊢
        have hnz : ¬ (s.refs hl.refptr + 1 - 1 = 0) := by omega
        have hN : ¬ (N = 0) := by omega
        rw [if_neg hnz, if_neg hN]
        congr 1; omega
      · have hcr1 : hl.refptr ≠ hr.refptr := fun e => hcr e.symm
        simp only [if_true, hcr, if_false, Nat.add_zero] at hr1
        simp only [hcr1, if_false]
        by_cases h1 : s.refs hl.refptr - 1 = 0
        · rw [if_pos h1, if_pos (by omega)]
        · rw [if_neg h1, if_neg (by omega)]
          congr 1; omega
    · have hcl1 : c ≠ hl.refptr := fun e => hcl e.symm
      rw [Function.update_noteq hcl1]
      simp only [hcl, if_false, Nat.add_zero] at hr1
      by_cases hcr : hr.refptr = c
      · subst hcr
        simp only [if_true] at hr1
        have hN : ¬ (N = 0) := by omega
        rw [Function.update_same, if_neg hN, hr1]
      · have hcr1 : c ≠ hr.refptr := fun e => hcr e.symm
        simp only [hcr, if_false, Nat.add_zero] at hr1
        rw [Function.update_noteq hcr1, hr1]
        exact hc0
  · intro a
    have ho := hobj a
    have ha0 := inv.object_iff a
    generalize countHandles (s.handles.set lhs (some hr)) (fun h1 => decide (h1.p = some a)) = N
      at ho ⊢
    rw [release_objects, hrc]
    have hinc : (s.incr hr.refptr).objects = s.objects := rfl
    rw [hinc]
    by_cases hsame : hl.refptr = hr.refptr
    · have hp := inv.same_object hl hr hml hmr hsame
      rw [hp] at ho
      simp only [hsame, if_true]
      have hnz : ¬ (s.refs hr.refptr + 1 - 1 = 0) := by omega
      rw [if_neg hnz, ha0]
      omega
    · simp only [hsame, if_false]
      have hne : ¬ (hl.p = some a ∧ hr.p = some a) := fun hc =>
        hsame (inv.same_counter hl hr a hml hmr hc.1 hc.2)
      by_cases hla : hl.p = some a
      · have hra : hr.p ≠ some a := fun e => hne ⟨hla, e⟩
        have hoa := objRefs_eq_refs inv hml hla
        simp only [hla, if_true, hra, if_false, Nat.add_zero] at ho ⊢
        by_cases h1 : s.refs hl.refptr - 1 = 0
        · simp only [h1, if_true, Function.update_same, ne_eq, not_true_eq_false, false_iff,
            not_not]
          omega
        · simp only [h1, if_false]
          rw [ha0]
          omega
      · simp only [hla, if_false, Nat.add_zero] at ho
        have hkeep : (if s.refs hl.refptr - 1 = 0 then
            (match hl.p with
              | some a => Function.update s.objects a none
              | none => s.objects)
            else s.objects) a = s.objects a := by
          split_ifs
          · cases hp : hl.p with
            | none => rfl
            | some b =>
              have hb : a ≠ b := fun e => hla (by rw [hp, e])
              simp only [Function.update_noteq hb]
          · rfl
        rw [hkeep, ha0, ho]
        by_cases hra : hr.p = some a
        · have := objRefs_pos hmr hra
          simp only [hra, if_true]; omega
        · simp only [hra, if_false, Nat.add_zero]
  · intro h1 h2 hh1 hh2 hc
    exact inv.same_object h1 h2 (hsub h1 hh1) (hsub h2 hh2) hc
  · intro h1 h2 a hh1 hh2 ha1 ha2
    exact inv.same_counter h1 h2 a (hsub h1 hh1) (hsub h2 hh2) ha1 ha2
  · intro h1 hh1
    exact inv.fresh h1 (hsub h1 hh1)

theorem invariant_assign {s : Store T} (lhs rhs : Nat) (inv : RefCountInvariant s) :
    RefCountInvariant (s.assign lhs rhs) := by
  unfold assign
  cases hil : s.handle? lhs with
  | none => exact inv
  | some hl =>
    cases hir : s.handle? rhs with
    | none => exact inv
    | some hr => exact invariant_assign_aux inv hil hir

theorem invariant_makeUnique_aux (clone : T → T) {s : Store T} {i : Nat} {h : Ptr}
    (inv : RefCountInvariant s) (hi : s.handle? i = some h) (hne : s.readCount h.refptr ≠ 1)
    (pnew : Option Nat) (objects : Nat → Option T) (next : Nat)
    (hp : (h.p = none ∧ pnew = none ∧ objects = s.objects ∧ next = s.next + 1) ∨
      (∃ a, h.p = some a ∧ pnew = some (s.next + 1) ∧
        objects = Function.update s.objects (s.next + 1) ((s.objects a).map clone) ∧
        next = s.next + 1 + 1)) :
    RefCountInvariant
      (⟨Function.update (Function.update s.counters h.refptr
          (some (s.readCount h.refptr - 1))) s.next (some 1),
        objects, next, s.handles.set i (some ⟨s.next, pnew⟩)⟩ : Store T) := by
  have hm := mem_of_handle? hi
  have hpos := refs_pos hm
  have hget := handle?_eq_some.mp hi
  have hfr := inv.fresh h hm
  have hR0 := refs_eq_zero_of_fresh inv (le_refl s.next)
  rw [readCount_eq_refs inv] at hne ⊢
  have hrefs : ∀ c, countHandles (s.handles.set i (some ⟨s.next, pnew⟩))
      (fun h1 => decide (h1.refptr = c))
        + (if h.refptr = c then 1 else 0) = s.refs c + (if s.next = c then 1 else 0) := by
    intro c
    have := countHandles_set (fun h1 => decide (h1.refptr = c)) h (some ⟨s.next, pnew⟩)
      s.handles i hget
    simpa [refs] using this
  have hobj : ∀ b, countHandles (s.handles.set i (some ⟨s.next, pnew⟩))
      (fun h1 => decide (h1.p = some b))
        + (if h.p = some b then 1 else 0) = s.objRefs b + (if pnew = some b then 1 else 0) := by
    intro b
    have := countHandles_set (fun h1 => decide (h1.p = some b)) h (some ⟨s.next, pnew⟩)
      s.handles i hget
    simpa [objRefs] using this
  have hmem : ∀ h1, some h1 ∈ s.handles.set i (some ⟨s.next, pnew⟩) →
      some h1 ∈ s.handles ∨ h1 = ⟨s.next, pnew⟩ := by
    intro h1 hh1
    rcases mem_set_some hh1 with m | m
    · exact Or.inl m
    · exact Or.inr (Option.some.inj m).symm
  have hnext : s.next < next ∧ ∀ b, pnew = some b → b < next ∧ s.next ≤ b := by
    rcases hp with ⟨_, h2, _, h4⟩ | ⟨a, _, h2, _, h4⟩
    · exact ⟨by omega, fun b hb => by rw [h2] at hb; simp at hb⟩
    · refine ⟨by omega, fun b hb => ?_⟩
      rw [h2] at hb
      have := Option.some.inj hb
      omega
  apply invariant_of_raw
  · intro c
    have hr1 := hrefs c
    have hc0 := inv.counter_eq c
    generalize countHandles (s.handles.set i (some ⟨s.next, pnew⟩))
      (fun h1 => decide (h1.refptr = c)) = N at hr1 ⊢
    by_cases hcn : s.next = c
    · subst hcn
      have hx : h.refptr ≠ s.next := by omega
      simp only [hx, if_false, Nat.add_zero, if_true, hR0, Nat.zero_add] at hr1
      rw [Function.update_same, hr1]
      rfl
    · have hcn1 : c ≠ s.next := fun e => hcn e.symm
      rw [Function.update_noteq hcn1]
      simp only [hcn, if_false, Nat.add_zero] at hr1
      by_cases hc : h.refptr = c
      · subst hc
        simp only [if_true] at hr1
        have hN : ¬ (N = 0) := by omega
        rw [Function.update_same, if_neg hN]
        congr 1; omega
      · have hc1 : c ≠ h.refptr := fun e => hc e.symm
        simp only [hc, if_false, Nat.add_zero] at hr1
        rw [Function.update_noteq hc1, hr1]
        exact hc0
  · intro b
    have ho := hobj b
    have hb0 := inv.object_iff b
    generalize countHandles (s.handles.set i (some ⟨s.next, pnew⟩))
      (fun h1 => decide (h1.p = some b)) = N at ho ⊢
    rcases hp with ⟨h1, h2, h3, _⟩ | ⟨a, h1, h2, h3, _⟩
    · rw [h3, hb0]
      simp only [h1, h2, if_false, Nat.add_zero] at ho
      simp at ho
      rw [ho]
    · have haf := hfr.2 a h1
      have hoa := objRefs_eq_refs inv hm h1
      have hal := (inv.object_iff a).mpr (by omega)
      rw [h3]
      by_cases hbn : b = s.next + 1
      · subst hbn
        have hz := objRefs_eq_zero_of_fresh inv (Nat.le_succ s.next)
        have hx : ¬ (h.p = some (s.next + 1)) := by
          rw [h1]; intro e; have := Option.some.inj e; omega
        simp only [hx, if_false, Nat.add_zero, h2, if_true, hz, Nat.zero_add] at ho
        rw [Function.update_same, ho]
        simp only [ne_eq, Option.map_eq_none', one_ne_zero, not_false_eq_true, iff_true]
        exact hal
      · rw [Function.update_noteq hbn, hb0]
        have hx : ¬ (pnew = some b) := by
          rw [h2]; intro e; exact hbn (Option.some.inj e).symm
        simp only [hx, if_false, Nat.add_zero] at ho
        by_cases hba : h.p = some b
        · have hab : a = b := by rw [h1] at hba; exact Option.some.inj hba
          subst hab
          simp only [hba, if_true] at ho
          omega
        · simp only [hba, if_false, Nat.add_zero] at ho
          rw [ho]
  · intro h1 h2 hh1 hh2 hc
    rcases hmem h1 hh1 with m1 | rfl <;> rcases hmem h2 hh2 with m2 | rfl
    · exact inv.same_object h1 h2 m1 m2 hc
    · have := (inv.fresh h1 m1).1
      simp at hc; omega
    · have := (inv.fresh h2 m2).1
      simp at hc; omega
    · rfl
  · intro h1 h2 b hh1 hh2 hb1 hb2
    rcases hmem h1 hh1 with m1 | rfl <;> rcases hmem h2 hh2 with m2 | rfl
    · exact inv.same_counter h1 h2 b m1 m2 hb1 hb2
    · have := (inv.fresh h1 m1).2 b hb1
      have := (hnext.2 b hb2).2
      omega
    · have := (inv.fresh h2 m2).2 b hb2
      have := (hnext.2 b hb1).2
      omega
    · rfl
  · intro h1 hh1
    rcases hmem h1 hh1 with m1 | rfl
    · obtain ⟨f1, f2⟩ := inv.fresh h1 m1
      exact ⟨by omega, fun b hb => by have := f2 b hb; omega⟩
    · exact ⟨hnext.1, fun b hb => (hnext.2 b hb).1⟩

theorem invariant_makeUnique (clone : T → T) {s : Store T} (i : Nat)
    (inv : RefCountInvariant s) : RefCountInvariant (s.makeUnique clone i) := by
  unfold makeUnique
  cases hi : s.handle? i with
  | none => exact inv
  | some h =>
    dsimp only
    split_ifs with hne
    · cases hp : h.p with
      | none =>
        exact invariant_makeUnique_aux clone inv hi hne none s.objects (s.next + 1)
          (Or.inl ⟨hp, rfl, rfl, rfl⟩)
      | some a =>
        exact invariant_makeUnique_aux clone inv hi hne (some (s.next + 1))
          (Function.update s.objects (s.next + 1) ((s.objects a).map clone)) (s.next + 1 + 1)
          (Or.inr ⟨a, hp, rfl, rfl, rfl⟩)
    · exact inv

theorem invariant_deref (clone : T → T) {s : Store T} (i : Nat)
    (inv : RefCountInvariant s) : RefCountInvariant (s.deref clone i).1 := by
  have h := invariant_makeUnique clone i inv
  unfold deref
  dsimp only
  split <;> exact h

/-- Every memory a program reaches satisfies the reference-count invariant. -/
theorem invariant_of_reachable (clone : T → T) {s : Store T} (hr : Reachable clone s) :
    RefCountInvariant s := by
  induction hr with
  | empty => exact invariant_empty
  | newUnbound _ ih => exact invariant_newUnbound ih
  | newBound v _ ih => exact invariant_newBound v ih
  | copy i _ ih => exact invariant_copy i ih
  | assign lhs rhs _ ih => exact invariant_assign lhs rhs ih
  | destroy i _ ih => exact invariant_destroy i ih
  | deref i _ ih => exact invariant_deref clone i ih
  | modify a f _ ih => exact invariant_modify a f ih

/-! ## The copy-on-write pointer: reading and writing through the variables -/

theorem read_eq (s : Store T) (i : Nat) :
    s.read i =
      match s.handle? i with
      | some ⟨_, some a⟩ => Except.ok (s.objects a)
      | _ => Except.error Failure.unboundPtr := by
  unfold read derefConst
  split <;> rfl

theorem read_of_handle {s : Store T} {i : Nat} {h : Ptr} {a : Nat}
    (hi : s.handle? i = some h) (hp : h.p = some a) : s.read i = Except.ok (s.objects a) := by
  rw [read_eq, hi]
  cases h with
  | mk c p => simp only at hp; subst hp; rfl

theorem handle_of_read {s : Store T} {i : Nat} {v : T}
    (hr : s.read i = Except.ok (some v)) :
    ∃ h a, s.handle? i = some h ∧ h.p = some a ∧ s.objects a = some v := by
  rw [read_eq] at hr
  split at hr
  · rename_i c a heq
    exact ⟨⟨c, some a⟩, a, heq, rfl, by simpa using hr⟩
  · simp at hr

theorem read_congr {s t : Store T} {i : Nat} (hh : t.handle? i = s.handle? i)
    (ho : ∀ h a, s.handle? i = some h → h.p = some a → t.objects a = s.objects a) :
    t.read i = s.read i := by
  rw [read_eq, read_eq, hh]
  split
  · rename_i c a heq
    rw [ho ⟨c, some a⟩ a heq rfl]
  · rfl

theorem lt_length_of_handle? {s : Store T} {i : Nat} {h : Ptr} (hi : s.handle? i = some h) :
    i < s.handles.length := by
  have := handle?_eq_some.mp hi
  exact (List.getElem?_eq_some.mp this).1

theorem handle?_set_self (hs : List (Option Ptr)) (i : Nat) (x : Option Ptr)
    (hi : i < hs.length) : (hs.set i x)[i]?.join = x := by
  rw [List.getElem?_set_eq_of_lt x hi]; rfl

theorem handle?_set_ne (hs : List (Option Ptr)) (i j : Nat) (x : Option Ptr) (hij : j ≠ i) :
    (hs.set i x)[j]?.join = hs[j]?.join := by
  rw [List.getElem?_set_ne (fun e => hij e.symm)]

/-- Two distinct live variables that share a counter make its count at least 2. -/
theorem two_le_refs {s : Store T} {i j : Nat} {h k : Ptr} (hij : j ≠ i)
    (hi : s.handle? i = some h) (hj : s.handle? j = some k) (hc : k.refptr = h.refptr) :
    2 ≤ s.refs h.refptr := by
  have hget := handle?_eq_some.mp hi
  have hset := countHandles_set (fun h1 => decide (h1.refptr = h.refptr)) h none s.handles i hget
  have hmem : some k ∈ s.handles.set i none := by
    apply List.mem_iff_getElem?.mpr
    refine ⟨j, ?_⟩
    rw [List.getElem?_set_ne (fun e => hij e.symm)]
    exact handle?_eq_some.mp hj
  have hpos : 0 < countHandles (s.handles.set i none) (fun h1 => decide (h1.refptr = h.refptr)) :=
    (countHandles_pos_iff _ _).mpr ⟨k, hmem, by simp [hc]⟩
  simp only [decide_True, if_true] at hset
  unfold refs
  omega

/-- Under the invariant the object of a variable whose count is 1 is not the
object of any other variable. -/
theorem unique_of_count_one {s : Store T} (inv : RefCountInvariant s) {i j : Nat} {h k : Ptr}
    {a : Nat} (hi : s.handle? i = some h) (h1 : s.readCount h.refptr = 1) (ha : h.p = some a)
    (hij : j ≠ i) (hj : s.handle? j = some k) : k.p ≠ some a := by
  intro hk
  have hc := inv.same_counter k h a (mem_of_handle? hj) (mem_of_handle? hi) hk ha
  have := two_le_refs hij hi hj hc
  rw [readCount_eq_refs inv] at h1
  omega

/-- What `make_unique` does to a variable bound to an object. -/
theorem makeUnique_spec (clone : T → T) {s : Store T} {i : Nat} {h : Ptr} {a : Nat} {v : T}
    (hi : s.handle? i = some h) (hp : h.p = some a) (hv : s.objects a = some v) :
    ∃ c1 a1 v1, (s.makeUnique clone i).handle? i = some ⟨c1, some a1⟩ ∧
      (s.makeUnique clone i).objects a1 = some v1 ∧ (v1 = v ∨ v1 = clone v) ∧
      (s.makeUnique clone i).readCount c1 = 1 ∧
      (a1 = a ∨ a1 = s.next + 1) ∧
      (∀ j, j ≠ i → (s.makeUnique clone i).handle? j = s.handle? j) ∧
      (∀ b, b ≠ s.next + 1 → (s.makeUnique clone i).objects b = s.objects b) ∧
      (s.makeUnique clone i).handles.length = s.handles.length := by
  have hlt := lt_length_of_handle? hi
  unfold makeUnique
  rw [hi]
  dsimp only
  split_ifs with hne
  · rw [hp]
    dsimp only
    refine ⟨s.next, s.next + 1, clone v, ?_, ?_, Or.inr rfl, ?_, Or.inr rfl, ?_, ?_, ?_⟩
    · exact handle?_set_self _ _ _ hlt
    · rw [Function.update_same, hv]; rfl
    · simp [readCount]
    · intro j hj
      exact handle?_set_ne _ _ _ _ hj
    · intro b hb
      exact Function.update_noteq hb _ _
    · simp
  · have h1 : s.readCount h.refptr = 1 := by
      by_contra hc; exact hne hc
    refine ⟨h.refptr, a, v, ?_, hv, Or.inl rfl, h1, Or.inl rfl, fun _ _ => rfl, fun _ _ => rfl,
      rfl⟩
    rw [hi]
    cases h with
    | mk c p => simp only at hp; subst hp; rfl

/-- What a non-const dereference does to a variable bound to an object. -/
theorem deref_spec (clone : T → T) {s : Store T} {i : Nat} {h : Ptr} {a : Nat} {v : T}
    (hi : s.handle? i = some h) (hp : h.p = some a) (hv : s.objects a = some v) :
    ∃ c1 a1 v1, (s.deref clone i).2 = Except.ok a1 ∧
      (s.deref clone i).1.handle? i = some ⟨c1, some a1⟩ ∧
      (s.deref clone i).1.objects a1 = some v1 ∧ (v1 = v ∨ v1 = clone v) ∧
      (s.deref clone i).1.readCount c1 = 1 ∧
      (a1 = a ∨ a1 = s.next + 1) ∧
      (∀ j, j ≠ i → (s.deref clone i).1.handle? j = s.handle? j) ∧
      (∀ b, b ≠ s.next + 1 → (s.deref clone i).1.objects b = s.objects b) ∧
      (s.deref clone i).1.handles.length = s.handles.length := by
  obtain ⟨c1, a1, v1, h1, h2, h3, h4, h5, h6, h7, h8⟩ := makeUnique_spec clone hi hp hv
  refine ⟨c1, a1, v1, ?_, ?_, ?_, h3, ?_, h5, ?_, ?_, ?_⟩ <;>
    simp only [deref, h1] <;> assumption

/-- A write to the object of one variable, under the invariant and with the
count of that variable at 1, is not seen through any other variable. -/
theorem read_modify_of_ne {s : Store T} (inv : RefCountInvariant s) {i j : Nat} {h : Ptr}
    {a : Nat} (f : T → T) (hi : s.handle? i = some h) (h1 : s.readCount h.refptr = 1)
    (ha : h.p = some a) (hij : j ≠ i) : (s.modify a f).read j = s.read j := by
  refine read_congr (s := s) (t := s.modify a f) rfl ?_
  intro k b hk hb
  have hne : b ≠ a := by
    intro e
    exact unique_of_count_one inv hi h1 ha hij hk (by rw [hb, e])
  simp only [modify, Function.update_noteq hne]

theorem read_modify_self {s : Store T} {i : Nat} {h : Ptr} {a : Nat} {v : T} (f : T → T)
    (hi : s.handle? i = some h) (ha : h.p = some a) (hv : s.objects a = some v) :
    (s.modify a f).read i = Except.ok (some (f v)) := by
  have : (s.modify a f).handle? i = some h := hi
  rw [read_of_handle this ha]
  simp [modify, hv]

/-- A non-const dereference of one variable followed by a write: the variable
reads the written value (of the object or of its clone) and, in a reachable
memory, every other variable reads what it read before. -/
theorem mutate_spec (clone : T → T) {s : Store T} (inv : RefCountInvariant s) {i : Nat}
    {v : T} (f : T → T) (hr : s.read i = Except.ok (some v)) :
    (s.mutate clone i f).2 = Except.ok () ∧
    (∃ v1, (v1 = v ∨ v1 = clone v) ∧ (s.mutate clone i f).1.read i = Except.ok (some (f v1))) ∧
    (∀ j, j ≠ i → (s.mutate clone i f).1.read j = s.read j) ∧
    (s.mutate clone i f).1.handles.length = s.handles.length ∧
    RefCountInvariant (s.mutate clone i f).1 := by
  obtain ⟨h, a, hi, hp, hv⟩ := handle_of_read hr
  obtain ⟨c1, a1, v1, h1, h2, h3, h4, h5, h6, h7, h8, h9⟩ := deref_spec clone hi hp hv
  have inv1 := invariant_deref clone i inv
  have hfr := (inv.fresh h (mem_of_handle? hi)).2 a hp
  have hm : s.mutate clone i f = ((s.deref clone i).1.modify a1 f, Except.ok ()) := by
    unfold mutate
    have : s.deref clone i = ((s.deref clone i).1, Except.ok a1) := by
      rw [← h1]
    rw [this]
  rw [hm]
  refine ⟨rfl, ⟨v1, h4, read_modify_self f h2 rfl h3⟩, ?_, h9, invariant_modify a1 f inv1⟩
  intro j hj
  show ((s.deref clone i).1.modify a1 f).read j = s.read j
  rw [read_modify_of_ne inv1 f h2 h5 rfl hj]
  apply read_congr (h7 j hj)
  intro k b hk hb
  apply h8
  have := (inv.fresh k (mem_of_handle? hk)).2 b hb
  omega

/-- Reading through the variables after a copy construction. -/
theorem read_copy {s : Store T} {i : Nat} {h : Ptr} (hi : s.handle? i = some h) :
    (∀ j, j < s.handles.length → (s.copy i).read j = s.read j) ∧
    (s.copy i).read s.handles.length = s.read i ∧
    (s.copy i).handles.length = s.handles.length + 1 := by
  have hlt := lt_length_of_handle? hi
  have hget := handle?_eq_some.mp hi
  unfold copy
  rw [hi]
  dsimp only
  refine ⟨?_, ?_, by simp [incr]⟩
  · intro j hj
    apply read_congr
    · simp only [handle?, incr, List.getElem?_append_left hj]
    · intro _ _ _ _; rfl
  · rw [read_eq, read_eq]
    have : (s.incr h.refptr).handles = s.handles := rfl
    simp only [handle?, this, incr]
    rw [List.getElem?_append_right (le_refl _), hget]
    simp

/-- Reading through the variables after the construction of a bound `Ptr`. -/
theorem read_newBound {s : Store T} (inv : RefCountInvariant s) (v : T) :
    (∀ j, j < s.handles.length → (s.newBound v).read j = s.read j) ∧
    (s.newBound v).read s.handles.length = Except.ok (some v) ∧
    (s.newBound v).handle? s.handles.length = some ⟨s.next + 1, some s.next⟩ ∧
    (s.newBound v).readCount (s.next + 1) = 1 ∧
    (s.newBound v).handles.length = s.handles.length + 1 := by
  have hh : (s.newBound v).handle? s.handles.length = some ⟨s.next + 1, some s.next⟩ := by
    simp only [handle?, newBound]
    rw [List.getElem?_append_right (le_refl _)]
    simp
  refine ⟨?_, ?_, hh, by simp [newBound, readCount], by simp [newBound]⟩
  · intro j hj
    apply read_congr
    · simp only [handle?, newBound, List.getElem?_append_left hj]
    · intro k b hk hb
      have := (inv.fresh k (mem_of_handle? hk)).2 b hb
      have hne : b ≠ s.next := by omega
      simp only [newBound, Function.update_noteq hne]
  · rw [read_of_handle hh rfl]
    simp [newBound]

end Store

/-! ## Claims on the copy-on-write pointer -/

/-- C13: for a variable `a` bound to an object of value `v` in a reachable
memory and a copy `b` of it (the new variable `s.handles.length`): a const
read through `a` and through `b` gives `v`, and after a write `f` through a
non-const dereference of `b` the value read through `a` is still `v`. -/
theorem read_through_copy {T : Type} (clone : T → T) (s : Store T)
    (hr : Reachable clone s) (a : Nat) (v : T) (ha : s.read a = Except.ok (some v)) :
    (s.copy a).read a = Except.ok (some v) ∧
    (s.copy a).read s.handles.length = Except.ok (some v) ∧
    ∀ f : T → T,
      ((s.copy a).mutate clone s.handles.length f).2 = Except.ok () ∧
      ((s.copy a).mutate clone s.handles.length f).1.read a = Except.ok (some v) := by
  obtain ⟨h, p, hi, _, _⟩ := Store.handle_of_read ha
  have inv := Store.invariant_of_reachable clone hr
  have hlt := Store.lt_length_of_handle? hi
  obtain ⟨h1, h2, _⟩ := Store.read_copy hi
  have hra : (s.copy a).read a = Except.ok (some v) := by rw [h1 a hlt, ha]
  have hrb : (s.copy a).read s.handles.length = Except.ok (some v) := by rw [h2, ha]
  refine ⟨hra, hrb, fun f => ?_⟩
  obtain ⟨m1, _, m3, _⟩ := Store.mutate_spec clone (Store.invariant_copy a inv) f hrb
  exact ⟨m1, by rw [m3 a (by omega), hra]⟩

/-- C13, at a memory with one list and the write that empties the list. -/
theorem read_through_copy_witness :
    Reachable cloneList oneListMemory ∧
    oneListMemory.read 0 = Except.ok (some [scenarioPartial, earlyEndPartial]) ∧
    (oneListMemory.copy 0).read 0 = Except.ok (some [scenarioPartial, earlyEndPartial]) ∧
    (oneListMemory.copy 0).read oneListMemory.handles.length
      = Except.ok (some [scenarioPartial, earlyEndPartial]) ∧
    ∀ f : List Partial → List Partial,
      ((oneListMemory.copy 0).mutate cloneList oneListMemory.handles.length f).2
        = Except.ok () ∧
      ((oneListMemory.copy 0).mutate cloneList oneListMemory.handles.length f).1.read 0
        = Except.ok (some [scenarioPartial, earlyEndPartial]) :=
  ⟨Reachable.newBound _ Reachable.empty, rfl,
    read_through_copy cloneList oneListMemory (Reachable.newBound _ Reachable.empty) 0
      [scenarioPartial, earlyEndPartial] rfl⟩

/-- C14: in every memory reachable by constructing (unbound or bound), copying,
assigning, dereferencing (const or not, succeeding or failing), writing through
and destroying `Ptr` variables, the counter of every live variable is allocated
and its value is the number of live variables that refer to it, at least 1;
every allocated counter has such a value; variables that share a counter refer
to the same object; and a counter, or an object, is freed exactly when no live
variable refers to it. -/
theorem refcount_invariant {T : Type} (clone : T → T) (s : Store T)
    (hr : Reachable clone s) :
    (∀ h, some h ∈ s.handles →
      ∃ n, s.counters h.refptr = some n ∧ n = s.refs h.refptr ∧ 1 ≤ n) ∧
    (∀ c n, s.counters c = some n → n = s.refs c ∧ 1 ≤ n) ∧
    (∀ h k, some h ∈ s.handles → some k ∈ s.handles → h.refptr = k.refptr → h.p = k.p) ∧
    (∀ c, s.counters c = none ↔ s.refs c = 0) ∧
    (∀ a, s.objects a = none ↔ s.objRefs a = 0) ∧
    (∀ h a, some h ∈ s.handles → h.p = some a → s.objects a ≠ none) ∧
    RefCountInvariant s := by
  have inv := Store.invariant_of_reachable clone hr
  refine ⟨?_, ?_, inv.same_object, ?_, ?_, ?_, inv⟩
  · intro h hh
    have hpos := Store.refs_pos hh
    refine ⟨s.refs h.refptr, ?_, rfl, hpos⟩
    rw [inv.counter_eq, if_neg (by omega)]
  · intro c n hc
    rw [inv.counter_eq] at hc
    split_ifs at hc with h0
    have := Option.some.inj hc
    omega
  · intro c
    rw [inv.counter_eq]
    split_ifs with h0 <;> simp [h0]
  · intro a
    have := inv.object_iff a
    constructor
    · intro h0
      by_contra hc
      exact (this.mpr hc) h0
    · intro h0
      by_contra hc
      exact (this.mp hc) h0
  · intro h a hh ha
    exact (inv.object_iff a).mpr (by have := Store.objRefs_pos hh ha; omega)

/-- C14, at a memory with an unbound variable and two variables that share a
list. -/
theorem refcount_invariant_witness :
    Reachable cloneList sharedMemory ∧
    sharedMemory.counters 2 = some 2 ∧ sharedMemory.refs 2 = 2 ∧
    (∀ h, some h ∈ sharedMemory.handles →
      ∃ n, sharedMemory.counters h.refptr = some n ∧ n = sharedMemory.refs h.refptr ∧ 1 ≤ n) ∧
    (∀ c n, sharedMemory.counters c = some n → n = sharedMemory.refs c ∧ 1 ≤ n) ∧
    (∀ h k, some h ∈ sharedMemory.handles → some k ∈ sharedMemory.handles →
      h.refptr = k.refptr → h.p = k.p) ∧
    (∀ c, sharedMemory.counters c = none ↔ sharedMemory.refs c = 0) ∧
    (∀ a, sharedMemory.objects a = none ↔ sharedMemory.objRefs a = 0) ∧
    (∀ h a, some h ∈ sharedMemory.handles → h.p = some a → sharedMemory.objects a ≠ none) ∧
    RefCountInvariant sharedMemory :=
  ⟨Reachable.copy 1 (Reachable.newBound _ (Reachable.newUnbound Reachable.empty)),
    by decide, by decide,
    refcount_invariant cloneList sharedMemory
      (Reachable.copy 1 (Reachable.newBound _ (Reachable.newUnbound Reachable.empty)))⟩

theorem Store.makeUnique_handle {T : Type} (clone : T → T) {s : Store T} {i : Nat} {h : Ptr}
    (hi : s.handle? i = some h) :
    (s.readCount h.refptr ≠ 1 →
      (s.makeUnique clone i).handle? i = some ⟨s.next, h.p.map (fun _ => s.next + 1)⟩ ∧
      ∀ a, h.p = some a →
        (s.makeUnique clone i).objects (s.next + 1) = (s.objects a).map clone) ∧
    (s.readCount h.refptr = 1 → s.makeUnique clone i = s) := by
  have hlt := Store.lt_length_of_handle? hi
  constructor
  · intro hne
    unfold Store.makeUnique
    rw [hi]
    dsimp only
    rw [if_pos hne]
    cases hp : h.p with
    | none =>
      dsimp only
      exact ⟨Store.handle?_set_self _ _ _ hlt, fun a ha => by simp at ha⟩
    | some b =>
      dsimp only
      refine ⟨Store.handle?_set_self _ _ _ hlt, fun a ha => ?_⟩
      rw [Option.some.inj ha, Function.update_same]
  · intro h1
    unfold Store.makeUnique
    rw [hi]
    dsimp only
    rw [if_neg (by simpa using h1)]

theorem Store.deref_result {T : Type} (clone : T → T) (s : Store T) (i : Nat) (h : Ptr)
    (hi : s.handle? i = some h) :
    (h.p = none → (s.deref clone i).2 = Except.error Failure.unboundPtr) ∧
    (∀ a, h.p = some a → ∃ c1 a1, (s.deref clone i).2 = Except.ok a1 ∧
      (s.deref clone i).1.handle? i = some ⟨c1, some a1⟩ ∧
      ((a1 = a ∧ (s.deref clone i).1.objects a1 = s.objects a) ∨
        (a1 = s.next + 1 ∧ (s.deref clone i).1.objects a1 = (s.objects a).map clone))) := by
  obtain ⟨m1, m2⟩ := Store.makeUnique_handle clone hi
  by_cases hne : s.readCount h.refptr = 1
  · have hs := m2 hne
    constructor
    · intro hp
      cases h with
      | mk c p =>
        simp only at hp; subst hp
        simp only [Store.deref, hs, hi]
    · intro a hp
      cases h with
      | mk c p =>
        simp only at hp; subst hp
        simp only [Store.deref, hs, hi]
        exact ⟨c, a, rfl, rfl, Or.inl ⟨rfl, rfl⟩⟩
  · obtain ⟨hh, ho⟩ := m1 hne
    constructor
    · intro hp
      rw [hp] at hh
      simp only [Store.deref, hh, Option.map_none']
    · intro a hp
      have ho1 := ho a hp
      rw [hp] at hh
      simp only [Store.deref, hh, Option.map_some']
      exact ⟨s.next, s.next + 1, rfl, rfl, Or.inr ⟨rfl, ho1⟩⟩

/-- C17: for a live `Ptr` variable, the const dereference and the non-const
dereference (`operator*` and `operator->` alike) fail with the unbound-pointer
error exactly when the variable holds no object; when it holds the object `a`
the const dereference yields `a` and the non-const one yields the object the
variable holds afterwards, which is `a` itself or a fresh clone of it. -/
theorem deref_fails_iff_unbound {T : Type} (clone : T → T) (s : Store T) (i : Nat) (h : Ptr)
    (hi : s.handle? i = some h) :
    (s.derefConst i = Except.error Failure.unboundPtr ↔ h.p = none) ∧
    ((s.deref clone i).2 = Except.error Failure.unboundPtr ↔ h.p = none) ∧
    (∀ a, h.p = some a → s.derefConst i = Except.ok a) ∧
    (∀ a, h.p = some a → ∃ c1 a1, (s.deref clone i).2 = Except.ok a1 ∧
      (s.deref clone i).1.handle? i = some ⟨c1, some a1⟩ ∧
      ((a1 = a ∧ (s.deref clone i).1.objects a1 = s.objects a) ∨
        (a1 = s.next + 1 ∧ (s.deref clone i).1.objects a1 = (s.objects a).map clone))) := by
  obtain ⟨d1, d2⟩ := Store.deref_result clone s i h hi
  have hconst : ∀ a, h.p = some a → s.derefConst i = Except.ok a := by
    intro a hp
    unfold Store.derefConst
    rw [hi]
    cases h with
    | mk c p => simp only at hp; subst hp; rfl
  have hconst0 : h.p = none → s.derefConst i = Except.error Failure.unboundPtr := by
    intro hp
    unfold Store.derefConst
    rw [hi]
    cases h with
    | mk c p => simp only at hp; subst hp; rfl
  refine ⟨⟨?_, hconst0⟩, ⟨?_, d1⟩, hconst, d2⟩
  · intro he
    cases hp : h.p with
    | none => rfl
    | some a => rw [hconst a hp] at he; simp at he
  · intro he
    cases hp : h.p with
    | none => rfl
    | some a =>
      obtain ⟨c1, a1, h1, _⟩ := d2 a hp
      rw [h1] at he; simp at he

/-- C17, at the unbound variable 0 of a concrete memory. -/
theorem deref_fails_iff_unbound_witness :
    sharedMemory.handle? 0 = some ⟨0, none⟩ ∧
    (sharedMemory.derefConst 0 = Except.error Failure.unboundPtr ↔ (⟨0, none⟩ : Ptr).p = none) ∧
    ((sharedMemory.deref cloneList 0).2 = Except.error Failure.unboundPtr
      ↔ (⟨0, none⟩ : Ptr).p = none) ∧
    (∀ a, (⟨0, none⟩ : Ptr).p = some a → sharedMemory.derefConst 0 = Except.ok a) ∧
    (∀ a, (⟨0, none⟩ : Ptr).p = some a → ∃ c1 a1,
      (sharedMemory.deref cloneList 0).2 = Except.ok a1 ∧
      (sharedMemory.deref cloneList 0).1.handle? 0 = some ⟨c1, some a1⟩ ∧
      ((a1 = a ∧ (sharedMemory.deref cloneList 0).1.objects a1 = sharedMemory.objects a) ∨
        (a1 = sharedMemory.next + 1 ∧
          (sharedMemory.deref cloneList 0).1.objects a1
            = (sharedMemory.objects a).map cloneList))) :=
  ⟨rfl, deref_fails_iff_unbound cloneList sharedMemory 0 ⟨0, none⟩ rfl⟩

/-! ## Claims on the PartialList -/

/-- C16: for a list `L1` with the Partials `xs` in a reachable memory, a copy
`L2` of it (the new variable `w.handles.length`) and a Partial `p`: after
`L2.push_back( p )` the list `L1` still holds `xs`, with the same size, and
`L2` holds `xs` followed by `p`, its size one more. -/
theorem push_back_on_copy (w : PartialList.Memory) (hr : Reachable cloneList w) (L1 : Nat)
    (xs : List Partial) (p : Partial)
    (h1 : PartialList.contents w L1 = Except.ok (some xs)) :
    (PartialList.push_back (PartialList.constructCopy w L1) w.handles.length p).2
      = Except.ok () ∧
    PartialList.contents
      (PartialList.push_back (PartialList.constructCopy w L1) w.handles.length p).1 L1
      = Except.ok (some xs) ∧
    PartialList.size
      (PartialList.push_back (PartialList.constructCopy w L1) w.handles.length p).1 L1
      = Except.ok xs.length ∧
    PartialList.contents
      (PartialList.push_back (PartialList.constructCopy w L1) w.handles.length p).1
      w.handles.length = Except.ok (some (xs ++ [p])) ∧
    PartialList.size
      (PartialList.push_back (PartialList.constructCopy w L1) w.handles.length p).1
      w.handles.length = Except.ok (xs.length + 1) := by
  unfold PartialList.contents at h1
  obtain ⟨h, a, hi, _, _⟩ := Store.handle_of_read h1
  have inv := Store.invariant_of_reachable cloneList hr
  have hlt := Store.lt_length_of_handle? hi
  obtain ⟨c1, c2, _⟩ := Store.read_copy hi
  have hrb : (w.copy L1).read w.handles.length = Except.ok (some xs) := by rw [c2, h1]
  obtain ⟨m1, ⟨v1, hv1, m2⟩, m3, _⟩ := Store.mutate_spec cloneList
    (Store.invariant_copy L1 inv) (fun ys => ys ++ [p]) hrb
  have hv : v1 = xs := by
    rcases hv1 with e | e <;> simpa [cloneList] using e
  subst hv
  have r1 : ((w.copy L1).mutate cloneList w.handles.length (fun ys => ys ++ [p])).1.read L1
      = Except.ok (some v1) := by
    rw [m3 L1 (by omega), c1 L1 hlt, h1]
  simp only [PartialList.push_back, PartialList.forward, PartialList.constructCopy,
    PartialList.contents, PartialList.size]
  refine ⟨m1, r1, ?_, m2, ?_⟩
  · rw [r1]; rfl
  · rw [m2]; simp [Except.map]

/-- C16, at a memory with one list of two Partials. -/
theorem push_back_on_copy_witness :
    Reachable cloneList oneListMemory ∧
    PartialList.contents oneListMemory 0 = Except.ok (some [scenarioPartial, earlyEndPartial]) ∧
    (PartialList.push_back (PartialList.constructCopy oneListMemory 0)
      oneListMemory.handles.length crowdedPartial).2 = Except.ok () ∧
    PartialList.contents
      (PartialList.push_back (PartialList.constructCopy oneListMemory 0)
        oneListMemory.handles.length crowdedPartial).1 0
      = Except.ok (some [scenarioPartial, earlyEndPartial]) ∧
    PartialList.size
      (PartialList.push_back (PartialList.constructCopy oneListMemory 0)
        oneListMemory.handles.length crowdedPartial).1 0
      = Except.ok [scenarioPartial, earlyEndPartial].length ∧
    PartialList.contents
      (PartialList.push_back (PartialList.constructCopy oneListMemory 0)
        oneListMemory.handles.length crowdedPartial).1
      oneListMemory.handles.length
      = Except.ok (some ([scenarioPartial, earlyEndPartial] ++ [crowdedPartial])) ∧
    PartialList.size
      (PartialList.push_back (PartialList.constructCopy oneListMemory 0)
        oneListMemory.handles.length crowdedPartial).1
      oneListMemory.handles.length
      = Except.ok ([scenarioPartial, earlyEndPartial].length + 1) :=
  ⟨Reachable.newBound _ Reachable.empty, rfl,
    push_back_on_copy oneListMemory (Reachable.newBound _ Reachable.empty) 0
      [scenarioPartial, earlyEndPartial] crowdedPartial rfl⟩

/-- C18: a list constructed from a range of Partials in a reachable memory (the
new variable `w.handles.length`) holds exactly those Partials in order, its
counter is 1 and no other variable refers to it; the construction leaves the
contents of every other list as they were, a later write to the new list leaves
every other list as it was, and a later write to another list leaves the new
list as it was. -/
theorem constructRange_private (w : PartialList.Memory) (hr : Reachable cloneList w)
    (range : List Partial) :
    PartialList.contents (PartialList.constructRange w range) w.handles.length
      = Except.ok (some range) ∧
    (∃ h, (PartialList.constructRange w range).handle? w.handles.length = some h ∧
      (PartialList.constructRange w range).counters h.refptr = some 1 ∧
      (PartialList.constructRange w range).refs h.refptr = 1) ∧
    (∀ j, j < w.handles.length →
      PartialList.contents (PartialList.constructRange w range) j = PartialList.contents w j) ∧
    (∀ (f : List Partial → List Partial) (j : Nat), j < w.handles.length →
      PartialList.contents
        (PartialList.forward (PartialList.constructRange w range) w.handles.length f).1 j
        = PartialList.contents w j) ∧
    (∀ f : List Partial → List Partial,
      PartialList.contents
        (PartialList.forward (PartialList.constructRange w range) w.handles.length f).1
        w.handles.length = Except.ok (some (f range))) ∧
    (∀ (f : List Partial → List Partial) (j : Nat) (xs : List Partial),
      PartialList.contents w j = Except.ok (some xs) →
      PartialList.contents (PartialList.forward (PartialList.constructRange w range) j f).1
        w.handles.length = Except.ok (some range)) := by
  have inv := Store.invariant_of_reachable cloneList hr
  have inv1 := Store.invariant_newBound range inv
  obtain ⟨n1, n2, n3, n4, _⟩ := Store.read_newBound inv range
  simp only [PartialList.contents, PartialList.constructRange, PartialList.forward]
  refine ⟨n2, ⟨_, n3, ?_, ?_⟩, n1, ?_, ?_, ?_⟩
  · simp [Store.newBound]
  · have := inv1.counter_eq (w.next + 1)
    have hc : (w.newBound range).counters (w.next + 1) = some 1 := by simp [Store.newBound]
    rw [hc] at this
    split_ifs at this with h0
    exact (Option.some.inj this).symm
  · intro f j hj
    obtain ⟨_, _, m3, _⟩ := Store.mutate_spec cloneList inv1 f n2
    rw [m3 j (by omega), n1 j hj]
  · intro f
    obtain ⟨_, ⟨v1, hv1, m2⟩, _⟩ := Store.mutate_spec cloneList inv1 f n2
    have hv : v1 = range := by
      rcases hv1 with e | e <;> simpa [cloneList] using e
    rw [m2, hv]
  · intro f j xs hj
    obtain ⟨h, a, hi, _, _⟩ := Store.handle_of_read hj
    have hlt := Store.lt_length_of_handle? hi
    have hj1 : (w.newBound range).read j = Except.ok (some xs) := by rw [n1 j hlt, hj]
    obtain ⟨_, _, m3, _⟩ := Store.mutate_spec cloneList inv1 f hj1
    rw [m3 w.handles.length (by omega), n2]

/-- C18, at a memory with one list. -/
theorem constructRange_private_witness :
    Reachable cloneList oneListMemory ∧
    PartialList.contents (PartialList.constructRange oneListMemory [crowdedPartial])
      oneListMemory.handles.length = Except.ok (some [crowdedPartial]) ∧
    (∀ (f : List Partial → List Partial) (j : Nat), j < oneListMemory.handles.length →
      PartialList.contents
        (PartialList.forward (PartialList.constructRange oneListMemory [crowdedPartial])
          oneListMemory.handles.length f).1 j
        = PartialList.contents oneListMemory j) :=
  ⟨Reachable.newBound _ Reachable.empty,
    (constructRange_private oneListMemory (Reachable.newBound _ Reachable.empty)
      [crowdedPartial]).1,
    (constructRange_private oneListMemory (Reachable.newBound _ Reachable.empty)
      [crowdedPartial]).2.2.2.1⟩

theorem Store.handle?_modify {T : Type} (s : Store T) (a : Nat) (f : T → T) (i : Nat) :
    (s.modify a f).handle? i = s.handle? i := rfl

theorem Store.objects_modify_self {T : Type} (s : Store T) (a : Nat) (f : T → T) :
    (s.modify a f).objects a = (s.objects a).map f := by
  simp [Store.modify]

theorem Store.objects_modify_ne {T : Type} (s : Store T) {a b : Nat} (f : T → T)
    (h : b ≠ a) : (s.modify a f).objects b = s.objects b := by
  simp [Store.modify, Function.update_noteq h]

theorem Store.next_le_deref {T : Type} (clone : T → T) (s : Store T) (i : Nat) :
    s.next ≤ (s.deref clone i).1.next := by
  have h : s.next ≤ (s.makeUnique clone i).next := by
    unfold Store.makeUnique
    split
    · dsimp only
      split_ifs
      · split <;> dsimp only <;> omega
      · exact le_refl _
    · exact le_refl _
  unfold Store.deref
  dsimp only
  split <;> exact h

/-- What `splice` does with two distinct lists under the invariant. -/
theorem splice_spec (w : PartialList.Memory) (inv : RefCountInvariant w) (L other : Nat)
    (hne : L ≠ other) (ys xs : List Partial) (hL : w.read L = Except.ok (some ys))
    (hO : w.read other = Except.ok (some xs)) (pos first last : Nat) :
    (PartialList.splice w L pos other first last).2 = Except.ok () ∧
    (PartialList.splice w L pos other first last).1.read L
      = Except.ok (some (spliceRange ys pos xs first last).1) ∧
    (PartialList.splice w L pos other first last).1.read other
      = Except.ok (some (spliceRange ys pos xs first last).2) ∧
    (∀ j, j ≠ L → j ≠ other →
      (PartialList.splice w L pos other first last).1.read j = w.read j) ∧
    RefCountInvariant (PartialList.splice w L pos other first last).1 := by
  obtain ⟨hl, al, hil, hpl, hvl⟩ := Store.handle_of_read hL
  obtain ⟨ho, ao, hio, hpo, hvo⟩ := Store.handle_of_read hO
  obtain ⟨c1, dst, v1, d1, d2, d3, d4, d5, d6, d7, d8, d9⟩ :=
    Store.deref_spec cloneList hil hpl hvl
  have hv1 : v1 = ys := by
    rcases d4 with e | e <;> simpa [cloneList] using e
  subst hv1
  have inv1 := Store.invariant_deref cloneList L inv
  have hio1 : (w.deref cloneList L).1.handle? other = some ho := by
    rw [d7 other (fun e => hne e.symm), hio]
  have haolt := (inv.fresh ho (Store.mem_of_handle? hio)).2 ao hpo
  have hvo1 : (w.deref cloneList L).1.objects ao = some xs := by
    rw [d8 ao (by omega), hvo]
  obtain ⟨c2, src, v2, e1, e2, e3, e4, e5, e6, e7, e8, e9⟩ :=
    Store.deref_spec cloneList hio1 hpo hvo1
  have hv2 : v2 = xs := by
    rcases e4 with e | e <;> simpa [cloneList] using e
  subst hv2
  have inv2 := Store.invariant_deref cloneList other inv1
  have hdstlt := (inv1.fresh _ (Store.mem_of_handle? d2)).2 dst rfl
  have hne_ao : ao ≠ dst := by
    intro e
    exact Store.unique_of_count_one inv1 d2 d5 rfl (fun e => hne e.symm) hio1
      (by rw [hpo, e])
  have hds : dst ≠ src := by
    rcases e6 with e | e
    · rw [e]; exact fun h => hne_ao h.symm
    · omega
  have hL2 : ((w.deref cloneList L).1.deref cloneList other).1.handle? L
      = some ⟨c1, some dst⟩ := by
    rw [e7 L hne, d2]
  have hdst2 : ((w.deref cloneList L).1.deref cloneList other).1.objects dst = some v1 := by
    rw [e8 dst (by omega), d3]
  have hsp : PartialList.splice w L pos other first last =
      (((((w.deref cloneList L).1.deref cloneList other).1.modify dst
          (fun _ => (spliceRange v1 pos v2 first last).1)).modify src
          (fun _ => (spliceRange v1 pos v2 first last).2)), Except.ok ()) := by
    unfold PartialList.splice
    have hA : w.deref cloneList L = ((w.deref cloneList L).1, Except.ok dst) := by
      rw [← d1]
    have hB : (w.deref cloneList L).1.deref cloneList other
        = (((w.deref cloneList L).1.deref cloneList other).1, Except.ok src) := by
      rw [← e1]
    rw [hA]
    dsimp only
    rw [hB]
    dsimp only
    rw [if_neg hds, hdst2, e3]
    rfl
  rw [hsp]
  dsimp only
  refine ⟨rfl, ?_, ?_, ?_, Store.invariant_modify _ _ (Store.invariant_modify _ _ inv2)⟩
  · have hsd : src ≠ dst := fun e => hds e.symm
    have hh : ((((w.deref cloneList L).1.deref cloneList other).1.modify dst
        (fun _ => (spliceRange v1 pos v2 first last).1)).modify src
        (fun _ => (spliceRange v1 pos v2 first last).2)).handle? L = some ⟨c1, some dst⟩ := by
      rw [Store.handle?_modify, Store.handle?_modify]; exact hL2
    rw [Store.read_of_handle hh rfl, Store.objects_modify_ne _ _ hds,
      Store.objects_modify_self, hdst2]
    rfl
  · have hh : ((((w.deref cloneList L).1.deref cloneList other).1.modify dst
        (fun _ => (spliceRange v1 pos v2 first last).1)).modify src
        (fun _ => (spliceRange v1 pos v2 first last).2)).handle? other
        = some ⟨c2, some src⟩ := by
      rw [Store.handle?_modify, Store.handle?_modify]; exact e2
    have hsd : src ≠ dst := fun e => hds e.symm
    rw [Store.read_of_handle hh rfl, Store.objects_modify_self,
      Store.objects_modify_ne _ _ hsd, e3]
    rfl
  · intro j hjL hjO
    have hj2 : ((w.deref cloneList L).1.deref cloneList other).1.handle? j = w.handle? j := by
      rw [e7 j hjO, d7 j hjL]
    refine Store.read_congr (s := w) hj2 ?_
    intro k b hk hb
    have hblt := (inv.fresh k (Store.mem_of_handle? hk)).2 b hb
    have hk1 : (w.deref cloneList L).1.handle? j = some k := by rw [d7 j hjL, hk]
    have hk2 : ((w.deref cloneList L).1.deref cloneList other).1.handle? j = some k := by
      rw [hj2, hk]
    have hbd : b ≠ dst := by
      intro e
      exact Store.unique_of_count_one inv1 d2 d5 rfl hjL hk1 (by rw [hb, e])
    have hbs : b ≠ src := by
      intro e
      exact Store.unique_of_count_one inv2 e2 e5 rfl hjO hk2 (by rw [hb, e])
    have hnext1 : w.next ≤ (w.deref cloneList L).1.next := Store.next_le_deref cloneList w L
    rw [Store.objects_modify_ne _ _ hbs, Store.objects_modify_ne _ _ hbd, e8 b (by omega),
      d8 b (by omega)]

/-- C15: `extract` on a list that holds `xs`, in a reachable memory, with a
valid range `[i, j)`: the call returns the new list (variable
`w.handles.length`); afterwards the list holds `xs` without the positions
`i .. j-1`, the rest in order, the returned list holds exactly the elements at
`i .. j-1` in order, and the two sizes add up to the size before.  Every other
list holds what it held. -/
theorem extract_spec (w : PartialList.Memory) (hr : Reachable cloneList w) (L : Nat)
    (xs : List Partial) (i j : Nat) (hij : i ≤ j) (hj : j ≤ xs.length)
    (hL : PartialList.contents w L = Except.ok (some xs)) :
    (PartialList.extract w L i j).2 = Except.ok w.handles.length ∧
    PartialList.contents (PartialList.extract w L i j).1 L
      = Except.ok (some (xs.take i ++ xs.drop j)) ∧
    PartialList.contents (PartialList.extract w L i j).1 w.handles.length
      = Except.ok (some ((xs.take j).drop i)) ∧
    (∃ n1 n2, PartialList.size (PartialList.extract w L i j).1 L = Except.ok n1 ∧
      PartialList.size (PartialList.extract w L i j).1 w.handles.length = Except.ok n2 ∧
      PartialList.size w L = Except.ok (n1 + n2)) ∧
    (∀ k, k < w.handles.length → k ≠ L →
      PartialList.contents (PartialList.extract w L i j).1 k = PartialList.contents w k) := by
  unfold PartialList.contents at hL
  obtain ⟨h, a, hi, _, _⟩ := Store.handle_of_read hL
  have hlt := Store.lt_length_of_handle? hi
  have inv := Store.invariant_of_reachable cloneList hr
  obtain ⟨n1, n2, _, _, _⟩ := Store.read_newBound inv ([] : List Partial)
  have hL1 : (w.newBound []).read L = Except.ok (some xs) := by rw [n1 L hlt, hL]
  obtain ⟨s1, s2, s3, s4, _⟩ := splice_spec (w.newBound []) (Store.invariant_newBound [] inv)
    w.handles.length L (by omega) [] xs n2 hL1 0 i j
  have hex : PartialList.extract w L i j
      = ((PartialList.splice (w.newBound []) w.handles.length 0 L i j).1,
          Except.ok w.handles.length) := by
    unfold PartialList.extract PartialList.construct
    dsimp only
    have : PartialList.splice (w.newBound []) w.handles.length 0 L i j
        = ((PartialList.splice (w.newBound []) w.handles.length 0 L i j).1, Except.ok ()) := by
      rw [← s1]
    rw [this]
  have e1 : (spliceRange [] 0 xs i j).1 = (xs.take j).drop i := by simp [spliceRange]
  have e2 : (spliceRange [] 0 xs i j).2 = xs.take i ++ xs.drop j := rfl
  rw [e1] at s2
  rw [e2] at s3
  rw [hex]
  unfold PartialList.contents PartialList.size
  refine ⟨rfl, s3, s2, ⟨(xs.take i ++ xs.drop j).length, ((xs.take j).drop i).length, ?_, ?_, ?_⟩,
    ?_⟩
  · rw [s3]; rfl
  · rw [s2]; rfl
  · rw [hL]
    simp only [Except.map, Option.getD_some, List.length_append, List.length_take,
      List.length_drop]
    congr 1
    omega
  · intro k hk hkL
    rw [s4 k (by omega) hkL, n1 k hk]

/-- C15, at the list of two Partials and the range of its first element. -/
theorem extract_spec_witness :
    Reachable cloneList oneListMemory ∧ 0 ≤ 1 ∧ 1 ≤ [scenarioPartial, earlyEndPartial].length ∧
    PartialList.contents oneListMemory 0 = Except.ok (some [scenarioPartial, earlyEndPartial]) ∧
    (PartialList.extract oneListMemory 0 0 1).2 = Except.ok oneListMemory.handles.length ∧
    PartialList.contents (PartialList.extract oneListMemory 0 0 1).1 0
      = Except.ok (some ([scenarioPartial, earlyEndPartial].take 0
          ++ [scenarioPartial, earlyEndPartial].drop 1)) ∧
    PartialList.contents (PartialList.extract oneListMemory 0 0 1).1
      oneListMemory.handles.length
      = Except.ok (some (([scenarioPartial, earlyEndPartial].take 1).drop 0)) :=
  ⟨Reachable.newBound _ Reachable.empty, by decide, by decide, rfl,
    (extract_spec oneListMemory (Reachable.newBound _ Reachable.empty) 0
      [scenarioPartial, earlyEndPartial] 0 1 (by decide) (by decide) rfl).1,
    (extract_spec oneListMemory (Reachable.newBound _ Reachable.empty) 0
      [scenarioPartial, earlyEndPartial] 0 1 (by decide) (by decide) rfl).2.1,
    (extract_spec oneListMemory (Reachable.newBound _ Reachable.empty) 0
      [scenarioPartial, earlyEndPartial] 0 1 (by decide) (by decide) rfl).2.2.1⟩

theorem twoListsMemory_reachable : Reachable cloneList twoListsMemory :=
  Reachable.newBound _ (Reachable.newBound _ Reachable.empty)

/-- C19 (counterexample): with an empty list and a list `other` of two
Partials, after `splice( pos, other, first )` with `first` the first position
of `other`, and after `splice( pos, other, first, last )` with `[first, last)`
its first element, `other` still holds its second Partial: it is not empty. -/
theorem splice_leaves_other_nonempty :
    PartialList.contents (PartialList.spliceOne twoListsMemory 0 0 1 0).1 1
      = Except.ok (some [earlyEndPartial]) ∧
    PartialList.contents (PartialList.splice twoListsMemory 0 0 1 0 1).1 1
      = Except.ok (some [earlyEndPartial]) ∧
    [earlyEndPartial] ≠ ([] : List Partial) := by
  have inv := Store.invariant_of_reachable cloneList twoListsMemory_reachable
  obtain ⟨_, _, s3, _⟩ := splice_spec twoListsMemory inv 0 1 (by decide) []
    [scenarioPartial, earlyEndPartial] rfl rfl 0 0 1
  have e : (spliceRange [] 0 [scenarioPartial, earlyEndPartial] 0 1).2 = [earlyEndPartial] := rfl
  rw [e] at s3
  exact ⟨s3, s3, by simp⟩

/-- C19 (amended): for two distinct lists in a reachable memory, `this` with
the Partials `ys` and `other` with the Partials `xs`: after
`splice( pos, other, first, last )` exactly the elements `[first, last)` of
`other`, and after `splice( pos, other, first )` exactly the element at
`first`, have moved to `this`, in order, before position `pos`; `other` keeps
its remaining elements in order, and it is empty afterwards exactly when
nothing remains before `first` and after `last`. -/
theorem splice_transfers_range (w : PartialList.Memory) (hr : Reachable cloneList w)
    (L other : Nat) (hne : L ≠ other) (ys xs : List Partial)
    (hL : PartialList.contents w L = Except.ok (some ys))
    (hO : PartialList.contents w other = Except.ok (some xs)) (pos first last : Nat) :
    ((PartialList.splice w L pos other first last).2 = Except.ok () ∧
      PartialList.contents (PartialList.splice w L pos other first last).1 L
        = Except.ok (some (ys.take pos ++ (xs.take last).drop first ++ ys.drop pos)) ∧
      PartialList.contents (PartialList.splice w L pos other first last).1 other
        = Except.ok (some (xs.take first ++ xs.drop last))) ∧
    ((PartialList.spliceOne w L pos other first).2 = Except.ok () ∧
      PartialList.contents (PartialList.spliceOne w L pos other first).1 L
        = Except.ok (some (ys.take pos ++ (xs.take (first + 1)).drop first ++ ys.drop pos)) ∧
      PartialList.contents (PartialList.spliceOne w L pos other first).1 other
        = Except.ok (some (xs.take first ++ xs.drop (first + 1)))) ∧
    (xs.take first ++ xs.drop last = [] ↔ (first = 0 ∨ xs = []) ∧ xs.length ≤ last) := by
  have inv := Store.invariant_of_reachable cloneList hr
  unfold PartialList.contents at hL hO
  obtain ⟨a1, a2, a3, _⟩ := splice_spec w inv L other hne ys xs hL hO pos first last
  obtain ⟨b1, b2, b3, _⟩ := splice_spec w inv L other hne ys xs hL hO pos first (first + 1)
  refine ⟨⟨a1, a2, a3⟩, ⟨b1, b2, b3⟩, ?_⟩
  simp only [List.append_eq_nil, List.take_eq_nil_iff, List.drop_eq_nil_iff]

/-- C19 (amended), at an empty list and a list of two Partials. -/
theorem splice_transfers_range_witness :
    Reachable cloneList twoListsMemory ∧ (0 : Nat) ≠ 1 ∧
    PartialList.contents twoListsMemory 0 = Except.ok (some []) ∧
    PartialList.contents twoListsMemory 1
      = Except.ok (some [scenarioPartial, earlyEndPartial]) ∧
    (PartialList.spliceOne twoListsMemory 0 0 1 0).2 = Except.ok () ∧
    PartialList.contents (PartialList.spliceOne twoListsMemory 0 0 1 0).1 0
      = Except.ok (some (([] : List Partial).take 0
          ++ ([scenarioPartial, earlyEndPartial].take (0 + 1)).drop 0
          ++ ([] : List Partial).drop 0)) :=
  ⟨twoListsMemory_reachable, by decide, rfl, rfl,
    (splice_transfers_range twoListsMemory twoListsMemory_reachable 0 1 (by decide) []
      [scenarioPartial, earlyEndPartial] rfl rfl 0 0 1).2.1.1,
    (splice_transfers_range twoListsMemory twoListsMemory_reachable 0 1 (by decide) []
      [scenarioPartial, earlyEndPartial] rfl rfl 0 0 1).2.1.2.1⟩

/-! ## Resampling and quantizing a PartialList -/

theorem forEachPartial_returned (op : Partial → Run) :
    ∀ xs : List Partial, (forEachPartial op xs).1 = Status.returned →
      (∀ p ∈ xs, (op p).status = Status.returned) ∧
      (forEachPartial op xs).2 = xs.map (fun p => (op p).state)
  | [], _ => by simp [forEachPartial]
  | p :: rest, h => by
    cases hop : op p with
    | mk st p1 =>
      cases st with
      | returned =>
        simp only [forEachPartial, hop] at h ⊢
        obtain ⟨ih1, ih2⟩ := forEachPartial_returned op rest h
        refine ⟨?_, by rw [ih2]; simp [hop]⟩
        intro q hq
        rcases List.mem_cons.mp hq with e | e
        · rw [e, hop]
        · exact ih1 q e
      | threw f => simp [forEachPartial, hop] at h
      | outOfFuel => simp [forEachPartial, hop] at h
      | undefined => simp [forEachPartial, hop] at h

theorem forEachPartial_of_all (op : Partial → Run) :
    ∀ xs : List Partial, (∀ p ∈ xs, (op p).status = Status.returned) →
      (forEachPartial op xs).1 = Status.returned
  | [], _ => rfl
  | p :: rest, h => by
    have hp := h p (List.mem_cons_self _ _)
    have ih := forEachPartial_of_all op rest (fun q hq => h q (List.mem_cons_of_mem _ hq))
    cases hop : op p with
    | mk st p1 =>
      rw [hop] at hp
      simp only at hp
      subst hp
      simp only [forEachPartial, hop]
      exact ih

theorem eraseIf_is_empty (ys : List Partial) :
    eraseIf is_empty_Partial ys = ys.filter (fun q => decide (q.numBreakpoints ≠ 0)) := by
  unfold eraseIf
  apply List.filter_congr
  intro q _
  by_cases h : q.numBreakpoints = 0
  · simp [is_empty_Partial, h]
  · have : ¬ (0 = q.numBreakpoints) := fun e => h e.symm
    simp [is_empty_Partial, h, this]

/-- What a batch member does to a list that holds `xs`. -/
theorem batch_spec (op : Partial → Run) (w : PartialList.Memory) (plist : Nat)
    (xs : List Partial) (hL : w.read plist = Except.ok (some xs)) :
    (batch op w plist).2 = (forEachPartial op xs).1 ∧
    ((forEachPartial op xs).1 = Status.returned →
      (batch op w plist).1.read plist
        = Except.ok (some ((xs.map (fun p => (op p).state)).filter
            (fun q => decide (q.numBreakpoints ≠ 0))))) := by
  obtain ⟨h, a, hi, hp, hv⟩ := Store.handle_of_read hL
  obtain ⟨c1, a1, v1, d1, d2, d3, d4, _⟩ := Store.deref_spec cloneList hi hp hv
  have hv1 : v1 = xs := by
    rcases d4 with e | e <;> simpa [cloneList] using e
  subst hv1
  have hA : w.deref cloneList plist = ((w.deref cloneList plist).1, Except.ok a1) := by
    rw [← d1]
  cases hfe : forEachPartial op v1 with
  | mk st ys =>
    have hb : batch op w plist =
        match st with
        | Status.returned =>
          ((w.deref cloneList plist).1.modify a1 (fun _ => eraseIf is_empty_Partial ys),
            Status.returned)
        | st1 => ((w.deref cloneList plist).1.modify a1 (fun _ => ys), st1) := by
      unfold batch
      rw [hA]
      dsimp only
      rw [d3]
      simp only [Option.getD_some, hfe]
      cases st <;> rfl
    constructor
    · rw [hb]
      cases st <;> rfl
    · intro hst
      simp only at hst
      subst hst
      have hys := (forEachPartial_returned op v1 (by rw [hfe])).2
      rw [hfe] at hys
      simp only at hys
      rw [hb]
      dsimp only
      rw [Store.read_modify_self _ d2 rfl d3, eraseIf_is_empty, hys]

theorem resample_returns_of_ge (r : Resampler) (env : Collaborators) (p : Partial)
    (hI : 0 < r.interval) (hp : p.bps ≠ []) :
    ∃ f0, ∀ fuel, f0 ≤ fuel → (r.resample env fuel p).status = Status.returned := by
  obtain ⟨s, e, hs, he⟩ := exists_start_end p hp
  refine ⟨stepCount r.interval (lastInsertTime r.interval e) (firstInsertTime r.interval s),
    fun fuel hf => ?_⟩
  rw [resample_eq r env fuel p hI hs he, if_pos hf]

theorem resample_all_return (r : Resampler) (env : Collaborators) (hI : 0 < r.interval) :
    ∀ xs : List Partial, (∀ p ∈ xs, p.bps ≠ []) →
      ∃ f0, ∀ fuel, f0 ≤ fuel → ∀ p ∈ xs, (r.resample env fuel p).status = Status.returned
  | [], _ => ⟨0, fun _ _ p hp => by simp at hp⟩
  | q :: rest, h => by
    obtain ⟨f1, h1⟩ := resample_returns_of_ge r env q hI (h q (List.mem_cons_self _ _))
    obtain ⟨f2, h2⟩ := resample_all_return r env hI rest
      (fun p hp => h p (List.mem_cons_of_mem _ hp))
    refine ⟨max f1 f2, fun fuel hf p hp => ?_⟩
    rcases List.mem_cons.mp hp with e | e
    · rw [e]; exact h1 fuel (le_trans (le_max_left _ _) hf)
    · exact h2 fuel (le_trans (le_max_right _ _) hf) p e

/-- C12: for a PartialList that holds `xs`, a positive interval and a timing
envelope with at least one control point: each of the three batch members,
when it returns, leaves in the list the results of the single-Partial operation
on the Partials of `xs` in order, without those results that have no
breakpoint; what remains keeps the input order and has no Partial without
breakpoints.  `resample( list )` returns with enough fuel when no Partial of
`xs` is empty, `resample( list, timingEnv )` returns with enough fuel, and
`quantize( list )` returns when phase correction is off or no Partial of `xs`
is empty. -/
theorem batch_operations_spec (r : Resampler) (env : Collaborators) (w : PartialList.Memory)
    (plist : Nat) (xs : List Partial) (E : LinearEnvelope) (hI : 0 < r.interval)
    (hE : E.points ≠ []) (hL : PartialList.contents w plist = Except.ok (some xs)) :
    (((∀ p ∈ xs, p.bps ≠ []) → ∃ fuel, (r.resampleList env fuel w plist).2 = Status.returned) ∧
      ∀ fuel, (r.resampleList env fuel w plist).2 = Status.returned →
        (∀ p ∈ xs, (r.resample env fuel p).status = Status.returned) ∧
        PartialList.contents (r.resampleList env fuel w plist).1 plist
          = Except.ok (some ((xs.map (fun p => (r.resample env fuel p).state)).filter
              (fun q => decide (q.numBreakpoints ≠ 0))))) ∧
    ((∃ fuel, (r.resampleTimingList env fuel w plist E).2 = Status.returned) ∧
      ∀ fuel, (r.resampleTimingList env fuel w plist E).2 = Status.returned →
        (∀ p ∈ xs, (r.resampleTiming env fuel p E).status = Status.returned) ∧
        PartialList.contents (r.resampleTimingList env fuel w plist E).1 plist
          = Except.ok (some ((xs.map (fun p => (r.resampleTiming env fuel p E).state)).filter
              (fun q => decide (q.numBreakpoints ≠ 0))))) ∧
    (((r.phaseCorrect = false ∨ ∀ p ∈ xs, p.bps ≠ []) →
        (r.quantizeList env w plist).2 = Status.returned) ∧
      ((r.quantizeList env w plist).2 = Status.returned →
        (∀ p ∈ xs, (r.quantize env p).status = Status.returned) ∧
        PartialList.contents (r.quantizeList env w plist).1 plist
          = Except.ok (some ((xs.map (fun p => (r.quantize env p).state)).filter
              (fun q => decide (q.numBreakpoints ≠ 0)))))) ∧
    ∀ ys : List Partial,
      (ys.filter (fun q => decide (q.numBreakpoints ≠ 0))).Sublist ys ∧
      (∀ q ∈ ys.filter (fun q => decide (q.numBreakpoints ≠ 0)), q.numBreakpoints ≠ 0) ∧
      (∀ q ∈ ys, q.numBreakpoints ≠ 0 →
        q ∈ ys.filter (fun q => decide (q.numBreakpoints ≠ 0))) := by
  unfold PartialList.contents at hL
  unfold PartialList.contents
  refine ⟨⟨?_, ?_⟩, ⟨?_, ?_⟩, ⟨?_, ?_⟩, ?_⟩
  · intro hne
    obtain ⟨f0, hf⟩ := resample_all_return r env hI xs hne
    refine ⟨f0, ?_⟩
    rw [Resampler.resampleList, (batch_spec _ w plist xs hL).1]
    exact forEachPartial_of_all _ xs (hf f0 (le_refl _))
  · intro fuel hret
    obtain ⟨b1, b2⟩ := batch_spec (fun p => r.resample env fuel p) w plist xs hL
    rw [Resampler.resampleList, b1] at hret
    exact ⟨(forEachPartial_returned _ xs hret).1, b2 hret⟩
  · obtain ⟨front, back, hf, hb⟩ := exists_front_back E hE
    refine ⟨stepCount r.interval (lastInsertTime r.interval back.1)
      (firstInsertTime r.interval front.1), ?_⟩
    rw [Resampler.resampleTimingList, (batch_spec _ w plist xs hL).1]
    apply forEachPartial_of_all
    intro p _
    rw [resampleTiming_eq r env _ p E hI hf hb]
    simp
  · intro fuel hret
    obtain ⟨b1, b2⟩ := batch_spec (fun p => r.resampleTiming env fuel p E) w plist xs hL
    rw [Resampler.resampleTimingList, b1] at hret
    exact ⟨(forEachPartial_returned _ xs hret).1, b2 hret⟩
  · intro hq
    rw [Resampler.quantizeList, (batch_spec _ w plist xs hL).1]
    apply forEachPartial_of_all
    intro p hp
    rcases hq with hpc | hne
    · exact quantize_status_of_plain r env p hpc
    · exact quantize_status_of_ne_nil r env (hne p hp)
  · intro hret
    obtain ⟨b1, b2⟩ := batch_spec (fun p => r.quantize env p) w plist xs hL
    rw [Resampler.quantizeList, b1] at hret
    exact ⟨(forEachPartial_returned _ xs hret).1, b2 hret⟩
  · intro ys
    refine ⟨List.filter_sublist ys, ?_, ?_⟩
    · intro q hq
      simpa using (List.mem_filter.mp hq).2
    · intro q hq hne
      exact List.mem_filter.mpr ⟨hq, by simpa using hne⟩

/-! ## The warped `resample` without phase correction -/

theorem gridSamples_add (sample : ℚ → Breakpoint) (interval : ℚ) :
    ∀ (a b : Nat) (t : ℚ),
      gridSamples sample interval (a + b) t =
        gridSamples sample interval a t ++ gridSamples sample interval b (t + a * interval)
  | 0, b, t => by simp [gridSamples]
  | a + 1, b, t => by
    have e : a + 1 + b = (a + b) + 1 := by omega
    have e2 : t + interval + (a : ℚ) * interval = t + ((a + 1 : ℕ) : ℚ) * interval := by
      push_cast; ring
    rw [e, gridSamples, gridSamples, gridSamples_add sample interval a b, e2]
    rfl

theorem length_gridSamples (sample : ℚ → Breakpoint) (interval : ℚ) :
    ∀ (n : Nat) (t : ℚ), (gridSamples sample interval n t).length = n
  | 0, _ => rfl
  | n + 1, t => by simp [gridSamples, length_gridSamples sample interval n]

/-- A run of consecutive entries of a sampled grid is the sampled grid that
starts where the run starts. -/
theorem gridSamples_infix (sample : ℚ → Breakpoint) (interval : ℚ) (n : Nat) (t : ℚ)
    (zs1 mid zs2 : List (ℚ × Breakpoint))
    (h : gridSamples sample interval n t = zs1 ++ mid ++ zs2) :
    mid = gridSamples sample interval mid.length (t + zs1.length * interval) ∧
      zs1.length + mid.length ≤ n := by
  have hlen : n = zs1.length + mid.length + zs2.length := by
    have := congrArg List.length h
    simp only [length_gridSamples, List.length_append] at this
    omega
  have h2 := h
  rw [hlen, gridSamples_add, gridSamples_add] at h2
  have h3 := (List.append_inj h2 (by simp [length_gridSamples])).1
  have h4 := (List.append_inj h3 (by simp [length_gridSamples])).2
  exact ⟨h4.symm, by omega⟩

theorem round_le_truncToInt (x : ℚ) : round x ≤ truncToInt (1 / 2 + x) := by
  rw [round_eq, add_comm x]
  unfold truncToInt
  split_ifs
  · exact le_rfl
  · exact Int.floor_le_ceil _

/-- The times of a run of `n` grid instants that starts at a multiple of the
interval are multiples of the interval and leave no multiple out in between. -/
theorem gridTimes_contiguous {interval : ℚ} (hI : 0 < interval) (m : ℤ) (n : Nat) :
    (∀ t ∈ gridTimes interval n (m * interval), ∃ k : ℤ, t = k * interval) ∧
    (∀ k1 k2 k : ℤ, (k1 : ℚ) * interval ∈ gridTimes interval n (m * interval) →
      (k2 : ℚ) * interval ∈ gridTimes interval n (m * interval) → k1 < k → k < k2 →
      (k : ℚ) * interval ∈ gridTimes interval n (m * interval)) := by
  have hne : interval ≠ 0 := hI.ne'
  constructor
  · intro t ht
    obtain ⟨i, _, hi⟩ := (mem_gridTimes _ _ _ _).mp ht
    exact ⟨m + i, by rw [hi]; push_cast; ring⟩
  · intro k1 k2 k h1 h2 hlo hhi
    obtain ⟨i1, _, hi1⟩ := (mem_gridTimes _ _ _ _).mp h1
    obtain ⟨i2, hlt2, hi2⟩ := (mem_gridTimes _ _ _ _).mp h2
    have e1 : (k1 : ℚ) = ((m + i1 : ℤ) : ℚ) := by
      apply mul_right_cancel₀ hne; rw [hi1]; push_cast; ring
    have e2 : (k2 : ℚ) = ((m + i2 : ℤ) : ℚ) := by
      apply mul_right_cancel₀ hne; rw [hi2]; push_cast; ring
    have e1' : k1 = m + i1 := by exact_mod_cast e1
    have e2' : k2 = m + i2 := by exact_mod_cast e2
    refine (mem_gridTimes _ _ _ _).mpr ⟨(k - m).toNat, by omega, ?_⟩
    have hj : (((k - m).toNat : ℤ) : ℚ) = ((k - m : ℤ) : ℚ) := by
      congr 1; omega
    have hj' : (((k - m).toNat : ℕ) : ℚ) = (k : ℚ) - m := by
      rw [← Int.cast_natCast, hj]; push_cast; ring
    rw [hj']; ring

/-- The output of the warped `resample` without phase correction: a run of
consecutive grid samples of the warped Partial. -/
theorem resampleTiming_plain (r : Resampler) (env : Collaborators) (fuel : Nat) (p : Partial)
    (E : LinearEnvelope) (hI : 0 < r.interval) (hph : r.phaseCorrect = false)
    {front back : ℚ × ℚ} (hf : E.points.head? = some front)
    (hb : E.points.getLast? = some back)
    (hret : (r.resampleTiming env fuel p E).status = Status.returned) :
    ∃ a n : Nat,
      a + n ≤ stepCount r.interval (lastInsertTime r.interval back.1)
        (firstInsertTime r.interval front.1) ∧
      (r.resampleTiming env fuel p E).state = ⟨p.label,
        gridSamples (fun u => env.parametersAt p (E.valueAt u) env.shortestSafeFadeTime)
          r.interval n (firstInsertTime r.interval front.1 + a * r.interval)⟩ := by
  rw [resampleTiming_eq r env fuel p E hI hf hb] at hret ⊢
  simp only [hph, Bool.false_eq_true, false_and, if_false] at hret ⊢
  split_ifs at hret ⊢ with hfu
  · obtain ⟨zs1, zs2, hdec, _, _⟩ :=
      pruneNullEnds_decomposition (naiveSamples r env p E front.1 back.1)
    have hinf := gridSamples_infix
      (fun u => env.parametersAt p (E.valueAt u) env.shortestSafeFadeTime) r.interval _ _
      zs1 (pruneNullEnds (naiveSamples r env p E front.1 back.1)) zs2 hdec
    refine ⟨zs1.length, (pruneNullEnds (naiveSamples r env p E front.1 back.1)).length,
      hinf.2, ?_⟩
    rw [← hinf.1]

/-- C21: with phase correction off, a positive interval and a timing envelope
whose first control point is at `t0` and whose last is at `tN`, the warped
`resample` returns; the label of `p` is kept; every output breakpoint sits at an
integer multiple `t` of the interval with
`interval * round (t0 / interval) ≤ t ≤ tN + interval / 2` and is
`p.parametersAt( timingEnv.valueAt( t ) )`; and the output times form a
contiguous run of multiples of the interval. -/
theorem resampleTiming_without_phase_correction (r : Resampler) (env : Collaborators)
    (p : Partial) (E : LinearEnvelope) (front back : ℚ × ℚ) (hI : 0 < r.interval)
    (hph : r.phaseCorrect = false) (hf : E.points.head? = some front)
    (hb : E.points.getLast? = some back) :
    (∃ fuel, (r.resampleTiming env fuel p E).status = Status.returned) ∧
    ∀ fuel, (r.resampleTiming env fuel p E).status = Status.returned →
      (r.resampleTiming env fuel p E).state.label = p.label ∧
      (∀ e ∈ (r.resampleTiming env fuel p E).state.bps,
        (∃ k : ℤ, e.1 = k * r.interval) ∧
        r.interval * round (front.1 / r.interval) ≤ e.1 ∧
        e.1 ≤ back.1 + r.interval / 2 ∧
        e.2 = env.parametersAt p (E.valueAt e.1) env.shortestSafeFadeTime) ∧
      (∀ k1 k2 k : ℤ,
        (k1 : ℚ) * r.interval ∈ (r.resampleTiming env fuel p E).state.times →
        (k2 : ℚ) * r.interval ∈ (r.resampleTiming env fuel p E).state.times →
        k1 < k → k < k2 →
        (k : ℚ) * r.interval ∈ (r.resampleTiming env fuel p E).state.times) := by
  have hE : E.points ≠ [] := by
    intro h; rw [h] at hf; simp at hf
  refine ⟨resampleTiming_returns r env p E hI hE, fun fuel hret => ?_⟩
  obtain ⟨a, n, han, hst⟩ := resampleTiming_plain r env fuel p E hI hph hf hb hret
  rw [hst]
  have hfirst : firstInsertTime r.interval front.1 + a * r.interval
      = ((truncToInt (1 / 2 + front.1 / r.interval) + a : ℤ) : ℚ) * r.interval := by
    unfold firstInsertTime; push_cast; ring
  refine ⟨rfl, ?_, ?_⟩
  · intro e he
    obtain ⟨i, hi, rfl⟩ := (mem_gridSamples _ _ _ _ _).mp he
    have hlast := (lt_stepCount_iff hI (a + i)).mp (lt_of_lt_of_le (by omega) han)
    have hrnd : (round (front.1 / r.interval) : ℚ) ≤ truncToInt (1 / 2 + front.1 / r.interval) := by
      exact_mod_cast round_le_truncToInt (front.1 / r.interval)
    have h1 : r.interval * round (front.1 / r.interval) ≤ firstInsertTime r.interval front.1 := by
      unfold firstInsertTime
      exact mul_le_mul_of_nonneg_left hrnd hI.le
    have ha : (0 : ℚ) ≤ a * r.interval := mul_nonneg (Nat.cast_nonneg a) hI.le
    have hi0 : (0 : ℚ) ≤ i * r.interval := mul_nonneg (Nat.cast_nonneg i) hI.le
    refine ⟨⟨truncToInt (1 / 2 + front.1 / r.interval) + a + i, ?_⟩, ?_, ?_, rfl⟩
    · show firstInsertTime r.interval front.1 + a * r.interval + i * r.interval = _
      unfold firstInsertTime; push_cast; ring
    · show _ ≤ firstInsertTime r.interval front.1 + a * r.interval + i * r.interval
      linarith
    · show firstInsertTime r.interval front.1 + a * r.interval + i * r.interval ≤ _
      unfold lastInsertTime at hlast
      push_cast at hlast
      linarith
  · show ∀ k1 k2 k : ℤ, _ ∈ List.map Prod.fst _ → _ ∈ List.map Prod.fst _ → _ → _ →
      _ ∈ List.map Prod.fst _
    rw [gridSamples_times, hfirst]
    exact (gridTimes_contiguous hI _ n).2

/-- C21, at a concrete input: interval 0.01 without phase correction, the
scenario Partial, the envelope with control points at 0 and 0.05. -/
theorem resampleTiming_without_phase_correction_witness :
    0 < (scenarioResampler.setPhaseCorrect false).interval ∧
    (scenarioResampler.setPhaseCorrect false).phaseCorrect = false ∧
    identityEnvelope.points.head? = some (0, 0) ∧
    identityEnvelope.points.getLast? = some (1 / 20, 1 / 20) ∧
    ((∃ fuel, ((scenarioResampler.setPhaseCorrect false).resampleTiming stepCollaborators fuel
        scenarioPartial identityEnvelope).status = Status.returned) ∧
    ∀ fuel, ((scenarioResampler.setPhaseCorrect false).resampleTiming stepCollaborators fuel
        scenarioPartial identityEnvelope).status = Status.returned →
      ((scenarioResampler.setPhaseCorrect false).resampleTiming stepCollaborators fuel
        scenarioPartial identityEnvelope).state.label = scenarioPartial.label ∧
      (∀ e ∈ ((scenarioResampler.setPhaseCorrect false).resampleTiming stepCollaborators fuel
          scenarioPartial identityEnvelope).state.bps,
        (∃ k : ℤ, e.1 = k * (scenarioResampler.setPhaseCorrect false).interval) ∧
        (scenarioResampler.setPhaseCorrect false).interval *
          round ((0, 0).1 / (scenarioResampler.setPhaseCorrect false).interval) ≤ e.1 ∧
        e.1 ≤ ((1 : ℚ) / 20, (1 : ℚ) / 20).1 +
          (scenarioResampler.setPhaseCorrect false).interval / 2 ∧
        e.2 = stepCollaborators.parametersAt scenarioPartial (identityEnvelope.valueAt e.1)
          stepCollaborators.shortestSafeFadeTime) ∧
      (∀ k1 k2 k : ℤ,
        (k1 : ℚ) * (scenarioResampler.setPhaseCorrect false).interval ∈
          ((scenarioResampler.setPhaseCorrect false).resampleTiming stepCollaborators fuel
            scenarioPartial identityEnvelope).state.times →
        (k2 : ℚ) * (scenarioResampler.setPhaseCorrect false).interval ∈
          ((scenarioResampler.setPhaseCorrect false).resampleTiming stepCollaborators fuel
            scenarioPartial identityEnvelope).state.times →
        k1 < k → k < k2 →
        (k : ℚ) * (scenarioResampler.setPhaseCorrect false).interval ∈
          ((scenarioResampler.setPhaseCorrect false).resampleTiming stepCollaborators fuel
            scenarioPartial identityEnvelope).state.times)) :=
  ⟨by norm_num [scenarioResampler, Resampler.setPhaseCorrect], rfl,
    by simp [identityEnvelope], by simp [identityEnvelope],
    resampleTiming_without_phase_correction (scenarioResampler.setPhaseCorrect false)
      stepCollaborators scenarioPartial identityEnvelope (0, 0) (1 / 20, 1 / 20)
      (by norm_num [scenarioResampler, Resampler.setPhaseCorrect]) rfl
      (by simp [identityEnvelope]) (by simp [identityEnvelope])⟩

/-! ## The warped `resample` under phase correction -/

theorem pointEnvelope_stepCount :
    stepCount scenarioResampler.interval (lastInsertTime scenarioResampler.interval 0) 0 = 1 ∧
    firstInsertTime scenarioResampler.interval 0 = 0 := by
  have hfirst : firstInsertTime scenarioResampler.interval 0 = 0 := by
    have : truncToInt (1 / 2 + (0 : ℚ) / (1 / 100)) = 0 :=
      truncToInt_of_nonneg (by norm_num) (by norm_num) (by norm_num)
    simp only [firstInsertTime, scenarioResampler, this]; norm_num
  refine ⟨?_, hfirst⟩
  exact stepCount_eq_succ (by norm_num [scenarioResampler]) 0
    (by norm_num [lastInsertTime, scenarioResampler])
    (by norm_num [lastInsertTime, scenarioResampler])

/-- C22 (counterexample): with phase correction on, collaborators whose forward
phase fix adds 1 to every phase, the scenario Partial and the timing envelope
with the single control point `(0, 0.003)`, the warped `resample` returns the
sample of the Partial as given, with phase 0, while the phase steps of
`resample( Partial & )` around the same sampling give phase 1. -/
theorem resampleTiming_skips_forward_phase_fix :
    scenarioResampler.phaseCorrect = true ∧
    (scenarioResampler.resampleTiming shiftCollaborators 1 scenarioPartial pointEnvelope)
      = ⟨Status.returned, ⟨7, [(0, ⟨440, 1, 0, 0⟩)]⟩⟩ ∧
    resampleTimingPhaseSteps scenarioResampler shiftCollaborators scenarioPartial
      pointEnvelope 0 0 = ⟨7, [(0, ⟨440, 1, 1, 0⟩)]⟩ ∧
    (scenarioResampler.resampleTiming shiftCollaborators 1 scenarioPartial pointEnvelope).state
      ≠ resampleTimingPhaseSteps scenarioResampler shiftCollaborators scenarioPartial
          pointEnvelope 0 0 := by
  have hf : pointEnvelope.points.head? = some (0, 3 / 1000) := by simp [pointEnvelope]
  have hb : pointEnvelope.points.getLast? = some (0, 3 / 1000) := by simp [pointEnvelope]
  have hcode : (scenarioResampler.resampleTiming shiftCollaborators 1 scenarioPartial
      pointEnvelope) = ⟨Status.returned, ⟨7, [(0, ⟨440, 1, 0, 0⟩)]⟩⟩ := by
    rw [resampleTiming_eq scenarioResampler shiftCollaborators 1 scenarioPartial pointEnvelope
      (by norm_num [scenarioResampler]) hf hb]
    simp only [naiveSamples, pointEnvelope_stepCount.1, pointEnvelope_stepCount.2]
    simp [gridSamples, pruneNullEnds, isNull, List.rdropWhile, shiftCollaborators,
      stepCollaborators, scenarioPartial, pointEnvelope, LinearEnvelope.valueAt,
      valueAtPoints, scenarioResampler, Collaborators.fixFrequency]
  have hspec : resampleTimingPhaseSteps scenarioResampler shiftCollaborators scenarioPartial
      pointEnvelope 0 0 = ⟨7, [(0, ⟨440, 1, 1, 0⟩)]⟩ := by
    unfold resampleTimingPhaseSteps
    simp only [naiveSamples, pointEnvelope_stepCount.1, pointEnvelope_stepCount.2]
    simp [gridSamples, pruneNullEnds, isNull, List.rdropWhile, shiftCollaborators,
      stepCollaborators, scenarioPartial, pointEnvelope, LinearEnvelope.valueAt,
      valueAtPoints, scenarioResampler, Collaborators.fixFrequency, phaseFixed,
      Collaborators.fixPhaseForward, Breakpoint.setPhase]
  refine ⟨rfl, hcode, hspec, ?_⟩
  rw [hcode, hspec]
  simp

/-- C22 (amended): with phase correction on, a positive interval and a timing
envelope with a first and a last control point, the warped `resample` returns;
it samples the Partial as given, without the forward phase fix of
`resample( Partial & )`, prunes the null ends, and applies `fixFrequency` with
the default bound to the rebuilt Partial when that has a breakpoint.  It agrees
with the phase steps of `resample( Partial & )` around the warped sampling
whenever the forward phase fix leaves the source as it is. -/
theorem resampleTiming_phase_steps (r : Resampler) (env : Collaborators) (p : Partial)
    (E : LinearEnvelope) (front back : ℚ × ℚ) (hI : 0 < r.interval)
    (hph : r.phaseCorrect = true) (hf : E.points.head? = some front)
    (hb : E.points.getLast? = some back) :
    (∃ fuel, (r.resampleTiming env fuel p E).status = Status.returned) ∧
    ∀ fuel, (r.resampleTiming env fuel p E).status = Status.returned →
      (r.resampleTiming env fuel p E).state =
        (if 0 ≠ (pruneNullEnds (naiveSamples r env p E front.1 back.1)).length then
          env.fixFrequency ⟨p.label, pruneNullEnds (naiveSamples r env p E front.1 back.1)⟩
            env.defaultMaxFixPct
        else ⟨p.label, pruneNullEnds (naiveSamples r env p E front.1 back.1)⟩) ∧
      (env.fixPhaseForward p = p →
        (r.resampleTiming env fuel p E).state =
          resampleTimingPhaseSteps r env p E front.1 back.1) := by
  have hE : E.points ≠ [] := by
    intro h; rw [h] at hf; simp at hf
  refine ⟨resampleTiming_returns r env p E hI hE, fun fuel hret => ?_⟩
  rw [resampleTiming_eq r env fuel p E hI hf hb] at hret ⊢
  by_cases hfu : stepCount r.interval (lastInsertTime r.interval back.1)
      (firstInsertTime r.interval front.1) ≤ fuel
  · simp only [hfu, if_true, hph, true_and]
    intro hfix
    unfold resampleTimingPhaseSteps phaseFixed
    simp only [hph, if_true, hfix]
    split_ifs with hlen
    · rfl
    · have hnil : pruneNullEnds (naiveSamples r env p E front.1 back.1) = [] := by
        apply List.length_eq_zero.mp
        omega
      rw [hnil]
      simp [Collaborators.fixFrequency]
  · simp [hfu] at hret

/-- C22 (amended), at a concrete input: interval 0.01 with phase correction, the
scenario Partial, the envelope with the single control point `(0, 0.003)`. -/
theorem resampleTiming_phase_steps_witness :
    0 < scenarioResampler.interval ∧ scenarioResampler.phaseCorrect = true ∧
    pointEnvelope.points.head? = some (0, 3 / 1000) ∧
    pointEnvelope.points.getLast? = some (0, 3 / 1000) ∧
    ((∃ fuel, (scenarioResampler.resampleTiming shiftCollaborators fuel scenarioPartial
        pointEnvelope).status = Status.returned) ∧
    ∀ fuel, (scenarioResampler.resampleTiming shiftCollaborators fuel scenarioPartial
        pointEnvelope).status = Status.returned →
      (scenarioResampler.resampleTiming shiftCollaborators fuel scenarioPartial
          pointEnvelope).state =
        (if 0 ≠ (pruneNullEnds (naiveSamples scenarioResampler shiftCollaborators
            scenarioPartial pointEnvelope ((0 : ℚ), (3 : ℚ) / 1000).1
            ((0 : ℚ), (3 : ℚ) / 1000).1)).length then
          shiftCollaborators.fixFrequency ⟨scenarioPartial.label,
            pruneNullEnds (naiveSamples scenarioResampler shiftCollaborators scenarioPartial
              pointEnvelope ((0 : ℚ), (3 : ℚ) / 1000).1 ((0 : ℚ), (3 : ℚ) / 1000).1)⟩
            shiftCollaborators.defaultMaxFixPct
        else ⟨scenarioPartial.label,
          pruneNullEnds (naiveSamples scenarioResampler shiftCollaborators scenarioPartial
            pointEnvelope ((0 : ℚ), (3 : ℚ) / 1000).1 ((0 : ℚ), (3 : ℚ) / 1000).1)⟩) ∧
      (shiftCollaborators.fixPhaseForward scenarioPartial = scenarioPartial →
        (scenarioResampler.resampleTiming shiftCollaborators fuel scenarioPartial
          pointEnvelope).state =
          resampleTimingPhaseSteps scenarioResampler shiftCollaborators scenarioPartial
            pointEnvelope ((0 : ℚ), (3 : ℚ) / 1000).1 ((0 : ℚ), (3 : ℚ) / 1000).1)) :=
  ⟨by norm_num [scenarioResampler], rfl, by simp [pointEnvelope], by simp [pointEnvelope],
    resampleTiming_phase_steps scenarioResampler shiftCollaborators scenarioPartial
      pointEnvelope (0, 3 / 1000) (0, 3 / 1000) (by norm_num [scenarioResampler]) rfl
      (by simp [pointEnvelope]) (by simp [pointEnvelope])⟩

/-! ## `quantize`: which grid times are occupied -/

theorem mem_times_insertBp (t : ℚ) (bp : Breakpoint) (u : ℚ) :
    ∀ l : List (ℚ × Breakpoint),
      u ∈ (insertBp t bp l).map Prod.fst ↔ u = t ∨ u ∈ l.map Prod.fst
  | [] => by simp [insertBp]
  | (v, b) :: rest => by
    simp only [insertBp]
    split_ifs with h1 h2
    · simp
    · simp [h2]
    · simp only [List.map_cons, List.mem_cons, mem_times_insertBp t bp u rest]
      tauto

theorem quantStep_eq_nearestStep {interval t : ℚ} (hI : 0 < interval) (ht : 0 ≤ t) :
    quantStep interval t = nearestStep interval t := by
  have : (0 : ℚ) ≤ 1 / 2 + t / interval := by
    have := div_nonneg ht hI.le
    linarith
  unfold quantStep nearestStep truncToInt
  rw [if_pos this, add_comm]

theorem nearestStep_nonneg {interval t : ℚ} (hI : 0 < interval) (ht : 0 ≤ t) :
    0 ≤ nearestStep interval t := by
  unfold nearestStep
  apply Int.floor_nonneg.mpr
  have := div_nonneg ht hI.le
  linarith

theorem quantStep_mul {interval : ℚ} (hI : 0 < interval) {k : ℤ} (hk : 0 ≤ k) :
    quantStep interval (interval * k) = k := by
  unfold quantStep
  have e : (1 : ℚ) / 2 + interval * k / interval = 1 / 2 + k := by
    field_simp
  rw [e]
  have hk' : (0 : ℚ) ≤ k := by exact_mod_cast hk
  exact truncToInt_of_nonneg (by linarith) (by linarith) (by linarith)

/-- One round of `quantize` in terms of its test. -/
theorem quantizeStep_eq (r : Resampler) (env : Collaborators) (p newp : Partial)
    (entry : ℚ × Breakpoint) :
    Resampler.quantizeStep r env p newp entry =
      if insertsAt r.interval newp entry then
        if 0 = entry.2.amplitude then
          if r.interval * quantStep r.interval entry.1 < entry.1 then
            ((newp.insert (r.interval * quantStep r.interval entry.1)
                (env.parametersAt p (r.interval * quantStep r.interval entry.1) 1)).modifyAt
              (r.interval * quantStep r.interval entry.1) (fun b => b.setAmplitude 0)).modifyAt
              (r.interval * quantStep r.interval entry.1)
              (fun b => b.setPhase (entry.2.phase - env.phaseTravel b entry.2
                (entry.1 - r.interval * quantStep r.interval entry.1)))
          else
            (newp.insert (r.interval * quantStep r.interval entry.1)
                (env.parametersAt p (r.interval * quantStep r.interval entry.1) 1)).modifyAt
              (r.interval * quantStep r.interval entry.1) (fun b => b.setAmplitude 0)
        else
          newp.insert (r.interval * quantStep r.interval entry.1)
            (env.parametersAt p (r.interval * quantStep r.interval entry.1) 1)
      else newp := rfl

/-- A round of `quantize` that inserts nothing found the grid time of its
breakpoint occupied already, provided the times built so far are multiples
`interval * k` with `0 ≤ k`. -/
theorem quantizeStep_skip {interval : ℚ} (newp : Partial) (entry : ℚ × Breakpoint)
    (hI : 0 < interval)
    (hk : ∀ t ∈ newp.times, ∃ k : ℤ, 0 ≤ k ∧ t = interval * k)
    (hskip : ¬ insertsAt interval newp entry) :
    interval * quantStep interval entry.1 ∈ newp.times := by
  unfold insertsAt endStep at hskip
  rw [not_or, not_not] at hskip
  obtain ⟨heq, _⟩ := hskip
  by_cases hn : newp.numBreakpoints ≠ 0
  · rw [if_pos hn] at heq
    cases het : newp.endTime with
    | none => rw [het] at heq; dsimp only at heq; omega
    | some et =>
      rw [het] at heq
      dsimp only at heq
      have hmem : et ∈ newp.times := by
        rw [endTime_eq_times] at het
        exact List.mem_of_mem_getLast? het
      obtain ⟨k, hk0, hkt⟩ := hk et hmem
      have := quantStep_mul hI hk0
      rw [← heq, hkt]
      unfold quantStep at this
      rw [this, ← hkt]
      exact hmem
  · rw [if_neg hn] at heq
    omega

/-- The times after one round of `quantize` on a breakpoint at a time that is
not negative: the grid time of the breakpoint joins the times built so far. -/
theorem quantizeStep_mem_times (r : Resampler) (env : Collaborators) (p newp : Partial)
    (entry : ℚ × Breakpoint) (hI : 0 < r.interval)
    (hk : ∀ t ∈ newp.times, ∃ k : ℤ, 0 ≤ k ∧ t = r.interval * k) (u : ℚ) :
    u ∈ (Resampler.quantizeStep r env p newp entry).times ↔
      u = r.interval * quantStep r.interval entry.1 ∨ u ∈ newp.times := by
  have hins : ∀ bp, u ∈ (newp.insert (r.interval * quantStep r.interval entry.1) bp).times ↔
      u = r.interval * quantStep r.interval entry.1 ∨ u ∈ newp.times := fun bp =>
    mem_times_insertBp _ bp u newp.bps
  rw [quantizeStep_eq]
  by_cases hc : insertsAt r.interval newp entry
  · rw [if_pos hc]
    split_ifs <;>
      first
      | exact hins _
      | (simp only [times_modifyAt]; exact hins _)
  · rw [if_neg hc]
    have := quantizeStep_skip newp entry hI hk hc
    constructor
    · exact Or.inr
    · rintro (h | h)
      · rw [h]; exact this
      · exact h

theorem quantize_foldl_mem_times (r : Resampler) (env : Collaborators) (p : Partial)
    (hI : 0 < r.interval) :
    ∀ (l : List (ℚ × Breakpoint)) (newp : Partial),
      (∀ e ∈ l, 0 ≤ e.1) →
      (∀ t ∈ newp.times, ∃ k : ℤ, 0 ≤ k ∧ t = r.interval * k) →
      ∀ u, u ∈ (l.foldl (Resampler.quantizeStep r env p) newp).times ↔
        u ∈ newp.times ∨ ∃ e ∈ l, u = r.interval * quantStep r.interval e.1
  | [], newp, _, _, u => by simp
  | entry :: rest, newp, hnn, hk, u => by
    have hk1 : ∀ t ∈ (Resampler.quantizeStep r env p newp entry).times,
        ∃ k : ℤ, 0 ≤ k ∧ t = r.interval * k := by
      intro t ht
      rcases (quantizeStep_mem_times r env p newp entry hI hk t).mp ht with h | h
      · refine ⟨quantStep r.interval entry.1, ?_, h⟩
        rw [quantStep_eq_nearestStep hI (hnn entry (List.mem_cons_self _ _))]
        exact nearestStep_nonneg hI (hnn entry (List.mem_cons_self _ _))
      · exact hk t h
    rw [List.foldl_cons, quantize_foldl_mem_times r env p hI rest _
      (fun e he => hnn e (List.mem_cons_of_mem _ he)) hk1 u,
      quantizeStep_mem_times r env p newp entry hI hk u]
    simp only [List.mem_cons, exists_eq_or_imp]
    tauto

/-- The grid times that `quantize( Partial & )` occupies, for breakpoint times
that are not negative. -/
theorem quantize_mem_times (r : Resampler) (env : Collaborators) (p : Partial)
    (hI : 0 < r.interval) (hnn : ∀ t ∈ p.times, 0 ≤ t) (u : ℚ) :
    u ∈ (r.quantize env p).state.times ↔
      ∃ t ∈ p.times, u = r.interval * quantStep r.interval t := by
  have hnn1 : ∀ e ∈ (phaseFixed r env p).bps, 0 ≤ e.1 := by
    intro e he
    apply hnn
    rw [← times_phaseFixed r env p]
    exact List.mem_map.mpr ⟨e, he, rfl⟩
  have h := quantize_foldl_mem_times r env (phaseFixed r env p) hI (phaseFixed r env p).bps
    (Partial.empty.setLabel (phaseFixed r env p).label) hnn1
    (by simp [Partial.empty, Partial.setLabel, Partial.times]) u
  have hout : (r.quantize env p).state.times =
      ((phaseFixed r env p).bps.foldl (Resampler.quantizeStep r env (phaseFixed r env p))
        (Partial.empty.setLabel (phaseFixed r env p).label)).times := by
    by_cases hg : r.phaseCorrect = true ∧ p.bps = []
    · rw [quantize_of_undefined r env p hg]
      have hnil : (phaseFixed r env p).bps = [] := by
        have h0 := times_phaseFixed r env p
        simpa [Partial.times, hg.2] using h0
      simp [Partial.times, hg.2, hnil, Partial.empty, Partial.setLabel]
    · rw [quantize_of_defined r env p hg]
      dsimp only
      split_ifs with hpc
      · rw [times_fixFrequency]
      · rfl
  rw [hout, h]
  simp only [Partial.empty, Partial.setLabel, Partial.times, List.map_nil, List.not_mem_nil,
    false_or]
  constructor
  · rintro ⟨e, he, rfl⟩
    refine ⟨e.1, ?_, rfl⟩
    have : e.1 ∈ (phaseFixed r env p).times := List.mem_map.mpr ⟨e, he, rfl⟩
    rw [times_phaseFixed] at this
    exact this
  · rintro ⟨t, ht, rfl⟩
    have ht1 : t ∈ (phaseFixed r env p).times := by rw [times_phaseFixed]; exact ht
    obtain ⟨e, he, rfl⟩ := List.mem_map.mp ht1
    exact ⟨e, he, rfl⟩

/-- C23 (amended): with times as exact rationals, for a positive interval and a
Partial with at least one breakpoint and no negative breakpoint time,
`quantize( Partial & )` returns, the set of the breakpoint times it leaves is
exactly the set of the `interval * q(bpt)` over the breakpoint times `bpt` of
the input, with `q(bpt) = floor (bpt / interval + 1/2)`, and the number of
output breakpoints is the number of distinct values `q(bpt)`. -/
theorem quantize_times_nearest_steps (r : Resampler) (env : Collaborators) (p : Partial)
    (hI : 0 < r.interval) (hp : p.bps ≠ []) (hnn : ∀ t ∈ p.times, 0 ≤ t) :
    (r.quantize env p).status = Status.returned ∧
    (∀ u, u ∈ (r.quantize env p).state.times ↔
      ∃ t ∈ p.times, u = r.interval * nearestStep r.interval t) ∧
    (r.quantize env p).state.numBreakpoints
      = ((p.times.map (nearestStep r.interval)).toFinset).card := by
  have hmem : ∀ u, u ∈ (r.quantize env p).state.times ↔
      ∃ t ∈ p.times, u = r.interval * nearestStep r.interval t := by
    intro u
    rw [quantize_mem_times r env p hI hnn u]
    constructor
    · rintro ⟨t, ht, rfl⟩
      exact ⟨t, ht, by rw [quantStep_eq_nearestStep hI (hnn t ht)]⟩
    · rintro ⟨t, ht, rfl⟩
      exact ⟨t, ht, by rw [quantStep_eq_nearestStep hI (hnn t ht)]⟩
  refine ⟨quantize_status_of_ne_nil r env hp, hmem, ?_⟩
  have hnd : (r.quantize env p).state.times.Nodup :=
    (quantize_times_pairwise r env p).imp (fun h => ne_of_lt h)
  have hinj : Function.Injective (fun k : ℤ => r.interval * (k : ℚ)) := by
    intro a b hab
    have := mul_left_cancel₀ hI.ne' hab
    exact_mod_cast this
  have hset : (r.quantize env p).state.times.toFinset =
      ((p.times.map (nearestStep r.interval)).toFinset).image
        (fun k : ℤ => r.interval * (k : ℚ)) := by
    ext u
    simp only [List.mem_toFinset, Finset.mem_image, List.mem_map, hmem u]
    constructor
    · rintro ⟨t, ht, rfl⟩
      exact ⟨nearestStep r.interval t, ⟨t, ht, rfl⟩, rfl⟩
    · rintro ⟨k, ⟨t, ht, rfl⟩, rfl⟩
      exact ⟨t, ht, rfl⟩
  have hlen : (r.quantize env p).state.numBreakpoints
      = (r.quantize env p).state.times.length := by
    simp [Partial.numBreakpoints, Partial.times]
  rw [hlen, ← List.toFinset_card_of_nodup hnd, hset, Finset.card_image_of_injective _ hinj]

/-- C23 (amended), at a Partial with three breakpoints near the grid step 0 and
one near the grid step 2. -/
theorem quantize_times_nearest_steps_witness :
    0 < scenarioResampler.interval ∧ crowdedPartial.bps ≠ [] ∧
    (∀ t ∈ crowdedPartial.times, 0 ≤ t) ∧
    (scenarioResampler.quantize stepCollaborators crowdedPartial).status = Status.returned ∧
    (∀ u, u ∈ (scenarioResampler.quantize stepCollaborators crowdedPartial).state.times ↔
      ∃ t ∈ crowdedPartial.times,
        u = scenarioResampler.interval * nearestStep scenarioResampler.interval t) ∧
    (scenarioResampler.quantize stepCollaborators crowdedPartial).state.numBreakpoints
      = ((crowdedPartial.times.map (nearestStep scenarioResampler.interval)).toFinset).card :=
  ⟨by norm_num [scenarioResampler], by simp [crowdedPartial],
    by norm_num [crowdedPartial, Partial.times],
    quantize_times_nearest_steps scenarioResampler stepCollaborators crowdedPartial
      (by norm_num [scenarioResampler]) (by simp [crowdedPartial])
      (by norm_num [crowdedPartial, Partial.times])⟩

/-! ## `quantize`: what a round stores -/

theorem map_modify_of_lt (t : ℚ) (f : Breakpoint → Breakpoint) (l : List (ℚ × Breakpoint))
    (h : ∀ x ∈ l.map Prod.fst, t < x) :
    l.map (fun e => if e.1 = t then (e.1, f e.2) else e) = l := by
  conv_rhs => rw [← List.map_id l]
  apply List.map_congr_left
  intro e he
  have := h e.1 (List.mem_map.mpr ⟨e, he, rfl⟩)
  rw [if_neg (ne_of_gt this)]
  rfl

/-- An update through the iterator that `insert` returns changes the inserted
breakpoint only. -/
theorem map_modify_insertBp (t : ℚ) (bp : Breakpoint) (f : Breakpoint → Breakpoint) :
    ∀ l : List (ℚ × Breakpoint), (l.map Prod.fst).Pairwise (· < ·) →
      (insertBp t bp l).map (fun e => if e.1 = t then (e.1, f e.2) else e)
        = insertBp t (f bp) l
  | [], _ => by simp [insertBp]
  | (u, b) :: rest, h => by
    rw [List.map_cons, List.pairwise_cons] at h
    obtain ⟨hu, hrest⟩ := h
    simp only [insertBp]
    split_ifs with h1 h2
    · rw [List.map_cons, if_pos rfl]
      congr 1
      apply map_modify_of_lt
      intro x hx
      rcases List.mem_cons.mp hx with hx | hx
      · rw [hx]; exact h1
      · exact lt_trans h1 (hu x hx)
    · rw [List.map_cons, if_pos rfl]
      congr 1
      apply map_modify_of_lt
      intro x hx
      rw [h2]; exact hu x hx
    · rw [List.map_cons, if_neg (fun h => h2 h.symm), map_modify_insertBp t bp f rest hrest]

theorem modifyAt_insert (p : Partial) (t : ℚ) (bp : Breakpoint) (f : Breakpoint → Breakpoint)
    (hs : p.times.Pairwise (· < ·)) :
    (p.insert t bp).modifyAt t f = p.insert t (f bp) := by
  unfold Partial.modifyAt Partial.insert
  simp only [map_modify_insertBp t bp f p.bps hs]

/-- A round of `quantize` on a null breakpoint stores, at the grid time of the
breakpoint, the sample with the amplitude forced to 0 and the phase rolled back
when the grid time is the earlier one. -/
theorem quantizeStep_of_null (r : Resampler) (env : Collaborators) (p newp : Partial)
    (entry : ℚ × Breakpoint) (hz : entry.2.amplitude = 0)
    (hs : newp.times.Pairwise (· < ·)) :
    Resampler.quantizeStep r env p newp entry =
      newp.insert (r.interval * quantStep r.interval entry.1)
        (nullInsertion env p (r.interval * quantStep r.interval entry.1) entry) := by
  have hins : insertsAt r.interval newp entry := Or.inr hz.symm
  rw [quantizeStep_eq, if_pos hins, if_pos hz.symm]
  unfold nullInsertion
  dsimp only
  split_ifs with hlt
  · rw [modifyAt_insert _ _ _ _ hs, modifyAt_insert _ _ _ _ hs]
  · rw [modifyAt_insert _ _ _ _ hs]

/-- A round of `quantize` on a breakpoint that is not null stores the plain
sample at the grid time of the breakpoint, or nothing. -/
theorem quantizeStep_of_nonnull (r : Resampler) (env : Collaborators) (p newp : Partial)
    (entry : ℚ × Breakpoint) (hz : entry.2.amplitude ≠ 0) :
    Resampler.quantizeStep r env p newp entry =
      if endStep r.interval newp (quantStep r.interval entry.1) ≠ quantStep r.interval entry.1
      then newp.insert (r.interval * quantStep r.interval entry.1)
        (env.parametersAt p (r.interval * quantStep r.interval entry.1) 1)
      else newp := by
  have hz' : ¬ (0 = entry.2.amplitude) := fun h => hz h.symm
  rw [quantizeStep_eq]
  unfold insertsAt
  by_cases hc : endStep r.interval newp (quantStep r.interval entry.1)
      ≠ quantStep r.interval entry.1
  · have hins : endStep r.interval newp (quantStep r.interval entry.1)
        ≠ quantStep r.interval entry.1 ∨ 0 = entry.2.amplitude := Or.inl hc
    rw [if_pos hins, if_neg hz', if_pos hc]
  · have hins : ¬ (endStep r.interval newp (quantStep r.interval entry.1)
        ≠ quantStep r.interval entry.1 ∨ 0 = entry.2.amplitude) := by tauto
    rw [if_neg hins, if_neg hc]

theorem mem_insertBp_self (t : ℚ) (bp : Breakpoint) :
    ∀ l : List (ℚ × Breakpoint), (t, bp) ∈ insertBp t bp l
  | [] => by simp [insertBp]
  | (u, b) :: rest => by
    simp only [insertBp]
    split_ifs
    · exact List.mem_cons_self _ _
    · exact List.mem_cons_self _ _
    · exact List.mem_cons_of_mem _ (mem_insertBp_self t bp rest)

theorem mem_insertBp_of_ne (t : ℚ) (bp : Breakpoint) (e : ℚ × Breakpoint) (hne : e.1 ≠ t) :
    ∀ l : List (ℚ × Breakpoint), e ∈ l → e ∈ insertBp t bp l
  | [], h => by simp at h
  | (u, b) :: rest, h => by
    simp only [insertBp]
    split_ifs with h1 h2
    · exact List.mem_cons_of_mem _ h
    · rcases List.mem_cons.mp h with h3 | h3
      · exact absurd (by rw [h3, h2]) hne
      · exact List.mem_cons_of_mem _ h3
    · rcases List.mem_cons.mp h with h3 | h3
      · rw [h3]; exact List.mem_cons_self _ _
      · exact List.mem_cons_of_mem _ (mem_insertBp_of_ne t bp e hne rest h3)

/-- In a Partial whose times strictly increase a time determines its
breakpoint. -/
theorem eq_of_mem_of_pairwise {l : List (ℚ × Breakpoint)}
    (hs : (l.map Prod.fst).Pairwise (· < ·)) {a b : ℚ × Breakpoint} (ha : a ∈ l) (hb : b ∈ l)
    (hab : a.1 = b.1) : a = b := by
  induction l with
  | nil => simp at ha
  | cons x rest ih =>
    rw [List.map_cons, List.pairwise_cons] at hs
    rcases List.mem_cons.mp ha with h1 | h1 <;> rcases List.mem_cons.mp hb with h2 | h2
    · rw [h1, h2]
    · have := hs.1 b.1 (List.mem_map.mpr ⟨b, h2, rfl⟩)
      rw [← hab, h1] at this
      exact absurd this (lt_irrefl _)
    · have := hs.1 a.1 (List.mem_map.mpr ⟨a, h1, rfl⟩)
      rw [hab, h2] at this
      exact absurd this (lt_irrefl _)
    · exact ih hs.2 h1 h2

/-- C27: a round of `quantize` on a breakpoint `bp` of amplitude 0 at time
`bpt`, with `qt` the grid time of the round and the times built so far strictly
increasing, leaves exactly one breakpoint at `qt`; its frequency and bandwidth
are those of `p.parametersAt( qt, 1.0 )`, its amplitude is 0, and its phase is
`bp.phase - phaseTravel( sample with amplitude 0, bp, bpt - qt )` if `qt < bpt`
and the phase of `p.parametersAt( qt, 1.0 )` otherwise. -/
theorem quantizeStep_null_insertion (r : Resampler) (env : Collaborators) (p newp : Partial)
    (entry : ℚ × Breakpoint) (hz : entry.2.amplitude = 0)
    (hs : newp.times.Pairwise (· < ·)) :
    ∃ b : Breakpoint,
      (r.interval * quantStep r.interval entry.1, b)
        ∈ (Resampler.quantizeStep r env p newp entry).bps ∧
      (∀ e ∈ (Resampler.quantizeStep r env p newp entry).bps,
        e.1 = r.interval * quantStep r.interval entry.1 →
        e = (r.interval * quantStep r.interval entry.1, b)) ∧
      b.frequency
        = (env.parametersAt p (r.interval * quantStep r.interval entry.1) 1).frequency ∧
      b.bandwidth
        = (env.parametersAt p (r.interval * quantStep r.interval entry.1) 1).bandwidth ∧
      b.amplitude = 0 ∧
      (r.interval * quantStep r.interval entry.1 < entry.1 →
        b.phase = entry.2.phase - env.phaseTravel
          ((env.parametersAt p (r.interval * quantStep r.interval entry.1) 1).setAmplitude 0)
          entry.2 (entry.1 - r.interval * quantStep r.interval entry.1)) ∧
      (¬ r.interval * quantStep r.interval entry.1 < entry.1 →
        b.phase
          = (env.parametersAt p (r.interval * quantStep r.interval entry.1) 1).phase) := by
  have hstep := quantizeStep_of_null r env p newp entry hz hs
  have hsorted : (Resampler.quantizeStep r env p newp entry).times.Pairwise (· < ·) :=
    quantizeStep_pairwise r env p newp entry hs
  have hmem : (r.interval * quantStep r.interval entry.1,
      nullInsertion env p (r.interval * quantStep r.interval entry.1) entry)
      ∈ (Resampler.quantizeStep r env p newp entry).bps := by
    rw [hstep]; exact mem_insertBp_self _ _ _
  refine ⟨nullInsertion env p (r.interval * quantStep r.interval entry.1) entry, hmem, ?_,
    ?_, ?_, ?_, ?_, ?_⟩
  · intro e he heq
    exact eq_of_mem_of_pairwise hsorted he hmem heq
  · unfold nullInsertion; dsimp only
    split_ifs <;> rfl
  · unfold nullInsertion; dsimp only
    split_ifs <;> rfl
  · unfold nullInsertion; dsimp only
    split_ifs <;> rfl
  · intro hlt
    unfold nullInsertion; dsimp only
    rw [if_pos hlt]
    rfl
  · intro hlt
    unfold nullInsertion; dsimp only
    rw [if_neg hlt]
    rfl

/-- C27, at the first round of `quantize` on the dense Partial: the null
breakpoint at 0.001 goes to the grid time 0. -/
theorem quantizeStep_null_insertion_witness :
    ((1 : ℚ) / 1000, (⟨440, 0, 0, 0⟩ : Breakpoint)).2.amplitude = 0 ∧
    Partial.empty.times.Pairwise (· < ·) ∧
    ∃ b : Breakpoint,
      (scenarioResampler.interval *
          quantStep scenarioResampler.interval ((1 : ℚ) / 1000, (⟨440, 0, 0, 0⟩ : Breakpoint)).1,
        b) ∈ (Resampler.quantizeStep scenarioResampler stepCollaborators doubleNullPartial
          Partial.empty (1 / 1000, ⟨440, 0, 0, 0⟩)).bps ∧
      (∀ e ∈ (Resampler.quantizeStep scenarioResampler stepCollaborators doubleNullPartial
          Partial.empty (1 / 1000, ⟨440, 0, 0, 0⟩)).bps,
        e.1 = scenarioResampler.interval *
          quantStep scenarioResampler.interval
            ((1 : ℚ) / 1000, (⟨440, 0, 0, 0⟩ : Breakpoint)).1 →
        e = (scenarioResampler.interval *
          quantStep scenarioResampler.interval
            ((1 : ℚ) / 1000, (⟨440, 0, 0, 0⟩ : Breakpoint)).1, b)) ∧
      b.frequency
        = (stepCollaborators.parametersAt doubleNullPartial (scenarioResampler.interval *
          quantStep scenarioResampler.interval
            ((1 : ℚ) / 1000, (⟨440, 0, 0, 0⟩ : Breakpoint)).1) 1).frequency ∧
      b.bandwidth
        = (stepCollaborators.parametersAt doubleNullPartial (scenarioResampler.interval *
          quantStep scenarioResampler.interval
            ((1 : ℚ) / 1000, (⟨440, 0, 0, 0⟩ : Breakpoint)).1) 1).bandwidth ∧
      b.amplitude = 0 ∧
      (scenarioResampler.interval *
          quantStep scenarioResampler.interval
            ((1 : ℚ) / 1000, (⟨440, 0, 0, 0⟩ : Breakpoint)).1
          < ((1 : ℚ) / 1000, (⟨440, 0, 0, 0⟩ : Breakpoint)).1 →
        b.phase = ((1 : ℚ) / 1000, (⟨440, 0, 0, 0⟩ : Breakpoint)).2.phase -
          stepCollaborators.phaseTravel
            ((stepCollaborators.parametersAt doubleNullPartial (scenarioResampler.interval *
              quantStep scenarioResampler.interval
                ((1 : ℚ) / 1000, (⟨440, 0, 0, 0⟩ : Breakpoint)).1) 1).setAmplitude 0)
            ((1 : ℚ) / 1000, (⟨440, 0, 0, 0⟩ : Breakpoint)).2
            (((1 : ℚ) / 1000, (⟨440, 0, 0, 0⟩ : Breakpoint)).1 - scenarioResampler.interval *
              quantStep scenarioResampler.interval
                ((1 : ℚ) / 1000, (⟨440, 0, 0, 0⟩ : Breakpoint)).1)) ∧
      (¬ scenarioResampler.interval *
          quantStep scenarioResampler.interval
            ((1 : ℚ) / 1000, (⟨440, 0, 0, 0⟩ : Breakpoint)).1
          < ((1 : ℚ) / 1000, (⟨440, 0, 0, 0⟩ : Breakpoint)).1 →
        b.phase
          = (stepCollaborators.parametersAt doubleNullPartial (scenarioResampler.interval *
            quantStep scenarioResampler.interval
              ((1 : ℚ) / 1000, (⟨440, 0, 0, 0⟩ : Breakpoint)).1) 1).phase) :=
  ⟨rfl, by simp [Partial.empty, Partial.times],
    quantizeStep_null_insertion scenarioResampler stepCollaborators doubleNullPartial
      Partial.empty (1 / 1000, ⟨440, 0, 0, 0⟩) rfl (by simp [Partial.empty, Partial.times])⟩

/-! ## `quantize`: the breakpoints stored for breakpoints that are not null -/

theorem quantizeStep_value (r : Resampler) (env : Collaborators) (p newp : Partial)
    (entry : ℚ × Breakpoint) (hs : newp.times.Pairwise (· < ·)) :
    ∀ e ∈ (Resampler.quantizeStep r env p newp entry).bps,
      e ∈ newp.bps ∨
      (e.1 = r.interval * quantStep r.interval entry.1 ∧
        (entry.2.amplitude = 0 ∨ e.2 = env.parametersAt p e.1 1)) := by
  intro e he
  by_cases hz : entry.2.amplitude = 0
  · rw [quantizeStep_of_null r env p newp entry hz hs] at he
    rcases mem_insertBp _ _ e newp.bps he with h | h
    · right; rw [h]; exact ⟨rfl, Or.inl hz⟩
    · exact Or.inl h
  · rw [quantizeStep_of_nonnull r env p newp entry hz] at he
    split_ifs at he
    · rcases mem_insertBp _ _ e newp.bps he with h | h
      · right; rw [h]; exact ⟨rfl, Or.inr rfl⟩
      · exact Or.inl h
    · exact Or.inl he

theorem quantize_foldl_value (r : Resampler) (env : Collaborators) (p : Partial) :
    ∀ (l : List (ℚ × Breakpoint)) (newp : Partial), newp.times.Pairwise (· < ·) →
      ∀ e ∈ (l.foldl (Resampler.quantizeStep r env p) newp).bps,
        e ∈ newp.bps ∨
        (∃ x ∈ l, x.2.amplitude = 0 ∧ e.1 = r.interval * quantStep r.interval x.1) ∨
        e.2 = env.parametersAt p e.1 1
  | [], newp, _, e, he => Or.inl he
  | entry :: rest, newp, hs, e, he => by
    rw [List.foldl_cons] at he
    rcases quantize_foldl_value r env p rest _ (quantizeStep_pairwise r env p newp entry hs)
      e he with h | ⟨x, hx, hx0, hxe⟩ | h
    · rcases quantizeStep_value r env p newp entry hs e h with h1 | ⟨h1, h2 | h2⟩
      · exact Or.inl h1
      · exact Or.inr (Or.inl ⟨entry, List.mem_cons_self _ _, h2, h1⟩)
      · exact Or.inr (Or.inr h2)
    · exact Or.inr (Or.inl ⟨x, List.mem_cons_of_mem _ hx, hx0, hxe⟩)
    · exact Or.inr (Or.inr h)

/-- C26: with phase correction off, a positive interval and a Partial `p` with
no negative breakpoint time, `quantize( Partial & )` returns, and every output
breakpoint at a grid time `qt` onto which no input breakpoint of amplitude 0 is
quantized is `p.parametersAt( qt, 1.0 )`, whatever the number of input
breakpoints that round to `qt`. -/
theorem quantize_value_without_nulls (r : Resampler) (env : Collaborators) (p : Partial)
    (hI : 0 < r.interval) (hph : r.phaseCorrect = false) (hnn : ∀ t ∈ p.times, 0 ≤ t) :
    (r.quantize env p).status = Status.returned ∧
    ∀ e ∈ (r.quantize env p).state.bps,
      (∀ x ∈ p.bps, x.2.amplitude = 0 → r.interval * nearestStep r.interval x.1 ≠ e.1) →
      e.2 = env.parametersAt p e.1 1 := by
  refine ⟨quantize_status_of_plain r env p hph, fun e he hno => ?_⟩
  have hout : (r.quantize env p).state =
      p.bps.foldl (Resampler.quantizeStep r env p) (Partial.empty.setLabel p.label) := by
    unfold Resampler.quantize
    simp [hph]
  rw [hout] at he
  rcases quantize_foldl_value r env p p.bps (Partial.empty.setLabel p.label)
    (by simp [Partial.empty, Partial.setLabel, Partial.times]) e he with h | ⟨x, hx, hx0, hxe⟩ | h
  · simp [Partial.empty, Partial.setLabel] at h
  · exfalso
    apply hno x hx hx0
    rw [hxe, quantStep_eq_nearestStep hI (hnn x.1 (List.mem_map.mpr ⟨x, hx, rfl⟩))]
  · exact h

/-- C26, at the scenario Partial, which has no null breakpoint. -/
theorem quantize_value_without_nulls_witness :
    0 < (scenarioResampler.setPhaseCorrect false).interval ∧
    (scenarioResampler.setPhaseCorrect false).phaseCorrect = false ∧
    (∀ t ∈ scenarioPartial.times, 0 ≤ t) ∧
    ((scenarioResampler.setPhaseCorrect false).quantize stepCollaborators
      scenarioPartial).status = Status.returned ∧
    ∀ e ∈ ((scenarioResampler.setPhaseCorrect false).quantize stepCollaborators
        scenarioPartial).state.bps,
      (∀ x ∈ scenarioPartial.bps, x.2.amplitude = 0 →
        (scenarioResampler.setPhaseCorrect false).interval *
          nearestStep (scenarioResampler.setPhaseCorrect false).interval x.1 ≠ e.1) →
      e.2 = stepCollaborators.parametersAt scenarioPartial e.1 1 :=
  ⟨by norm_num [scenarioResampler, Resampler.setPhaseCorrect], rfl,
    by norm_num [scenarioPartial, Partial.times],
    quantize_value_without_nulls (scenarioResampler.setPhaseCorrect false) stepCollaborators
      scenarioPartial (by norm_num [scenarioResampler, Resampler.setPhaseCorrect]) rfl
      (by norm_num [scenarioPartial, Partial.times])⟩

/-! ## `quantize` on concrete Partials -/

theorem quantStep_values :
    quantStep (1 / 100) (1 / 1000) = 0 ∧ quantStep (1 / 100) (2 / 1000) = 0 ∧
    quantStep (1 / 100) (11 / 500) = 2 ∧ quantStep (1 / 100) 0 = 0 ∧
    quantStep (1 / 100) (-26 / 1000) = -2 ∧ quantStep (1 / 100) (-25 / 1000) = -2 ∧
    quantStep (1 / 100) (-1 / 50) = -1 := by
  unfold quantStep
  refine ⟨truncToInt_of_nonneg ?_ ?_ ?_, truncToInt_of_nonneg ?_ ?_ ?_,
    truncToInt_of_nonneg ?_ ?_ ?_, truncToInt_of_nonneg ?_ ?_ ?_,
    truncToInt_of_neg ?_ ?_ ?_, truncToInt_of_neg ?_ ?_ ?_, truncToInt_of_neg ?_ ?_ ?_⟩ <;>
    norm_num

/-- The run of `quantize` on the dense Partial with two successive null
breakpoints near the grid step 0: the second null replaces the first. -/
theorem quantize_doubleNullPartial :
    ((scenarioResampler.setPhaseCorrect false).quantize stepCollaborators
      doubleNullPartial).state
      = ⟨7, [(0, ⟨440, 0, -881 / 1000, 0⟩), (1 / 50, ⟨440, 1, 0, 0⟩)]⟩ := by
  obtain ⟨q1, q2, q3, -, -, -, -⟩ := quantStep_values
  have hI : (scenarioResampler.setPhaseCorrect false).interval = 1 / 100 := rfl
  have s1 : Resampler.quantizeStep (scenarioResampler.setPhaseCorrect false) stepCollaborators
      doubleNullPartial ⟨7, []⟩ (1 / 1000, ⟨440, 0, 0, 0⟩)
      = ⟨7, [(0, ⟨440, 0, -11 / 25, 0⟩)]⟩ := by
    rw [quantizeStep_of_null _ _ _ _ _ rfl (by simp [Partial.times])]
    simp only [hI, q1]
    norm_num [Partial.insert, insertBp, nullInsertion, stepCollaborators, doubleNullPartial,
      Breakpoint.setAmplitude, Breakpoint.setPhase]
  have s2 : Resampler.quantizeStep (scenarioResampler.setPhaseCorrect false) stepCollaborators
      doubleNullPartial ⟨7, [(0, ⟨440, 0, -11 / 25, 0⟩)]⟩ (2 / 1000, ⟨441, 0, 0, 0⟩)
      = ⟨7, [(0, ⟨440, 0, -881 / 1000, 0⟩)]⟩ := by
    rw [quantizeStep_of_null _ _ _ _ _ rfl (by simp [Partial.times])]
    simp only [hI, q2]
    norm_num [Partial.insert, insertBp, nullInsertion, stepCollaborators, doubleNullPartial,
      Breakpoint.setAmplitude, Breakpoint.setPhase]
  have s3 : Resampler.quantizeStep (scenarioResampler.setPhaseCorrect false) stepCollaborators
      doubleNullPartial ⟨7, [(0, ⟨440, 0, -881 / 1000, 0⟩)]⟩ (11 / 500, ⟨440, 1, 0, 0⟩)
      = ⟨7, [(0, ⟨440, 0, -881 / 1000, 0⟩), (1 / 50, ⟨440, 1, 0, 0⟩)]⟩ := by
    have q00 : truncToInt (1 / 2) = 0 :=
      truncToInt_of_nonneg (by norm_num) (by norm_num) (by norm_num)
    rw [quantizeStep_of_nonnull _ _ _ _ _ (by norm_num)]
    simp only [hI, q3]
    unfold endStep
    norm_num [Partial.insert, insertBp, stepCollaborators, doubleNullPartial,
      Partial.numBreakpoints, Partial.endTime, q00]
  show Resampler.quantizeStep (scenarioResampler.setPhaseCorrect false) stepCollaborators
    doubleNullPartial (Resampler.quantizeStep (scenarioResampler.setPhaseCorrect false)
      stepCollaborators doubleNullPartial (Resampler.quantizeStep
        (scenarioResampler.setPhaseCorrect false) stepCollaborators doubleNullPartial ⟨7, []⟩
        (1 / 1000, ⟨440, 0, 0, 0⟩)) (2 / 1000, ⟨441, 0, 0, 0⟩)) (11 / 500, ⟨440, 1, 0, 0⟩) = _
  rw [s1, s2, s3]

/-! ## `quantize`: one breakpoint for each grid time -/

/-- An insertion at a time that is occupied replaces the breakpoint stored
there: the times stay as they are. -/
theorem times_insertBp_of_mem (t : ℚ) (bp : Breakpoint) :
    ∀ l : List (ℚ × Breakpoint), (l.map Prod.fst).Pairwise (· < ·) → t ∈ l.map Prod.fst →
      (insertBp t bp l).map Prod.fst = l.map Prod.fst
  | [], _, h => by simp at h
  | (u, b) :: rest, hs, h => by
    rw [List.map_cons, List.pairwise_cons] at hs
    rw [List.map_cons, List.mem_cons] at h
    simp only [insertBp]
    split_ifs with h1 h2
    · rcases h with h | h
      · exact absurd h (ne_of_lt h1)
      · exact absurd (lt_trans h1 (hs.1 t h)) (lt_irrefl _)
    · simp [h2]
    · rcases h with h | h
      · exact absurd h h2
      · simp only [List.map_cons, times_insertBp_of_mem t bp rest hs.2 h]

/-- C25 (counterexample): there is no interval and no Partial for which the
output of `quantize( Partial & )` has two breakpoints at the same time; on the
dense Partial whose null breakpoints at 0.001 and 0.002 round to the grid step
0 the output has the times 0 and 0.02, one breakpoint at each. -/
theorem quantize_never_repeats_a_time :
    (¬ ∃ (r : Resampler) (env : Collaborators) (p : Partial) (i j : Nat)
        (a b : ℚ × Breakpoint),
      i ≠ j ∧ (r.quantize env p).state.bps[i]? = some a ∧
      (r.quantize env p).state.bps[j]? = some b ∧ a.1 = b.1) ∧
    ((scenarioResampler.setPhaseCorrect false).quantize stepCollaborators
      doubleNullPartial).state.times = [0, 1 / 50] := by
  constructor
  · rintro ⟨r, env, p, i, j, a, b, hij, hia, hjb, hab⟩
    have hpw := quantize_times_pairwise r env p
    have hti : (r.quantize env p).state.times[i]? = some a.1 := by
      simp [Partial.times, hia]
    have htj : (r.quantize env p).state.times[j]? = some b.1 := by
      simp [Partial.times, hjb]
    obtain ⟨hi, hi'⟩ := List.getElem?_eq_some.mp hti
    obtain ⟨hj, hj'⟩ := List.getElem?_eq_some.mp htj
    rw [List.pairwise_iff_getElem] at hpw
    rcases Nat.lt_or_gt_of_ne hij with h | h
    · have := hpw i j hi hj h
      rw [hi', hj', hab] at this
      exact lt_irrefl _ this
    · have := hpw j i hj hi h
      rw [hi', hj', hab] at this
      exact lt_irrefl _ this
  · rw [quantize_doubleNullPartial]
    rfl

/-- C25 (amended): for every interval and every Partial the output of
`quantize( Partial & )` has at most one breakpoint at any time; a round on a
null breakpoint whose grid time is occupied already replaces the breakpoint
stored there, so the times stay as they are and the breakpoint at the grid time
is the one of this round. -/
theorem quantize_one_breakpoint_per_time (r : Resampler) (env : Collaborators)
    (p newp : Partial) (entry : ℚ × Breakpoint) (hz : entry.2.amplitude = 0)
    (hs : newp.times.Pairwise (· < ·))
    (hocc : r.interval * quantStep r.interval entry.1 ∈ newp.times) :
    (∀ t, (r.quantize env p).state.times.count t ≤ 1) ∧
    (Resampler.quantizeStep r env p newp entry).times = newp.times ∧
    (r.interval * quantStep r.interval entry.1,
      nullInsertion env p (r.interval * quantStep r.interval entry.1) entry)
      ∈ (Resampler.quantizeStep r env p newp entry).bps := by
  refine ⟨fun t => ?_, ?_, ?_⟩
  · have hnd : (r.quantize env p).state.times.Nodup :=
      (quantize_times_pairwise r env p).imp (fun h => ne_of_lt h)
    exact List.nodup_iff_count_le_one.mp hnd t
  · rw [quantizeStep_of_null r env p newp entry hz hs]
    exact times_insertBp_of_mem _ _ newp.bps hs hocc
  · rw [quantizeStep_of_null r env p newp entry hz hs]
    exact mem_insertBp_self _ _ _

/-- C25 (amended), at the second round of `quantize` on the dense Partial: the
null breakpoint at 0.002 goes to the grid time 0, where the first round has
stored a breakpoint. -/
theorem quantize_one_breakpoint_per_time_witness :
    ((2 : ℚ) / 1000, (⟨441, 0, 0, 0⟩ : Breakpoint)).2.amplitude = 0 ∧
    (⟨7, [(0, ⟨440, 0, -11 / 25, 0⟩)]⟩ : Partial).times.Pairwise (· < ·) ∧
    scenarioResampler.interval *
        quantStep scenarioResampler.interval ((2 : ℚ) / 1000, (⟨441, 0, 0, 0⟩ : Breakpoint)).1
      ∈ (⟨7, [(0, ⟨440, 0, -11 / 25, 0⟩)]⟩ : Partial).times ∧
    (∀ t, (scenarioResampler.quantize stepCollaborators doubleNullPartial).state.times.count t
      ≤ 1) ∧
    (Resampler.quantizeStep scenarioResampler stepCollaborators doubleNullPartial
      ⟨7, [(0, ⟨440, 0, -11 / 25, 0⟩)]⟩ (2 / 1000, ⟨441, 0, 0, 0⟩)).times
      = (⟨7, [(0, ⟨440, 0, -11 / 25, 0⟩)]⟩ : Partial).times ∧
    (scenarioResampler.interval *
        quantStep scenarioResampler.interval ((2 : ℚ) / 1000, (⟨441, 0, 0, 0⟩ : Breakpoint)).1,
      nullInsertion stepCollaborators doubleNullPartial
        (scenarioResampler.interval * quantStep scenarioResampler.interval
          ((2 : ℚ) / 1000, (⟨441, 0, 0, 0⟩ : Breakpoint)).1) (2 / 1000, ⟨441, 0, 0, 0⟩))
      ∈ (Resampler.quantizeStep scenarioResampler stepCollaborators doubleNullPartial
        ⟨7, [(0, ⟨440, 0, -11 / 25, 0⟩)]⟩ (2 / 1000, ⟨441, 0, 0, 0⟩)).bps :=
  have hocc : scenarioResampler.interval *
        quantStep scenarioResampler.interval ((2 : ℚ) / 1000, (⟨441, 0, 0, 0⟩ : Breakpoint)).1
      ∈ (⟨7, [(0, ⟨440, 0, -11 / 25, 0⟩)]⟩ : Partial).times := by
    have h : scenarioResampler.interval = 1 / 100 := rfl
    simp only [h, quantStep_values.2.1]
    simp [Partial.times]
  ⟨rfl, by simp [Partial.times], hocc,
    quantize_one_breakpoint_per_time scenarioResampler stepCollaborators doubleNullPartial
      ⟨7, [(0, ⟨440, 0, -11 / 25, 0⟩)]⟩ (2 / 1000, ⟨441, 0, 0, 0⟩) rfl
      (by simp [Partial.times]) hocc⟩

/-! ## `quantize`: null breakpoints -/

/-- The run of `quantize` on the Partial with a null breakpoint at -0.026 and a
breakpoint at -0.025: the second round replaces the null breakpoint that the
first round stored at -0.02. -/
theorem quantize_negativeNullPartial :
    ((scenarioResampler.setPhaseCorrect false).quantize stepCollaborators
      negativeNullPartial).state
      = ⟨7, [(-1 / 50, ⟨440, 1, 0, 0⟩), (0, ⟨440, 1, 0, 0⟩)]⟩ := by
  obtain ⟨-, -, -, q3, q1, q2, -⟩ := quantStep_values
  have hI : (scenarioResampler.setPhaseCorrect false).interval = 1 / 100 := rfl
  have qe : truncToInt (-(3 / 2)) = -1 :=
    truncToInt_of_neg (by norm_num) (by norm_num) (by norm_num)
  have s1 : Resampler.quantizeStep (scenarioResampler.setPhaseCorrect false) stepCollaborators
      negativeNullPartial ⟨7, []⟩ (-26 / 1000, ⟨440, 0, 0, 0⟩)
      = ⟨7, [(-1 / 50, ⟨440, 0, 0, 0⟩)]⟩ := by
    rw [quantizeStep_of_null _ _ _ _ _ rfl (by simp [Partial.times])]
    simp only [hI, q1]
    norm_num [Partial.insert, insertBp, nullInsertion, stepCollaborators, negativeNullPartial,
      Breakpoint.setAmplitude, Breakpoint.setPhase]
  have s2 : Resampler.quantizeStep (scenarioResampler.setPhaseCorrect false) stepCollaborators
      negativeNullPartial ⟨7, [(-1 / 50, ⟨440, 0, 0, 0⟩)]⟩ (-25 / 1000, ⟨440, 1, 0, 0⟩)
      = ⟨7, [(-1 / 50, ⟨440, 1, 0, 0⟩)]⟩ := by
    rw [quantizeStep_of_nonnull _ _ _ _ _ (by norm_num)]
    simp only [hI, q2]
    unfold endStep
    norm_num [Partial.insert, insertBp, stepCollaborators, negativeNullPartial,
      Partial.numBreakpoints, Partial.endTime, qe]
  have s3 : Resampler.quantizeStep (scenarioResampler.setPhaseCorrect false) stepCollaborators
      negativeNullPartial ⟨7, [(-1 / 50, ⟨440, 1, 0, 0⟩)]⟩ (0, ⟨440, 1, 0, 0⟩)
      = ⟨7, [(-1 / 50, ⟨440, 1, 0, 0⟩), (0, ⟨440, 1, 0, 0⟩)]⟩ := by
    rw [quantizeStep_of_nonnull _ _ _ _ _ (by norm_num)]
    simp only [hI, q3]
    unfold endStep
    norm_num [Partial.insert, insertBp, stepCollaborators, negativeNullPartial,
      Partial.numBreakpoints, Partial.endTime, qe]
  show Resampler.quantizeStep (scenarioResampler.setPhaseCorrect false) stepCollaborators
    negativeNullPartial (Resampler.quantizeStep (scenarioResampler.setPhaseCorrect false)
      stepCollaborators negativeNullPartial (Resampler.quantizeStep
        (scenarioResampler.setPhaseCorrect false) stepCollaborators negativeNullPartial ⟨7, []⟩
        (-26 / 1000, ⟨440, 0, 0, 0⟩)) (-25 / 1000, ⟨440, 1, 0, 0⟩)) (0, ⟨440, 1, 0, 0⟩) = _
  rw [s1, s2, s3]

/-- C24 (the code at an input that breaks the claim): with interval 0.01, phase
correction off and breakpoints at -0.026 (null), -0.025 and 0, the null
breakpoint has the computed grid step -2 and the grid time -0.02, and the
output of `quantize( Partial & )` has the breakpoints at -0.02 and 0, both of
amplitude 1: no output breakpoint at -0.02 has amplitude 0. -/
theorem quantize_drops_null_at_negative_time :
    (scenarioResampler.setPhaseCorrect false).phaseCorrect = false ∧
    negativeNullPartial.WellFormed ∧
    ((-26 / 1000 : ℚ), (⟨440, 0, 0, 0⟩ : Breakpoint)) ∈ negativeNullPartial.bps ∧
    (scenarioResampler.setPhaseCorrect false).interval *
      quantStep (scenarioResampler.setPhaseCorrect false).interval (-26 / 1000) = -1 / 50 ∧
    ((scenarioResampler.setPhaseCorrect false).quantize stepCollaborators
      negativeNullPartial).state
      = ⟨7, [(-1 / 50, ⟨440, 1, 0, 0⟩), (0, ⟨440, 1, 0, 0⟩)]⟩ ∧
    ¬ ∃ e ∈ ((scenarioResampler.setPhaseCorrect false).quantize stepCollaborators
        negativeNullPartial).state.bps, e.1 = -1 / 50 ∧ e.2.amplitude = 0 := by
  have hI : (scenarioResampler.setPhaseCorrect false).interval = 1 / 100 := rfl
  refine ⟨rfl, ?_, ?_, ?_, quantize_negativeNullPartial, ?_⟩
  · unfold Partial.WellFormed
    norm_num [negativeNullPartial, Partial.times]
  · simp [negativeNullPartial]
  · rw [hI, quantStep_values.2.2.2.2.1]; norm_num
  · rw [quantize_negativeNullPartial]
    norm_num

theorem le_getLast?_of_pairwise :
    ∀ l : List ℚ, l.Pairwise (· < ·) → ∀ a ∈ l, ∀ b, l.getLast? = some b → a ≤ b
  | [], _, a, ha, _, _ => by simp at ha
  | [x], _, a, ha, b, hb => by
    simp at ha hb
    rw [ha, hb]
  | x :: y :: rest, hs, a, ha, b, hb => by
    rw [List.getLast?_cons_cons] at hb
    rw [List.pairwise_cons] at hs
    rcases List.mem_cons.mp ha with h | h
    · rw [h]; exact le_of_lt (hs.1 b (List.mem_of_mem_getLast? hb))
    · exact le_getLast?_of_pairwise (y :: rest) hs.2 a h b hb

theorem nullInsertion_amplitude (env : Collaborators) (p : Partial) (qt : ℚ)
    (entry : ℚ × Breakpoint) : (nullInsertion env p qt entry).amplitude = 0 := by
  unfold nullInsertion
  dsimp only
  split_ifs <;> rfl

theorem quantStep_mono {interval a b : ℚ} (hI : 0 < interval) (ha : 0 ≤ a) (hab : a ≤ b) :
    quantStep interval a ≤ quantStep interval b := by
  rw [quantStep_eq_nearestStep hI ha, quantStep_eq_nearestStep hI (le_trans ha hab)]
  unfold nearestStep
  apply Int.floor_le_floor
  have := div_le_div_of_nonneg_right hab hI.le
  linarith

/-- A round of `quantize` keeps a null breakpoint stored at the time `τ`,
provided the times built so far increase, are multiples `interval * k` with
`0 ≤ k`, and do not exceed the grid time of the round. -/
theorem quantizeStep_keeps_null (r : Resampler) (env : Collaborators) (p newp : Partial)
    (entry : ℚ × Breakpoint) (τ : ℚ) (hI : 0 < r.interval)
    (hs : newp.times.Pairwise (· < ·))
    (hk : ∀ t ∈ newp.times, ∃ k : ℤ, 0 ≤ k ∧ t = r.interval * k)
    (hb : ∀ t ∈ newp.times, t ≤ r.interval * quantStep r.interval entry.1)
    (hQ : ∃ e ∈ newp.bps, e.1 = τ ∧ e.2.amplitude = 0) :
    ∃ e ∈ (Resampler.quantizeStep r env p newp entry).bps, e.1 = τ ∧ e.2.amplitude = 0 := by
  obtain ⟨e, he, heτ, he0⟩ := hQ
  by_cases hz : entry.2.amplitude = 0
  · rw [quantizeStep_of_null r env p newp entry hz hs]
    by_cases hq : e.1 = r.interval * quantStep r.interval entry.1
    · exact ⟨_, mem_insertBp_self _ _ _, by rw [← heτ, hq], nullInsertion_amplitude _ _ _ _⟩
    · exact ⟨e, mem_insertBp_of_ne _ _ e hq _ he, heτ, he0⟩
  · rw [quantizeStep_of_nonnull r env p newp entry hz]
    split_ifs with hc
    · by_cases hq : e.1 = r.interval * quantStep r.interval entry.1
      · exfalso
        apply hc
        have hmem : e.1 ∈ newp.times := List.mem_map.mpr ⟨e, he, rfl⟩
        have hne : newp.numBreakpoints ≠ 0 := by
          unfold Partial.numBreakpoints
          intro h0
          rw [List.length_eq_zero] at h0
          rw [h0] at he
          simp at he
        cases het : newp.endTime with
        | none =>
          rw [endTime_eq_times] at het
          rw [List.getLast?_eq_none_iff] at het
          rw [het] at hmem
          simp at hmem
        | some et =>
          have hetm : et ∈ newp.times := by
            rw [endTime_eq_times] at het
            exact List.mem_of_mem_getLast? het
          have h1 : e.1 ≤ et :=
            le_getLast?_of_pairwise _ hs e.1 hmem et (by rw [← endTime_eq_times]; exact het)
          have h2 : et = r.interval * quantStep r.interval entry.1 :=
            le_antisymm (hb et hetm) (hq ▸ h1)
          obtain ⟨k, hk0, hkt⟩ := hk et hetm
          have hkq : k = quantStep r.interval entry.1 := by
            have := mul_left_cancel₀ hI.ne' (hkt.symm.trans h2)
            exact_mod_cast this
          have := quantStep_mul hI hk0
          unfold endStep
          rw [if_pos hne, het]
          dsimp only
          unfold quantStep at this hkq ⊢
          rw [hkt, this, hkq]
      · exact ⟨e, mem_insertBp_of_ne _ _ e hq _ he, heτ, he0⟩
    · exact ⟨e, he, heτ, he0⟩

theorem quantize_foldl_keeps_nulls (r : Resampler) (env : Collaborators) (p : Partial)
    (hI : 0 < r.interval) :
    ∀ (l : List (ℚ × Breakpoint)) (newp : Partial),
      (l.map Prod.fst).Pairwise (· < ·) → (∀ e ∈ l, 0 ≤ e.1) →
      newp.times.Pairwise (· < ·) →
      (∀ t ∈ newp.times, ∃ k : ℤ, 0 ≤ k ∧ t = r.interval * k) →
      (∀ x ∈ l, ∀ t ∈ newp.times, t ≤ r.interval * quantStep r.interval x.1) →
      (∀ τ, (∃ e ∈ newp.bps, e.1 = τ ∧ e.2.amplitude = 0) →
        ∃ e ∈ (l.foldl (Resampler.quantizeStep r env p) newp).bps,
          e.1 = τ ∧ e.2.amplitude = 0) ∧
      (∀ x ∈ l, x.2.amplitude = 0 →
        ∃ e ∈ (l.foldl (Resampler.quantizeStep r env p) newp).bps,
          e.1 = r.interval * quantStep r.interval x.1 ∧ e.2.amplitude = 0)
  | [], newp, _, _, _, _, _ => ⟨fun _ h => h, fun x hx => by simp at hx⟩
  | entry :: rest, newp, hl, hnn, hs, hk, hb => by
    rw [List.map_cons, List.pairwise_cons] at hl
    have hent : 0 ≤ entry.1 := hnn entry (List.mem_cons_self _ _)
    have hs1 := quantizeStep_pairwise r env p newp entry hs
    have hk1 : ∀ t ∈ (Resampler.quantizeStep r env p newp entry).times,
        ∃ k : ℤ, 0 ≤ k ∧ t = r.interval * k := by
      intro t ht
      rcases (quantizeStep_mem_times r env p newp entry hI hk t).mp ht with h | h
      · refine ⟨quantStep r.interval entry.1, ?_, h⟩
        rw [quantStep_eq_nearestStep hI hent]
        exact nearestStep_nonneg hI hent
      · exact hk t h
    have hb1 : ∀ x ∈ rest, ∀ t ∈ (Resampler.quantizeStep r env p newp entry).times,
        t ≤ r.interval * quantStep r.interval x.1 := by
      intro x hx t ht
      rcases (quantizeStep_mem_times r env p newp entry hI hk t).mp ht with h | h
      · rw [h]
        have hlt : entry.1 < x.1 := hl.1 x.1 (List.mem_map.mpr ⟨x, hx, rfl⟩)
        have hmono := quantStep_mono hI hent hlt.le
        have : (quantStep r.interval entry.1 : ℚ) ≤ quantStep r.interval x.1 := by
          exact_mod_cast hmono
        exact mul_le_mul_of_nonneg_left this hI.le
      · exact hb x (List.mem_cons_of_mem _ hx) t h
    obtain ⟨ihA, ihB⟩ := quantize_foldl_keeps_nulls r env p hI rest
      (Resampler.quantizeStep r env p newp entry) hl.2
      (fun e he => hnn e (List.mem_cons_of_mem _ he)) hs1 hk1 hb1
    rw [List.foldl_cons]
    constructor
    · intro τ hQ
      exact ihA τ (quantizeStep_keeps_null r env p newp entry τ hI hs hk
        (hb entry (List.mem_cons_self _ _)) hQ)
    · intro x hx hx0
      rcases List.mem_cons.mp hx with h | h
      · apply ihA
        rw [h, quantizeStep_of_null r env p newp entry (h ▸ hx0) hs]
        exact ⟨_, mem_insertBp_self _ _ _, rfl, nullInsertion_amplitude _ _ _ _⟩
      · exact ihB x h hx0

/-- Where the times are not negative `quantize( Partial & )` drops no null
breakpoint: with phase correction off, a positive interval and a Partial whose
times strictly increase from a time that is not negative, the output has a
breakpoint of amplitude 0 at the grid time of every input breakpoint of
amplitude 0. -/
theorem quantize_keeps_nulls_of_nonneg (r : Resampler) (env : Collaborators) (p : Partial)
    (hI : 0 < r.interval) (hph : r.phaseCorrect = false)
    (hwf : p.times.Pairwise (· < ·)) (hnn : ∀ t ∈ p.times, 0 ≤ t) :
    ∀ x ∈ p.bps, x.2.amplitude = 0 →
      ∃ e ∈ (r.quantize env p).state.bps,
        e.1 = r.interval * quantStep r.interval x.1 ∧ e.2.amplitude = 0 := by
  have hout : (r.quantize env p).state =
      p.bps.foldl (Resampler.quantizeStep r env p) (Partial.empty.setLabel p.label) := by
    unfold Resampler.quantize
    simp [hph]
  rw [hout]
  exact (quantize_foldl_keeps_nulls r env p hI p.bps (Partial.empty.setLabel p.label) hwf
    (fun e he => hnn e.1 (List.mem_map.mpr ⟨e, he, rfl⟩))
    (by simp [Partial.empty, Partial.setLabel, Partial.times])
    (by simp [Partial.empty, Partial.setLabel, Partial.times])
    (by simp [Partial.empty, Partial.setLabel, Partial.times])).2

/-! ## The copy-on-write pointer: access and assignment -/

/-- What `make_unique` does to a variable that shares its object: a new counter
at the allocation pointer, a clone of the object right after it, the old
counter one lower, everything else as it was. -/
theorem Store.makeUnique_shared {T : Type} (clone : T → T) {s : Store T} {i : Nat} {h : Ptr}
    {a : Nat} (hi : s.handle? i = some h) (hp : h.p = some a)
    (hne : s.readCount h.refptr ≠ 1) :
    (s.makeUnique clone i).handle? i = some ⟨s.next, some (s.next + 1)⟩ ∧
    (s.makeUnique clone i).objects (s.next + 1) = (s.objects a).map clone ∧
    (∀ b, b ≠ s.next + 1 → (s.makeUnique clone i).objects b = s.objects b) ∧
    (s.makeUnique clone i).counters s.next = some 1 ∧
    (h.refptr ≠ s.next →
      (s.makeUnique clone i).counters h.refptr = some (s.readCount h.refptr - 1)) ∧
    (∀ j, j ≠ i → (s.makeUnique clone i).handle? j = s.handle? j) := by
  have hlt := Store.lt_length_of_handle? hi
  unfold Store.makeUnique
  rw [hi]
  dsimp only
  rw [if_pos hne, hp]
  dsimp only
  refine ⟨Store.handle?_set_self _ _ _ hlt, ?_, ?_, ?_, ?_, ?_⟩
  · rw [Function.update_same]
  · intro b hb
    exact Function.update_noteq hb _ _
  · rw [Function.update_same]
  · intro hc
    rw [Function.update_noteq hc, Function.update_same]
  · intro j hj
    exact Store.handle?_set_ne _ _ _ _ hj

theorem sharedMemory_reachable : Reachable cloneList sharedMemory :=
  Reachable.copy 1 (Reachable.newBound _ (Reachable.newUnbound Reachable.empty))

/-- C28: in a memory a program reaches, with `clone` producing a copy of equal
value, a non-const access through a variable bound to the object `a` succeeds.
If the count of the variable is greater than 1, the variable afterwards holds a
fresh counter of value 1 and a fresh object whose value is that of `a`, the old
counter is one lower and still at least 1, the object `a` is as it was, and
every other variable holds what it held.  If the count is 1, the memory is as it
was: no clone, the same object, count 1.  In both cases the count of the
variable is 1 afterwards. -/
theorem deref_makes_unique {T : Type} (clone : T → T) (hclone : ∀ v, clone v = v)
    (s : Store T) (hr : Reachable clone s) (i : Nat) (h : Ptr) (a : Nat)
    (hi : s.handle? i = some h) (hp : h.p = some a) :
    (1 < s.readCount h.refptr →
      ∃ c1 a1, (s.deref clone i).2 = Except.ok a1 ∧
        (s.deref clone i).1.handle? i = some ⟨c1, some a1⟩ ∧
        s.counters c1 = none ∧ s.objects a1 = none ∧
        (s.deref clone i).1.objects a1 = s.objects a ∧ s.objects a ≠ none ∧
        (s.deref clone i).1.objects a = s.objects a ∧
        (s.deref clone i).1.readCount c1 = 1 ∧
        (s.deref clone i).1.readCount h.refptr = s.readCount h.refptr - 1 ∧
        1 ≤ (s.deref clone i).1.readCount h.refptr ∧
        ∀ j, j ≠ i → (s.deref clone i).1.handle? j = s.handle? j) ∧
    (s.readCount h.refptr = 1 → s.deref clone i = (s, Except.ok a)) ∧
    (∃ c1 a1, (s.deref clone i).2 = Except.ok a1 ∧
      (s.deref clone i).1.handle? i = some ⟨c1, some a1⟩ ∧
      (s.deref clone i).1.readCount c1 = 1) := by
  have inv := Store.invariant_of_reachable clone hr
  have hmem := Store.mem_of_handle? hi
  have hfresh := inv.fresh h hmem
  have hshared : s.readCount h.refptr ≠ 1 →
      s.deref clone i = (s.makeUnique clone i, Except.ok (s.next + 1)) := by
    intro hne
    have hh := (Store.makeUnique_shared clone hi hp hne).1
    simp only [Store.deref, hh]
  have hsame : s.readCount h.refptr = 1 → s.deref clone i = (s, Except.ok a) := by
    intro h1
    have hs := (Store.makeUnique_handle clone hi).2 h1
    cases h with
    | mk c p =>
      simp only at hp; subst hp
      simp only [Store.deref, hs, hi]
  refine ⟨fun hgt => ?_, hsame, ?_⟩
  · have hne : s.readCount h.refptr ≠ 1 := by omega
    obtain ⟨m1, m2, m3, m4, m5, m6⟩ := Store.makeUnique_shared clone hi hp hne
    have hc : h.refptr ≠ s.next := by omega
    have ha : a ≠ s.next + 1 := by
      have := hfresh.2 a hp
      omega
    rw [hshared hne]
    refine ⟨s.next, s.next + 1, rfl, m1, ?_, ?_, ?_, ?_, m3 a ha, ?_, ?_, ?_, m6⟩
    · rw [inv.counter_eq, if_pos (Store.refs_eq_zero_of_fresh inv (le_refl _))]
    · by_contra hcon
      have := (inv.object_iff (s.next + 1)).mp hcon
      exact this (Store.objRefs_eq_zero_of_fresh inv (by omega))
    · show (s.makeUnique clone i).objects (s.next + 1) = s.objects a
      rw [m2]
      cases s.objects a with
      | none => rfl
      | some v => simp [hclone]
    · exact (inv.object_iff a).mpr (Store.objRefs_pos hmem hp).ne'
    · show (s.makeUnique clone i).readCount s.next = 1
      simp [Store.readCount, m4]
    · show (s.makeUnique clone i).readCount h.refptr = s.readCount h.refptr - 1
      simp [Store.readCount, m5 hc]
    · show 1 ≤ (s.makeUnique clone i).readCount h.refptr
      have : (s.makeUnique clone i).readCount h.refptr = s.readCount h.refptr - 1 := by
        simp [Store.readCount, m5 hc]
      omega
  · by_cases h1 : s.readCount h.refptr = 1
    · rw [hsame h1]
      refine ⟨h.refptr, a, rfl, ?_, h1⟩
      rw [hi]
      cases h with
      | mk c p => simp only at hp; subst hp; rfl
    · obtain ⟨m1, _, _, m4, _, _⟩ := Store.makeUnique_shared clone hi hp h1
      rw [hshared h1]
      exact ⟨s.next, s.next + 1, rfl, m1, by simp [Store.readCount, m4]⟩

/-- C28, at the variable 1 of a concrete memory, which shares its list with the
variable 2. -/
theorem deref_makes_unique_witness :
    (∀ v, cloneList v = v) ∧ Reachable cloneList sharedMemory ∧
    sharedMemory.handle? 1 = some ⟨2, some 1⟩ ∧ (⟨2, some 1⟩ : Ptr).p = some 1 ∧
    1 < sharedMemory.readCount (⟨2, some 1⟩ : Ptr).refptr ∧
    ((1 < sharedMemory.readCount (⟨2, some 1⟩ : Ptr).refptr →
      ∃ c1 a1, (sharedMemory.deref cloneList 1).2 = Except.ok a1 ∧
        (sharedMemory.deref cloneList 1).1.handle? 1 = some ⟨c1, some a1⟩ ∧
        sharedMemory.counters c1 = none ∧ sharedMemory.objects a1 = none ∧
        (sharedMemory.deref cloneList 1).1.objects a1 = sharedMemory.objects 1 ∧
        sharedMemory.objects 1 ≠ none ∧
        (sharedMemory.deref cloneList 1).1.objects 1 = sharedMemory.objects 1 ∧
        (sharedMemory.deref cloneList 1).1.readCount c1 = 1 ∧
        (sharedMemory.deref cloneList 1).1.readCount (⟨2, some 1⟩ : Ptr).refptr
          = sharedMemory.readCount (⟨2, some 1⟩ : Ptr).refptr - 1 ∧
        1 ≤ (sharedMemory.deref cloneList 1).1.readCount (⟨2, some 1⟩ : Ptr).refptr ∧
        ∀ j, j ≠ 1 → (sharedMemory.deref cloneList 1).1.handle? j = sharedMemory.handle? j) ∧
    (sharedMemory.readCount (⟨2, some 1⟩ : Ptr).refptr = 1 →
      sharedMemory.deref cloneList 1 = (sharedMemory, Except.ok 1)) ∧
    (∃ c1 a1, (sharedMemory.deref cloneList 1).2 = Except.ok a1 ∧
      (sharedMemory.deref cloneList 1).1.handle? 1 = some ⟨c1, some a1⟩ ∧
      (sharedMemory.deref cloneList 1).1.readCount c1 = 1)) :=
  ⟨fun _ => rfl, sharedMemory_reachable, rfl, rfl, by decide,
    deref_makes_unique cloneList (fun _ => rfl) sharedMemory sharedMemory_reachable 1
      ⟨2, some 1⟩ 1 rfl rfl⟩

/-- C29: a const access through a live variable bound to the object `a` returns
`a`, the object the variable holds, and leaves the memory as it was: every
variable holds what it held, every counter has the value it had, every object
is as it was and nothing is allocated, whatever the count of the variable. -/
theorem accessConst_never_clones {T : Type} (s : Store T) (i : Nat) (h : Ptr) (a : Nat)
    (hi : s.handle? i = some h) (hp : h.p = some a) :
    (s.accessConst i).2 = Except.ok a ∧
    (s.accessConst i).1.handle? i = some h ∧
    (∀ j, (s.accessConst i).1.handle? j = s.handle? j) ∧
    (∀ c, (s.accessConst i).1.readCount c = s.readCount c) ∧
    (s.accessConst i).1.objects = s.objects ∧
    (s.accessConst i).1.next = s.next := by
  refine ⟨?_, hi, fun _ => rfl, fun _ => rfl, rfl, rfl⟩
  unfold Store.accessConst Store.derefConst
  rw [hi]
  cases h with
  | mk c p => simp only at hp; subst hp; rfl

/-- C29, at the variable 1 of a concrete memory, whose count is 2. -/
theorem accessConst_never_clones_witness :
    sharedMemory.handle? 1 = some ⟨2, some 1⟩ ∧ (⟨2, some 1⟩ : Ptr).p = some 1 ∧
    sharedMemory.readCount 2 = 2 ∧
    ((sharedMemory.accessConst 1).2 = Except.ok 1 ∧
    (sharedMemory.accessConst 1).1.handle? 1 = some ⟨2, some 1⟩ ∧
    (∀ j, (sharedMemory.accessConst 1).1.handle? j = sharedMemory.handle? j) ∧
    (∀ c, (sharedMemory.accessConst 1).1.readCount c = sharedMemory.readCount c) ∧
    (sharedMemory.accessConst 1).1.objects = sharedMemory.objects ∧
    (sharedMemory.accessConst 1).1.next = sharedMemory.next) :=
  ⟨rfl, rfl, by decide, accessConst_never_clones sharedMemory 1 ⟨2, some 1⟩ 1 rfl rfl⟩

theorem Store.assign_eq {T : Type} {s : Store T} {lhs rhs : Nat} {hl hr : Ptr}
    (hil : s.handle? lhs = some hl) (hir : s.handle? rhs = some hr) :
    (s.assign lhs rhs).counters = Function.update
      (Function.update s.counters hr.refptr (some (s.readCount hr.refptr + 1))) hl.refptr
      (if (s.incr hr.refptr).readCount hl.refptr - 1 = 0 then none
        else some ((s.incr hr.refptr).readCount hl.refptr - 1)) ∧
    (s.assign lhs rhs).objects =
      (if (s.incr hr.refptr).readCount hl.refptr - 1 = 0 then
        (match hl.p with
          | some a => Function.update s.objects a none
          | none => s.objects)
      else s.objects) ∧
    (s.assign lhs rhs).handles = s.handles.set lhs (some hr) := by
  unfold Store.assign
  rw [hil, hir]
  dsimp only
  refine ⟨?_, ?_, ?_⟩
  · rw [Store.release_counters]; rfl
  · rw [Store.release_objects]; rfl
  · rw [Store.release_handles]; rfl

/-- C30: in a memory a program reaches, after the assignment `lhs = rhs` of live
variables the variable `lhs` holds the counter and the object of `rhs`, and
every other variable holds what it held.  If `lhs` held another counter, the
counter of `rhs` is one higher, and the old counter of `lhs` is one lower, or,
when it was 1, it is freed together with the object of `lhs`; no other object
is touched.  If `lhs` held the counter of `rhs` already (as in `a = a`), every
counter and every object is as it was. -/
theorem assign_spec {T : Type} (clone : T → T) (s : Store T) (hr : Reachable clone s)
    (lhs rhs : Nat) (hl hrp : Ptr) (hil : s.handle? lhs = some hl)
    (hir : s.handle? rhs = some hrp) :
    (s.assign lhs rhs).handle? lhs = some hrp ∧
    (s.assign lhs rhs).handle? rhs = some hrp ∧
    (∀ j, j ≠ lhs → (s.assign lhs rhs).handle? j = s.handle? j) ∧
    (hl.refptr ≠ hrp.refptr →
      (s.assign lhs rhs).readCount hrp.refptr = s.readCount hrp.refptr + 1 ∧
      (s.readCount hl.refptr = 1 →
        (s.assign lhs rhs).counters hl.refptr = none ∧
        ∀ a, hl.p = some a → (s.assign lhs rhs).objects a = none) ∧
      (s.readCount hl.refptr ≠ 1 →
        (s.assign lhs rhs).counters hl.refptr = some (s.readCount hl.refptr - 1) ∧
        (s.assign lhs rhs).objects = s.objects) ∧
      (∀ b, hl.p ≠ some b → (s.assign lhs rhs).objects b = s.objects b)) ∧
    (hl.refptr = hrp.refptr →
      (s.assign lhs rhs).counters = s.counters ∧
      (s.assign lhs rhs).objects = s.objects) := by
  have inv := Store.invariant_of_reachable clone hr
  obtain ⟨hcnt, hobj, hhs⟩ := Store.assign_eq hil hir
  have hlt := Store.lt_length_of_handle? hil
  have hposl : 0 < s.readCount hl.refptr := by
    rw [Store.readCount_eq_refs inv]; exact Store.refs_pos (Store.mem_of_handle? hil)
  have hposr : 0 < s.readCount hrp.refptr := by
    rw [Store.readCount_eq_refs inv]; exact Store.refs_pos (Store.mem_of_handle? hir)
  have hself : (s.assign lhs rhs).handle? lhs = some hrp := by
    unfold Store.handle?
    rw [hhs]
    exact Store.handle?_set_self _ _ _ hlt
  have hother : ∀ j, j ≠ lhs → (s.assign lhs rhs).handle? j = s.handle? j := by
    intro j hj
    unfold Store.handle?
    rw [hhs]
    exact Store.handle?_set_ne _ _ _ _ hj
  refine ⟨hself, ?_, hother, ?_, ?_⟩
  · by_cases hj : rhs = lhs
    · subst hj; exact hself
    · rw [hother rhs hj, hir]
  · intro hne
    have hrc : (s.incr hrp.refptr).readCount hl.refptr = s.readCount hl.refptr := by
      rw [Store.readCount_incr, if_neg hne]
    rw [hrc] at hcnt hobj
    refine ⟨?_, ?_, ?_, ?_⟩
    · unfold Store.readCount
      rw [hcnt, Function.update_noteq (fun e => hne e.symm), Function.update_same]
      rfl
    · intro h1
      have h0 : s.readCount hl.refptr - 1 = 0 := by omega
      rw [if_pos h0] at hcnt hobj
      refine ⟨by rw [hcnt, Function.update_same], fun a ha => ?_⟩
      rw [hobj, ha]
      exact Function.update_same _ _ _
    · intro h1
      have h0 : ¬ (s.readCount hl.refptr - 1 = 0) := by omega
      rw [if_neg h0] at hcnt hobj
      exact ⟨by rw [hcnt, Function.update_same], hobj⟩
    · intro b hb
      rw [hobj]
      split_ifs
      · cases hlp : hl.p with
        | none => rfl
        | some a =>
          dsimp only
          have : b ≠ a := fun e => hb (by rw [hlp, e])
          exact Function.update_noteq this _ _
      · rfl
  · intro heq
    have hrc : (s.incr hrp.refptr).readCount hl.refptr = s.readCount hrp.refptr + 1 := by
      rw [Store.readCount_incr, if_pos heq]
    have h0 : ¬ (s.readCount hrp.refptr + 1 - 1 = 0) := by omega
    rw [hrc, if_neg h0] at hcnt hobj
    refine ⟨?_, hobj⟩
    rw [hcnt, heq, Function.update_idem]
    apply Function.update_eq_self_iff.mpr
    have hc := inv.counter_eq hrp.refptr
    have hrefs := Store.readCount_eq_refs inv hrp.refptr
    rw [if_neg (by omega)] at hc
    rw [hc, hrefs]
    simp

/-- C30, at a concrete memory with two lists: the assignment of the variable 1
to the variable 0, which holds another counter, of value 1. -/
theorem assign_spec_witness :
    Reachable cloneList twoListsMemory ∧
    twoListsMemory.handle? 0 = some ⟨1, some 0⟩ ∧
    twoListsMemory.handle? 1 = some ⟨3, some 2⟩ ∧
    ((twoListsMemory.assign 0 1).handle? 0 = some ⟨3, some 2⟩ ∧
    (twoListsMemory.assign 0 1).handle? 1 = some ⟨3, some 2⟩ ∧
    (∀ j, j ≠ 0 → (twoListsMemory.assign 0 1).handle? j = twoListsMemory.handle? j) ∧
    ((⟨1, some 0⟩ : Ptr).refptr ≠ (⟨3, some 2⟩ : Ptr).refptr →
      (twoListsMemory.assign 0 1).readCount (⟨3, some 2⟩ : Ptr).refptr
        = twoListsMemory.readCount (⟨3, some 2⟩ : Ptr).refptr + 1 ∧
      (twoListsMemory.readCount (⟨1, some 0⟩ : Ptr).refptr = 1 →
        (twoListsMemory.assign 0 1).counters (⟨1, some 0⟩ : Ptr).refptr = none ∧
        ∀ a, (⟨1, some 0⟩ : Ptr).p = some a → (twoListsMemory.assign 0 1).objects a = none) ∧
      (twoListsMemory.readCount (⟨1, some 0⟩ : Ptr).refptr ≠ 1 →
        (twoListsMemory.assign 0 1).counters (⟨1, some 0⟩ : Ptr).refptr
          = some (twoListsMemory.readCount (⟨1, some 0⟩ : Ptr).refptr - 1) ∧
        (twoListsMemory.assign 0 1).objects = twoListsMemory.objects) ∧
      (∀ b, (⟨1, some 0⟩ : Ptr).p ≠ some b →
        (twoListsMemory.assign 0 1).objects b = twoListsMemory.objects b)) ∧
    ((⟨1, some 0⟩ : Ptr).refptr = (⟨3, some 2⟩ : Ptr).refptr →
      (twoListsMemory.assign 0 1).counters = twoListsMemory.counters ∧
      (twoListsMemory.assign 0 1).objects = twoListsMemory.objects)) :=
  ⟨twoListsMemory_reachable, rfl, rfl,
    assign_spec cloneList twoListsMemory twoListsMemory_reachable 0 1 ⟨1, some 0⟩
      ⟨3, some 2⟩ rfl rfl⟩

/-! ## The loops end -/

theorem stepCount_eq_max (interval last t : ℚ) :
    (stepCount interval last t : ℤ) = max 0 (⌊(last - t) / interval⌋ + 1) := by
  unfold stepCount
  rw [Int.toNat_eq_max, max_comm]

/-- The loop of `quantize( Partial & )` from the iterator position `iter`: it
ends after one round for each remaining breakpoint, with the Partial that the
rounds build in order, and runs out of fuel with less. -/
theorem quantizeLoop_eq (r : Resampler) (env : Collaborators) (p : Partial) :
    ∀ (fuel iter : Nat) (newp : Partial) (rounds : Nat), iter ≤ p.bps.length →
      Resampler.quantizeLoop r env p fuel iter newp rounds =
        if p.bps.length - iter ≤ fuel then
          some ((p.bps.drop iter).foldl (Resampler.quantizeStep r env p) newp,
            rounds + (p.bps.length - iter))
        else none
  | 0, iter, newp, rounds, hle => by
    unfold Resampler.quantizeLoop
    by_cases hlt : iter < p.bps.length
    · rw [List.getElem?_eq_getElem hlt, if_neg (by omega)]
    · have he : iter = p.bps.length := by omega
      rw [List.getElem?_eq_none (by omega), if_pos (by omega), he]
      simp
  | fuel + 1, iter, newp, rounds, hle => by
    unfold Resampler.quantizeLoop
    by_cases hlt : iter < p.bps.length
    · rw [List.getElem?_eq_getElem hlt]
      dsimp only
      rw [quantizeLoop_eq r env p fuel (iter + 1) _ _ hlt, List.drop_eq_getElem_cons hlt,
        List.foldl_cons]
      by_cases hf : p.bps.length - iter ≤ fuel + 1
      · rw [if_pos hf, if_pos (by omega)]
        congr 2
        omega
      · rw [if_neg hf, if_neg (by omega)]
    · have he : iter = p.bps.length := by omega
      rw [List.getElem?_eq_none (by omega), if_pos (by omega), he]
      simp

/-- C32: with times as exact rationals, a positive interval and a Partial whose
first breakpoint is at `s` and whose last is at `e`: the sampling loop of
`resample( Partial & )` ends after exactly
`max 0 (floor ((lastInsertTime - firstInsertTime) / interval) + 1)` rounds (the
call returns with that much fuel and with no less) and leaves that many
breakpoints; the loop of `quantize( Partial & )` ends after exactly one round
for each breakpoint of the Partial, and `quantize` returns what the loop
built (after the frequency fix under phase correction). -/
theorem loops_terminate (r : Resampler) (env : Collaborators) (p : Partial) (s e : ℚ)
    (hI : 0 < r.interval) (hs : p.startTime = some s) (he : p.endTime = some e) :
    (∀ fuel, (r.resample env fuel p).status = Status.returned ↔
      stepCount r.interval (lastInsertTime r.interval e) (firstInsertTime r.interval s)
        ≤ fuel) ∧
    (∀ fuel, (r.resample env fuel p).status = Status.returned →
      (r.resample env fuel p).state.numBreakpoints =
        stepCount r.interval (lastInsertTime r.interval e) (firstInsertTime r.interval s)) ∧
    ((stepCount r.interval (lastInsertTime r.interval e) (firstInsertTime r.interval s) : ℤ)
      = max 0 (⌊(lastInsertTime r.interval e - firstInsertTime r.interval s) / r.interval⌋
          + 1)) ∧
    ∃ newp : Partial,
      (∀ fuel, Resampler.quantizeLoop r env (phaseFixed r env p) fuel 0
          (Partial.empty.setLabel (phaseFixed r env p).label) 0 =
        if p.numBreakpoints ≤ fuel then some (newp, p.numBreakpoints) else none) ∧
      r.quantize env p =
        ⟨Status.returned, if r.phaseCorrect then env.fixFrequency newp 5 else newp⟩ := by
  refine ⟨fun fuel => ?_, fun fuel hret => ?_, stepCount_eq_max _ _ _, ?_⟩
  · rw [resample_eq r env fuel p hI hs he]
    by_cases h : stepCount r.interval (lastInsertTime r.interval e)
        (firstInsertTime r.interval s) ≤ fuel
    · rw [if_pos h]
      exact ⟨fun _ => h, fun _ => rfl⟩
    · rw [if_neg h]
      exact ⟨fun hh => absurd hh (by simp), fun hh => absurd hh h⟩
  · have := congrArg List.length (resample_times r env fuel p hI hs he hret)
    rw [length_gridTimes] at this
    rw [← this]
    simp [Partial.numBreakpoints, Partial.times]
  · have hlen : (phaseFixed r env p).bps.length = p.numBreakpoints := by
      have := congrArg List.length (times_phaseFixed r env p)
      simpa [Partial.times, Partial.numBreakpoints] using this
    refine ⟨(phaseFixed r env p).bps.foldl
      (Resampler.quantizeStep r env (phaseFixed r env p))
      (Partial.empty.setLabel (phaseFixed r env p).label), fun fuel => ?_,
      quantize_of_defined r env p (fun h => by
        rw [Partial.startTime, h.2] at hs
        simp at hs)⟩
    rw [quantizeLoop_eq r env (phaseFixed r env p) fuel 0 _ 0 (Nat.zero_le _)]
    simp only [Nat.sub_zero, List.drop_zero, Nat.zero_add, hlen]

/-- C32, at the concrete scenario: interval 0.01, breakpoints at 0.003 and
0.027. -/
theorem loops_terminate_witness :
    0 < scenarioResampler.interval ∧ scenarioPartial.startTime = some (3 / 1000) ∧
    scenarioPartial.endTime = some (27 / 1000) ∧
    (∀ fuel, (scenarioResampler.resample stepCollaborators fuel scenarioPartial).status
        = Status.returned ↔
      stepCount scenarioResampler.interval (lastInsertTime scenarioResampler.interval (27 / 1000))
        (firstInsertTime scenarioResampler.interval (3 / 1000)) ≤ fuel) ∧
    (∀ fuel, (scenarioResampler.resample stepCollaborators fuel scenarioPartial).status
        = Status.returned →
      (scenarioResampler.resample stepCollaborators fuel scenarioPartial).state.numBreakpoints =
        stepCount scenarioResampler.interval
          (lastInsertTime scenarioResampler.interval (27 / 1000))
          (firstInsertTime scenarioResampler.interval (3 / 1000))) :=
  ⟨by norm_num [scenarioResampler], by simp [scenarioPartial, Partial.startTime],
    by simp [scenarioPartial, Partial.endTime],
    (loops_terminate scenarioResampler stepCollaborators scenarioPartial (3 / 1000) (27 / 1000)
      (by norm_num [scenarioResampler]) (by simp [scenarioPartial, Partial.startTime])
      (by simp [scenarioPartial, Partial.endTime])).1,
    (loops_terminate scenarioResampler stepCollaborators scenarioPartial (3 / 1000) (27 / 1000)
      (by norm_num [scenarioResampler]) (by simp [scenarioPartial, Partial.startTime])
      (by simp [scenarioPartial, Partial.endTime])).2.1⟩

/-! ## Which Partials `resample` leaves empty -/

theorem startTime_le_endTime (p : Partial) (hwf : p.WellFormed) {s e : ℚ}
    (hs : p.startTime = some s) (he : p.endTime = some e) : s ≤ e := by
  rw [startTime_eq_times] at hs
  rw [endTime_eq_times] at he
  exact le_getLast?_of_pairwise p.times (List.chain'_iff_pairwise.mp hwf) s
    (List.mem_of_mem_head? hs) e he

theorem firstInsertTime_le_lastInsertTime {interval s e : ℚ} (hI : 0 < interval)
    (h0 : 0 ≤ s) (hse : s ≤ e) : firstInsertTime interval s ≤ lastInsertTime interval e := by
  have h1 := (mul_floor_half_bounds (e := s) hI).2
  rw [firstInsertTime_eq_round_of_nonneg hI h0, round_eq]
  unfold lastInsertTime
  linarith

/-- A returning `resample( Partial & )` leaves a breakpoint when the grid has
an instant. -/
theorem resample_numBreakpoints_pos (r : Resampler) (env : Collaborators) (fuel : Nat)
    (p : Partial) (hI : 0 < r.interval) {s e : ℚ} (hs : p.startTime = some s)
    (he : p.endTime = some e)
    (hle : firstInsertTime r.interval s ≤ lastInsertTime r.interval e)
    (hret : (r.resample env fuel p).status = Status.returned) :
    (r.resample env fuel p).state.numBreakpoints ≠ 0 := by
  have hlen := congrArg List.length (resample_times r env fuel p hI hs he hret)
  rw [length_gridTimes] at hlen
  have hpos := (stepCount_pos_iff hI).mpr hle
  have : (r.resample env fuel p).state.numBreakpoints
      = (r.resample env fuel p).state.times.length := by
    simp [Partial.numBreakpoints, Partial.times]
  omega

/-- C34 (amended): with times as exact rationals, for a positive interval and a
Partial `q` whose times increase from a start time that is not negative,
`firstInsertTime <= lastInsertTime` and a returning `resample( Partial & )`
leaves at least one breakpoint (and it returns with enough fuel); so on a list
`xs` of such Partials the batch `resample( list )` returns with enough fuel,
and when it returns the list holds the resampled Partials of `xs` in order,
none removed, and has the size it had. -/
theorem resample_keeps_every_partial (r : Resampler) (env : Collaborators) (q : Partial)
    (s e : ℚ) (w : PartialList.Memory) (plist : Nat) (xs : List Partial)
    (hI : 0 < r.interval) (hq : q.WellFormed) (hs : q.startTime = some s)
    (he : q.endTime = some e) (h0 : 0 ≤ s)
    (hL : PartialList.contents w plist = Except.ok (some xs))
    (hall : ∀ p ∈ xs, p.WellFormed ∧ ∃ t, p.startTime = some t ∧ 0 ≤ t) :
    firstInsertTime r.interval s ≤ lastInsertTime r.interval e ∧
    (∃ fuel, (r.resample env fuel q).status = Status.returned) ∧
    (∀ fuel, (r.resample env fuel q).status = Status.returned →
      1 ≤ (r.resample env fuel q).state.numBreakpoints) ∧
    (∃ fuel, (r.resampleList env fuel w plist).2 = Status.returned) ∧
    ∀ fuel, (r.resampleList env fuel w plist).2 = Status.returned →
      PartialList.contents (r.resampleList env fuel w plist).1 plist
        = Except.ok (some (xs.map (fun p => (r.resample env fuel p).state))) ∧
      PartialList.size (r.resampleList env fuel w plist).1 plist = Except.ok xs.length := by
  have hne : ∀ p : Partial, ∀ t, p.startTime = some t → p.bps ≠ [] := by
    intro p t ht hnil
    rw [Partial.startTime, hnil] at ht
    simp at ht
  have hle := firstInsertTime_le_lastInsertTime hI h0 (startTime_le_endTime q hq hs he)
  refine ⟨hle, resample_returns r env q hI (hne q s hs), fun fuel hret => ?_, ?_, ?_⟩
  · have := resample_numBreakpoints_pos r env fuel q hI hs he hle hret
    omega
  · obtain ⟨f0, hf⟩ := resample_all_return r env hI xs (fun p hp => by
      obtain ⟨_, t, ht, _⟩ := hall p hp
      exact hne p t ht)
    refine ⟨f0, ?_⟩
    rw [Resampler.resampleList, (batch_spec _ w plist xs hL).1]
    exact forEachPartial_of_all _ xs (hf f0 (le_refl _))
  · intro fuel hret
    obtain ⟨b1, b2⟩ := batch_spec (fun p => r.resample env fuel p) w plist xs hL
    rw [Resampler.resampleList, b1] at hret
    have hall1 := (forEachPartial_returned _ xs hret).1
    have hkeep : (xs.map (fun p => (r.resample env fuel p).state)).filter
        (fun q => decide (q.numBreakpoints ≠ 0))
        = xs.map (fun p => (r.resample env fuel p).state) := by
      apply List.filter_eq_self.mpr
      intro y hy
      obtain ⟨p, hp, rfl⟩ := List.mem_map.mp hy
      obtain ⟨hwf, t, ht, ht0⟩ := hall p hp
      obtain ⟨t1, e1, ht1, he1⟩ := exists_start_end p (hne p t ht)
      have htt : t1 = t := by rw [ht] at ht1; exact (Option.some.inj ht1).symm
      subst htt
      have := resample_numBreakpoints_pos r env fuel p hI ht1 he1
        (firstInsertTime_le_lastInsertTime hI ht0 (startTime_le_endTime p hwf ht1 he1))
        (hall1 p hp)
      simpa using this
    have hc : PartialList.contents (r.resampleList env fuel w plist).1 plist
        = Except.ok (some (xs.map (fun p => (r.resample env fuel p).state))) := by
      rw [← hkeep]
      exact b2 hret
    refine ⟨hc, ?_⟩
    unfold PartialList.size
    unfold PartialList.contents at hc
    rw [hc]
    simp [Except.map]

theorem oneListMemory_partials :
    ∀ p ∈ [scenarioPartial, earlyEndPartial],
      p.WellFormed ∧ ∃ t, p.startTime = some t ∧ 0 ≤ t := by
  intro p hp
  simp only [List.mem_cons, List.mem_singleton, List.not_mem_nil, or_false] at hp
  rcases hp with rfl | rfl
  · refine ⟨?_, 3 / 1000, by simp [scenarioPartial, Partial.startTime], by norm_num⟩
    unfold Partial.WellFormed
    norm_num [scenarioPartial, Partial.times]
  · refine ⟨?_, 3 / 1000, by simp [earlyEndPartial, Partial.startTime], by norm_num⟩
    unfold Partial.WellFormed
    norm_num [earlyEndPartial, Partial.times]

/-- C34 (amended), at the scenario Partial and the list of two Partials. -/
theorem resample_keeps_every_partial_witness :
    0 < scenarioResampler.interval ∧ scenarioPartial.WellFormed ∧
    scenarioPartial.startTime = some (3 / 1000) ∧
    scenarioPartial.endTime = some (27 / 1000) ∧ (0 : ℚ) ≤ 3 / 1000 ∧
    PartialList.contents oneListMemory 0 = Except.ok (some [scenarioPartial, earlyEndPartial]) ∧
    (∀ p ∈ [scenarioPartial, earlyEndPartial],
      p.WellFormed ∧ ∃ t, p.startTime = some t ∧ 0 ≤ t) ∧
    (firstInsertTime scenarioResampler.interval (3 / 1000)
      ≤ lastInsertTime scenarioResampler.interval (27 / 1000) ∧
    (∃ fuel, (scenarioResampler.resample stepCollaborators fuel scenarioPartial).status
      = Status.returned) ∧
    (∀ fuel, (scenarioResampler.resample stepCollaborators fuel scenarioPartial).status
        = Status.returned →
      1 ≤ (scenarioResampler.resample stepCollaborators fuel scenarioPartial).state.numBreakpoints) ∧
    (∃ fuel, (scenarioResampler.resampleList stepCollaborators fuel oneListMemory 0).2
      = Status.returned) ∧
    ∀ fuel, (scenarioResampler.resampleList stepCollaborators fuel oneListMemory 0).2
        = Status.returned →
      PartialList.contents (scenarioResampler.resampleList stepCollaborators fuel
          oneListMemory 0).1 0
        = Except.ok (some ([scenarioPartial, earlyEndPartial].map
            (fun p => (scenarioResampler.resample stepCollaborators fuel p).state))) ∧
      PartialList.size (scenarioResampler.resampleList stepCollaborators fuel
          oneListMemory 0).1 0
        = Except.ok [scenarioPartial, earlyEndPartial].length) :=
  ⟨by norm_num [scenarioResampler], (oneListMemory_partials scenarioPartial (by simp)).1,
    by simp [scenarioPartial, Partial.startTime], by simp [scenarioPartial, Partial.endTime],
    by norm_num, rfl, oneListMemory_partials,
    resample_keeps_every_partial scenarioResampler stepCollaborators scenarioPartial
      (3 / 1000) (27 / 1000) oneListMemory 0 [scenarioPartial, earlyEndPartial]
      (by norm_num [scenarioResampler]) (oneListMemory_partials scenarioPartial (by simp)).1
      (by simp [scenarioPartial, Partial.startTime]) (by simp [scenarioPartial, Partial.endTime])
      (by norm_num) rfl oneListMemory_partials⟩

theorem singleNegativePartial_grid :
    singleNegativePartial.startTime = some (-13 / 500) ∧
    singleNegativePartial.endTime = some (-13 / 500) ∧
    firstInsertTime scenarioResampler.interval (-13 / 500) = -1 / 50 ∧
    lastInsertTime scenarioResampler.interval (-13 / 500) = -21 / 1000 ∧
    stepCount scenarioResampler.interval (lastInsertTime scenarioResampler.interval (-13 / 500))
      (firstInsertTime scenarioResampler.interval (-13 / 500)) = 0 := by
  have hfirst : firstInsertTime scenarioResampler.interval (-13 / 500) = -1 / 50 := by
    have : truncToInt (1 / 2 + (-13 / 500 : ℚ) / (1 / 100)) = -2 :=
      truncToInt_of_neg (by norm_num) (by norm_num) (by norm_num)
    simp only [firstInsertTime, scenarioResampler, this]; norm_num
  have hlast : lastInsertTime scenarioResampler.interval (-13 / 500) = -21 / 1000 := by
    norm_num [lastInsertTime, scenarioResampler]
  refine ⟨by simp [singleNegativePartial, Partial.startTime],
    by simp [singleNegativePartial, Partial.endTime], hfirst, hlast, ?_⟩
  rw [hfirst, hlast]
  exact stepCount_of_gt (by norm_num [scenarioResampler]) (by norm_num)

/-- The Partial with a single breakpoint at -0.026 comes out of
`resample( Partial & )` without breakpoints, whatever the fuel. -/
theorem resample_singleNegativePartial (fuel : Nat) :
    (scenarioResampler.resample stepCollaborators fuel singleNegativePartial).status
      = Status.returned ∧
    (scenarioResampler.resample stepCollaborators fuel singleNegativePartial).state.numBreakpoints
      = 0 := by
  obtain ⟨hs, he, _, _, hn⟩ := singleNegativePartial_grid
  rw [resample_eq scenarioResampler stepCollaborators fuel singleNegativePartial
    (by norm_num [scenarioResampler]) hs he, hn, if_pos (Nat.zero_le _)]
  refine ⟨rfl, ?_⟩
  simp [scenarioResampler, Partial.numBreakpoints, Collaborators.fixFrequency, gridSamples]

theorem resample_scenarioPartial_four :
    (scenarioResampler.resample stepCollaborators 4 scenarioPartial).status = Status.returned ∧
    (scenarioResampler.resample stepCollaborators 4 scenarioPartial).state.numBreakpoints
      ≠ 0 := by
  have hs : scenarioPartial.startTime = some (3 / 1000) := by
    simp [scenarioPartial, Partial.startTime]
  have he : scenarioPartial.endTime = some (27 / 1000) := by
    simp [scenarioPartial, Partial.endTime]
  have hfirst : firstInsertTime scenarioResampler.interval (3 / 1000) = 0 := by
    have : truncToInt (1 / 2 + (3 / 1000 : ℚ) / (1 / 100)) = 0 :=
      truncToInt_of_nonneg (by norm_num) (by norm_num) (by norm_num)
    simp only [firstInsertTime, scenarioResampler, this]; norm_num
  have hret := (resample_times_of scenarioResampler stepCollaborators 4 scenarioPartial
    (by norm_num [scenarioResampler]) 3 hs he hfirst
    (by norm_num [lastInsertTime, scenarioResampler])
    (by norm_num [lastInsertTime, scenarioResampler]) (le_refl _)).1
  refine ⟨hret, resample_numBreakpoints_pos scenarioResampler stepCollaborators 4
    scenarioPartial (by norm_num [scenarioResampler]) hs he ?_ hret⟩
  rw [hfirst]
  norm_num [lastInsertTime, scenarioResampler]

/-- C12, at the list of the scenario Partial and the Partial with the single
breakpoint at -0.026, which `resample( Partial & )` leaves without breakpoints:
`resample( list )` returns and the list holds the resampled scenario Partial
alone; `quantize( list )` returns on the same list. -/
theorem batch_operations_spec_witness :
    0 < scenarioResampler.interval ∧ identityEnvelope.points ≠ [] ∧
    PartialList.contents negativeListMemory 0
      = Except.ok (some [scenarioPartial, singleNegativePartial]) ∧
    (scenarioResampler.resampleList stepCollaborators 4 negativeListMemory 0).2
      = Status.returned ∧
    ((∀ p ∈ [scenarioPartial, singleNegativePartial],
        (scenarioResampler.resample stepCollaborators 4 p).status = Status.returned) ∧
      PartialList.contents
          (scenarioResampler.resampleList stepCollaborators 4 negativeListMemory 0).1 0
        = Except.ok (some (([scenarioPartial, singleNegativePartial].map
            (fun p => (scenarioResampler.resample stepCollaborators 4 p).state)).filter
              (fun q => decide (q.numBreakpoints ≠ 0))))) ∧
    ([scenarioPartial, singleNegativePartial].map
        (fun p => (scenarioResampler.resample stepCollaborators 4 p).state)).filter
          (fun q => decide (q.numBreakpoints ≠ 0))
      = [(scenarioResampler.resample stepCollaborators 4 scenarioPartial).state] ∧
    (scenarioResampler.quantizeList stepCollaborators negativeListMemory 0).2
      = Status.returned := by
  have hL : PartialList.contents negativeListMemory 0
      = Except.ok (some [scenarioPartial, singleNegativePartial]) := rfl
  have hI : 0 < scenarioResampler.interval := by norm_num [scenarioResampler]
  have hE : identityEnvelope.points ≠ [] := by simp [identityEnvelope]
  have hall : (forEachPartial (fun p => scenarioResampler.resample stepCollaborators 4 p)
      [scenarioPartial, singleNegativePartial]).1 = Status.returned := by
    apply forEachPartial_of_all
    intro p hp
    simp only [List.mem_cons, List.mem_singleton, List.not_mem_nil, or_false] at hp
    rcases hp with rfl | rfl
    · exact resample_scenarioPartial_four.1
    · exact (resample_singleNegativePartial 4).1
  have hret : (scenarioResampler.resampleList stepCollaborators 4 negativeListMemory 0).2
      = Status.returned := by
    rw [Resampler.resampleList, (batch_spec _ negativeListMemory 0
      [scenarioPartial, singleNegativePartial] hL).1, hall]
  refine ⟨hI, hE, hL, hret,
    (batch_operations_spec scenarioResampler stepCollaborators negativeListMemory 0
      [scenarioPartial, singleNegativePartial] identityEnvelope hI hE hL).1.2 4 hret, ?_,
    (batch_operations_spec scenarioResampler stepCollaborators negativeListMemory 0
      [scenarioPartial, singleNegativePartial] identityEnvelope hI hE hL).2.2.1.1
      (Or.inr (fun p hp => by
        simp only [List.mem_cons, List.mem_singleton, List.not_mem_nil, or_false] at hp
        rcases hp with rfl | rfl
        · simp [scenarioPartial]
        · simp [singleNegativePartial]))⟩
  simp [resample_scenarioPartial_four.2, (resample_singleNegativePartial 4).2]

/-- C35: with interval 0.01, the Partial with the single breakpoint at -0.026
has `firstInsertTime = -0.02`, because `int( 0.5 - 2.6 )` is -2 while the
nearest step is -3, and `lastInsertTime = -0.021`; the sampling loop does not
run, `resample( Partial & )` returns a Partial without breakpoints, and the
batch `resample( list )` on the list of the scenario Partial and this Partial
returns a list that holds the resampled scenario Partial alone. -/
theorem resample_empties_negative_partial :
    0 < scenarioResampler.interval ∧ singleNegativePartial.numBreakpoints = 1 ∧
    singleNegativePartial.startTime = some (-13 / 500) ∧
    truncToInt (1 / 2 + (-13 / 500 : ℚ) / scenarioResampler.interval) = -2 ∧
    round ((-13 / 500 : ℚ) / scenarioResampler.interval) = -3 ∧
    firstInsertTime scenarioResampler.interval (-13 / 500) = -1 / 50 ∧
    lastInsertTime scenarioResampler.interval (-13 / 500) = -21 / 1000 ∧
    (∀ fuel,
      (scenarioResampler.resample stepCollaborators fuel singleNegativePartial).status
        = Status.returned ∧
      (scenarioResampler.resample stepCollaborators fuel
        singleNegativePartial).state.numBreakpoints = 0) ∧
    PartialList.contents negativeListMemory 0
      = Except.ok (some [scenarioPartial, singleNegativePartial]) ∧
    (scenarioResampler.resampleList stepCollaborators 4 negativeListMemory 0).2
      = Status.returned ∧
    PartialList.contents
        (scenarioResampler.resampleList stepCollaborators 4 negativeListMemory 0).1 0
      = Except.ok (some [(scenarioResampler.resample stepCollaborators 4 scenarioPartial).state])
    := by
  obtain ⟨hs, _, hfirst, hlast, _⟩ := singleNegativePartial_grid
  have hL : PartialList.contents negativeListMemory 0
      = Except.ok (some [scenarioPartial, singleNegativePartial]) := rfl
  obtain ⟨b1, b2⟩ := batch_spec (fun p => scenarioResampler.resample stepCollaborators 4 p)
    negativeListMemory 0 [scenarioPartial, singleNegativePartial] hL
  have hall : (forEachPartial (fun p => scenarioResampler.resample stepCollaborators 4 p)
      [scenarioPartial, singleNegativePartial]).1 = Status.returned := by
    apply forEachPartial_of_all
    intro p hp
    simp only [List.mem_cons, List.mem_singleton, List.not_mem_nil, or_false] at hp
    rcases hp with rfl | rfl
    · exact resample_scenarioPartial_four.1
    · exact (resample_singleNegativePartial 4).1
  refine ⟨by norm_num [scenarioResampler], rfl, hs, ?_, ?_, hfirst, hlast,
    resample_singleNegativePartial, hL, ?_, ?_⟩
  · exact truncToInt_of_neg (by norm_num [scenarioResampler])
      (by norm_num [scenarioResampler]) (by norm_num [scenarioResampler])
  · rw [round_eq, Int.floor_eq_iff]; norm_num [scenarioResampler]
  · rw [Resampler.resampleList, b1, hall]
  · rw [Resampler.resampleList]
    unfold PartialList.contents
    rw [b2 hall]
    simp [resample_scenarioPartial_four.2, (resample_singleNegativePartial 4).2]

/-! ## A batch member that fails -/

/-- What a batch member leaves in a list that holds `xs`, returning or not. -/
theorem batch_read (op : Partial → Run) (w : PartialList.Memory) (plist : Nat)
    (xs : List Partial) (hL : w.read plist = Except.ok (some xs)) :
    (batch op w plist).1.read plist =
      Except.ok (some (if (forEachPartial op xs).1 = Status.returned then
        eraseIf is_empty_Partial (forEachPartial op xs).2 else (forEachPartial op xs).2)) := by
  obtain ⟨h, a, hi, hp, hv⟩ := Store.handle_of_read hL
  obtain ⟨c1, a1, v1, d1, d2, d3, d4, _⟩ := Store.deref_spec cloneList hi hp hv
  have hv1 : v1 = xs := by
    rcases d4 with e | e <;> simpa [cloneList] using e
  subst hv1
  have hA : w.deref cloneList plist = ((w.deref cloneList plist).1, Except.ok a1) := by
    rw [← d1]
  cases hfe : forEachPartial op v1 with
  | mk st ys =>
    have hb : batch op w plist =
        match st with
        | Status.returned =>
          ((w.deref cloneList plist).1.modify a1 (fun _ => eraseIf is_empty_Partial ys),
            Status.returned)
        | st1 => ((w.deref cloneList plist).1.modify a1 (fun _ => ys), st1) := by
      unfold batch
      rw [hA]
      dsimp only
      rw [d3]
      simp only [Option.getD_some, hfe]
      cases st <;> rfl
    rw [hb]
    cases st with
    | returned =>
      dsimp only
      rw [Store.read_modify_self _ d2 rfl d3, if_pos rfl]
    | threw f =>
      dsimp only
      rw [Store.read_modify_self _ d2 rfl d3, if_neg (by simp)]
    | outOfFuel =>
      dsimp only
      rw [Store.read_modify_self _ d2 rfl d3, if_neg (by simp)]
    | undefined =>
      dsimp only
      rw [Store.read_modify_self _ d2 rfl d3, if_neg (by simp)]

theorem forEachPartial_empty_envelope (r : Resampler) (env : Collaborators) (fuel : Nat)
    (E : LinearEnvelope) (hE : E.size = 0) (xs : List Partial) :
    forEachPartial (fun p => r.resampleTiming env fuel p E) xs =
      (if xs = [] then Status.returned else Status.threw Failure.assertionFailure, xs) := by
  cases xs with
  | nil => rfl
  | cons p rest =>
    have hop : r.resampleTiming env fuel p E = ⟨Status.threw Failure.assertionFailure, p⟩ := by
      unfold Resampler.resampleTiming
      rw [if_pos hE]
    simp only [forEachPartial, hop]
    simp

/-- C37: the batch `resample( list, timingEnv )` with a timing envelope without
control points, on a list that holds `xs`: it ends in the assertion failure
exactly when `xs` is not empty and returns exactly when `xs` is empty; in both
cases the list holds `xs` afterwards, every Partial as it was and none
removed. -/
theorem resampleTimingList_empty_envelope (r : Resampler) (env : Collaborators) (fuel : Nat)
    (w : PartialList.Memory) (plist : Nat) (xs : List Partial) (E : LinearEnvelope)
    (hE : E.size = 0) (hL : PartialList.contents w plist = Except.ok (some xs)) :
    ((r.resampleTimingList env fuel w plist E).2 = Status.threw Failure.assertionFailure
      ↔ xs ≠ []) ∧
    ((r.resampleTimingList env fuel w plist E).2 = Status.returned ↔ xs = []) ∧
    PartialList.contents (r.resampleTimingList env fuel w plist E).1 plist
      = Except.ok (some xs) := by
  unfold PartialList.contents at hL ⊢
  have hfe := forEachPartial_empty_envelope r env fuel E hE xs
  have hst := (batch_spec (fun p => r.resampleTiming env fuel p E) w plist xs hL).1
  have hrd := batch_read (fun p => r.resampleTiming env fuel p E) w plist xs hL
  rw [hfe] at hst hrd
  simp only at hst hrd
  unfold Resampler.resampleTimingList
  rw [hst, hrd]
  by_cases hx : xs = []
  · subst hx
    simp [eraseIf]
  · simp [hx]

/-- C37, at the list of two Partials and the envelope without control points. -/
theorem resampleTimingList_empty_envelope_witness :
    (⟨[]⟩ : LinearEnvelope).size = 0 ∧
    PartialList.contents oneListMemory 0 = Except.ok (some [scenarioPartial, earlyEndPartial]) ∧
    ((scenarioResampler.resampleTimingList stepCollaborators 4 oneListMemory 0 ⟨[]⟩).2
        = Status.threw Failure.assertionFailure
      ↔ [scenarioPartial, earlyEndPartial] ≠ []) ∧
    ((scenarioResampler.resampleTimingList stepCollaborators 4 oneListMemory 0 ⟨[]⟩).2
        = Status.returned ↔ [scenarioPartial, earlyEndPartial] = []) ∧
    PartialList.contents
        (scenarioResampler.resampleTimingList stepCollaborators 4 oneListMemory 0 ⟨[]⟩).1 0
      = Except.ok (some [scenarioPartial, earlyEndPartial]) :=
  ⟨rfl, rfl,
    resampleTimingList_empty_envelope scenarioResampler stepCollaborators 4 oneListMemory 0
      [scenarioPartial, earlyEndPartial] ⟨[]⟩ rfl rfl⟩

/-! ## Every PartialList is bound -/

theorem allBound_iff (w : PartialList.Memory) :
    AllBound w ↔ ∀ h, some h ∈ w.handles → h.p ≠ none := by
  constructor
  · intro hb h hm
    obtain ⟨i, hi⟩ := List.mem_iff_getElem?.mp hm
    exact hb i h (Store.handle?_eq_some.mpr hi)
  · intro hb i h hi
    exact hb h (Store.mem_of_handle? hi)

theorem allBound_empty : AllBound (Store.empty : PartialList.Memory) := by
  intro i h hi
  simp [Store.handle?, Store.empty] at hi

theorem allBound_newBound {w : PartialList.Memory} (v : List Partial) (hb : AllBound w) :
    AllBound (w.newBound v) := by
  rw [allBound_iff] at hb ⊢
  intro h hm
  rcases Store.mem_append_some (show some h ∈ w.handles ++ [some _] from hm) with h1 | h1
  · exact hb h h1
  · rw [h1]; simp

theorem allBound_copy {w : PartialList.Memory} (i : Nat) (hb : AllBound w) :
    AllBound (w.copy i) := by
  unfold Store.copy
  cases hi : w.handle? i with
  | none => exact hb
  | some h0 =>
    dsimp only
    rw [allBound_iff] at hb ⊢
    intro h hm
    rcases Store.mem_append_some (show some h ∈ w.handles ++ [some _] from hm) with h1 | h1
    · exact hb h h1
    · rw [h1]; exact hb h0 (Store.mem_of_handle? hi)

theorem allBound_assign {w : PartialList.Memory} (lhs rhs : Nat) (hb : AllBound w) :
    AllBound (w.assign lhs rhs) := by
  cases hl : w.handle? lhs with
  | none =>
    have : w.assign lhs rhs = w := by
      unfold Store.assign; rw [hl]
    rw [this]; exact hb
  | some hl0 =>
    cases hr : w.handle? rhs with
    | none =>
      have : w.assign lhs rhs = w := by
        unfold Store.assign; rw [hl, hr]
      rw [this]; exact hb
    | some hr0 =>
      have hhs := (Store.assign_eq hl hr).2.2
      rw [allBound_iff] at hb ⊢
      intro h hm
      rw [hhs] at hm
      rcases Store.mem_set_some hm with h1 | h1
      · exact hb h h1
      · rw [← Option.some.inj h1]; exact hb hr0 (Store.mem_of_handle? hr)

theorem allBound_destroy {w : PartialList.Memory} (i : Nat) (hb : AllBound w) :
    AllBound (w.destroy i) := by
  unfold Store.destroy
  cases hi : w.handle? i with
  | none => exact hb
  | some h0 =>
    dsimp only
    rw [allBound_iff] at hb ⊢
    intro h hm
    have hm1 : some h ∈ w.handles.set i none := by
      rw [← Store.release_handles w h0]; exact hm
    rcases Store.mem_set_some hm1 with h1 | h1
    · exact hb h h1
    · simp at h1

theorem allBound_modify {w : PartialList.Memory} (a : Nat) (f : List Partial → List Partial)
    (hb : AllBound w) : AllBound (w.modify a f) := hb

theorem allBound_makeUnique {w : PartialList.Memory} (i : Nat) (hb : AllBound w) :
    AllBound (w.makeUnique cloneList i) := by
  cases hi : w.handle? i with
  | none =>
    have : w.makeUnique cloneList i = w := by
      unfold Store.makeUnique; rw [hi]
    rw [this]; exact hb
  | some h0 =>
    by_cases h1 : w.readCount h0.refptr = 1
    · rw [(Store.makeUnique_handle cloneList hi).2 h1]; exact hb
    · cases hp : h0.p with
      | none => exact absurd hp (hb i h0 hi)
      | some a =>
        obtain ⟨m1, _, _, _, _, m6⟩ := Store.makeUnique_shared cloneList hi hp h1
        intro j h hj
        by_cases hji : j = i
        · rw [hji, m1] at hj
          rw [← Option.some.inj hj]; simp
        · rw [m6 j hji] at hj
          exact hb j h hj

theorem allBound_deref {w : PartialList.Memory} (i : Nat) (hb : AllBound w) :
    AllBound (w.deref cloneList i).1 := by
  have h := allBound_makeUnique i hb
  unfold Store.deref
  dsimp only
  split <;> exact h

theorem mutate_preserves (P : PartialList.Memory → Prop)
    (hd : ∀ w i, P w → P (w.deref cloneList i).1)
    (hm : ∀ w a (f : List Partial → List Partial), P w → P (w.modify a f))
    (w : PartialList.Memory) (L : Nat) (f : List Partial → List Partial) (h : P w) :
    P (w.mutate cloneList L f).1 := by
  have h1 := hd w L h
  unfold Store.mutate
  cases hq : w.deref cloneList L with
  | mk w1 res =>
    rw [hq] at h1
    cases res with
    | ok a => exact hm w1 a f h1
    | error e => exact h1

theorem splice_preserves (P : PartialList.Memory → Prop)
    (hd : ∀ w i, P w → P (w.deref cloneList i).1)
    (hm : ∀ w a (f : List Partial → List Partial), P w → P (w.modify a f))
    (w : PartialList.Memory) (L pos other first last : Nat) (h : P w) :
    P (PartialList.splice w L pos other first last).1 := by
  have h1 := hd w L h
  unfold PartialList.splice
  cases hq : w.deref cloneList L with
  | mk w1 res =>
    rw [hq] at h1
    cases res with
    | error e => exact h1
    | ok dst =>
      have h2 := hd w1 other h1
      dsimp only
      cases hq2 : w1.deref cloneList other with
      | mk w2 res2 =>
        rw [hq2] at h2
        cases res2 with
        | error e => exact h2
        | ok src =>
          dsimp only
          split_ifs
          · exact hm w2 dst _ h2
          · exact hm _ src _ (hm w2 dst _ h2)

theorem extract_preserves (P : PartialList.Memory → Prop)
    (hn : ∀ w v, P w → P (w.newBound v))
    (hd : ∀ w i, P w → P (w.deref cloneList i).1)
    (hm : ∀ w a (f : List Partial → List Partial), P w → P (w.modify a f))
    (w : PartialList.Memory) (L b e : Nat) (h : P w) :
    P (PartialList.extract w L b e).1 := by
  have h1 := splice_preserves P hd hm (PartialList.construct w) w.handles.length 0 L b e
    (hn w [] h)
  unfold PartialList.extract
  dsimp only
  cases hq : PartialList.splice (PartialList.construct w) w.handles.length 0 L b e with
  | mk w2 res =>
    rw [hq] at h1
    cases res <;> exact h1

/-- A property of memories that the operations of `Ptr` keep holds in every
memory reached through PartialLists. -/
theorem listReachable_induction (P : PartialList.Memory → Prop) (h0 : P Store.empty)
    (hn : ∀ w v, P w → P (w.newBound v)) (hc : ∀ w i, P w → P (w.copy i))
    (ha : ∀ w l r, P w → P (w.assign l r)) (hx : ∀ w i, P w → P (w.destroy i))
    (hd : ∀ w i, P w → P (w.deref cloneList i).1)
    (hm : ∀ w a (f : List Partial → List Partial), P w → P (w.modify a f))
    {w : PartialList.Memory} (hr : ListReachable w) : P w := by
  induction hr with
  | empty => exact h0
  | construct _ ih => exact hn _ _ ih
  | constructRange range _ ih => exact hn _ _ ih
  | constructCopy rhs _ ih => exact hc _ _ ih
  | assign lhs rhs _ ih => exact ha _ _ _ ih
  | destruct L _ ih => exact hx _ _ ih
  | forward L f _ ih => exact mutate_preserves P hd hm _ L f ih
  | access L _ ih => exact hd _ _ ih
  | write a f _ ih => exact hm _ _ _ ih
  | clear L _ ih => exact hx _ _ (ha _ _ _ (hn _ _ ih))
  | splice L pos other first last _ ih => exact splice_preserves P hd hm _ L pos other first last ih
  | extract L b e _ ih => exact extract_preserves P hn hd hm _ L b e ih

theorem allBound_of_listReachable {w : PartialList.Memory} (hr : ListReachable w) :
    AllBound w :=
  listReachable_induction AllBound allBound_empty (fun _ v h => allBound_newBound v h)
    (fun _ i h => allBound_copy i h) (fun _ l r h => allBound_assign l r h)
    (fun _ i h => allBound_destroy i h) (fun _ i h => allBound_deref i h)
    (fun _ a f h => allBound_modify a f h) hr

theorem reachable_of_listReachable {w : PartialList.Memory} (hr : ListReachable w) :
    Reachable cloneList w :=
  listReachable_induction (Reachable cloneList) Reachable.empty
    (fun _ v h => Reachable.newBound v h) (fun _ i h => Reachable.copy i h)
    (fun _ l r h => Reachable.assign l r h) (fun _ i h => Reachable.destroy i h)
    (fun _ i h => Reachable.deref i h) (fun _ a f h => Reachable.modify a f h) hr

theorem live_deref {w : PartialList.Memory} (hb : AllBound w) (i j : Nat) {k : Ptr}
    (hj : w.handle? j = some k) : ∃ k1, (w.deref cloneList i).1.handle? j = some k1 := by
  have hd : (w.deref cloneList i).1 = w.makeUnique cloneList i := by
    unfold Store.deref
    dsimp only
    split <;> rfl
  rw [hd]
  cases hi : w.handle? i with
  | none =>
    have : w.makeUnique cloneList i = w := by
      unfold Store.makeUnique; rw [hi]
    rw [this]; exact ⟨k, hj⟩
  | some h0 =>
    by_cases h1 : w.readCount h0.refptr = 1
    · rw [(Store.makeUnique_handle cloneList hi).2 h1]; exact ⟨k, hj⟩
    · cases hp : h0.p with
      | none => exact absurd hp (hb i h0 hi)
      | some a =>
        obtain ⟨m1, _, _, _, _, m6⟩ := Store.makeUnique_shared cloneList hi hp h1
        by_cases hji : j = i
        · rw [hji]; exact ⟨_, m1⟩
        · rw [m6 j hji]; exact ⟨k, hj⟩

/-- The non-const dereference of a live variable succeeds when every live
variable is bound. -/
theorem deref_ok_of_allBound {w : PartialList.Memory} (hb : AllBound w) (i : Nat) {h : Ptr}
    (hi : w.handle? i = some h) : ∃ a, (w.deref cloneList i).2 = Except.ok a := by
  cases hp : h.p with
  | none => exact absurd hp (hb i h hi)
  | some a =>
    obtain ⟨_, a1, h1, _⟩ := (Store.deref_result cloneList w i h hi).2 a hp
    exact ⟨a1, h1⟩

theorem mutate_ok_of_allBound {w : PartialList.Memory} (hb : AllBound w) (i : Nat) {h : Ptr}
    (hi : w.handle? i = some h) (f : List Partial → List Partial) :
    (w.mutate cloneList i f).2 = Except.ok () := by
  obtain ⟨a, ha⟩ := deref_ok_of_allBound hb i hi
  unfold Store.mutate
  cases hq : w.deref cloneList i with
  | mk w1 res =>
    rw [hq] at ha
    simp only at ha
    subst ha
    rfl

theorem splice_ok_of_allBound {w : PartialList.Memory} (hb : AllBound w) (L other : Nat)
    {h k : Ptr} (hL : w.handle? L = some h) (hO : w.handle? other = some k)
    (pos first last : Nat) :
    (PartialList.splice w L pos other first last).2 = Except.ok () := by
  obtain ⟨dst, hdst⟩ := deref_ok_of_allBound hb L hL
  obtain ⟨k1, hk1⟩ := live_deref hb L other hO
  obtain ⟨src, hsrc⟩ := deref_ok_of_allBound (allBound_deref L hb) other hk1
  unfold PartialList.splice
  cases hq : w.deref cloneList L with
  | mk w1 res =>
    rw [hq] at hdst hsrc
    simp only at hdst hsrc
    subst hdst
    dsimp only
    cases hq2 : w1.deref cloneList other with
    | mk w2 res2 =>
      rw [hq2] at hsrc
      simp only at hsrc
      subst hsrc
      dsimp only
      split_ifs <;> rfl

theorem handle?_newBound_old {w : PartialList.Memory} (v : List Partial) {i : Nat} {h : Ptr}
    (hi : w.handle? i = some h) : (w.newBound v).handle? i = some h := by
  have hlt := Store.lt_length_of_handle? hi
  rw [← hi]
  simp only [Store.handle?, Store.newBound, List.getElem?_append_left hlt]

theorem handle?_newBound_new (w : PartialList.Memory) (v : List Partial) :
    (w.newBound v).handle? w.handles.length = some ⟨w.next + 1, some w.next⟩ := by
  simp only [Store.handle?, Store.newBound]
  rw [List.getElem?_append_right (le_refl _)]
  simp

theorem extract_ok_of_allBound {w : PartialList.Memory} (hb : AllBound w) (L : Nat) {h : Ptr}
    (hL : w.handle? L = some h) (b e : Nat) :
    (PartialList.extract w L b e).2 = Except.ok w.handles.length := by
  have hs := splice_ok_of_allBound (allBound_newBound [] hb) w.handles.length L
    (handle?_newBound_new w []) (handle?_newBound_old [] hL) 0 b e
  unfold PartialList.extract PartialList.construct
  dsimp only
  cases hq : PartialList.splice (w.newBound []) w.handles.length 0 L b e with
  | mk w2 res =>
    rw [hq] at hs
    simp only at hs
    subst hs
    rfl

/-- A live PartialList of a memory reached through PartialLists reads a
sequence. -/
theorem read_ok_of_listReachable {w : PartialList.Memory} (hr : ListReachable w) (L : Nat)
    {h : Ptr} (hL : w.handle? L = some h) : ∃ xs, w.read L = Except.ok (some xs) := by
  have inv := Store.invariant_of_reachable cloneList (reachable_of_listReachable hr)
  cases hp : h.p with
  | none => exact absurd hp (allBound_of_listReachable hr L h hL)
  | some a =>
    have hobj := (inv.object_iff a).mpr (Store.objRefs_pos (Store.mem_of_handle? hL) hp).ne'
    cases hv : w.objects a with
    | none => exact absurd hv hobj
    | some xs => exact ⟨xs, by rw [Store.read_of_handle hL hp, hv]⟩

/-- C36: in every memory reached through PartialLists every live list is
bound.  Each constructor yields a bound list; the memory after any list
operation is again one in which every live list is bound; and on live lists the
const members (`size`, `empty`, reading the Partials), the members that forward
to the sequence (`push_back`, `push_front`, `insert`, `erase`, `sort`), the
non-const access, `splice` and `extract` all succeed: none raises the
unbound-pointer error. -/
theorem partialList_always_bound (w : PartialList.Memory) (hr : ListReachable w)
    (L other : Nat) (h k : Ptr) (hL : w.handle? L = some h) (hO : w.handle? other = some k) :
    AllBound w ∧
    (∃ c a, (PartialList.construct w).handle? w.handles.length = some ⟨c, some a⟩) ∧
    (∀ range, ∃ c a,
      (PartialList.constructRange w range).handle? w.handles.length = some ⟨c, some a⟩) ∧
    (∃ c a, (PartialList.constructCopy w L).handle? w.handles.length = some ⟨c, some a⟩) ∧
    (AllBound (PartialList.assign w L other) ∧ AllBound (PartialList.destruct w L) ∧
      AllBound (PartialList.clear w L) ∧
      (∀ f, AllBound (PartialList.forward w L f).1) ∧ AllBound (PartialList.access w L).1 ∧
      (∀ pos first last, AllBound (PartialList.splice w L pos other first last).1) ∧
      (∀ b e, AllBound (PartialList.extract w L b e).1)) ∧
    ((∃ xs, PartialList.contents w L = Except.ok (some xs)) ∧
      (∃ n, PartialList.size w L = Except.ok n) ∧
      (∃ b, PartialList.isEmpty w L = Except.ok b)) ∧
    ((∀ f, (PartialList.forward w L f).2 = Except.ok ()) ∧
      (∀ val, (PartialList.push_back w L val).2 = Except.ok ()) ∧
      (∀ val, (PartialList.push_front w L val).2 = Except.ok ()) ∧
      (∀ pos val, (PartialList.insert w L pos val).2 = Except.ok ()) ∧
      (∀ pos, (PartialList.erase w L pos).2 = Except.ok ()) ∧
      (∀ first last, (PartialList.eraseRange w L first last).2 = Except.ok ()) ∧
      (∀ c, (PartialList.sort w L c).2 = Except.ok ())) ∧
    (∃ a, (PartialList.access w L).2 = Except.ok a) ∧
    (∀ pos first last,
      (PartialList.splice w L pos other first last).2 = Except.ok ()) ∧
    (∀ b e, (PartialList.extract w L b e).2 = Except.ok w.handles.length) := by
  have hb := allBound_of_listReachable hr
  have hfw : ∀ f, (PartialList.forward w L f).2 = Except.ok () := fun f =>
    mutate_ok_of_allBound hb L hL f
  obtain ⟨xs, hxs⟩ := read_ok_of_listReachable hr L hL
  refine ⟨hb, ⟨_, _, handle?_newBound_new w []⟩, fun range => ⟨_, _, handle?_newBound_new w range⟩,
    ?_, ⟨?_, ?_, ?_, ?_, ?_, ?_, ?_⟩, ⟨⟨xs, hxs⟩, ?_, ?_⟩,
    ⟨hfw, fun _ => hfw _, fun _ => hfw _, fun _ _ => hfw _, fun _ => hfw _,
      fun _ _ => hfw _, fun _ => hfw _⟩,
    deref_ok_of_allBound hb L hL, fun pos first last => splice_ok_of_allBound hb L other hL hO
      pos first last, fun b e => extract_ok_of_allBound hb L hL b e⟩
  · cases hp : h.p with
    | none => exact absurd hp (hb L h hL)
    | some a =>
      refine ⟨h.refptr, a, ?_⟩
      unfold PartialList.constructCopy Store.copy
      rw [hL]
      dsimp only
      have hh : (w.incr h.refptr).handles = w.handles := rfl
      simp only [Store.handle?, hh]
      rw [List.getElem?_append_right (le_refl _)]
      cases h with
      | mk c p => simp only at hp; subst hp; simp
  · exact allBound_of_listReachable (ListReachable.assign L other hr)
  · exact allBound_of_listReachable (ListReachable.destruct L hr)
  · exact allBound_of_listReachable (ListReachable.clear L hr)
  · exact fun f => allBound_of_listReachable (ListReachable.forward L f hr)
  · exact allBound_of_listReachable (ListReachable.access L hr)
  · exact fun pos first last =>
      allBound_of_listReachable (ListReachable.splice L pos other first last hr)
  · exact fun b e => allBound_of_listReachable (ListReachable.extract L b e hr)
  · exact ⟨xs.length, by unfold PartialList.size; rw [hxs]; rfl⟩
  · exact ⟨xs.isEmpty, by unfold PartialList.isEmpty; rw [hxs]; rfl⟩

theorem twoListsMemory_listReachable : ListReachable twoListsMemory :=
  ListReachable.constructRange _ (ListReachable.construct ListReachable.empty)

/-- C36, at the memory with an empty list, variable 0, and a list of two
Partials, variable 1. -/
theorem partialList_always_bound_witness :
    ListReachable twoListsMemory ∧ twoListsMemory.handle? 0 = some ⟨1, some 0⟩ ∧
    twoListsMemory.handle? 1 = some ⟨3, some 2⟩ ∧
    AllBound twoListsMemory ∧
    (∀ f, (PartialList.forward twoListsMemory 0 f).2 = Except.ok ()) ∧
    (∀ pos first last,
      (PartialList.splice twoListsMemory 0 pos 1 first last).2 = Except.ok ()) ∧
    (∀ b e, (PartialList.extract twoListsMemory 0 b e).2
      = Except.ok twoListsMemory.handles.length) :=
  ⟨twoListsMemory_listReachable, rfl, rfl,
    (partialList_always_bound twoListsMemory twoListsMemory_listReachable 0 1 ⟨1, some 0⟩
      ⟨3, some 2⟩ rfl rfl).1,
    (partialList_always_bound twoListsMemory twoListsMemory_listReachable 0 1 ⟨1, some 0⟩
      ⟨3, some 2⟩ rfl rfl).2.2.2.2.2.2.1.1,
    (partialList_always_bound twoListsMemory twoListsMemory_listReachable 0 1 ⟨1, some 0⟩
      ⟨3, some 2⟩ rfl rfl).2.2.2.2.2.2.2.2.1,
    (partialList_always_bound twoListsMemory twoListsMemory_listReachable 0 1 ⟨1, some 0⟩
      ⟨3, some 2⟩ rfl rfl).2.2.2.2.2.2.2.2.2⟩

/-! ## A dereference that fails -/

/-- What `make_unique` does to an unbound variable that shares its counter: a
new counter at the allocation pointer, the old counter one lower, no object
allocated, everything else as it was. -/
theorem Store.makeUnique_shared_unbound {T : Type} (clone : T → T) {s : Store T} {i : Nat}
    {h : Ptr} (hi : s.handle? i = some h) (hp : h.p = none)
    (hne : s.readCount h.refptr ≠ 1) :
    (s.makeUnique clone i).handle? i = some ⟨s.next, none⟩ ∧
    (s.makeUnique clone i).objects = s.objects ∧
    (s.makeUnique clone i).counters s.next = some 1 ∧
    (h.refptr ≠ s.next →
      (s.makeUnique clone i).counters h.refptr = some (s.readCount h.refptr - 1)) ∧
    (∀ c, c ≠ s.next → c ≠ h.refptr → (s.makeUnique clone i).counters c = s.counters c) ∧
    (∀ j, j ≠ i → (s.makeUnique clone i).handle? j = s.handle? j) := by
  have hlt := Store.lt_length_of_handle? hi
  unfold Store.makeUnique
  rw [hi]
  dsimp only
  rw [if_pos hne, hp]
  dsimp only
  refine ⟨Store.handle?_set_self _ _ _ hlt, rfl, ?_, ?_, ?_, ?_⟩
  · rw [Function.update_same]
  · intro hc
    rw [Function.update_noteq hc, Function.update_same]
  · intro c h1 h2
    rw [Function.update_noteq h1, Function.update_noteq h2]
  · intro j hj
    exact Store.handle?_set_ne _ _ _ _ hj

theorem sharedUnboundMemory_reachable : Reachable cloneList sharedUnboundMemory :=
  Reachable.copy 0 (Reachable.newUnbound Reachable.empty)

/-- C33 (counterexample): in the memory with an unbound variable 0 and a copy of
it, the two sharing the counter 0 of value 2, the non-const dereference of the
variable 0 fails, and afterwards the variable 0 holds the new counter 1 and the
counter 0 has the value 1. -/
theorem deref_unbound_shared_rebinds :
    sharedUnboundMemory.handle? 0 = some ⟨0, none⟩ ∧
    sharedUnboundMemory.handle? 1 = some ⟨0, none⟩ ∧
    sharedUnboundMemory.readCount 0 = 2 ∧
    (sharedUnboundMemory.deref cloneList 0).2 = Except.error Failure.unboundPtr ∧
    (sharedUnboundMemory.deref cloneList 0).1.handle? 0 = some ⟨1, none⟩ ∧
    (sharedUnboundMemory.deref cloneList 0).1.readCount 0 = 1 ∧
    (sharedUnboundMemory.deref cloneList 0).1.readCount 0 ≠ sharedUnboundMemory.readCount 0 := by
  refine ⟨rfl, rfl, by decide, rfl, by decide, by decide, by decide⟩

/-- C33 (amended): in a memory a program reaches, a dereference of a live
unbound variable fails.  The const dereference leaves the memory as it was.
The non-const dereference leaves the memory as it was when the count of the
variable is 1; when the variable shares its counter, `make_unique` has run
before the failure: the variable holds a fresh counter of value 1, the shared
counter is one lower and still at least 1, no object is allocated or changed,
and every other variable holds what it held.  In each case the variable is
still unbound and the reference-count invariant holds. -/
theorem deref_unbound_fails {T : Type} (clone : T → T) (s : Store T) (hr : Reachable clone s)
    (i : Nat) (h : Ptr) (hi : s.handle? i = some h) (hp : h.p = none) :
    s.accessConst i = (s, Except.error Failure.unboundPtr) ∧
    (s.deref clone i).2 = Except.error Failure.unboundPtr ∧
    (s.readCount h.refptr = 1 → (s.deref clone i).1 = s) ∧
    (1 < s.readCount h.refptr →
      (s.deref clone i).1.handle? i = some ⟨s.next, none⟩ ∧ s.counters s.next = none ∧
      (s.deref clone i).1.readCount s.next = 1 ∧
      (s.deref clone i).1.readCount h.refptr = s.readCount h.refptr - 1 ∧
      1 ≤ (s.deref clone i).1.readCount h.refptr ∧
      (s.deref clone i).1.objects = s.objects ∧
      ∀ j, j ≠ i → (s.deref clone i).1.handle? j = s.handle? j) ∧
    (∃ c, (s.deref clone i).1.handle? i = some ⟨c, none⟩) ∧
    RefCountInvariant (s.deref clone i).1 := by
  have inv := Store.invariant_of_reachable clone hr
  have hfresh := inv.fresh h (Store.mem_of_handle? hi)
  have hd : (s.deref clone i).1 = s.makeUnique clone i := by
    unfold Store.deref
    dsimp only
    split <;> rfl
  have hconst : s.derefConst i = Except.error Failure.unboundPtr := by
    unfold Store.derefConst
    rw [hi]
    cases h with
    | mk c p => simp only at hp; subst hp; rfl
  have hsame : s.readCount h.refptr = 1 → s.makeUnique clone i = s :=
    (Store.makeUnique_handle clone hi).2
  refine ⟨by unfold Store.accessConst; rw [hconst],
    (Store.deref_result clone s i h hi).1 hp, fun h1 => by rw [hd, hsame h1], fun hgt => ?_, ?_,
    Store.invariant_deref clone i inv⟩
  · have hne : s.readCount h.refptr ≠ 1 := by omega
    obtain ⟨m1, m2, m3, m4, _, m6⟩ := Store.makeUnique_shared_unbound clone hi hp hne
    have hc : h.refptr ≠ s.next := by omega
    have hrc : (s.makeUnique clone i).readCount h.refptr = s.readCount h.refptr - 1 := by
      simp [Store.readCount, m4 hc]
    rw [hd]
    refine ⟨m1, ?_, by simp [Store.readCount, m3], hrc, by omega, m2, m6⟩
    rw [inv.counter_eq, if_pos (Store.refs_eq_zero_of_fresh inv (le_refl _))]
  · rw [hd]
    by_cases h1 : s.readCount h.refptr = 1
    · rw [hsame h1, hi]
      cases h with
      | mk c p => simp only at hp; subst hp; exact ⟨c, rfl⟩
    · exact ⟨s.next, (Store.makeUnique_shared_unbound clone hi hp h1).1⟩

/-- C33 (amended), at the unbound variable 0 that shares its counter with a
copy. -/
theorem deref_unbound_fails_witness :
    Reachable cloneList sharedUnboundMemory ∧
    sharedUnboundMemory.handle? 0 = some ⟨0, none⟩ ∧ (⟨0, none⟩ : Ptr).p = none ∧
    1 < sharedUnboundMemory.readCount 0 ∧
    sharedUnboundMemory.accessConst 0
      = (sharedUnboundMemory, Except.error Failure.unboundPtr) ∧
    (sharedUnboundMemory.deref cloneList 0).2 = Except.error Failure.unboundPtr :=
  ⟨sharedUnboundMemory_reachable, rfl, rfl, by decide,
    (deref_unbound_fails cloneList sharedUnboundMemory sharedUnboundMemory_reachable 0
      ⟨0, none⟩ rfl rfl).1,
    (deref_unbound_fails cloneList sharedUnboundMemory sharedUnboundMemory_reachable 0
      ⟨0, none⟩ rfl rfl).2.1⟩

/-! ## `clear` -/

theorem Store.destroy_eq {T : Type} {s : Store T} {i : Nat} {h : Ptr}
    (hi : s.handle? i = some h) :
    (s.destroy i).counters = Function.update s.counters h.refptr
      (if s.readCount h.refptr - 1 = 0 then none else some (s.readCount h.refptr - 1)) ∧
    (s.destroy i).objects =
      (if s.readCount h.refptr - 1 = 0 then
        (match h.p with
          | some a => Function.update s.objects a none
          | none => s.objects)
      else s.objects) ∧
    (s.destroy i).handles = s.handles.set i none := by
  unfold Store.destroy
  rw [hi]
  dsimp only
  refine ⟨?_, ?_, ?_⟩
  · rw [Store.release_counters]
  · rw [Store.release_objects]
  · rw [Store.release_handles]

/-- The memory after `clear` on a live list bound to the sequence `a`, field by
field. -/
theorem clear_fields {w : PartialList.Memory} (inv : RefCountInvariant w) {L : Nat} {h : Ptr}
    {a : Nat} (hi : w.handle? L = some h) (hp : h.p = some a) :
    (PartialList.clear w L).counters (w.next + 1) = some 1 ∧
    (PartialList.clear w L).counters h.refptr =
      (if w.readCount h.refptr = 1 then none else some (w.readCount h.refptr - 1)) ∧
    (PartialList.clear w L).objects w.next = some [] ∧
    (PartialList.clear w L).objects a = (if w.readCount h.refptr = 1 then none else w.objects a) ∧
    (∀ b, b ≠ w.next → b ≠ a → (PartialList.clear w L).objects b = w.objects b) ∧
    (PartialList.clear w L).handles
      = ((w.handles ++ [some (⟨w.next + 1, some w.next⟩ : Ptr)]).set L
          (some ⟨w.next + 1, some w.next⟩)).set w.handles.length none := by
  have hfresh := inv.fresh h (Store.mem_of_handle? hi)
  have hlt := Store.lt_length_of_handle? hi
  have halt := hfresh.2 a hp
  have hpos : 0 < w.readCount h.refptr := by
    rw [Store.readCount_eq_refs inv]; exact Store.refs_pos (Store.mem_of_handle? hi)
  have hL1 := handle?_newBound_old ([] : List Partial) hi
  have hT1 := handle?_newBound_new w ([] : List Partial)
  obtain ⟨c2, o2, hs2⟩ := Store.assign_eq hL1 hT1
  have hrc1 : ((w.newBound []).incr (w.next + 1)).readCount h.refptr = w.readCount h.refptr := by
    rw [Store.readCount_incr, if_neg (by omega)]
    simp only [Store.readCount, Store.newBound]
    rw [Function.update_noteq (by omega)]
  have hrcT : (w.newBound ([] : List Partial)).readCount (w.next + 1) = 1 := by
    simp [Store.readCount, Store.newBound]
  rw [hrc1] at c2 o2
  rw [hrcT] at c2
  dsimp only at c2 o2 hs2
  rw [hp] at o2
  dsimp only at o2
  have hT2 : ((w.newBound []).assign L w.handles.length).handle? w.handles.length
      = some ⟨w.next + 1, some w.next⟩ := by
    unfold Store.handle?
    rw [hs2]
    have : (w.newBound ([] : List Partial)).handles[w.handles.length]?.join
        = some ⟨w.next + 1, some w.next⟩ := hT1
    rw [← this]
    exact Store.handle?_set_ne _ _ _ _ (by omega)
  obtain ⟨c3, o3, hs3⟩ := Store.destroy_eq hT2
  have hrc2 : ((w.newBound []).assign L w.handles.length).readCount (w.next + 1) = 2 := by
    unfold Store.readCount
    rw [c2, Function.update_noteq (by omega), Function.update_same]
    rfl
  rw [hrc2] at c3 o3
  simp only [show (2 : Nat) - 1 = 1 from rfl, show ¬ ((1 : Nat) = 0) from by omega,
    if_false] at c3 o3
  have hcl : PartialList.clear w L = ((w.newBound []).assign L w.handles.length).destroy
      w.handles.length := rfl
  rw [hcl]
  refine ⟨?_, ?_, ?_, ?_, ?_, ?_⟩
  · rw [c3, Function.update_same]
  · rw [c3, Function.update_noteq (by omega), c2, Function.update_same]
    by_cases h1 : w.readCount h.refptr = 1
    · rw [if_pos h1, if_pos (by omega)]
    · rw [if_neg h1, if_neg (by omega)]
  · rw [o3, o2]
    split_ifs
    · rw [Function.update_noteq (by omega)]
      simp [Store.newBound]
    · simp [Store.newBound]
  · rw [o3, o2]
    by_cases h1 : w.readCount h.refptr = 1
    · rw [if_pos h1, if_pos (by omega), Function.update_same]
    · rw [if_neg h1, if_neg (by omega)]
      simp only [Store.newBound]
      rw [Function.update_noteq (by omega)]
  · intro b hb1 hb2
    rw [o3, o2]
    split_ifs
    · rw [Function.update_noteq hb2]
      simp only [Store.newBound]
      rw [Function.update_noteq hb1]
    · simp only [Store.newBound]
      rw [Function.update_noteq hb1]
  · rw [hs3, hs2]
    rfl

/-- C31: in a memory a program reaches, `clear` on a live list bound to the
sequence `a` leaves the list empty, of size 0, bound to a new sequence under a
new counter of value 1; the temporary is gone.  If the list shared `a`, the
count of `a` is one lower and `a` is as it was, not cloned; if the list was the
only owner, the counter and `a` are freed.  No other sequence is allocated or
changed, and every other list is bound as before and holds the Partials it
held, in order. -/
theorem clear_spec (w : PartialList.Memory) (hr : Reachable cloneList w) (L : Nat) (h : Ptr)
    (a : Nat) (hi : w.handle? L = some h) (hp : h.p = some a) :
    PartialList.contents (PartialList.clear w L) L = Except.ok (some []) ∧
    PartialList.size (PartialList.clear w L) L = Except.ok 0 ∧
    (PartialList.clear w L).handle? L = some ⟨w.next + 1, some w.next⟩ ∧
    w.counters (w.next + 1) = none ∧ w.objects w.next = none ∧
    (PartialList.clear w L).readCount (w.next + 1) = 1 ∧
    (PartialList.clear w L).handle? w.handles.length = none ∧
    (1 < w.readCount h.refptr →
      (PartialList.clear w L).readCount h.refptr = w.readCount h.refptr - 1 ∧
      (PartialList.clear w L).objects a = w.objects a) ∧
    (w.readCount h.refptr = 1 →
      (PartialList.clear w L).counters h.refptr = none ∧
      (PartialList.clear w L).objects a = none) ∧
    (∀ b, b ≠ w.next → b ≠ a → (PartialList.clear w L).objects b = w.objects b) ∧
    (∀ j, j ≠ L → j < w.handles.length →
      (PartialList.clear w L).handle? j = w.handle? j ∧
      PartialList.contents (PartialList.clear w L) j = PartialList.contents w j) := by
  have inv := Store.invariant_of_reachable cloneList hr
  have hfresh := inv.fresh h (Store.mem_of_handle? hi)
  have hlt := Store.lt_length_of_handle? hi
  obtain ⟨f1, f2, f3, f4, f5, f6⟩ := clear_fields inv hi hp
  have hself : (PartialList.clear w L).handle? L = some ⟨w.next + 1, some w.next⟩ := by
    unfold Store.handle?
    rw [f6, Store.handle?_set_ne _ _ _ _ (by omega)]
    exact Store.handle?_set_self _ _ _ (by simp; omega)
  have hother : ∀ j, j ≠ L → j < w.handles.length →
      (PartialList.clear w L).handle? j = w.handle? j := by
    intro j hj hjl
    unfold Store.handle?
    rw [f6, Store.handle?_set_ne _ _ _ _ (by omega), Store.handle?_set_ne _ _ _ _ hj,
      List.getElem?_append_left hjl]
  have hread : PartialList.contents (PartialList.clear w L) L = Except.ok (some []) := by
    unfold PartialList.contents
    rw [Store.read_of_handle hself rfl, f3]
  refine ⟨hread, ?_, hself, ?_, ?_, by simp [Store.readCount, f1], ?_, ?_, ?_, f5, ?_⟩
  · unfold PartialList.size
    unfold PartialList.contents at hread
    rw [hread]
    rfl
  · rw [inv.counter_eq, if_pos (Store.refs_eq_zero_of_fresh inv (by omega))]
  · by_contra hcon
    exact (inv.object_iff w.next).mp hcon (Store.objRefs_eq_zero_of_fresh inv (le_refl _))
  · unfold Store.handle?
    rw [f6]
    exact Store.handle?_set_self _ _ _ (by simp)
  · intro hgt
    have hne : ¬ (w.readCount h.refptr = 1) := by omega
    rw [if_neg hne] at f2 f4
    exact ⟨by simp [Store.readCount, f2], f4⟩
  · intro h1
    rw [if_pos h1] at f2 f4
    exact ⟨f2, f4⟩
  · intro j hj hjl
    refine ⟨hother j hj hjl, ?_⟩
    unfold PartialList.contents
    apply Store.read_congr (hother j hj hjl)
    intro k b hk hb
    have hbn : b ≠ w.next := by
      have := (inv.fresh k (Store.mem_of_handle? hk)).2 b hb
      omega
    by_cases hba : b = a
    · have hne : ¬ (w.readCount h.refptr = 1) := by
        intro h1
        exact Store.unique_of_count_one inv hi h1 hp hj hk (by rw [hb, hba])
      rw [hba, f4, if_neg hne]
    · exact f5 b hbn hba

theorem copiedListMemory_reachable : Reachable cloneList copiedListMemory :=
  Reachable.copy 0 (Reachable.newBound _ Reachable.empty)

/-- C31, at the copy, variable 1, of a list of two Partials, variable 0: the two
share the sequence 0 under the counter 1 of value 2. -/
theorem clear_spec_witness :
    Reachable cloneList copiedListMemory ∧ copiedListMemory.handle? 1 = some ⟨1, some 0⟩ ∧
    (⟨1, some 0⟩ : Ptr).p = some 0 ∧ 1 < copiedListMemory.readCount (⟨1, some 0⟩ : Ptr).refptr ∧
    PartialList.contents (PartialList.clear copiedListMemory 1) 1 = Except.ok (some []) ∧
    (1 < copiedListMemory.readCount (⟨1, some 0⟩ : Ptr).refptr →
      (PartialList.clear copiedListMemory 1).readCount (⟨1, some 0⟩ : Ptr).refptr
        = copiedListMemory.readCount (⟨1, some 0⟩ : Ptr).refptr - 1 ∧
      (PartialList.clear copiedListMemory 1).objects 0 = copiedListMemory.objects 0) ∧
    (∀ j, j ≠ 1 → j < copiedListMemory.handles.length →
      (PartialList.clear copiedListMemory 1).handle? j = copiedListMemory.handle? j ∧
      PartialList.contents (PartialList.clear copiedListMemory 1) j
        = PartialList.contents copiedListMemory j) :=
  ⟨copiedListMemory_reachable, rfl, rfl, by decide,
    (clear_spec copiedListMemory copiedListMemory_reachable 1 ⟨1, some 0⟩ 0 rfl rfl).1,
    (clear_spec copiedListMemory copiedListMemory_reachable 1 ⟨1, some 0⟩ 0 rfl
      rfl).2.2.2.2.2.2.2.1,
    (clear_spec copiedListMemory copiedListMemory_reachable 1 ⟨1, some 0⟩ 0 rfl
      rfl).2.2.2.2.2.2.2.2.2.2⟩

/-! ## A batch member on a copy -/

theorem handle?_copy {w : PartialList.Memory} {i : Nat} {h : Ptr} (hi : w.handle? i = some h) :
    (w.copy i).handle? w.handles.length = some h ∧
    ∀ j, j < w.handles.length → (w.copy i).handle? j = w.handle? j := by
  unfold Store.copy
  rw [hi]
  dsimp only
  have hh : (w.incr h.refptr).handles = w.handles := rfl
  constructor
  · simp only [Store.handle?, hh]
    rw [List.getElem?_append_right (le_refl _)]
    simp
  · intro j hj
    simp only [Store.handle?, hh, List.getElem?_append_left hj]

/-- A batch member on one list, returning or not, leaves what every other list
holds. -/
theorem batch_frame (op : Partial → Run) (w : PartialList.Memory) (inv : RefCountInvariant w)
    (plist : Nat) (xs : List Partial) (hL : w.read plist = Except.ok (some xs)) :
    ∀ j, j ≠ plist → (batch op w plist).1.read j = w.read j := by
  obtain ⟨h, a, hi, hp, hv⟩ := Store.handle_of_read hL
  obtain ⟨c1, a1, v1, d1, d2, d3, d4, d5, d6, d7, d8, _⟩ :=
    Store.deref_spec cloneList hi hp hv
  have inv1 := Store.invariant_deref cloneList plist inv
  have hA : w.deref cloneList plist = ((w.deref cloneList plist).1, Except.ok a1) := by
    rw [← d1]
  have hb : ∃ g : List Partial → List Partial,
      (batch op w plist).1 = (w.deref cloneList plist).1.modify a1 g := by
    unfold batch
    rw [hA]
    dsimp only
    cases hfe : forEachPartial op (((w.deref cloneList plist).1.objects a1).getD []) with
    | mk st ys =>
      cases st with
      | returned => exact ⟨_, rfl⟩
      | threw f => exact ⟨_, rfl⟩
      | outOfFuel => exact ⟨_, rfl⟩
      | undefined => exact ⟨_, rfl⟩
  obtain ⟨g, hg⟩ := hb
  intro j hj
  rw [hg, Store.read_modify_of_ne inv1 g d2 d5 rfl hj]
  apply Store.read_congr (d7 j hj)
  intro k b hk hb
  apply d8
  have := (inv.fresh k (Store.mem_of_handle? hk)).2 b hb
  omega

/-- C38: in a memory a program reaches, let `L2` be a copy of the list `L1`,
which holds `xs`; the two share the sequence.  After `resample( L2 )`,
`resample( L2, timingEnv )` or `quantize( L2 )`, returning or not, `L1` still
holds `xs`: the same number of Partials, each with the label and the
breakpoints it had. -/
theorem batch_on_copy_keeps_original (r : Resampler) (env : Collaborators) (fuel : Nat)
    (w : PartialList.Memory) (hr : Reachable cloneList w) (L1 : Nat) (xs : List Partial)
    (E : LinearEnvelope) (hL : PartialList.contents w L1 = Except.ok (some xs)) :
    (∃ h, (PartialList.constructCopy w L1).handle? L1 = some h ∧
      (PartialList.constructCopy w L1).handle? w.handles.length = some h) ∧
    PartialList.contents (PartialList.constructCopy w L1) L1 = Except.ok (some xs) ∧
    PartialList.contents (PartialList.constructCopy w L1) w.handles.length
      = Except.ok (some xs) ∧
    PartialList.contents
        (r.resampleList env fuel (PartialList.constructCopy w L1) w.handles.length).1 L1
      = Except.ok (some xs) ∧
    PartialList.contents
        (r.resampleTimingList env fuel (PartialList.constructCopy w L1) w.handles.length E).1 L1
      = Except.ok (some xs) ∧
    PartialList.contents
        (r.quantizeList env (PartialList.constructCopy w L1) w.handles.length).1 L1
      = Except.ok (some xs) ∧
    PartialList.size
        (r.quantizeList env (PartialList.constructCopy w L1) w.handles.length).1 L1
      = Except.ok xs.length := by
  unfold PartialList.contents at hL ⊢
  unfold PartialList.constructCopy
  obtain ⟨h, a, hi, _, _⟩ := Store.handle_of_read hL
  have hlt := Store.lt_length_of_handle? hi
  have inv1 := Store.invariant_copy L1 (Store.invariant_of_reachable cloneList hr)
  obtain ⟨c1, c2⟩ := handle?_copy hi
  obtain ⟨r1, r2, _⟩ := Store.read_copy hi
  have h1 : (w.copy L1).read L1 = Except.ok (some xs) := by rw [r1 L1 hlt, hL]
  have h2 : (w.copy L1).read w.handles.length = Except.ok (some xs) := by rw [r2, hL]
  have hne : L1 ≠ w.handles.length := by omega
  have hq : (r.quantizeList env (w.copy L1) w.handles.length).1.read L1
      = Except.ok (some xs) := by
    rw [Resampler.quantizeList, batch_frame _ _ inv1 _ xs h2 L1 hne, h1]
  refine ⟨⟨h, by rw [c2 L1 hlt, hi], c1⟩, h1, h2, ?_, ?_, hq, ?_⟩
  · rw [Resampler.resampleList, batch_frame _ _ inv1 _ xs h2 L1 hne, h1]
  · rw [Resampler.resampleTimingList, batch_frame _ _ inv1 _ xs h2 L1 hne, h1]
  · unfold PartialList.size
    rw [hq]
    rfl

/-- C38, at the list of two Partials, variable 0, and its copy, variable 1. -/
theorem batch_on_copy_keeps_original_witness :
    Reachable cloneList oneListMemory ∧
    PartialList.contents oneListMemory 0 = Except.ok (some [scenarioPartial, earlyEndPartial]) ∧
    PartialList.contents
        (scenarioResampler.resampleList stepCollaborators 4
          (PartialList.constructCopy oneListMemory 0) oneListMemory.handles.length).1 0
      = Except.ok (some [scenarioPartial, earlyEndPartial]) ∧
    PartialList.contents
        (scenarioResampler.quantizeList stepCollaborators
          (PartialList.constructCopy oneListMemory 0) oneListMemory.handles.length).1 0
      = Except.ok (some [scenarioPartial, earlyEndPartial]) :=
  ⟨Reachable.newBound _ Reachable.empty, rfl,
    (batch_on_copy_keeps_original scenarioResampler stepCollaborators 4 oneListMemory
      (Reachable.newBound _ Reachable.empty) 0 [scenarioPartial, earlyEndPartial]
      identityEnvelope rfl).2.2.2.1,
    (batch_on_copy_keeps_original scenarioResampler stepCollaborators 4 oneListMemory
      (Reachable.newBound _ Reachable.empty) 0 [scenarioPartial, earlyEndPartial]
      identityEnvelope rfl).2.2.2.2.2.1⟩

/-! ## The members in the arithmetic of `double` -/

theorem resampleLoopA_exact (env : Collaborators) (interval lastInsertTime : ℚ) (p : Partial)
    (sampleTimeAt : ℚ → ℚ) :
    ∀ (fuel : Nat) (insertTime : ℚ) (newp : Partial),
      Resampler.resampleLoopA exactArith env interval lastInsertTime p sampleTimeAt
          fuel insertTime newp =
        Resampler.resampleLoop env interval lastInsertTime p sampleTimeAt fuel insertTime newp
  | 0, _, _ => rfl
  | fuel + 1, insertTime, newp => by
    unfold Resampler.resampleLoopA Resampler.resampleLoop
    split_ifs
    · exact resampleLoopA_exact env interval lastInsertTime p sampleTimeAt fuel _ _
    · rfl

/-- With exact arithmetic as the parameter, `resampleA` is `resample`. -/
theorem resampleA_exact (r : Resampler) (env : Collaborators) (fuel : Nat) (p : Partial) :
    r.resampleA exactArith env fuel p = r.resample env fuel p := by
  unfold Resampler.resampleA Resampler.resample
  simp only [resampleLoopA_exact]
  rfl

theorem quantizeStepA_exact (r : Resampler) (env : Collaborators) (p newp : Partial)
    (entry : ℚ × Breakpoint) :
    r.quantizeStepA exactArith env p newp entry = r.quantizeStep env p newp entry := rfl

/-- With exact arithmetic as the parameter, `quantizeA` is `quantize`. -/
theorem quantizeA_exact (r : Resampler) (env : Collaborators) (p : Partial) :
    r.quantizeA exactArith env p = r.quantize env p := by
  unfold Resampler.quantizeA Resampler.quantize
  have h : ∀ p1 : Partial, r.quantizeStepA exactArith env p1 = r.quantizeStep env p1 :=
    fun p1 => funext (fun newp => funext (fun entry => quantizeStepA_exact r env p1 newp entry))
  simp only [h]

theorem intLog_two_eq (x : ℚ) (k : ℤ) (h1 : (2 : ℚ) ^ k ≤ x) (h2 : x < (2 : ℚ) ^ (k + 1)) :
    Int.log 2 x = k := by
  have hx : 0 < x := lt_of_lt_of_le (zpow_pos (by norm_num) k) h1
  apply le_antisymm
  · have := (Int.lt_zpow_iff_log_lt (b := 2) (by norm_num) hx (x := k + 1)).mp
      (by simpa using h2)
    omega
  · exact (Int.zpow_le_iff_le_log (b := 2) (by norm_num) hx).mp (by simpa using h1)

/-- Away from the halfway points `roundHalfEven` is the nearest integer. -/
theorem roundHalfEven_of_lt (q : ℚ) (n : ℤ) (h1 : (n : ℚ) - 1 / 2 < q) (h2 : q < n + 1 / 2) :
    roundHalfEven q = n := by
  unfold roundHalfEven
  by_cases h : q < n
  · have hf : ⌊q⌋ = n - 1 := by
      rw [Int.floor_eq_iff]; push_cast; constructor <;> linarith
    rw [hf, if_neg (by push_cast; linarith), if_pos (by push_cast; linarith)]
    omega
  · have hf : ⌊q⌋ = n := by
      rw [Int.floor_eq_iff]; constructor <;> linarith
    rw [hf, if_pos (by linarith)]

/-- At a halfway point `roundHalfEven` is the even neighbour. -/
theorem roundHalfEven_tie (m : ℤ) :
    roundHalfEven (m + 1 / 2) = if m % 2 = 0 then m else m + 1 := by
  unfold roundHalfEven
  have hf : ⌊(m : ℚ) + 1 / 2⌋ = m := by
    rw [Int.floor_eq_iff]; constructor <;> linarith
  rw [hf, if_neg (by norm_num), if_neg (by norm_num)]

/-- The rounding of a positive `x` of the normal range with `2 ^ k ≤ x < 2 ^ (k + 1)`. -/
theorem roundToDouble_eq (x : ℚ) (k n : ℤ) (h1 : (2 : ℚ) ^ k ≤ x) (h2 : x < (2 : ℚ) ^ (k + 1))
    (hk : -1022 ≤ k) (hn : roundHalfEven (x / (2 : ℚ) ^ (k - 52)) = n) :
    roundToDouble x = n * (2 : ℚ) ^ (k - 52) := by
  have hx : 0 < x := lt_of_lt_of_le (zpow_pos (by norm_num) k) h1
  unfold roundToDouble
  rw [if_neg hx.ne', abs_of_pos hx, intLog_two_eq x k h1 h2]
  have : max (k - 52) (-1074) = k - 52 := max_eq_left (by omega)
  simp only [this, hn]

/-- The interval `tenthDouble` is what the literal `0.1` denotes. -/
theorem roundToDouble_tenth : roundToDouble (1 / 10) = tenthDouble := by
  rw [roundToDouble_eq _ (-4) 7205759403792794 (by norm_num) (by norm_num) (by norm_num)
    (roundHalfEven_of_lt _ _ (by norm_num) (by norm_num))]
  norm_num [tenthDouble]

/-- The time `fifteenHundredthsDouble` is what the literal `0.15` denotes. -/
theorem roundToDouble_fifteenHundredths : roundToDouble (3 / 20) = fifteenHundredthsDouble := by
  rw [roundToDouble_eq _ (-3) 5404319552844595 (by norm_num) (by norm_num) (by norm_num)
    (roundHalfEven_of_lt _ _ (by norm_num) (by norm_num))]
  norm_num [fifteenHundredthsDouble]

/-- In `double`, `0.25 / 0.1` is 2.5. -/
theorem double_quarter_div_tenth : doubleArith.div (1 / 4) tenthDouble = 5 / 2 := by
  show roundToDouble ((1 / 4) / tenthDouble) = 5 / 2
  rw [roundToDouble_eq _ 1 5629499534213120 (by norm_num [tenthDouble])
    (by norm_num [tenthDouble]) (by norm_num)
    (roundHalfEven_of_lt _ _ (by norm_num [tenthDouble]) (by norm_num [tenthDouble]))]
  norm_num

/-- In `double`, `0.5 + 2.5` is 3. -/
theorem double_half_add_five_halves : doubleArith.add (1 / 2) (5 / 2) = 3 := by
  show roundToDouble (1 / 2 + 5 / 2) = 3
  rw [roundToDouble_eq _ 1 6755399441055744 (by norm_num) (by norm_num) (by norm_num)
    (roundHalfEven_of_lt _ _ (by norm_num) (by norm_num))]
  norm_num

/-- In `double`, `0.1 * 3` is 0.30000000000000004: the exact product lies
halfway between two `double` values and goes to the one with the even
significand, which is the upper one. -/
theorem double_tenth_mul_three :
    doubleArith.mul tenthDouble 3 = 5404319552844596 / 18014398509481984 := by
  show roundToDouble (tenthDouble * 3) = _
  rw [roundToDouble_eq _ (-2) 5404319552844596 (by norm_num [tenthDouble])
    (by norm_num [tenthDouble]) (by norm_num)
    (by
      have : (tenthDouble * 3 : ℚ) / 2 ^ ((-2 : ℤ) - 52)
          = ((5404319552844595 : ℤ) : ℚ) + 1 / 2 := by norm_num [tenthDouble]
      rw [this, roundHalfEven_tie]; decide)]
  norm_num

/-- In `double`, `0.5 * 0.1` is exact. -/
theorem double_half_mul_tenth : doubleArith.mul (1 / 2) tenthDouble = tenthDouble / 2 := by
  show roundToDouble (1 / 2 * tenthDouble) = _
  rw [roundToDouble_eq _ (-5) 7205759403792794 (by norm_num [tenthDouble])
    (by norm_num [tenthDouble]) (by norm_num)
    (roundHalfEven_of_lt _ _ (by norm_num [tenthDouble]) (by norm_num [tenthDouble]))]
  norm_num [tenthDouble]

/-- In `double`, `0.25 + 0.05` is 0.3, one unit in the last place below
`0.1 * 3`. -/
theorem double_quarter_add_twentieth :
    doubleArith.add (1 / 4) (tenthDouble / 2) = 5404319552844595 / 18014398509481984 := by
  show roundToDouble (1 / 4 + tenthDouble / 2) = _
  rw [roundToDouble_eq _ (-2) 5404319552844595 (by norm_num [tenthDouble])
    (by norm_num [tenthDouble]) (by norm_num)
    (roundHalfEven_of_lt _ _ (by norm_num [tenthDouble]) (by norm_num [tenthDouble]))]
  norm_num

/-- In `double`, `0.15 + 0.05` is 0.2: the exact sum lies halfway between two
`double` values and goes up to the one with the even significand. -/
theorem double_fifteenHundredths_add_twentieth :
    doubleArith.add fifteenHundredthsDouble (tenthDouble / 2) = 2 * tenthDouble := by
  show roundToDouble (fifteenHundredthsDouble + tenthDouble / 2) = _
  rw [roundToDouble_eq _ (-3) 7205759403792794
    (by norm_num [tenthDouble, fifteenHundredthsDouble])
    (by norm_num [tenthDouble, fifteenHundredthsDouble]) (by norm_num)
    (by
      have : (fifteenHundredthsDouble + tenthDouble / 2 : ℚ) / 2 ^ ((-3 : ℤ) - 52)
          = ((7205759403792793 : ℤ) : ℚ) + 1 / 2 := by
        norm_num [tenthDouble, fifteenHundredthsDouble]
      rw [this, roundHalfEven_tie]; decide)]
  norm_num [tenthDouble]

/-- In `double`, `0 / 0.1` is 0. -/
theorem double_zero_div_tenth : doubleArith.div 0 tenthDouble = 0 := by
  show roundToDouble (0 / tenthDouble) = 0
  simp [roundToDouble]

/-- In `double`, `0.5 + 0` is 0.5. -/
theorem double_half_add_zero : doubleArith.add (1 / 2) 0 = 1 / 2 := by
  show roundToDouble (1 / 2 + 0) = 1 / 2
  rw [roundToDouble_eq _ (-1) 4503599627370496 (by norm_num) (by norm_num) (by norm_num)
    (roundHalfEven_of_lt _ _ (by norm_num) (by norm_num))]
  norm_num

/-- In `double`, `0.1 * 0` is 0. -/
theorem double_tenth_mul_zero : doubleArith.mul tenthDouble 0 = 0 := by
  show roundToDouble (tenthDouble * 0) = 0
  simp [roundToDouble]

/-- In `double`, `0 + 0.1` is 0.1. -/
theorem double_zero_add_tenth : doubleArith.add 0 tenthDouble = tenthDouble := by
  show roundToDouble (0 + tenthDouble) = _
  rw [roundToDouble_eq _ (-4) 7205759403792794 (by norm_num [tenthDouble])
    (by norm_num [tenthDouble]) (by norm_num)
    (roundHalfEven_of_lt _ _ (by norm_num [tenthDouble]) (by norm_num [tenthDouble]))]
  norm_num [tenthDouble]

/-- In `double`, `0.1 + 0.1` is exact. -/
theorem double_tenth_add_tenth : doubleArith.add tenthDouble tenthDouble = 2 * tenthDouble := by
  show roundToDouble (tenthDouble + tenthDouble) = _
  rw [roundToDouble_eq _ (-3) 7205759403792794 (by norm_num [tenthDouble])
    (by norm_num [tenthDouble]) (by norm_num)
    (roundHalfEven_of_lt _ _ (by norm_num [tenthDouble]) (by norm_num [tenthDouble]))]
  norm_num [tenthDouble]

/-- In `double`, `0.2 + 0.1` is 0.30000000000000004. -/
theorem double_fifth_add_tenth :
    doubleArith.add (2 * tenthDouble) tenthDouble = 5404319552844596 / 18014398509481984 := by
  show roundToDouble (2 * tenthDouble + tenthDouble) = _
  rw [roundToDouble_eq _ (-2) 5404319552844596 (by norm_num [tenthDouble])
    (by norm_num [tenthDouble]) (by norm_num)
    (by
      have : (2 * tenthDouble + tenthDouble : ℚ) / 2 ^ ((-2 : ℤ) - 52)
          = ((5404319552844595 : ℤ) : ℚ) + 1 / 2 := by norm_num [tenthDouble]
      rw [this, roundHalfEven_tie]; decide)]
  norm_num

/-- The member `resampleA` on a Partial with breakpoints: the grid ends and the
loop. -/
theorem resampleA_eq (r : Resampler) (A : Arith) (env : Collaborators) (fuel : Nat) (p : Partial)
    (s e : ℚ) (hs : p.startTime = some s) (he : p.endTime = some e) :
    r.resampleA A env fuel p =
      match Resampler.resampleLoopA A env r.interval (A.add e (A.mul (1 / 2) r.interval))
          (phaseFixed r env p) (fun insertTime => insertTime) fuel
          (A.mul r.interval (truncToInt (A.add (1 / 2) (A.div s r.interval))))
          (Partial.empty.setLabel p.label) with
      | none => ⟨Status.outOfFuel, phaseFixed r env p⟩
      | some newp1 =>
        ⟨Status.returned,
          if r.phaseCorrect then env.fixFrequency newp1 env.defaultMaxFixPct else newp1⟩ := by
  have hs1 : (phaseFixed r env p).startTime = some s := by
    rw [startTime_eq_times, times_phaseFixed, ← startTime_eq_times]; exact hs
  have he1 : (phaseFixed r env p).endTime = some e := by
    rw [endTime_eq_times, times_phaseFixed, ← endTime_eq_times]; exact he
  have hguard : ¬ (r.phaseCorrect = true ∧ p.bps = []) := by
    rintro ⟨_, hnil⟩
    rw [Partial.startTime, hnil] at hs
    simp at hs
  have hl := label_phaseFixed r env p
  unfold Resampler.resampleA
  rw [if_neg hguard]
  unfold phaseFixed at hs1 he1 hl ⊢
  simp only [hs1, he1, hl]

theorem resampleLoopA_of_gt (A : Arith) (env : Collaborators) (interval last : ℚ) (p : Partial)
    (f : ℚ → ℚ) (fuel : Nat) (t : ℚ) (newp : Partial) (h : ¬ t ≤ last) :
    Resampler.resampleLoopA A env interval last p f fuel t newp = some newp := by
  cases fuel <;> simp [Resampler.resampleLoopA, h]

theorem resampleLoopA_of_le (A : Arith) (env : Collaborators) (interval last : ℚ) (p : Partial)
    (f : ℚ → ℚ) (fuel : Nat) (t : ℚ) (newp : Partial) (h : t ≤ last) :
    Resampler.resampleLoopA A env interval last p f (fuel + 1) t newp =
      Resampler.resampleLoopA A env interval last p f fuel (A.add t interval)
        (newp.insert t (env.parametersAt p (f t) env.shortestSafeFadeTime)) := by
  rw [Resampler.resampleLoopA, if_pos h]

theorem truncToInt_intCast (k : ℤ) : truncToInt (k : ℚ) = k := by
  unfold truncToInt
  split_ifs <;> simp

/-- The Partial with the single breakpoint at 0.25 under the interval 0.1 in
`double`: the first insert time is above the last one. -/
theorem quarterPartial_double_grid :
    doubleArith.mul tenthDouble
        (truncToInt (doubleArith.add (1 / 2) (doubleArith.div (1 / 4) tenthDouble)))
      = 5404319552844596 / 18014398509481984 ∧
    doubleArith.add (1 / 4) (doubleArith.mul (1 / 2) tenthDouble)
      = 5404319552844595 / 18014398509481984 := by
  have h3 : truncToInt (3 : ℚ) = 3 := by
    have := truncToInt_intCast 3
    simpa using this
  rw [double_quarter_div_tenth, double_half_add_five_halves, h3, double_half_mul_tenth,
    double_quarter_add_twentieth]
  exact ⟨by simpa using double_tenth_mul_three, rfl⟩

/-- What `resampleA` in `double` leaves of the Partial with the single
breakpoint at 0.25, whatever the fuel. -/
theorem resampleA_quarterPartial (fuel : Nat) :
    (doubleResampler.resampleA doubleArith stepCollaborators fuel quarterPartial).status
      = Status.returned ∧
    (doubleResampler.resampleA doubleArith stepCollaborators fuel
      quarterPartial).state.numBreakpoints = 0 := by
  obtain ⟨h1, h2⟩ := quarterPartial_double_grid
  have hI : doubleResampler.interval = tenthDouble := rfl
  rw [resampleA_eq doubleResampler doubleArith stepCollaborators fuel quarterPartial
    (1 / 4) (1 / 4) (by simp [quarterPartial, Partial.startTime])
    (by simp [quarterPartial, Partial.endTime]), hI, h1, h2,
    resampleLoopA_of_gt _ _ _ _ _ _ _ _ _ (by norm_num)]
  refine ⟨rfl, ?_⟩
  simp [doubleResampler, Partial.numBreakpoints, Collaborators.fixFrequency, Partial.empty,
    Partial.setLabel]

/-- The Partial with breakpoints at 0 and 0.15 under the interval 0.1 in
`double`: the breakpoint times that `resampleA` leaves. -/
theorem resampleA_lateEndPartial :
    (doubleResampler.resampleA doubleArith stepCollaborators 3 lateEndPartial).status
      = Status.returned ∧
    (doubleResampler.resampleA doubleArith stepCollaborators 3 lateEndPartial).state.times
      = [0, tenthDouble, 2 * tenthDouble] := by
  have hI : doubleResampler.interval = tenthDouble := rfl
  have h0 : truncToInt (1 / 2 : ℚ) = 0 :=
    truncToInt_of_nonneg (by norm_num) (by norm_num) (by norm_num)
  rw [resampleA_eq doubleResampler doubleArith stepCollaborators 3 lateEndPartial
    0 fifteenHundredthsDouble (by simp [lateEndPartial, Partial.startTime])
    (by simp [lateEndPartial, Partial.endTime]), hI, double_zero_div_tenth,
    double_half_add_zero, h0, double_half_mul_tenth, double_fifteenHundredths_add_twentieth]
  have hz : doubleArith.mul tenthDouble ((0 : ℤ) : ℚ) = 0 := by
    simpa using double_tenth_mul_zero
  rw [hz, resampleLoopA_of_le _ _ _ _ _ _ _ _ _ (by norm_num [tenthDouble]),
    double_zero_add_tenth,
    resampleLoopA_of_le _ _ _ _ _ _ _ _ _ (by norm_num [tenthDouble]),
    double_tenth_add_tenth,
    resampleLoopA_of_le _ _ _ _ _ _ _ _ _ (le_refl _),
    double_fifth_add_tenth,
    resampleLoopA_of_gt _ _ _ _ _ _ _ _ _ (by norm_num [tenthDouble])]
  refine ⟨rfl, ?_⟩
  simp only [doubleResampler, if_true, times_fixFrequency]
  norm_num [Partial.insert, Partial.empty, Partial.setLabel, Partial.times, insertBp,
    tenthDouble]

/-- The Partial with the single breakpoint at 0.25 under the interval 0.1 in
`double`: the breakpoint times that `quantizeA` leaves. -/
theorem quantizeA_quarterPartial :
    (doubleResampler.quantizeA doubleArith stepCollaborators quarterPartial).status
      = Status.returned ∧
    (doubleResampler.quantizeA doubleArith stepCollaborators quarterPartial).state.times
      = [5404319552844596 / 18014398509481984] := by
  obtain ⟨h1, _⟩ := quarterPartial_double_grid
  have hg : ¬ (doubleResampler.phaseCorrect = true ∧ quarterPartial.bps = []) := by
    simp [quarterPartial]
  unfold Resampler.quantizeA
  rw [if_neg hg]
  refine ⟨rfl, ?_⟩
  simp only [doubleResampler, if_true, times_fixFrequency]
  have hfold : (stepCollaborators.fixPhaseForward quarterPartial).bps
      = [(1 / 4, ⟨440, 1, 0, 0⟩)] := by
    simp [Collaborators.fixPhaseForward, quarterPartial, stepCollaborators,
      Breakpoint.setPhase]
  rw [hfold, List.foldl_cons, List.foldl_nil]
  unfold Resampler.quantizeStepA
  simp only [Partial.empty, Partial.setLabel, Partial.numBreakpoints, List.length_nil,
    ne_eq, not_true_eq_false, if_false]
  rw [h1]
  norm_num [Partial.insert, insertBp, Partial.times]

/-- In whatever arithmetic, no breakpoint time that the sampling loop inserts
lies above `lastInsertTime`. -/
theorem resampleLoopA_times_le (A : Arith) (env : Collaborators) (interval last : ℚ)
    (p : Partial) (f : ℚ → ℚ) :
    ∀ (fuel : Nat) (t : ℚ) (newp out : Partial), (∀ u ∈ newp.times, u ≤ last) →
      Resampler.resampleLoopA A env interval last p f fuel t newp = some out →
      ∀ u ∈ out.times, u ≤ last
  | 0, t, newp, out, hnew, h => by
    unfold Resampler.resampleLoopA at h
    split_ifs at h
    cases h
    exact hnew
  | fuel + 1, t, newp, out, hnew, h => by
    unfold Resampler.resampleLoopA at h
    split_ifs at h with hle
    · refine resampleLoopA_times_le A env interval last p f fuel _ _ out ?_ h
      intro u hu
      obtain ⟨e, he, rfl⟩ := List.mem_map.mp hu
      rcases mem_insertBp _ _ _ _ he with h1 | h1
      · rw [h1]; exact hle
      · exact hnew e.1 (List.mem_map.mpr ⟨e, h1, rfl⟩)
    · cases h
      exact hnew

/-- In whatever arithmetic, exact or that of `double`, every breakpoint time
that a returning `resample( Partial & )` leaves is at most `lastInsertTime` as
the code computes it, the end time plus 0.5 times the interval. -/
theorem resampleA_times_le_last (r : Resampler) (A : Arith) (env : Collaborators) (fuel : Nat)
    (p : Partial) (e : ℚ) (he : p.endTime = some e)
    (hret : (r.resampleA A env fuel p).status = Status.returned) :
    ∀ u ∈ (r.resampleA A env fuel p).state.times,
      u ≤ A.add e (A.mul (1 / 2) r.interval) := by
  have hne : p.bps ≠ [] := by
    intro hnil
    rw [Partial.endTime, hnil] at he
    simp at he
  obtain ⟨s, e1, hs, he1⟩ := exists_start_end p hne
  have hee : e1 = e := by rw [he] at he1; exact (Option.some.inj he1).symm
  subst hee
  rw [resampleA_eq r A env fuel p s e1 hs he] at hret ⊢
  cases hloop : Resampler.resampleLoopA A env r.interval (A.add e1 (A.mul (1 / 2) r.interval))
      (phaseFixed r env p) (fun insertTime => insertTime) fuel
      (A.mul r.interval (truncToInt (A.add (1 / 2) (A.div s r.interval))))
      (Partial.empty.setLabel p.label) with
  | none => rw [hloop] at hret; simp at hret
  | some out =>
    have hb := resampleLoopA_times_le A env _ _ _ _ fuel _ _ out
      (by simp [Partial.empty, Partial.setLabel, Partial.times]) hloop
    dsimp only
    split_ifs
    · rw [times_fixFrequency]; exact hb
    · exact hb

/-- C4 (counterexample): in the arithmetic of `double`, with the interval the
`double` 0.1 and breakpoints at 0 and at the `double` 0.15,
`resample( Partial & )` returns a Partial with breakpoints at 0, 0.1 and 0.2,
because `0.15 + 0.05` rounds up to 0.2.  The last time, twice the interval, is
not `interval * ⌊endTime / interval + 1/2⌋`, which is once the interval, and
it lies more than half the interval away from the end time. -/
theorem resample_double_last_time_not_nearest :
    doubleResampler.interval = roundToDouble (1 / 10) ∧
    fifteenHundredthsDouble = roundToDouble (3 / 20) ∧
    0 < doubleResampler.interval ∧ lateEndPartial.bps ≠ [] ∧
    lateEndPartial.endTime = some fifteenHundredthsDouble ∧
    (doubleResampler.resampleA doubleArith stepCollaborators 3 lateEndPartial).status
      = Status.returned ∧
    (doubleResampler.resampleA doubleArith stepCollaborators 3 lateEndPartial).state.times
      = [0, doubleResampler.interval, 2 * doubleResampler.interval] ∧
    (doubleResampler.resampleA doubleArith stepCollaborators 3 lateEndPartial).state.endTime
      = some (2 * doubleResampler.interval) ∧
    ⌊fifteenHundredthsDouble / doubleResampler.interval + 1 / 2⌋ = 1 ∧
    2 * doubleResampler.interval
      ≠ doubleResampler.interval * ⌊fifteenHundredthsDouble / doubleResampler.interval + 1 / 2⌋ ∧
    ¬ (|2 * doubleResampler.interval - fifteenHundredthsDouble|
      ≤ doubleResampler.interval / 2) := by
  obtain ⟨h1, h2⟩ := resampleA_lateEndPartial
  have hI : doubleResampler.interval = tenthDouble := rfl
  have hfl : ⌊fifteenHundredthsDouble / doubleResampler.interval + 1 / 2⌋ = 1 := by
    rw [Int.floor_eq_iff, hI]
    constructor <;> norm_num [tenthDouble, fifteenHundredthsDouble]
  refine ⟨by rw [hI, roundToDouble_tenth], roundToDouble_fifteenHundredths.symm,
    by norm_num [hI, tenthDouble], by simp [lateEndPartial],
    by simp [lateEndPartial, Partial.endTime], h1, by rw [h2, hI], ?_, hfl, ?_, ?_⟩
  · rw [endTime_eq_times, h2, hI]; simp
  · rw [hfl, hI]; norm_num [tenthDouble]
  · rw [hI, abs_of_pos (by norm_num [tenthDouble, fifteenHundredthsDouble])]
    norm_num [tenthDouble, fifteenHundredthsDouble]

/-- C23 (counterexample): in the arithmetic of `double`, with the interval the
`double` 0.1 and a single breakpoint at 0.25, `0.25 / 0.1` is computed as 2.5
and `qstep` as 3, and `quantize( Partial & )` returns a Partial with the single
breakpoint time `0.1 * 3 = 0.30000000000000004`.  The nearest grid step,
`⌊0.25 / interval + 1/2⌋`, is 2, since the `double` 0.1 is above one tenth:
the output time is not `interval * q(bpt)` for the input time `bpt`. -/
theorem quantize_double_time_not_nearest_step :
    doubleResampler.interval = roundToDouble (1 / 10) ∧
    0 < doubleResampler.interval ∧ quarterPartial.bps ≠ [] ∧
    (∀ t ∈ quarterPartial.times, 0 ≤ t) ∧ quarterPartial.times = [1 / 4] ∧
    truncToInt (doubleArith.add (1 / 2) (doubleArith.div (1 / 4) doubleResampler.interval)) = 3 ∧
    (doubleResampler.quantizeA doubleArith stepCollaborators quarterPartial).status
      = Status.returned ∧
    (doubleResampler.quantizeA doubleArith stepCollaborators quarterPartial).state.times
      = [5404319552844596 / 18014398509481984] ∧
    nearestStep doubleResampler.interval (1 / 4) = 2 ∧
    ¬ (∀ u, u ∈ (doubleResampler.quantizeA doubleArith stepCollaborators
          quarterPartial).state.times ↔
        ∃ t ∈ quarterPartial.times,
          u = doubleResampler.interval * nearestStep doubleResampler.interval t) := by
  obtain ⟨h1, h2⟩ := quantizeA_quarterPartial
  have hI : doubleResampler.interval = tenthDouble := rfl
  have hns : nearestStep doubleResampler.interval (1 / 4) = 2 := by
    unfold nearestStep
    rw [Int.floor_eq_iff, hI]
    constructor <;> norm_num [tenthDouble]
  have ht : quarterPartial.times = [1 / 4] := by simp [quarterPartial, Partial.times]
  have h3 : truncToInt (doubleArith.add (1 / 2) (doubleArith.div (1 / 4)
      doubleResampler.interval)) = 3 := by
    rw [hI, double_quarter_div_tenth, double_half_add_five_halves]
    have := truncToInt_intCast 3
    simpa using this
  refine ⟨by rw [hI, roundToDouble_tenth], by norm_num [hI, tenthDouble],
    by simp [quarterPartial], ?_, ht, h3, h1, h2, hns, ?_⟩
  · intro t htm
    rw [ht] at htm
    simp only [List.mem_singleton] at htm
    rw [htm]; norm_num
  · intro hall
    have hm := (hall (5404319552844596 / 18014398509481984)).mp (by rw [h2]; simp)
    obtain ⟨t, htm, hu⟩ := hm
    rw [ht] at htm
    simp only [List.mem_singleton] at htm
    rw [htm, hns, hI] at hu
    norm_num [tenthDouble] at hu

/-- C34 (counterexample): in the arithmetic of `double`, with the interval the
`double` 0.1 and a Partial with the single breakpoint at 0.25, whose start time
is not negative, `firstInsertTime` is computed as `0.1 * 3 =
0.30000000000000004` and `lastInsertTime` as `0.25 + 0.05 = 0.3`, which is
below it.  The loop does not run, `resample( Partial & )` returns a Partial
without breakpoints, and the batch `resample( list )` on the list of this
Partial returns a list without Partials. -/
theorem resample_double_drops_partial :
    doubleResampler.interval = roundToDouble (1 / 10) ∧
    0 < doubleResampler.interval ∧ quarterPartial.bps ≠ [] ∧
    quarterPartial.WellFormed ∧
    quarterPartial.startTime = some (1 / 4) ∧ quarterPartial.endTime = some (1 / 4) ∧
    doubleArith.mul doubleResampler.interval
        (truncToInt (doubleArith.add (1 / 2) (doubleArith.div (1 / 4) doubleResampler.interval)))
      = 5404319552844596 / 18014398509481984 ∧
    doubleArith.add (1 / 4) (doubleArith.mul (1 / 2) doubleResampler.interval)
      = 5404319552844595 / 18014398509481984 ∧
    (∀ fuel,
      (doubleResampler.resampleA doubleArith stepCollaborators fuel quarterPartial).status
        = Status.returned ∧
      (doubleResampler.resampleA doubleArith stepCollaborators fuel
        quarterPartial).state.numBreakpoints = 0) ∧
    PartialList.contents quarterListMemory 0 = Except.ok (some [quarterPartial]) ∧
    (∀ fuel,
      (doubleResampler.resampleListA doubleArith stepCollaborators fuel quarterListMemory 0).2
        = Status.returned ∧
      PartialList.contents
          (doubleResampler.resampleListA doubleArith stepCollaborators fuel
            quarterListMemory 0).1 0
        = Except.ok (some []) ∧
      PartialList.size
          (doubleResampler.resampleListA doubleArith stepCollaborators fuel
            quarterListMemory 0).1 0
        = Except.ok 0) := by
  obtain ⟨g1, g2⟩ := quarterPartial_double_grid
  have hI : doubleResampler.interval = tenthDouble := rfl
  have hL : PartialList.contents quarterListMemory 0 = Except.ok (some [quarterPartial]) := rfl
  refine ⟨by rw [hI, roundToDouble_tenth], by norm_num [hI, tenthDouble],
    by simp [quarterPartial],
    by simp [quarterPartial, Partial.WellFormed, Partial.times],
    by simp [quarterPartial, Partial.startTime], by simp [quarterPartial, Partial.endTime],
    by rw [hI]; exact g1, by rw [hI]; exact g2, resampleA_quarterPartial, hL, fun fuel => ?_⟩
  obtain ⟨b1, b2⟩ := batch_spec
    (fun p => doubleResampler.resampleA doubleArith stepCollaborators fuel p)
    quarterListMemory 0 [quarterPartial] hL
  have hall : (forEachPartial
      (fun p => doubleResampler.resampleA doubleArith stepCollaborators fuel p)
      [quarterPartial]).1 = Status.returned := by
    apply forEachPartial_of_all
    intro p hp
    simp only [List.mem_singleton] at hp
    rw [hp]
    exact (resampleA_quarterPartial fuel).1
  have hc : PartialList.contents
      (doubleResampler.resampleListA doubleArith stepCollaborators fuel quarterListMemory 0).1 0
      = Except.ok (some []) := by
    rw [Resampler.resampleListA]
    unfold PartialList.contents
    rw [b2 hall]
    simp [(resampleA_quarterPartial fuel).2]
  refine ⟨by rw [Resampler.resampleListA, b1, hall], hc, ?_⟩
  unfold PartialList.size
  unfold PartialList.contents at hc
  rw [hc]
  rfl

end Loris
